import Mathlib

/-!
# The staging table `ibis::tafel` (src/src/tafel.cpp)

A shallow embedding of the in-memory staging table of FastBit and of the
schema parser of `ibis::tablex`, followed by theorems about them.

Conventions of the embedding.

* A C string is the list of its characters before the terminating NUL; a
  pointer that may be null is an `Option`.
* The twelve typed buffers hidden behind `void* values` are one list of
  `Value`; the column's `type` says which C++ element type it stands for.
* A presence bitmap (`ibis::bitvector`) is the list of its bits.
* `colorder` owns the column objects; `cols`, the name-keyed map holding
  pointers to the same objects, is the name-ordered view of `colorder`.
* Buffer and bitmap lengths are natural numbers; the 32-bit width of
  `mrows` is made explicit only where the source converts from a wider type.
* Code the source calls but does not contain is either modelled from the
  specification (the bitmap library, the partition reader, the typed row) or
  taken as a parameter (the scalar readers of `parseLine`, the steps of `write`
  after its reconciliation with the existing partition).
* Where the source has no defined behaviour a function yields `none`.
-/

namespace ibis

/-! ## Data model -/

/-- The type tags the source names (`ibis::TYPE_T`). -/
inductive TYPE_T where
  | UNKNOWN_TYPE
  | BYTE
  | UBYTE
  | SHORT
  | USHORT
  | INT
  | UINT
  | LONG
  | ULONG
  | FLOAT
  | DOUBLE
  | CATEGORY
  | TEXT
  deriving DecidableEq, Repr, Inhabited

/-- One element of a value buffer: an integer of any of the eight integer
types, a floating-point number given by its bit pattern, or a string. -/
inductive Value where
  | int (v : Int)
  | flt (bits : Nat)
  | str (s : String)
  deriving DecidableEq, Repr, Inhabited

/-- A presence bitmap, `ibis::bitvector`, as the sequence of its bits. -/
abbrev bitvector := List Bool

namespace bitvector

/-- Modelled from the spec: `bitvector::appendFill(bit, count)` of the bitmap
library, which is outside the source; it appends `count` copies of `bit`. -/
def appendFill (m : bitvector) (bit : Bool) (count : Nat) : bitvector :=
  m ++ List.replicate count bit

/-- Modelled from the spec: `bitvector::adjustSize(populatedPrefix, totalLength)`
of the bitmap library, which is outside the source. A bitmap that ends before
the populated prefix `nv` is first brought up to it with set bits: the rows of
the prefix hold values, and a mask sidecar is absent exactly when every bit is
set, so the bits a bitmap lacks there stand for present values. It is then
extended with zeros, or truncated, so that it holds `nt` bits. -/
def adjustSize (m : bitvector) (nv nt : Nat) : bitvector :=
  let nv := min nv nt
  let m := if m.length < nv then m ++ List.replicate (nv - m.length) true else m
  if m.length < nt then m ++ List.replicate (nt - m.length) false else m.take nt

/-- Modelled from the spec: the union `operator|=` of the bitmap library, which
is outside the source; the shorter operand counts as extended with zeros. -/
def union : bitvector → bitvector → bitvector
  | [], r => r
  | l, [] => l
  | a :: l, b :: r => (a || b) :: union l r

/-- Modelled from the spec: `operator+=(1)` of the bitmap library, which is
outside the source; it appends a single set bit. -/
def increment (m : bitvector) : bitvector :=
  m ++ [true]

/-- Modelled from the spec: the cardinality `cnt()` of the bitmap library,
which is outside the source; the number of set bits. -/
def cnt (m : bitvector) : Nat :=
  m.count true

end bitvector

/-- A column of the staging table (`ibis::tafel::column`). -/
structure column where
  name : String
  type : TYPE_T
  desc : String
  indexSpec : String
  values : List Value
  mask : bitvector
  deriving DecidableEq, Repr, Inhabited

/-- The staging table (`ibis::tafel`): the columns in declaration order and
the declared row count. -/
structure tafel where
  colorder : List column
  mrows : Nat
  deriving DecidableEq, Repr, Inhabited

/-! ## Characters and names -/

/-- The C library `isspace` in the "C" locale. -/
def isspace (c : Char) : Bool :=
  c.toNat == 32 || (9 ≤ c.toNat && c.toNat ≤ 13)

/-- The C library `isalpha` in the "C" locale. -/
def isalpha (c : Char) : Bool :=
  (65 ≤ c.toNat && c.toNat ≤ 90) || (97 ≤ c.toNat && c.toNat ≤ 122)

/-- The C library `isdigit`. -/
def isdigit (c : Char) : Bool :=
  48 ≤ c.toNat && c.toNat ≤ 57

/-- The C library `isalnum` in the "C" locale. -/
def isalnum (c : Char) : Bool :=
  isalpha c || isdigit c

/-- The C library `tolower` in the "C" locale, on character codes. -/
def tolower (c : Char) : Nat :=
  if 65 ≤ c.toNat && c.toNat ≤ 90 then c.toNat + 32 else c.toNat

/-- Lexicographic comparison of two sequences of character codes. -/
def codesLt : List Nat → List Nat → Bool
  | [], [] => false
  | [], _ :: _ => true
  | _ :: _, [] => false
  | a :: l, b :: r => a < b || (a == b && codesLt l r)

/-- Modelled from the spec: the key under which the map `cols` files a column
for the lookup by name. The comparator of `columnList` is declared in a header
outside the source; the source documents column names as not case-sensitive
(comment of `parseNamesAndTypes`), so the key is the name in lower case. -/
def nameKey (s : String) : List Nat :=
  s.toList.map tolower

/-- The order of the map `cols`: `a` is filed at or before `b`. -/
def nameLe (a b : column) : Prop :=
  codesLt (nameKey b.name) (nameKey a.name) = false

instance : DecidableRel nameLe :=
  fun a b => inferInstanceAs (Decidable (codesLt (nameKey b.name) (nameKey a.name) = false))

namespace tafel

/-- The map `cols` in its iteration order: the columns ordered by name. -/
def cols (t : tafel) : List column :=
  t.colorder.insertionSort nameLe

/-- The lookup `cols.find(cn)`: the column filed under the name `cn`. -/
def find (t : tafel) (cn : String) : Option column :=
  t.colorder.find? (fun c => nameKey c.name == nameKey cn)

/-- Apply `f` to the column object that `cols.find(cn)` points to. -/
def modifyColumn (cn : String) (f : column → column) : List column → List column
  | [] => []
  | c :: cs =>
    if nameKey c.name == nameKey cn then f c :: cs else c :: modifyColumn cn f cs

end tafel

/-! ## Null sentinels -/

/-- The quiet NaN of `float`, as a bit pattern. -/
def quiet_NaN_float : Nat := 0x7FC00000

/-- The quiet NaN of `double`, as a bit pattern. -/
def quiet_NaN_double : Nat := 0x7FF8000000000000

/-- The filler the source passes for each type when it pads a buffer
(`append`, `normalize`, `write`). `UNKNOWN_TYPE` has no buffer; the value
given for it is never used. -/
def fillValue : TYPE_T → Value
  | .BYTE => .int 0x7F
  | .UBYTE => .int 0xFF
  | .SHORT => .int 0x7FFF
  | .USHORT => .int 0xFFFF
  | .INT => .int 0x7FFFFFFF
  | .UINT => .int 0xFFFFFFFF
  | .LONG => .int 0x7FFFFFFFFFFFFFFF
  | .ULONG => .int 0xFFFFFFFFFFFFFFFF
  | .FLOAT => .flt quiet_NaN_float
  | .DOUBLE => .flt quiet_NaN_double
  | .CATEGORY => .str ""
  | .TEXT => .str ""
  | .UNKNOWN_TYPE => .int 0

/-- The value-initialised element of each buffer type, which `resize` uses for
the positions it adds. -/
def zeroValue : TYPE_T → Value
  | .FLOAT => .flt 0
  | .DOUBLE => .flt 0
  | .CATEGORY => .str ""
  | .TEXT => .str ""
  | _ => .int 0

/-! ## normalize -/

namespace tafel

/-- One iteration of the first loop of `normalize`: the running `mrows` and
the flag `need2nd` after looking at `col`. The twelve cases of the switch differ
only in the element type; `default` is the tag without a buffer. -/
def normalizeScan (acc : Nat × Bool) (col : column) : Nat × Bool :=
  let acc1 : Nat × Bool :=
    if col.type = .UNKNOWN_TYPE then acc
    else if acc.1 < col.values.length then (col.values.length, true)
    else if acc.1 > col.values.length then (acc.1, true)
    else acc
  if col.mask.length > acc1.1 then (col.mask.length, true) else acc1

/-- One iteration of the second loop of `normalize`: `col` brought to `mrows`
rows. -/
def normalizeAdjust (mrows : Nat) (col : column) : column :=
  if col.type = .UNKNOWN_TYPE then col
  else if col.values.length < mrows then
    { col with
      mask := bitvector.adjustSize col.mask col.values.length mrows
      values := col.values ++ List.replicate (mrows - col.values.length) (fillValue col.type) }
  else if col.values.length > mrows then
    { col with
      mask := bitvector.adjustSize col.mask mrows mrows
      values := col.values.take mrows }
  else
    { col with mask := bitvector.adjustSize col.mask mrows mrows }

/-- The function `ibis::tafel::normalize`. -/
def normalize (t : tafel) : tafel :=
  if t.cols.isEmpty then t
  else
    let scan := t.cols.foldl normalizeScan (t.mrows, false)
    if !scan.2 then { t with mrows := scan.1 }
    else { colorder := t.colorder.map (normalizeAdjust scan.1), mrows := scan.1 }

/-! ## Chunk append -/

/-- The call `std::copy(in, in + n, out.begin() + be)`: the first `n` elements
of `inp` overwrite `out` from position `be` on. The source reads exactly `n`
elements through the pointer `in`. -/
def copyInto (inp : List Value) (n : Nat) (out : List Value) (be : Nat) : List Value :=
  out.take be ++ inp.take n ++ out.drop (be + n)

/-- The call `out.resize(n)`: `out` cut or grown to `n` elements, the added
positions value-initialised. -/
def resize (out : List Value) (n : Nat) (zero : Value) : List Value :=
  out.take n ++ List.replicate (n - out.length) zero

/-- The template `ibis::tafel::append<T>(in, be, en, out, fill, mask)`: the
buffer and the mask after the chunk `inp` is placed at rows `[be, en)`. -/
def appendValues (inp : List Value) (be en : Nat) (out : List Value) (fill zero : Value)
    (mask : bitvector) : List Value × bitvector :=
  let inmsk := bitvector.appendFill [] false be
  let inmsk := bitvector.appendFill inmsk true (en - be)
  let inmsk := if out.length > en then bitvector.appendFill inmsk false (out.length - en) else inmsk
  let out := if out.length < be then out ++ List.replicate (be - out.length) fill else out
  let grown := decide (out.length < en)
  let out := if grown then resize out en zero else out
  let mask := if grown then bitvector.adjustSize mask 0 en else mask
  let out := copyInto inp (en - be) out be
  (out, bitvector.union mask inmsk)

/-- The function `ibis::tafel::appendString(in, be, en, out, mask)`, the chunk
append for string-valued columns. -/
def appendString (inp : List Value) (be en : Nat) (out : List Value) (mask : bitvector) :
    List Value × bitvector :=
  let inmsk := bitvector.appendFill [] false be
  let inmsk := bitvector.appendFill inmsk true (en - be)
  let out := if out.length < be then out ++ List.replicate (be - out.length) (.str "") else out
  let inmsk := if out.length > en then bitvector.appendFill inmsk false (out.length - en) else inmsk
  let grown := decide (out.length < en)
  let out := if grown then resize out en (.str "") else out
  let mask := if grown then bitvector.adjustSize mask 0 en else mask
  let out := copyInto inp (en - be) out be
  (out, bitvector.union mask inmsk)

/-- The switch on `col.type` in `ibis::tafel::append`: the column after the
chunk is placed. Each numeric case calls the template with the filler of its
type; the two string types call `appendString`; `default` does nothing. -/
def appendColumn (values : List Value) (be en : Nat) (col : column) : column :=
  if col.type = .UNKNOWN_TYPE then col
  else if col.type = .TEXT ∨ col.type = .CATEGORY then
    let r := appendString values be en col.values col.mask
    { col with values := r.1, mask := r.2 }
  else
    let r := appendValues values be en col.values (fillValue col.type) (zeroValue col.type) col.mask
    { col with values := r.1, mask := r.2 }

/-- The function `ibis::tafel::append(cn, begin, end, values)`: the table after
the call and the return code. `begin` and `end` are 64-bit; `be` and `en`
are their conversions to the 32-bit word of the bitmap. -/
def append (t : tafel) (cn : Option String) (begin_ end_ : Nat) (values : Option (List Value)) :
    tafel × Int :=
  let be := begin_ % 2 ^ 32
  let en := end_ % 2 ^ 32
  match cn, values with
  | some cn, some values =>
    if be ≠ begin_ ∨ en ≠ end_ ∨ be ≥ en ∨ cn = "" then (t, -1)
    else
      match t.find cn with
      | none => (t, -2)
      | some _ =>
        ({ colorder := modifyColumn cn (appendColumn values be en) t.colorder
           mrows := if en > t.mrows then en else t.mrows }, 0)
  | _, _ => (t, -1)

end tafel

/-! ## write: reconciliation with the existing partition -/

/-- Modelled from the spec: what the partition reader `ibis::part`, which is
outside the source, reports about a directory: the row count, the existing
columns with their types, the name, the description and the index hint. -/
structure part where
  nRows : Nat
  columns : List (String × TYPE_T)
  name : String
  description : String
  indexSpec : Option String
  deriving DecidableEq, Repr, Inhabited

namespace part

/-- The number of columns of the existing partition, `part::nColumns()`. -/
def nColumns (p : part) : Nat :=
  p.columns.length

/-- Modelled from the spec: `part::getColumn(name)`, the type of the existing
column of the same name, if there is one. -/
def getColumn (p : part) (cn : String) : Option TYPE_T :=
  (p.columns.find? (fun c => nameKey c.1 == nameKey cn)).map Prod.snd

end part

namespace tafel

/-- The switch of `write` that sets `conflict` for a staged column of type
`staged` whose name the existing partition has with type `old`. -/
def conflict (staged old : TYPE_T) : Bool :=
  match staged with
  | .BYTE | .UBYTE => old != .BYTE && old != .UBYTE
  | .SHORT | .USHORT => old != .SHORT && old != .USHORT
  | .INT | .UINT => old != .INT && old != .UINT
  | .LONG | .ULONG => old != .LONG && old != .ULONG
  | _ => old != staged

/-- The body of the loop of `write` over `cols` that counts conflicts: whether
`col` conflicts with the existing partition. -/
def conflicts (tmp : part) (col : column) : Bool :=
  match tmp.getColumn col.name with
  | none => false
  | some old => conflict col.type old

/-- The count `nconflicts` of `write`. -/
def nconflicts (t : tafel) (tmp : part) : Nat :=
  (t.cols.filter (conflicts tmp)).length

/-- What `write` has settled once it is through with the existing partition:
the prior row count and the table name, description and index hint to use; a
null or empty string is `none`. -/
structure reconciled where
  nold : Nat
  tname : Option String
  tdesc : Option String
  oldidx : Option String
  deriving DecidableEq, Repr

/-- A C string that is null or empty. -/
def nil (s : Option String) : Bool :=
  match s with
  | none => true
  | some s => s == ""

/-- The function `ibis::tafel::write(dir, tname, tdesc, idx)` up to the end of
its reconciliation with the existing partition: the return code and the file
operations performed. `reader` is the partition reader applied to a directory.
Everything `write` does after the reconciliation (making up a description and a
name, the metadata file, the column and mask files) is the parameter `rest`,
which is given the table, the directory, `idx` and the settled `reconciled`
and yields the return code and the file operations; no file is opened before
`rest` runs. -/
def write {op : Type} (t : tafel) (dir tname tdesc idx : Option String) (reader : String → part)
    (rest : tafel → String → Option String → reconciled → Int × List op) : Int × List op :=
  if t.cols.isEmpty || t.mrows == 0 then (0, [])
  else
    match dir with
    | none => (-1, [])
    | some dir =>
      if dir == "" then (-1, [])
      else
        let tmp := reader dir
        let nold := tmp.nRows % 2 ^ 32
        if nold > 0 && tmp.nColumns > 0 then
          let tname := if nil tname then some tmp.name else tname
          let tdesc := if nil tdesc then some tmp.description else tdesc
          let oldidx := if nil tmp.indexSpec then none else tmp.indexSpec
          if nconflicts t tmp > 0 then (-2, [])
          else rest t dir idx { nold := nold, tname := tname, tdesc := tdesc, oldidx := oldidx }
        else rest t dir idx { nold := nold, tname := tname, tdesc := tdesc, oldidx := none }

end tafel

/-! ## Typed rows -/

/-- Modelled from the spec: a typed row, `ibis::table::row`, declared in a
header outside the source: for each of the twelve types a sequence of names
and a sequence of values. -/
structure row where
  bytesnames : List String := []
  bytesvalues : List Value := []
  ubytesnames : List String := []
  ubytesvalues : List Value := []
  shortsnames : List String := []
  shortsvalues : List Value := []
  ushortsnames : List String := []
  ushortsvalues : List Value := []
  intsnames : List String := []
  intsvalues : List Value := []
  uintsnames : List String := []
  uintsvalues : List Value := []
  longsnames : List String := []
  longsvalues : List Value := []
  ulongsnames : List String := []
  ulongsvalues : List Value := []
  floatsnames : List String := []
  floatsvalues : List Value := []
  doublesnames : List String := []
  doublesvalues : List Value := []
  catsnames : List String := []
  catsvalues : List Value := []
  textsnames : List String := []
  textsvalues : List Value := []
  deriving DecidableEq, Repr, Inhabited

namespace row

/-- Modelled from the spec: `row::nColumns()`, the number of columns the row
names, which is the number of values it carries. -/
def nColumns (r : row) : Nat :=
  r.bytesvalues.length + r.ubytesvalues.length + r.shortsvalues.length +
    r.ushortsvalues.length + r.intsvalues.length + r.uintsvalues.length +
    r.longsvalues.length + r.ulongsvalues.length + r.floatsvalues.length +
    r.doublesvalues.length + r.catsvalues.length + r.textsvalues.length

/-- The names the row gives, over the twelve types. -/
def names (r : row) : List String :=
  r.bytesnames ++ r.ubytesnames ++ r.shortsnames ++ r.ushortsnames ++ r.intsnames ++
    r.uintsnames ++ r.longsnames ++ r.ulongsnames ++ r.floatsnames ++ r.doublesnames ++
    r.catsnames ++ r.textsnames

end row

namespace tafel

/-- The C++ type of the buffer of a column: the two string types share
`std::vector<std::string>`, every other type has a buffer type of its own. -/
def sameBuffer (a b : TYPE_T) : Bool :=
  a == b || ((a == .TEXT || a == .CATEGORY) && (b == .TEXT || b == .CATEGORY))

/-- Apply `f` to the column at position `k` of `colorder`. -/
def modifyAt (f : column → column) : Nat → List column → List column
  | _, [] => []
  | 0, c :: cs => f c :: cs
  | k + 1, c :: cs => c :: modifyAt f k cs

/-- The call `buf[i]->push_back(va)` through a pointer to the buffer of the
column at position `k`. -/
def pushValue (cols : List column) (k : Nat) (va : Value) : List column :=
  modifyAt (fun c => { c with values := c.values ++ [va] }) k cols

/-- The call `*(msk[i]) += 1` through a pointer to the bitmap of the column at
position `k`. -/
def pushBit (cols : List column) (k : Nat) : List column :=
  modifyAt (fun c => { c with mask := bitvector.increment c.mask }) k cols

/-- The loop shared by `locate` and `locateString`: pointers to the columns of
type `ty`, in declaration order. A pointer to a buffer or a bitmap is the
position of its column in `colorder`; a null pointer is `none`. -/
def locateFrom (ty : TYPE_T) : List column → Nat → List (Option Nat)
  | [], _ => []
  | c :: cs, k => if c.type = ty then some k :: locateFrom ty cs (k + 1) else locateFrom ty cs (k + 1)

/-- The function `ibis::tafel::locate(t, buf, msk)`; it fills `buf` and `msk`
with pointers to the same columns. -/
def locate (ty : TYPE_T) (cols : List column) : List (Option Nat) :=
  locateFrom ty cols 0

/-- The position in `colorder` of the column `cols.find(cn)` points to. -/
def findAt (cols : List column) (cn : String) : Option Nat :=
  cols.findIdx? (fun c => nameKey c.name == nameKey cn)

/-- The columns together with the pointer vectors `buf` and `msk` a row
append works on. -/
structure rowState where
  cols : List column
  buf : List (Option Nat)
  msk : List (Option Nat)
  deriving DecidableEq, Repr

/-- The call `v.resize(n)` on a vector of pointers shorter than `n`. -/
def growTo (v : List (Option Nat)) (n : Nat) : List (Option Nat) :=
  v ++ List.replicate (n - v.length) none

/-- One pass through the first loop of the row-append templates `append<T>`
(`isString` false) and `appendString` (`isString` true) for the name `nm`
and value `va` at position `i` of a row's sequences for the type `ty`. The
result is `none` where the source has no defined behaviour: it stores through
`buf[i]` or `msk[i]` beyond the end of the vector, or pushes through a pointer
to a buffer of another C++ type. -/
def rowStep (isString : Bool) (ty : TYPE_T) (i : Nat) (nm : String) (va : Value)
    (s : rowState) : Option rowState :=
  if nm = "" then
    let cols := match s.buf.get? i with
      | some (some k) => pushValue s.cols k va
      | _ => s.cols
    let cols := match s.msk.get? i with
      | some (some k) => pushBit cols k
      | _ => cols
    some { s with cols := cols }
  else
    match s.cols.find? (fun c => nameKey c.name == nameKey nm), findAt s.cols nm with
    | some c, some k =>
      let buf := if s.buf.length < i then growTo s.buf (i + 1) else s.buf
      let msk := if !isString && s.msk.length < i then growTo s.msk (i + 1) else s.msk
      if buf.length ≤ i ∨ msk.length ≤ i then none
      else if !sameBuffer c.type ty then none
      else
        some { cols := pushBit (pushValue s.cols k va) k
               buf := buf.set i (some k)
               msk := msk.set i (some k) }
    | _, _ => some s

/-- The first loop of the row-append templates, over the positions below
`n1 = min(nm.size(), va.size())`, from position `i` on. -/
def rowNamed (isString : Bool) (ty : TYPE_T) :
    List String → List Value → Nat → rowState → Option rowState
  | nm :: nms, va :: vas, i, s =>
    match rowStep isString ty i nm va s with
    | none => none
    | some s1 => rowNamed isString ty nms vas (i + 1) s1
  | _, _, _, s => some s

/-- The second loop of the row-append templates, over the positions from `n1`
up to `n2 = min(va.size(), buf.size())`: `vas` are the values from
position `i` on. -/
def rowRest : List Value → Nat → rowState → rowState
  | [], _, s => s
  | va :: vas, i, s =>
    if i < s.buf.length then
      let cols := match s.buf.get? i with
        | some (some k) => pushValue s.cols k va
        | _ => s.cols
      let cols := match s.msk.get? i with
        | some (some k) => pushBit cols k
        | _ => cols
      rowRest vas (i + 1) { s with cols := cols }
    else s

/-- The row-append templates `ibis::tafel::append<T>(nm, va, buf, msk)` and
`ibis::tafel::appendString(nm, va, buf, msk)`. -/
def appendToRow (isString : Bool) (ty : TYPE_T) (nm : List String) (va : List Value)
    (s : rowState) : Option rowState :=
  match rowNamed isString ty nm va 0 s with
  | none => none
  | some s1 => some (rowRest (va.drop (min nm.length va.length)) (min nm.length va.length) s1)

/-- One of the twelve blocks of `appendRow(row)`: for a type with values in the
row, `locate`, `cnt += values.size()`, and the row-append template. -/
def appendOfType (isString : Bool) (ty : TYPE_T) (nm : List String) (va : List Value)
    (acc : Option (List column × Int)) : Option (List column × Int) :=
  match acc with
  | none => none
  | some (cols, cnt) =>
    if va.length > 0 then
      match appendToRow isString ty nm va
          { cols := cols, buf := locate ty cols, msk := locate ty cols } with
      | none => none
      | some s => some (s.cols, cnt + va.length)
    else some (cols, cnt)

/-- The function `ibis::tafel::appendRow(const ibis::table::row&)`: the table
after the call and the return value, or `none` where the source has no defined
behaviour. -/
def appendRow (t : tafel) (r : row) : Option (tafel × Int) :=
  let t := if r.nColumns ≥ t.cols.length then normalize t else t
  let acc : Option (List column × Int) := some (t.colorder, 0)
  let acc := appendOfType false .BYTE r.bytesnames r.bytesvalues acc
  let acc := appendOfType false .UBYTE r.ubytesnames r.ubytesvalues acc
  let acc := appendOfType false .SHORT r.shortsnames r.shortsvalues acc
  let acc := appendOfType false .USHORT r.ushortsnames r.ushortsvalues acc
  let acc := appendOfType false .INT r.intsnames r.intsvalues acc
  let acc := appendOfType false .UINT r.uintsnames r.uintsvalues acc
  let acc := appendOfType false .LONG r.longsnames r.longsvalues acc
  let acc := appendOfType false .ULONG r.ulongsnames r.ulongsvalues acc
  let acc := appendOfType false .FLOAT r.floatsnames r.floatsvalues acc
  let acc := appendOfType false .DOUBLE r.doublesnames r.doublesvalues acc
  let acc := appendOfType true .CATEGORY r.catsnames r.catsvalues acc
  let acc := appendOfType true .TEXT r.textsnames r.textsvalues acc
  match acc with
  | none => none
  | some (cols, cnt) =>
    some ({ colorder := cols, mrows := t.mrows + (if cnt ≥ (t.cols.length : Int) then 1 else 0) },
      cnt)

/-- The number of values the table holds, over all value buffers. -/
def totalValues (t : tafel) : Nat :=
  (t.colorder.map fun c => c.values.length).sum

end tafel

/-! ## parseLine -/

/-- The scalar readers of `ibis::util` and the narrowing of a `double` to a
`float`, none of which is in the source; `parseLine` is embedded for arbitrary
readers. `readInt str del` and `readDouble str del` yield the error code, the
value read and the rest of `str`; `getString str del` yields the string read
and the rest of `str`. A `double` or `float` is given by its bit pattern. -/
structure readers where
  readInt : List Char → List Char → Int × Int × List Char
  readDouble : List Char → List Char → Int × Nat × List Char
  getString : List Char → List Char → String × List Char
  toFloat : Nat → Nat

/-- The conversion `static_cast` of a 64-bit integer to the signed integer type
of `w` bits. -/
def toSigned (w : Nat) (v : Int) : Int :=
  (v + 2 ^ (w - 1)) % 2 ^ w - 2 ^ (w - 1)

/-- The conversion `static_cast` of a 64-bit integer to the unsigned integer
type of `w` bits. -/
def toUnsigned (w : Nat) (v : Int) : Int :=
  v % 2 ^ w

namespace tafel

/-- What one pass through the switch of `parseLine` leaves: the column, the
addition to `cnt`, the rest of the line, and whether the pass ended in
`continue`, which skips the handling of the delimiter. -/
structure fieldResult where
  col : column
  cnt : Nat
  str : List Char
  skip : Bool
  deriving DecidableEq, Repr

/-- The value `x` is pushed: `push_back(x)`, `col.mask += 1`, `++ cnt`, and
the switch is left by `break`. -/
def pushed (col : column) (x : Value) (str : List Char) : fieldResult :=
  { col := { col with values := col.values ++ [x], mask := bitvector.increment col.mask }
    cnt := 1, str := str, skip := false }

/-- The column is passed over and the loop goes on by `continue`. -/
def skipped (col : column) (str : List Char) : fieldResult :=
  { col := col, cnt := 0, str := str, skip := true }

/-- The switch on `col.type` in the loop of `parseLine`. -/
def parseField (R : readers) (col : column) (str del : List Char) : fieldResult :=
  match col.type with
  | .BYTE =>
    let r := R.readInt str del
    if r.1 = 0 then
      if toSigned 8 r.2.1 ≠ r.2.1 then skipped col r.2.2
      else pushed col (.int (toSigned 8 r.2.1)) r.2.2
    else skipped col r.2.2
  | .UBYTE =>
    let r := R.readInt str del
    if r.1 = 0 then
      if toUnsigned 8 r.2.1 ≠ r.2.1 then skipped col r.2.2
      else pushed col (.int (toUnsigned 8 r.2.1)) r.2.2
    else skipped col r.2.2
  | .SHORT =>
    let r := R.readInt str del
    if r.1 = 0 then
      if toSigned 16 r.2.1 ≠ r.2.1 then skipped col r.2.2
      else pushed col (.int (toSigned 16 r.2.1)) r.2.2
    else skipped col r.2.2
  | .USHORT =>
    let r := R.readInt str del
    if r.1 = 0 then
      if toUnsigned 16 r.2.1 ≠ r.2.1 then skipped col r.2.2
      else pushed col (.int (toUnsigned 16 r.2.1)) r.2.2
    else skipped col r.2.2
  | .INT =>
    let r := R.readInt str del
    if r.1 = 0 then
      if toSigned 32 r.2.1 ≠ r.2.1 then skipped col r.2.2
      else pushed col (.int (toSigned 32 r.2.1)) r.2.2
    else skipped col r.2.2
  | .UINT =>
    let r := R.readInt str del
    if r.1 = 0 then
      if toUnsigned 32 r.2.1 ≠ r.2.1 then skipped col r.2.2
      else pushed col (.int (toUnsigned 32 r.2.1)) r.2.2
    else skipped col r.2.2
  | .LONG =>
    let r := R.readInt str del
    if r.1 = 0 then pushed col (.int r.2.1) r.2.2
    else skipped col r.2.2
  | .ULONG =>
    let r := R.readInt str del
    if r.1 = 0 then pushed col (.int (toUnsigned 64 r.2.1)) r.2.2
    else skipped col r.2.2
  | .FLOAT =>
    let r := R.readDouble str del
    if r.1 = 0 then pushed col (.flt (R.toFloat r.2.1)) r.2.2
    else skipped col r.2.2
  | .DOUBLE =>
    let r := R.readDouble str del
    if r.1 = 0 then pushed col (.flt r.2.1) r.2.2
    else skipped col r.2.2
  | .CATEGORY | .TEXT =>
    let r := R.getString str del
    if r.1 ≠ "" then pushed col (.str r.1) r.2
    else { col := col, cnt := 0, str := r.2, skip := false }
  | .UNKNOWN_TYPE => { col := col, cnt := 0, str := str, skip := false }

/-- The end of the loop body of `parseLine`: trailing space and at most one
delimiter are passed over. -/
def skipDelimiter (str del : List Char) : List Char :=
  match str.dropWhile isspace with
  | [] => []
  | c :: s => if c ∈ del then s else c :: s

/-- The loop of `parseLine` over `colorder`: the columns after the line is
digested, and `cnt`. -/
def parseFields (R : readers) (del : List Char) : List column → List Char → Nat → List column × Nat
  | [], _, cnt => ([], cnt)
  | col :: cs, str, cnt =>
    let r := parseField R col str del
    if r.skip then
      let next := parseFields R del cs r.str (cnt + r.cnt)
      (r.col :: next.1, next.2)
    else if r.str ≠ [] then
      let next := parseFields R del cs (skipDelimiter r.str del) (cnt + r.cnt)
      (r.col :: next.1, next.2)
    else (r.col :: cs, cnt + r.cnt)

/-- The function `ibis::tafel::parseLine(str, del, id)`; `id` only labels the
log messages. -/
def parseLine (R : readers) (t : tafel) (str del : List Char) : tafel × Int :=
  let r := parseFields R del t.colorder str 0
  ({ t with colorder := r.1 }, r.2)

/-- The function `ibis::tafel::appendRow(line, del)` for a text line: the
table after the call and the return value, or `none` where the source has no
defined behaviour. For the label of the log messages the source calls
`id.append(line, 10)` (line 2141), which reads ten characters of the array
`line` points to. A line is the array of its characters and the terminating
NUL, so a line that holds fewer than nine characters from its first non-blank
character on is read beyond its end. -/
def appendRowLine (R : readers) (t : tafel) (line del : Option (List Char)) :
    Option (tafel × Int) :=
  match line with
  | none => some (t, -1)
  | some [] => some (t, -1)
  | some line =>
    match line.dropWhile isspace with
    | [] => some (t, -1)
    | c :: s =>
      if c = '#' ∨ (c = '-' ∧ s.head? = some '-') then some (t, 0)
      else if (c :: s).length + 1 < 10 then none
      else
        let delimiters := match del with
          | none => [',']
          | some [] => [',']
          | some d => d
        let t1 := normalize t
        let r := parseLine R t1 (c :: s) delimiters
        some ({ r.1 with mrows := r.1.mrows + (if r.2 ≥ (r.1.cols.length : Int) then 1 else 0) },
          r.2)

end tafel

/-! ## Schema declarations -/

namespace tafel

/-- The function `ibis::tafel::addColumn(cn, ct, cd, idx)`: the table after the
call and the return code. -/
def addColumn (t : tafel) (cn : Option String) (ct : TYPE_T) (cd idx : Option String) :
    tafel × Int :=
  match cn with
  | none => (t, -2)
  | some cn =>
    if cn = "" ∨ ct = .UNKNOWN_TYPE then (t, -2)
    else
      match t.find cn with
      | some c =>
        ({ t with colorder := modifyColumn cn (fun c =>
              { c with
                desc := if nil cd then c.desc else cd.getD ""
                indexSpec := if nil idx then c.indexSpec else idx.getD "" }) t.colorder },
          if ct = c.type then 1 else -1)
      | none =>
        ({ t with colorder := t.colorder ++
              [{ name := cn, type := ct
                 desc := if nil cd then cn else cd.getD ""
                 indexSpec := if nil idx then "" else idx.getD ""
                 values := [], mask := [] }] }, 0)

end tafel

namespace tablex

/-- The test `*str == '#' || (*str == '-' && str[1] == '-')`: a comment starts
at the head of `str`. -/
def atComment (str : List Char) : Bool :=
  match str with
  | [] => false
  | c :: s => c == '#' || (c == '-' && s.head? == some '-')

/-- The loop of `parseNamesAndTypes` that looks for the first letter or
underscore: the text from there on, or `none` when a comment is met first, in
which case the function returns. -/
def findName : List Char → Option (List Char)
  | [] => some []
  | c :: s =>
    if atComment (c :: s) then none
    else if c ≠ '_' ∧ isalpha c = false then findName s
    else some (c :: s)

/-- The loop of `parseNamesAndTypes` that moves on to the type: it stops at
the first letter, and a comment takes it to the end of the text. -/
def skipToType : List Char → List Char
  | [] => []
  | c :: s =>
    if atComment (c :: s) then []
    else if isalpha c = false then skipToType s
    else c :: s

/-- The characters of a name after its first: `isalnum(*str) != 0 || *str == '_'`. -/
def isNameChar (c : Char) : Bool :=
  isalnum c || c == '_'

/-- The type as `parseNamesAndTypes` reads it at the head of `str`, with the
rest of the text: one word of letters; after `unsigned` or `signed` a second
word is appended, `signed` being dropped; an empty type becomes `i`. -/
def readType (str : List Char) : List Char × List Char :=
  let type := str.takeWhile isalpha
  let str := str.dropWhile isalpha
  let r : List Char × List Char :=
    if type = "unsigned".toList ∨ type = "signed".toList then
      let type := if type = "signed".toList then [] else type
      let str := str.dropWhile isspace
      (type ++ str.takeWhile isalpha, str.dropWhile isalpha)
    else (type, str)
  if r.1 = [] then (['i'], r.2) else r

/-- The character `type[i]`, which is the terminating NUL at the end of the
string. -/
def charAt (type : List Char) (i : Nat) : Char :=
  type.getD i (Char.ofNat 0)

/-- The switch that the two unsigned branches of `parseNamesAndTypes` share:
the type chosen from the letter `c`. -/
def unsignedType (c : Char) : TYPE_T :=
  if c = 'b' ∨ c = 'B' then .UBYTE
  else if c = 's' ∨ c = 'S' then .USHORT
  else if c = 'i' ∨ c = 'I' then .UINT
  else if c = 'l' ∨ c = 'L' then .ULONG
  else .UINT

/-- The switch on `type[0]` of `parseNamesAndTypes` for a type that does not
start with `u`. -/
def signedType (type : List Char) : TYPE_T :=
  let c := charAt type 0
  if c = 'a' ∨ c = 'A' then .UBYTE
  else if c = 'b' ∨ c = 'B' then .BYTE
  else if c = 'h' ∨ c = 'H' then .SHORT
  else if c = 'g' ∨ c = 'G' then .USHORT
  else if c = 'i' ∨ c = 'I' then .INT
  else if c = 'l' ∨ c = 'L' then .LONG
  else if c = 'v' ∨ c = 'V' then .ULONG
  else if c = 'r' ∨ c = 'R' ∨ c = 'f' ∨ c = 'F' then .FLOAT
  else if c = 'd' ∨ c = 'D' then .DOUBLE
  else if c = 'c' ∨ c = 'C' ∨ c = 'k' ∨ c = 'K' then .CATEGORY
  else if c = 't' ∨ c = 'T' then .TEXT
  else if c = 's' ∨ c = 'S' then
    if charAt type 1 = 't' ∧ charAt type 1 = 'T' then .TEXT else .SHORT
  else .INT

/-- The type `parseNamesAndTypes` passes to `addColumn` for the type string
`type`. -/
def columnType (type : List Char) : TYPE_T :=
  if type = "unsigned".toList then unsignedType (charAt type 8)
  else if charAt type 0 = 'u' ∨ charAt type 0 = 'U' then unsignedType (charAt type 1)
  else signedType type

/-- The character `c` is the letter `l`, given in lower case, in either case. -/
def letterIs (c l : Char) : Bool :=
  tolower c == l.toNat

/-- The table of the specification for a one-word type, read off its first
letter without regard to case, and for a word in `u` off its second letter;
`s` stands for SHORT. -/
def typeByFirstLetter (w : List Char) : TYPE_T :=
  let c := charAt w 0
  let d := charAt w 1
  if letterIs c 'u' then
    if letterIs d 'b' then .UBYTE
    else if letterIs d 's' then .USHORT
    else if letterIs d 'i' then .UINT
    else if letterIs d 'l' then .ULONG
    else .UINT
  else if letterIs c 'a' then .UBYTE
  else if letterIs c 'b' then .BYTE
  else if letterIs c 'h' then .SHORT
  else if letterIs c 'g' then .USHORT
  else if letterIs c 'i' then .INT
  else if letterIs c 'l' then .LONG
  else if letterIs c 'v' then .ULONG
  else if letterIs c 'r' || letterIs c 'f' then .FLOAT
  else if letterIs c 'd' then .DOUBLE
  else if letterIs c 'c' || letterIs c 'k' then .CATEGORY
  else if letterIs c 't' then .TEXT
  else if letterIs c 's' then .SHORT
  else .INT

/-- The loop `while (*str != 0)` of `parseNamesAndTypes`: the return value and
the calls of `addColumn`, in order. Every round that goes on takes a name off
the text, so `fuel` above the length of the text is never used up. -/
def parseLoop : Nat → List Char → Int → List (String × TYPE_T) → Int × List (String × TYPE_T)
  | 0, _, ret, calls => (ret, calls)
  | fuel + 1, str, ret, calls =>
    if str = [] then (ret, calls)
    else
      match findName (str.dropWhile isspace) with
      | none => (ret, calls)
      | some str =>
        let nm := str.takeWhile isNameChar
        let str := str.dropWhile isNameChar
        if nm = [] then (ret, calls)
        else
          let r := readType (skipToType str)
          parseLoop fuel r.2 (ret + 1) (calls ++ [(String.mk nm, columnType r.1)])

/-- The return value of `parseNamesAndTypes(txt)` for a text that is neither
null nor empty, and the name and type of each `addColumn` call it makes. -/
def declarations (txt : List Char) : Int × List (String × TYPE_T) :=
  parseLoop (txt.length + 1) txt 0 []

/-- The function `ibis::tablex::parseNamesAndTypes(txt)` on a staging table:
the table after the `addColumn` calls and the return value. -/
def parseNamesAndTypes (t : tafel) (txt : Option (List Char)) : tafel × Int :=
  match txt with
  | none => (t, -1)
  | some [] => (t, -1)
  | some txt =>
    ((declarations txt).2.foldl (fun t d => (t.addColumn (some d.1) d.2 none none).1) t,
      (declarations txt).1)

end tablex

/-! ## Column files -/

/-- The size in bytes of an element of a fixed-width buffer, `sizeof(T)`; the
string types have no fixed width. -/
def elemSize : TYPE_T → Nat
  | .BYTE => 1
  | .UBYTE => 1
  | .SHORT => 2
  | .USHORT => 2
  | .INT => 4
  | .UINT => 4
  | .LONG => 8
  | .ULONG => 8
  | .FLOAT => 4
  | .DOUBLE => 8
  | _ => 0

/-- The number whose `elem` bytes an element occupies in memory: an integer
in two's complement, a floating-point number by its bit pattern. -/
def payload (elem : Nat) : Value → Nat
  | .int v => (v % 2 ^ (8 * elem)).toNat
  | .flt bits => bits % 2 ^ (8 * elem)
  | .str _ => 0

/-- The `elem` bytes of an element as `UnixWrite` copies them from memory, in
host byte order, taken to be little-endian. -/
def encode (elem : Nat) (v : Value) : List Nat :=
  (List.range elem).map fun k => payload elem v / 256 ^ k % 256

/-- The bytes `vals.begin()` points to: the elements one after the other. -/
def encodeAll (elem : Nat) : List Value → List Nat
  | [] => []
  | v :: vs => encode elem v ++ encodeAll elem vs

/-- The bytes of `s.c_str()` up to and including the terminating NUL, of which
`writeString` writes `s.size() + 1`; a character stands for a byte. -/
def c_str : Value → List Nat
  | .str s => s.toList.map Char.toNat ++ [0]
  | _ => [0]

/-- An open file descriptor: the bytes of the file, the file offset, and
whether the file was opened with `O_APPEND`. The flags `OPEN_APPENDONLY` that
`write` opens a column file with are a macro defined outside the source. -/
structure descriptor where
  bytes : List Nat
  offset : Nat
  oappend : Bool
  deriving DecidableEq, Repr

/-- The call `UnixSeek(fdes, 0, SEEK_END)`: the descriptor and the position
returned. Seeks and writes on an open descriptor are taken to succeed. -/
def UnixSeekEnd (f : descriptor) : descriptor × Nat :=
  ({ f with offset := f.bytes.length }, f.bytes.length)

/-- The call `UnixSeek(fdes, n, SEEK_SET)`. -/
def UnixSeekSet (f : descriptor) (n : Nat) : descriptor × Nat :=
  ({ f with offset := n }, n)

/-- The call `UnixWrite(fdes, buf, count)` for the bytes `data`: with
`O_APPEND` the bytes go to the end of the file, otherwise to the file offset,
over what is there; a gap before the offset reads as zeros. The second
component is the number of bytes written. -/
def UnixWrite (f : descriptor) (data : List Nat) : descriptor × Nat :=
  let off := if f.oappend then f.bytes.length else f.offset
  ({ f with
     bytes := f.bytes.take off ++ List.replicate (off - f.bytes.length) 0 ++ data ++
       f.bytes.drop (off + data.length)
     offset := off + data.length }, data.length)

/-- A loop that writes the bytes `data` `n` times: the descriptor and the sum
of the values `UnixWrite` returned. -/
def writeRepeated (f : descriptor) (data : List Nat) : Nat → descriptor × Nat
  | 0 => (f, 0)
  | n + 1 =>
    let r := UnixWrite f data
    let r2 := writeRepeated r.1 data n
    (r2.1, r.2 + r2.2)

/-- A loop that writes each string of `vals` with its NUL: the descriptor and
the number of writes that returned a positive value. -/
def writeStrings (f : descriptor) : List Value → descriptor × Nat
  | [] => (f, 0)
  | v :: vs =>
    let r := UnixWrite f (c_str v)
    let r2 := writeStrings r.1 vs
    (r2.1, (if 0 < r.2 then 1 else 0) + r2.2)

namespace bitvector

/-- Modelled from the spec: `operator+=(const bitvector&)` of the bitmap
library, which is outside the source; the bits of the staged rows are added
after the bits of the prior rows. -/
def append (m bm : bitvector) : bitvector :=
  m ++ bm

end bitvector

namespace tafel

/-- The template `ibis::tafel::writeColumn(fdes, nold, nnew, vals, fill,
totmask, newmask)` for an element type of `elem` bytes: the descriptor, the
total mask, and the return code. `nold` and `nnew` are of the 32-bit unsigned
type `ibis::bitvector::word_t`, and so is the sum `nnew+nold` of the last
statement on the mask; the products with `elem` are of the type `size_t`. -/
def writeColumn (elem : Nat) (f : descriptor) (nold nnew : Nat) (vals : List Value)
    (fill : Value) (totmask newmask : bitvector) : descriptor × bitvector × Int :=
  let s := UnixSeekEnd f
  let pos := s.2
  let r1 : descriptor × bitvector :=
    if pos < nold * elem then
      ((writeRepeated s.1 (encode elem fill) (nold - pos / elem)).1,
        bitvector.adjustSize totmask (pos / elem) nold)
    else if pos > nold * elem then
      ((UnixSeekSet s.1 (nold * elem)).1, bitvector.adjustSize totmask nold nold)
    else (s.1, bitvector.adjustSize totmask nold nold)
  let w : descriptor × Nat :=
    if vals.length ≥ nnew then UnixWrite r1.1 (encodeAll elem (vals.take nnew))
    else
      let w1 := UnixWrite r1.1 (encodeAll elem vals)
      let w2 := writeRepeated w1.1 (encode elem fill) (nnew - vals.length)
      (w2.1, w1.2 + w2.2)
  let totmask := bitvector.append r1.2 newmask
  let totmask := bitvector.adjustSize totmask totmask.length ((nnew + nold) % 2 ^ 32)
  (w.1, totmask, -5 * (if w.2 ≠ nnew * elem then 1 else 0))

/-- The function `ibis::tafel::writeString(fdes, nold, nnew, vals, totmask,
newmask)`: the descriptor, the total mask, and the return code. The NUL bytes
for the rows without a string are written in pieces of `MAX_LINE` bytes, which
come to `nnew - vals.size()` bytes. `nold` and `nnew` are of the 32-bit
unsigned type `ibis::bitvector::word_t`, and so is the sum `nnew+nold`. -/
def writeString (f : descriptor) (nold nnew : Nat) (vals : List Value)
    (totmask newmask : bitvector) : descriptor × bitvector × Int :=
  let s := UnixSeekEnd f
  let totmask := bitvector.adjustSize totmask nold nold
  let w : descriptor × Nat :=
    if vals.length ≥ nnew then writeStrings s.1 (vals.take nnew)
    else
      let w1 := writeStrings s.1 vals
      let w2 := UnixWrite w1.1 (List.replicate (nnew - vals.length) 0)
      (w2.1, w1.2 + w2.2)
  let totmask := bitvector.append totmask newmask
  let totmask := bitvector.adjustSize totmask totmask.length ((nnew + nold) % 2 ^ 32)
  (w.1, totmask, -5 * (if w.2 ≠ nnew then 1 else 0))

/-- The bitmap `ibis::bitvector msk(mskfile)` read from a mask file, which is
empty when there is no file. -/
def readMask (file : Option bitvector) : bitvector :=
  file.getD []

/-- The mask file after `write` is through with a column: written when some
bit is not set, removed otherwise. -/
def storeMask (msk : bitvector) : Option bitvector :=
  if bitvector.cnt msk ≠ msk.length then some msk else none

end tafel

/-! ## write: the metadata file and the column files -/

/-- Modelled from the spec: the canonical upper-case name of a type, the array
`ibis::TYPESTRING`, which is defined outside the source. -/
def TYPESTRING : TYPE_T → String
  | .UNKNOWN_TYPE => "UNKNOWN"
  | .BYTE => "BYTE"
  | .UBYTE => "UBYTE"
  | .SHORT => "SHORT"
  | .USHORT => "USHORT"
  | .INT => "INT"
  | .UINT => "UINT"
  | .LONG => "LONG"
  | .ULONG => "ULONG"
  | .FLOAT => "FLOAT"
  | .DOUBLE => "DOUBLE"
  | .CATEGORY => "CATEGORY"
  | .TEXT => "TEXT"

/-- Modelled from the spec: what `write` takes from outside the source once it
is through with the existing partition. `dirsep` is the macro
`FASTBIT_DIRSEP`; `currtime` is `time(0)` and `stamp` its rendering by
`ibis::util::secondsToString`; `gParameters` is the registry of default index
hints, a null entry being `none`; `mdOpens` tells whether the stream on the
metadata file opens and `opens` whether `UnixOpen` succeeds on a column file;
`oappend` tells whether `OPEN_APPENDONLY` carries `O_APPEND`; `files` gives
the bytes of each file of the directory, `none` for a file that does not
exist; `maskBytes` and `bytesMask` are the storage format of a bitmap, which
`ibis::bitvector` writes and reads. -/
structure world where
  dirsep : Char
  currtime : Nat
  stamp : String
  gParameters : String → Option String
  mdOpens : String → Bool
  opens : String → Bool
  oappend : Bool
  files : String → Option (List Nat)
  maskBytes : bitvector → List Nat
  bytesMask : List Nat → bitvector

/-- What `write` does to the files of the directory, one entry for each step:
the metadata stream opened on a path, the header streamed to it, a column file
closed with the bytes it then holds, a mask file written with a bitmap or
removed, the block of a column streamed to the metadata stream, the metadata
stream closed; `undefined` stands for a step whose behaviour the language
leaves undefined, after which nothing is recorded. -/
inductive fileOp where
  | openMetadata (path : String)
  | header (text : String)
  | columnFile (path : String) (bytes : List Nat)
  | maskFile (path : String) (bits : bitvector)
  | removeMask (path : String)
  | columnBlock (name : String) (text : String)
  | closeMetadata
  | undefined
  deriving DecidableEq, Repr

/-- The C library `strrchr(s, c)` and `std::string::rfind(c)`: the index of
the last `c` in `s`, if there is one. -/
def strrchr : List Char → Char → Option Nat
  | [], _ => none
  | x :: xs, c =>
    match strrchr xs c with
    | some i => some (i + 1)
    | none => if x = c then some 0 else none

namespace tafel

/-- The suffix `(n > 1 ? "s" : "")` of the messages of `write`. -/
def plural (n : Nat) : String :=
  if n > 1 then "s" else ""

/-- The description `write` generates when none is given. -/
def generatedDescription (stamp : String) (ncols rows : Nat) : String :=
  "Data partition constructed with ibis::tablex interface on " ++ stamp ++ " with " ++
    toString ncols ++ " column" ++ plural ncols ++ " and " ++ toString rows ++ " row" ++
    plural rows

/-- The table name `write` is left with when none is given (lines 1131-1162):
what follows the last separator of `dir`; for a `dir` that ends with its last
separator, `dir` without that character, cut after the separator then last if
that leaves something; for a `dir` without separator, `dir` itself unless it
starts with a dot. `none` is the null pointer. In `1 + oldnm.rfind(..)` a
failed search gives `npos`, and the sum wraps around to 0. When `tname` is
still null at line 1156 the source computes a name from the checksum of the
description into the local `oldnm` and does not assign it to `tname`, which
stays null. -/
def derivedName (dirsep : Char) (dir : String) : Option String :=
  let d := dir.toList
  let p := match strrchr d dirsep with
    | some i => some i
    | none => strrchr d '/'
  match p with
  | some i =>
    if i + 1 < d.length then some (String.mk (d.drop (i + 1)))
    else
      let oldnm := d.dropLast
      let j := match strrchr oldnm dirsep with
        | some k => k + 1
        | none => 0
      let j := if j > oldnm.length then
          (match strrchr oldnm '/' with
            | some k => k + 1
            | none => 0)
        else j
      let oldnm := if j < oldnm.length then oldnm.drop j else oldnm
      if oldnm ≠ [] then some (String.mk oldnm) else none
  | none => if d.head? ≠ some '.' then some dir else none

/-- The text `write` streams to the metadata file before the column loop
(lines 1180-1200). -/
def headerText (w : world) (tname tdesc : String) (rows ncols : Nat) (idx oldidx : Option String) :
    String :=
  "# meta data for data partition " ++ tname ++ " written by ibis::tafel::write on " ++
    w.stamp ++ "\n\nBEGIN HEADER\nName = " ++ tname ++ "\nDescription = " ++ tdesc ++
    "\nNumber_of_rows = " ++ toString rows ++ "\nNumber_of_columns = " ++ toString ncols ++
    "\nTimestamp = " ++ toString w.currtime ++
    (if !nil idx then "\nindex = " ++ idx.getD ""
     else if !nil oldidx then "\nindex = " ++ oldidx.getD ""
     else
      match w.gParameters ("ibis." ++ tname ++ ".index") with
      | some str => if str ≠ "" then "\nindex = " ++ str else ""
      | none => "") ++
    "\nEND HEADER\n"

/-- The text `write` streams to the metadata file for one column (lines
1313-1331). -/
def columnText (w : world) (tname : String) (col : column) : String :=
  "\nBegin Column\nname = " ++ col.name ++ "\ndata_type = " ++ TYPESTRING col.type ++
    (if col.indexSpec ≠ "" then "\nindex = " ++ col.indexSpec
     else if col.type = .TEXT then "\nindex=none"
     else
      match w.gParameters ("ibis." ++ tname ++ "." ++ col.name ++ ".index") with
      | some str => "\nindex = " ++ str
      | none => "") ++
    "\nEnd Column\n"

/-- The directory after the file `path` is given the content `content`, or is
removed for `none`. -/
def store (files : String → Option (List Nat)) (path : String) (content : Option (List Nat)) :
    String → Option (List Nat) :=
  fun p => if p = path then content else files p

/-- The switch of the column loop of `write` (lines 1226-1292): the call of
`writeColumn` or `writeString` for the type of `col`, with the filler of the
type; for any other type the descriptor, the mask and `ierr` stay as they
are. -/
def writeValues (f : descriptor) (nold mrows : Nat) (col : column) (msk : bitvector) (ierr : Int) :
    descriptor × bitvector × Int :=
  match col.type with
  | .UNKNOWN_TYPE => (f, msk, ierr)
  | .TEXT | .CATEGORY => writeString f nold mrows col.values msk col.mask
  | ty => writeColumn (elemSize ty) f nold mrows col.values (fillValue ty) msk col.mask

/-- The column loop of `write` (lines 1203-1332) over the columns `cols` still
to visit, with the files of the directory and `ierr` as they stand: the code
of an early return, or `none` when the loop runs to its end, and the steps
taken. -/
def writeColumns (w : world) (dir tname : String) (nold mrows : Nat) :
    (String → Option (List Nat)) → Int → List column → Option Int × List fileOp
  | _, _, [] => (none, [])
  | files, ierr, col :: cols =>
    let cnm := dir ++ String.singleton w.dirsep ++ col.name
    if !w.opens cnm then (some (-4), [])
    else
      let files := store files cnm (some ((files cnm).getD []))
      let f : descriptor := { bytes := (files cnm).getD [], offset := 0, oappend := w.oappend }
      let mskfile := cnm ++ ".msk"
      let msk := readMask ((files mskfile).map w.bytesMask)
      let r := writeValues f nold mrows col msk ierr
      let files := store files cnm (some r.1.bytes)
      if r.2.2 < 0 then (some r.2.2, [.columnFile cnm r.1.bytes])
      else
        let files := store files mskfile ((storeMask r.2.1).map w.maskBytes)
        let rest := writeColumns w dir tname nold mrows files r.2.2 cols
        (rest.1,
          [.columnFile cnm r.1.bytes,
            if bitvector.cnt r.2.1 ≠ r.2.1.length then .maskFile mskfile r.2.1
            else .removeMask mskfile,
            .columnBlock col.name (columnText w tname col)] ++ rest.2)

/-- What `ibis::tafel::write` does after its reconciliation with the existing
partition (lines 1119-1347): the return code and the steps taken. The sum
`nold + mrows` is of a 32-bit unsigned type. With a null `tname` the source
streams a null pointer to the metadata file, which is undefined; the code
given with that trace stands for no return. -/
def writeRest (w : world) (t : tafel) (dir : String) (idx : Option String) (r : reconciled) :
    Int × List fileOp :=
  let rows := (r.nold + t.mrows) % 2 ^ 32
  let tdesc := if nil r.tdesc then generatedDescription w.stamp t.cols.length rows
    else r.tdesc.getD ""
  let tname := if nil r.tname then derivedName w.dirsep dir else r.tname
  let mdfile := dir ++ String.singleton w.dirsep ++ "-part.txt"
  if !w.mdOpens mdfile then (-3, [])
  else
    match tname with
    | none => (0, [.openMetadata mdfile, .undefined])
    | some tname =>
      let loop := writeColumns w dir tname r.nold t.mrows w.files 0 t.cols
      let ops := [fileOp.openMetadata mdfile,
        .header (headerText w tname tdesc rows t.cols.length idx r.oldidx)] ++ loop.2
      match loop.1 with
      | some ierr => (ierr, ops)
      | none => (0, ops ++ [.closeMetadata])

/-- The paths of the column files in the order in which `write` closed them. -/
def columnFiles : List fileOp → List String
  | [] => []
  | .columnFile path _ :: ops => path :: columnFiles ops
  | _ :: ops => columnFiles ops

/-- The names of the `Begin Column` blocks in the order in which `write`
streamed them to the metadata file. -/
def columnBlocks : List fileOp → List String
  | [] => []
  | .columnBlock name _ :: ops => name :: columnBlocks ops
  | _ :: ops => columnBlocks ops

end tafel

/-! ## clearData and reserveSpace -/

/-- Modelled from the spec: the memory allocator and the buffer classes
`array_t` and `std::vector`, which are outside the source, as `doReserve` meets
them. `capacity k name` is what `capacity()` of the buffer of the column
`name` returns in the `k`-th call of `doReserve` within one `reserveSpace`;
`throws k name` tells whether the allocation that call asks for on behalf of
that column throws; `fresh ty n` holds the elements of `new array_t<T>(n)`. -/
structure heap where
  capacity : Nat → String → Nat
  throws : Nat → String → Bool
  fresh : TYPE_T → Nat → List Value

/-- How a call of `doReserve` ends: by returning `ret`, by an exception, or in
undefined behaviour. `cols` are the columns as the call leaves them and
`deleted` names the columns whose buffer has been deleted and not replaced. -/
inductive reserved where
  | returned (ret : Int) (cols : List column) (deleted : List String)
  | thrown (cols : List column) (deleted : List String)
  | undefined
  deriving DecidableEq, Repr

/-- What `reserveSpace` leaves when it returns: the return value, the table,
and the names of the columns whose buffer has been deleted and not
replaced. -/
structure reservation where
  ret : Int
  table : tafel
  deleted : List String
  deriving DecidableEq, Repr

namespace reserved

/-- Put the column `col`, which the loop has gone through, before the columns
the rest of the loop goes through. -/
def push (col : column) : reserved → reserved
  | returned ret cols deleted => returned ret (col :: cols) deleted
  | thrown cols deleted => thrown (col :: cols) deleted
  | undefined => undefined

end reserved

namespace tafel

/-- The function `ibis::tafel::clearData`. -/
def clearData (t : tafel) : tafel :=
  { colorder := t.colorder.map fun col =>
      { col with
        mask := []
        values := if col.type = .UNKNOWN_TYPE then col.values else [] }
    mrows := 0 }

/-- The buffer `new array_t<T>(maxr)` or `new std::vector<std::string>(maxr)`
that `doReserve` puts in the place of a buffer it deletes; the vector holds
`maxr` empty strings. -/
def freshBuffer (h : heap) (ty : TYPE_T) (maxr : Nat) : List Value :=
  if ty = .TEXT ∨ ty = .CATEGORY then List.replicate maxr (.str "") else h.fresh ty maxr

/-- The loop of `doReserve` (lines 1576-1782) in its `k`-th call, over the
columns still to visit, with `ret` and the deleted buffers as they stand. The
bitmap of a column is cleared before anything else is done with the column.
Reading the capacity of a deleted buffer is undefined. An exception leaves
the loop at the column whose allocation throws: from `new`, after the buffer
has been deleted, or from `reserve`, which leaves the buffer as it is. -/
def doReserveLoop (h : heap) (k maxr mrows : Nat) :
    List column → Int → List String → reserved
  | [], ret, deleted => .returned ret [] deleted
  | col :: cols, ret, deleted =>
    let col := { col with mask := [] }
    if col.type = .UNKNOWN_TYPE then
      (doReserveLoop h k maxr mrows cols ret deleted).push col
    else if deleted.contains col.name then .undefined
    else
      let curr := h.capacity k col.name % 2 ^ 32
      if mrows = 0 ∧ curr > (maxr >>> 1) * 3 % 2 ^ 32 then
        if h.throws k col.name then .thrown [col] (col.name :: deleted)
        else
          (doReserveLoop h k maxr mrows cols (toSigned 32 maxr) deleted).push
            { col with values := freshBuffer h col.type maxr }
      else if curr < maxr then
        if h.throws k col.name then .thrown [col] deleted
        else (doReserveLoop h k maxr mrows cols (toSigned 32 maxr) deleted).push col
      else if ret > toSigned 32 curr then
        (doReserveLoop h k maxr mrows cols (toSigned 32 curr) deleted).push col
      else (doReserveLoop h k maxr mrows cols ret deleted).push col

/-- The columns in declaration order after a loop over `cols` has gone through
the columns `done`: each column is as the loop left it. -/
def afterLoop (done : List column) (colorder : List column) : List column :=
  colorder.map fun c => (done.find? fun d => nameKey d.name == nameKey c.name).getD c

/-- The function `ibis::tafel::doReserve(maxr)` in its `k`-th call. -/
def doReserve (h : heap) (k : Nat) (t : tafel) (deleted : List String) (maxr : Nat) : reserved :=
  if t.mrows ≥ maxr then .returned (toSigned 32 t.mrows) t.colorder deleted
  else
    match doReserveLoop h k maxr t.mrows t.cols 0x7FFFFFFF deleted with
    | .returned ret done deleted => .returned ret (afterLoop done t.colorder) deleted
    | .thrown done deleted => .thrown (afterLoop done t.colorder) deleted
    | .undefined => .undefined

/-- The nested handlers of `reserveSpace` (lines 1537-1562) from the `k`-th
call of `doReserve` on: `maxr` is shifted right by the next of `shifts` and
`doReserve` is called; an exception leads to the next handler, and to -1 when
none is left. `none` is undefined behaviour. -/
def reserveRetry (h : heap) : Nat → List Nat → tafel → List String → Nat → Option reservation
  | _, [], t, deleted, _ => some { ret := -1, table := t, deleted := deleted }
  | k, s :: shifts, t, deleted, maxr =>
    let maxr := maxr >>> s
    match doReserve h k t deleted maxr with
    | .returned ret cols deleted => some { ret := ret, table := { t with colorder := cols },
                                           deleted := deleted }
    | .thrown cols deleted => reserveRetry h (k + 1) shifts { t with colorder := cols } deleted maxr
    | .undefined => none

/-- The function `ibis::tafel::reserveSpace(maxr)`; `none` is undefined
behaviour. The argument is of a 32-bit unsigned type and the result of a
32-bit signed type. -/
def reserveSpace (h : heap) (t : tafel) (maxr : Nat) : Option reservation :=
  let maxr : Nat := maxr % 2 ^ 32
  if t.cols.isEmpty then some { ret := toSigned 32 maxr, table := t, deleted := [] }
  else if t.mrows ≥ maxr then some { ret := toSigned 32 t.mrows, table := t, deleted := [] }
  else
    let maxr : Nat := if maxr > 0x40000000 then 0x40000000 else maxr
    match doReserve h 0 t [] maxr with
    | .returned ret cols deleted => some { ret := ret, table := { t with colorder := cols },
                                           deleted := deleted }
    | .undefined => none
    | .thrown cols deleted =>
      if t.mrows > 0 then some { ret := -2, table := { colorder := cols, mrows := 0 },
                                 deleted := deleted }
      else reserveRetry h 1 [1, 2, 2, 2] { t with colorder := cols } deleted maxr

end tafel

/-! ## The bound on the bitmaps -/

namespace tafel

/-- The bound on the bitmaps of a table: in every column the number of set
bits is at most the number of bits, which is at most `mrows`. -/
def maskBounded (t : tafel) : Prop :=
  ∀ c ∈ t.colorder, bitvector.cnt c.mask ≤ c.mask.length ∧ c.mask.length ≤ t.mrows

instance (t : tafel) : Decidable (maskBounded t) :=
  inferInstanceAs (Decidable (∀ c ∈ t.colorder,
    bitvector.cnt c.mask ≤ c.mask.length ∧ c.mask.length ≤ t.mrows))

end tafel

/-! ## Observations on a parsed line -/

namespace tafel

/-- The number of columns of `new` that hold one value more than the column of
`old` at the same position. -/
def grown : List column → List column → Nat
  | c :: old, c1 :: new => (if c1.values.length = c.values.length + 1 then 1 else 0) + grown old new
  | _, _ => 0

end tafel

/-! ## readCSV -/

namespace tafel

/-- The test at the head of the line loop of `readCSV` (lines 2239-2243),
which `appendRow(line)` makes as well: the line without its leading space, or
`none` for a line that is blank or starts with `#` or `--`. -/
def rowText (line : List Char) : Option (List Char) :=
  match line.dropWhile isspace with
  | [] => none
  | c :: s => if c = '#' ∨ (c = '-' ∧ s.head? = some '-') then none else some (c :: s)

/-- The line loop of `readCSV` (lines 2201-2508) over the lines that `getline`
yields, with `cnt` as the line before left it: a line that is blank or a
comment is passed over; otherwise `normalize` is called unless `cnt` equals
the number of columns, the columns are gone through as in `parseLine`, whose
loop lines 2249-2503 repeat, and `mrows` grows by one when a value was
pushed. -/
def readLines (R : readers) (del : List Char) : List (List Char) → tafel → Nat → tafel
  | [], t, _ => t
  | line :: lines, t, cnt =>
    match rowText line with
    | none => readLines R del lines t cnt
    | some str =>
      let t1 := if cnt ≠ t.colorder.length then normalize t else t
      let r := parseFields R del t1.colorder str 0
      readLines R del lines
        { colorder := r.1, mrows := t1.mrows + (if r.2 > 0 then 1 else 0) } r.2

/-- The reservation `readCSV` asks for (lines 2176-2187): none for
`maxrows <= 1`. `reserveSpace` lets no exception out, so the handler that
returns -4 is not reached. -/
def reserveFor (h : heap) (t : tafel) (maxrows : Int) : Option reservation :=
  if maxrows > 1 then reserveSpace h t maxrows.toNat
  else some { ret := 0, table := t, deleted := [] }

/-- The function `ibis::tafel::readCSV(filename, maxrows, del)`: the table
after the call and the return code; `none` is undefined behaviour. `file`
holds the lines of the named file, `none` for a file that cannot be opened.
After a reservation that left a buffer deleted, the first line that is not
passed over leads to `normalize`, which reads the size of that buffer. -/
def readCSV (R : readers) (h : heap) (t : tafel) (filename : Option String) (maxrows : Int)
    (del : Option (List Char)) (file : Option (List (List Char))) : Option (tafel × Int) :=
  if nil filename then some (t, -1)
  else if t.colorder.isEmpty then some (t, -2)
  else
    let delimiters := match del with
      | none => [',']
      | some [] => [',']
      | some d => d
    match file with
    | none => some (t, -3)
    | some lines =>
      match reserveFor h t maxrows with
      | none => none
      | some r =>
        if r.deleted ≠ [] ∧ lines.any (fun l => (rowText l).isSome) = true then none
        else some (readLines R delimiters lines r.table 0, 0)

/-- The number of values the columns of `t` take from a line: none from a line
that is blank or a comment. -/
def linePushes (R : readers) (del : List Char) (t : tafel) (line : List Char) : Nat :=
  match rowText line with
  | none => 0
  | some str => (parseFields R del t.colorder str 0).2

/-- No buffer and no bitmap of the table is longer than `mrows`. -/
def withinRows (t : tafel) : Prop :=
  ∀ c ∈ t.colorder, (c.type ≠ .UNKNOWN_TYPE → c.values.length ≤ t.mrows) ∧ c.mask.length ≤ t.mrows

instance (t : tafel) : Decidable (withinRows t) :=
  inferInstanceAs (Decidable (∀ c ∈ t.colorder,
    (c.type ≠ .UNKNOWN_TYPE → c.values.length ≤ t.mrows) ∧ c.mask.length ≤ t.mrows))

end tafel

/-! ## Observations on a typed row -/

namespace row

/-- The values the row holds for the type `ty`. -/
def values (r : row) : TYPE_T → List Value
  | .BYTE => r.bytesvalues
  | .UBYTE => r.ubytesvalues
  | .SHORT => r.shortsvalues
  | .USHORT => r.ushortsvalues
  | .INT => r.intsvalues
  | .UINT => r.uintsvalues
  | .LONG => r.longsvalues
  | .ULONG => r.ulongsvalues
  | .FLOAT => r.floatsvalues
  | .DOUBLE => r.doublesvalues
  | .CATEGORY => r.catsvalues
  | .TEXT => r.textsvalues
  | .UNKNOWN_TYPE => []

/-- The twelve blocks of `appendRow(row)` in the order of the source: whether
the block goes through `appendString`, the type, the names and the values. -/
def fields (r : row) : List (Bool × TYPE_T × List String × List Value) :=
  [(false, .BYTE, r.bytesnames, r.bytesvalues), (false, .UBYTE, r.ubytesnames, r.ubytesvalues),
   (false, .SHORT, r.shortsnames, r.shortsvalues),
   (false, .USHORT, r.ushortsnames, r.ushortsvalues),
   (false, .INT, r.intsnames, r.intsvalues), (false, .UINT, r.uintsnames, r.uintsvalues),
   (false, .LONG, r.longsnames, r.longsvalues), (false, .ULONG, r.ulongsnames, r.ulongsvalues),
   (false, .FLOAT, r.floatsnames, r.floatsvalues),
   (false, .DOUBLE, r.doublesnames, r.doublesvalues),
   (true, .CATEGORY, r.catsnames, r.catsvalues), (true, .TEXT, r.textsnames, r.textsvalues)]

end row

namespace tafel

/-- The push of the row-append templates through the pointers at one position
of `buf` and `msk`, which point to the same column: nothing for a position
beyond the vector or a null pointer. -/
def pushAt (cols : List column) (p : Option (Option Nat)) (va : Value) : List column :=
  match p with
  | some (some k) => pushBit (pushValue cols k va) k
  | _ => cols

/-- The pushes through a sequence of pointers, each with its value. -/
def pushAll (cols : List column) (l : List (Option Nat × Value)) : List column :=
  l.foldl (fun cs p => pushAt cs (some p.1) p.2) cols

/-- The values `va` placed by position: the i-th value goes to the i-th column
of type `ty` in declaration order, with one set bit; values beyond the last
such column go nowhere. -/
def placeByPosition (ty : TYPE_T) : List Value → List column → List column
  | [], cs => cs
  | _ :: _, [] => []
  | v :: vs, c :: cs =>
    if c.type = ty then
      { c with values := c.values ++ [v], mask := c.mask ++ [true] } :: placeByPosition ty vs cs
    else c :: placeByPosition ty (v :: vs) cs

end tafel

/-! ## writeMetaData -/

namespace tafel

/-- The description `writeMetaData` generates when none is given. -/
def metaDescription (stamp : String) (ncols : Nat) : String :=
  "Metadata written with ibis::tablex::writeMetaData on " ++ stamp ++ " with " ++
    toString ncols ++ " column" ++ plural ncols

/-- The text `writeMetaData` streams to the metadata file before the column
loop (lines 957-972). -/
def metaHeaderText (w : world) (tname tdesc : String) (ncols : Nat) (idx : Option String) :
    String :=
  "# meta data for data partition " ++ tname ++ " written by ibis::tafel::writeMetaData on " ++
    w.stamp ++ "\n\nBEGIN HEADER\nName = " ++ tname ++ "\nDescription = " ++ tdesc ++
    "\nNumber_of_rows = 0" ++ "\nNumber_of_columns = " ++ toString ncols ++
    "\nTimestamp = " ++ toString w.currtime ++
    (if !nil idx then "\nindex = " ++ idx.getD ""
     else
      match w.gParameters ("ibis." ++ tname ++ ".index") with
      | some str => if str ≠ "" then "\nindex = " ++ str else ""
      | none => "") ++
    "\nEND HEADER\n"

/-- The text `writeMetaData` streams to the metadata file for one column
(lines 978-999). -/
def metaColumnText (w : world) (tname : String) (col : column) : String :=
  "\nBegin Column\nname = " ++ col.name ++ "\ndata_type = " ++ TYPESTRING col.type ++
    (if col.desc ≠ "" then "\ndescription = " ++ col.desc else "") ++
    (if col.indexSpec ≠ "" then "\nindex = " ++ col.indexSpec
     else if col.type = .TEXT then "\nindex = none"
     else
      match w.gParameters ("ibis." ++ tname ++ "." ++ col.name ++ ".index") with
      | some str => "\nindex = " ++ str
      | none => "") ++
    "\nEnd Column\n"

/-- The function `ibis::tafel::writeMetaData(dir, tname, tdesc, idx)`: the
return code and the steps taken. A metadata file that exists in `dir` with a
positive size ends the call with 0. The table name is derived as in `write`
(lines 912-943 repeat lines 1131-1162); with a null `tname` the source streams
a null pointer to the metadata file, which is undefined, and the code given
with that trace stands for no return. -/
def writeMetaData (w : world) (t : tafel) (dir tname tdesc idx : Option String) :
    Int × List fileOp :=
  if t.cols.isEmpty then (0, [])
  else
    match dir with
    | none => (-1, [])
    | some dir =>
      if dir == "" then (-1, [])
      else
        let mdfile := dir ++ String.singleton w.dirsep ++ "-part.txt"
        if ((w.files mdfile).map List.length).getD 0 > 0 then (0, [])
        else
          let tdesc := if nil tdesc then metaDescription w.stamp t.cols.length
            else tdesc.getD ""
          let tname := if nil tname then derivedName w.dirsep dir else tname
          if !w.mdOpens mdfile then (-3, [])
          else
            match tname with
            | none => (0, [.openMetadata mdfile, .undefined])
            | some tname =>
              ((t.cols.length : Int),
                [fileOp.openMetadata mdfile,
                  .header (metaHeaderText w tname tdesc t.cols.length idx)] ++
                t.cols.map (fun col => fileOp.columnBlock col.name (metaColumnText w tname col)) ++
                [.closeMetadata])

end tafel

/-! ## The retries of reserveSpace, as the specification lists them -/

namespace tafel

/-- The requests of the five attempts of `reserveSpace` for the clipped
request `r`, as the specification lists them. -/
def retryRequests (r : Nat) : List Nat :=
  [r, r >>> 1, r >>> 3, r >>> 5, r >>> 7]

/-- The attempts made with the requests `ms`, the first being the `k`-th call
of `doReserve`: each is made on the table the one before left, and an attempt
is made only when the one before ended in an exception. -/
def attempts (h : heap) : Nat → List Nat → tafel → List String → List reserved
  | _, [], _, _ => []
  | k, m :: ms, t, deleted =>
    match doReserve h k t deleted m with
    | .thrown cols deleted1 =>
      .thrown cols deleted1 :: attempts h (k + 1) ms { t with colorder := cols } deleted1
    | .returned ret cols deleted1 => [.returned ret cols deleted1]
    | .undefined => [.undefined]

/-- What the specification has `reserveSpace` make of the attempts: with rows
in the table only the first attempt counts, and its failure gives -2 and
`mrows = 0`; without rows the last attempt made counts, and its failure gives
-1. An attempt with undefined behaviour leaves nothing to return. -/
def scheduled (t : tafel) (outs : List reserved) : Option reservation :=
  if t.mrows > 0 then
    match outs.head? with
    | some (.returned ret cols deleted) =>
      some { ret := ret, table := { t with colorder := cols }, deleted := deleted }
    | some (.thrown cols deleted) =>
      some { ret := -2, table := { colorder := cols, mrows := 0 }, deleted := deleted }
    | _ => none
  else
    match outs.getLast? with
    | some (.returned ret cols deleted) =>
      some { ret := ret, table := { t with colorder := cols }, deleted := deleted }
    | some (.thrown cols deleted) =>
      some { ret := -1, table := { t with colorder := cols }, deleted := deleted }
    | _ => none

end tafel

/-! ## clear, and the column writers from their first statement -/

namespace tafel

/-- The function `ibis::tafel::clear`: the columns are deleted, `colorder` and
`cols` are emptied and `mrows` is set to 0. -/
def clear (_t : tafel) : tafel :=
  { colorder := [], mrows := 0 }

/-- The template `ibis::tafel::writeColumn` from its first statement: `seeks`
tells whether `UnixSeek(fdes, 0, SEEK_END)` returns a position. When it
returns a negative value the function returns -3 (lines 1357-1363) and has
touched neither the file nor the mask. -/
def writeColumnCall (seeks : Bool) (elem : Nat) (f : descriptor) (nold nnew : Nat)
    (vals : List Value) (fill : Value) (totmask newmask : bitvector) :
    descriptor × bitvector × Int :=
  if !seeks then (f, totmask, -3)
  else writeColumn elem f nold nnew vals fill totmask newmask

/-- The function `ibis::tafel::writeString` from its first statement: `seeks`
tells whether `UnixSeek(fdes, 0, SEEK_END)` returns a position. When it
returns a negative value the function returns -3 (lines 1406-1412) and has
touched neither the file nor the mask. -/
def writeStringCall (seeks : Bool) (f : descriptor) (nold nnew : Nat) (vals : List Value)
    (totmask newmask : bitvector) : descriptor × bitvector × Int :=
  if !seeks then (f, totmask, -3)
  else writeString f nold nnew vals totmask newmask

end tafel

/-! ## Observations on a schema declaration -/

namespace tablex

/-- The text up to the first place where a comment starts: the first `#`, or
the first `-` that is followed by another `-`. -/
def stripComment : List Char → List Char
  | [] => []
  | c :: s => if atComment (c :: s) then [] else c :: stripComment s

end tablex

/-! ## appendRows -/

namespace tafel

/-- The twelve types in the order in which `appendRows` calls `locate` and
`locateString` for them, which is the order of the blocks of its loop. -/
def blockTypes : List TYPE_T :=
  [.BYTE, .UBYTE, .SHORT, .USHORT, .INT, .UINT, .LONG, .ULONG, .FLOAT, .DOUBLE, .CATEGORY, .TEXT]

/-- The calls of `locate` and `locateString` at the head of `appendRows`
(lines 765-800): for each type the vectors of pointers `buf` and `msk`. -/
def locateAll (cols : List column) : List (List (Option Nat) × List (Option Nat)) :=
  blockTypes.map fun ty => (locate ty cols, locate ty cols)

/-- The blocks of one pass through the loop of `appendRows` (lines 809-859),
each with the vectors of pointers of its type: for a type with values in the
row, `cnt += values.size()` and the row-append template, which works on the
vectors and may change them. The result holds the columns, `cnt` and the
vectors as the pass leaves them; `none` is undefined behaviour. -/
def rowBlocks :
    List ((Bool × TYPE_T × List String × List Value) × (List (Option Nat) × List (Option Nat))) →
      List column → Nat →
      Option (List column × Nat × List (List (Option Nat) × List (Option Nat)))
  | [], cols, cnt => some (cols, cnt, [])
  | (f, p) :: rest, cols, cnt =>
    if f.2.2.2.length > 0 then
      match appendToRow f.1 f.2.1 f.2.2.1 f.2.2.2 { cols := cols, buf := p.1, msk := p.2 } with
      | none => none
      | some s =>
        match rowBlocks rest s.cols (cnt + f.2.2.2.length) with
        | none => none
        | some r => some (r.1, r.2.1, (s.buf, s.msk) :: r.2.2)
    else
      match rowBlocks rest cols cnt with
      | none => none
      | some r => some (r.1, r.2.1, p :: r.2.2)

/-- The loop of `appendRows` over the rows (lines 805-866), with `cnt` as the
row before left it, `jnew`, and the vectors of pointers, which are set up once
before the loop and are carried from row to row: `normalize` is called when
the row before pushed fewer values than there are columns, and `mrows` and
`jnew` grow by one when the row holds a value. -/
def appendRowsLoop :
    List row → tafel → Nat → Int → List (List (Option Nat) × List (Option Nat)) →
      Option (tafel × Int)
  | [], t, _, jnew, _ => some (t, jnew)
  | r :: rs, t, cnt, jnew, ptrs =>
    let t := if cnt < t.cols.length then normalize t else t
    match rowBlocks (r.fields.zip ptrs) t.colorder 0 with
    | none => none
    | some res =>
      if res.2.1 > 0 then
        appendRowsLoop rs { colorder := res.1, mrows := t.mrows + 1 } res.2.1 (jnew + 1) res.2.2
      else appendRowsLoop rs { colorder := res.1, mrows := t.mrows } res.2.1 jnew res.2.2

/-- The function `ibis::tafel::appendRows(rs)`: the table after the call and
the return value, or `none` where the source has no defined behaviour. -/
def appendRows (t : tafel) (rs : List row) : Option (tafel × Int) :=
  if rs = [] then some (t, 0)
  else appendRowsLoop rs t 0 0 (locateAll t.colorder)

/-- The rows appended one after the other, each by a call of
`appendRow(row)`. -/
def appendRowEach : tafel → List row → Option tafel
  | t, [] => some t
  | t, r :: rs => (appendRow t r).bind fun res => appendRowEach res.1 rs

/-- The declaration of a column: its name and its type. -/
def decl (c : column) : String × TYPE_T :=
  (c.name, c.type)

/-- The first loop of the row-append templates for names that are all given:
each value goes, with a set bit, to the column `cols.find(nm)` points to, and
a value whose name is not found goes nowhere. -/
def pushNamed : List String → List Value → List column → List column
  | nm :: nms, va :: vas, cols => pushNamed nms vas (pushAt cols (some (findAt cols nm)) va)
  | _, _, cols => cols

/-- The names of the columns of type `ty`, in declaration order. -/
def namesOfType (ty : TYPE_T) (cols : List column) : List String :=
  (cols.filter fun c => decide (c.type = ty)).map column.name

end tafel

/-! ## Tables and partitions used in the examples -/

namespace example_data

/-- A freshly declared table with the single column `a:byte`. -/
def freshTable : tafel :=
  { colorder := [{ name := "a", type := .BYTE, desc := "a", indexSpec := "", values := [],
                   mask := [] }],
    mrows := 0 }

/-- The column `a:byte` holding three values, with its bitmap cleared: the
state `append("a", 0, 3, ..)` followed by `reserveSpace(10)` leaves, since
`doReserve` clears every bitmap and keeps the values. -/
def shortMaskTable : tafel :=
  { colorder := [{ name := "a", type := .BYTE, desc := "a", indexSpec := "",
                   values := [.int 1, .int 2, .int 3], mask := [] }],
    mrows := 3 }

/-- One staged row of the column `x:float`. -/
def floatTable : tafel :=
  { colorder := [{ name := "x", type := .FLOAT, desc := "x", indexSpec := "",
                   values := [.flt 0], mask := [true] }],
    mrows := 1 }

/-- The column `x:float` declared, no row staged. -/
def floatTableNoRows : tafel :=
  { colorder := [{ name := "x", type := .FLOAT, desc := "x", indexSpec := "", values := [],
                   mask := [] }],
    mrows := 0 }

/-- An existing partition of five rows with the column `x:int`. -/
def intPart : part :=
  { nRows := 5, columns := [("x", .INT)], name := "p", description := "p", indexSpec := none }

/-- Readers that find the integer `v` at the end of the line, whatever the
line. -/
def intReaders (v : Int) : readers :=
  { readInt := fun _ _ => (0, v, [])
    readDouble := fun _ _ => (-1, 0, [])
    getString := fun _ _ => ("", [])
    toFloat := fun b => b }

/-- An empty column `n` of the given type. -/
def emptyColumn (ty : TYPE_T) : column :=
  { name := "n", type := ty, desc := "n", indexSpec := "", values := [], mask := [] }

/-- The columns `a:int`, `s:text`, `b:int`, declared in this order, no row
staged. -/
def mixedTable : tafel :=
  { colorder := [{ name := "a", type := .INT, desc := "a", indexSpec := "", values := [],
                   mask := [] },
                 { name := "s", type := .TEXT, desc := "s", indexSpec := "", values := [],
                   mask := [] },
                 { name := "b", type := .INT, desc := "b", indexSpec := "", values := [],
                   mask := [] }],
    mrows := 0 }

/-- A row for `mixedTable` that names none of its three values. -/
def mixedRow : row :=
  { intsnames := ["", ""], intsvalues := [.int 1, .int 2],
    textsnames := [""], textsvalues := [.str "x"] }

/-- The column `a:int`, no row staged. -/
def intTable : tafel :=
  { colorder := [{ name := "a", type := .INT, desc := "a", indexSpec := "", values := [],
                   mask := [] }],
    mrows := 0 }

/-- A row whose single value is for a column `b`, which `intTable` lacks. -/
def strayRow : row :=
  { intsnames := ["b"], intsvalues := [.int 5] }

/-- The column `a:byte` after `append("a", 0, 3, [1, 2, 3])` on the fresh
table. -/
def chunkTable : tafel :=
  { colorder := [{ name := "a", type := .BYTE, desc := "a", indexSpec := "",
                   values := [.int 1, .int 2, .int 3], mask := [true, true, true] }],
    mrows := 3 }

/-- Two columns, `a:byte` with three rows and `b:int` with none. -/
def twoColumnTable : tafel :=
  { colorder := [{ name := "a", type := .BYTE, desc := "a", indexSpec := "",
                   values := [.int 1, .int 2, .int 3], mask := [true, true, true] },
                 { name := "b", type := .INT, desc := "b", indexSpec := "", values := [],
                   mask := [] }],
    mrows := 3 }

/-- A Unix directory without files, in which every file can be opened, and a
registry without entries. -/
def plainWorld : world :=
  { dirsep := '/', currtime := 0, stamp := "now", gParameters := fun _ => none,
    mdOpens := fun _ => true, opens := fun _ => true, oappend := true, files := fun _ => none,
    maskBytes := fun m => m.map fun b => if b then 1 else 0,
    bytesMask := fun l => l.map fun b => b != 0 }

/-- A partition reader that finds no partition in any directory. -/
def noPartition : String → part :=
  fun _ => { nRows := 0, columns := [], name := "", description := "", indexSpec := none }

/-- The columns `b:byte` and `a:byte`, declared in this order, with one row:
`addColumn("b", BYTE)`, `addColumn("a", BYTE)`, `append("b", 0, 1, [2])` and
`append("a", 0, 1, [1])` on the empty table. -/
def reversedTable : tafel :=
  let t : tafel := { colorder := [], mrows := 0 }
  let t := (t.addColumn (some "b") .BYTE none none).1
  let t := (t.addColumn (some "a") .BYTE none none).1
  let t := (t.append (some "b") 0 1 (some [.int 2])).1
  (t.append (some "a") 0 1 (some [.int 1])).1

/-- A heap on which every buffer has room for three elements and no
allocation fails. -/
def plainHeap : heap :=
  { capacity := fun _ _ => 3, throws := fun _ _ => false, fresh := fun _ _ => [] }

/-- A typed row holding one value of type `int`, under no name. -/
def shortRow : row :=
  { intsnames := [""], intsvalues := [.int 1] }

/-- The column `a:int` with two values, no bit and no declared row. -/
def longValuesTable : tafel :=
  { colorder := [{ name := "a", type := .INT, desc := "a", indexSpec := "",
                   values := [.int 1, .int 2], mask := [] }],
    mrows := 0 }

/-- The columns `a:byte` and `b:byte` with three valid rows each. -/
def twoFullTable : tafel :=
  { colorder := [{ name := "a", type := .BYTE, desc := "a", indexSpec := "",
                   values := [.int 1, .int 2, .int 3], mask := [true, true, true] },
                 { name := "b", type := .BYTE, desc := "b", indexSpec := "",
                   values := [.int 4, .int 5, .int 6], mask := [true, true, true] }],
    mrows := 3 }

/-- A heap on which every buffer has room for three elements and every
allocation for the column `a` fails. -/
def failingHeap : heap :=
  { capacity := fun _ _ => 3, throws := fun _ n => n == "a", fresh := fun _ _ => [] }

/-- A heap on which every buffer has room for twenty elements and no
allocation fails. -/
def roomyHeap : heap :=
  { capacity := fun _ _ => 20, throws := fun _ _ => false, fresh := fun _ _ => [] }

/-- The column `s:text` declared, no row staged. -/
def textTable : tafel :=
  { colorder := [{ name := "s", type := .TEXT, desc := "s", indexSpec := "", values := [],
                   mask := [] }],
    mrows := 0 }

/-- The decimal digits at the head of a line, added to the number `acc` read
so far, and the rest of the line. -/
def readDigits : List Char → Nat → Nat × List Char
  | [], acc => (acc, [])
  | c :: s, acc => if isdigit c then readDigits s (10 * acc + (c.toNat - 48)) else (acc, c :: s)

/-- Modelled from the spec: the shared scalar reader for integers,
`ibis::util::readInt`, which is outside the source. It passes over leading
space, reads an optional sign and decimal digits into a 64-bit integer, and
leaves the line at the first character after the digits, so that a delimiter
that follows is still to be passed over by the caller. It returns 0, or a
negative code when there is no digit or the number does not fit 64 bits. -/
def tokenInt (str _del : List Char) : Int × Int × List Char :=
  let s := str.dropWhile isspace
  let neg := s.head? = some '-'
  let s1 := if s.head? = some '-' ∨ s.head? = some '+' then s.tail else s
  match s1 with
  | [] => (-1, 0, s)
  | c :: _ =>
    if isdigit c then
      let r := readDigits s1 0
      let v : Int := if neg then -(r.1 : Int) else (r.1 : Int)
      if toSigned 64 v = v then (0, v, r.2) else (-2, 0, r.2)
    else (-1, 0, s)

/-- Modelled from the spec: the shared reader for strings,
`ibis::util::getString`, which is outside the source. It passes over leading
space, takes the characters up to the next delimiter, and leaves the line at
that delimiter. -/
def tokenString (str del : List Char) : String × List Char :=
  let s := str.dropWhile isspace
  (String.mk (s.takeWhile fun c => c ∉ del), s.dropWhile fun c => c ∉ del)

/-- Modelled from the spec: the readers of integers and strings, each of which
takes one token and leaves the line at the delimiter after it; they read no
floating-point number. -/
def tokenReaders : readers :=
  { readInt := tokenInt
    readDouble := fun s _ => (-1, 0, s)
    getString := tokenString
    toFloat := fun b => b }

/-- The columns `id:int`, `name:text` declared by `addColumn`, no row
staged. -/
def idNameTable : tafel :=
  ((tafel.addColumn { colorder := [], mrows := 0 } (some "id") .INT none none).1.addColumn
    (some "name") .TEXT none none).1

/-- The columns `b:byte`, `s:text` declared by `addColumn`, no row staged. -/
def byteTextTable : tafel :=
  ((tafel.addColumn { colorder := [], mrows := 0 } (some "b") .BYTE none none).1.addColumn
    (some "s") .TEXT none none).1

/-- The columns `n:uint`, `s:text` declared by `addColumn`, no row staged. -/
def uintTextTable : tafel :=
  ((tafel.addColumn { colorder := [], mrows := 0 } (some "n") .UINT none none).1.addColumn
    (some "s") .TEXT none none).1

/-- The columns `a:int`, `s:text`, `b:int` with one aligned row. -/
def oneRowTable : tafel :=
  { colorder := [column.mk "a" .INT "a" "" [.int 1] [true],
                 column.mk "s" .TEXT "s" "" [.str "x"] [true],
                 column.mk "b" .INT "b" "" [.int 2] [false]],
    mrows := 1 }

/-- A typed row with two unnamed values of type `int` and one of type
`text`. -/
def fullRow : row :=
  { intsnames := ["", ""], intsvalues := [.int 7, .int 8], textsvalues := [.str "y"] }

/-- A heap on which every buffer has room for three elements and the
allocations of the first two calls of `doReserve` fail. -/
def twiceFailingHeap : heap :=
  { capacity := fun _ _ => 3, throws := fun k _ => decide (k < 2), fresh := fun _ _ => [] }

/-- A heap on which every buffer has room for three elements and every
allocation fails. -/
def exhaustedHeap : heap :=
  { capacity := fun _ _ => 3, throws := fun _ _ => true, fresh := fun _ _ => [] }

/-- A heap on which every buffer has room for twenty elements and the
allocations of the first call of `doReserve` fail. -/
def roomyFailingHeap : heap :=
  { capacity := fun _ _ => 20, throws := fun k _ => decide (k = 0), fresh := fun _ _ => [] }

/-- The columns `a:int`, `b:int` declared by `addColumn`, no row staged. -/
def twoIntTable : tafel :=
  ((tafel.addColumn { colorder := [], mrows := 0 } (some "a") .INT none none).1.addColumn
    (some "b") .INT none none).1

/-- A typed row that names the column `b` for its first value of type `int`
and the column `a` for its second. -/
def swappedRow : row :=
  { intsnames := ["b", "a"], intsvalues := [.int 1, .int 2] }

/-- A typed row with two unnamed values of type `int`. -/
def plainRow : row :=
  { intsnames := ["", ""], intsvalues := [.int 3, .int 4] }

end example_data

end ibis

/-! # Theorems -/

namespace ibis

/-! ## The bitmap operations -/

theorem bitvector.adjustSize_length (m : bitvector) (nv nt : Nat) :
    (bitvector.adjustSize m nv nt).length = nt := by
  unfold bitvector.adjustSize
  simp only
  have := Nat.min_le_right nv nt
  split_ifs <;> simp only [List.length_append, List.length_replicate, List.length_take] at * <;>
    omega

/-- With nothing taken as populated, `adjustSize` extends with zeros or
truncates. -/
theorem bitvector.adjustSize_zero (m : bitvector) (nt : Nat) :
    bitvector.adjustSize m 0 nt =
      if m.length < nt then m ++ List.replicate (nt - m.length) false else m.take nt := by
  unfold bitvector.adjustSize
  simp

/-- A bitmap that reaches the populated prefix is extended with zeros or
truncated. -/
theorem bitvector.adjustSize_of_le (m : bitvector) (nv nt : Nat) (h : nv ≤ m.length) :
    bitvector.adjustSize m nv nt =
      if m.length < nt then m ++ List.replicate (nt - m.length) false else m.take nt := by
  unfold bitvector.adjustSize
  have h1 : ¬ m.length < min nv nt := by
    have := Nat.min_le_left nv nt
    omega
  simp only [h1, if_false]

namespace tafel

/-! ## normalize -/

/-- The first loop never lowers the running row count, and the row count it
leaves covers the column it looked at. -/
theorem normalizeScan_bounds (acc : Nat × Bool) (c : column) :
    acc.1 ≤ (normalizeScan acc c).1 ∧
      (c.type ≠ .UNKNOWN_TYPE → c.values.length ≤ (normalizeScan acc c).1) ∧
      c.mask.length ≤ (normalizeScan acc c).1 := by
  unfold normalizeScan
  simp only []
  split_ifs <;> simp_all <;> omega

/-- The flag stays clear only when the column already has `mrows` values and
no more than `mrows` bits, and then the scan changes nothing. -/
theorem normalizeScan_clear (acc : Nat × Bool) (c : column)
    (h : (normalizeScan acc c).2 = false) :
    normalizeScan acc c = acc ∧
      (c.type ≠ .UNKNOWN_TYPE → c.values.length = acc.1) ∧ c.mask.length ≤ acc.1 := by
  unfold normalizeScan at h ⊢
  simp only [] at h ⊢
  split_ifs at h ⊢ <;> simp_all
  all_goals omega

/-- A column that already has `mrows` values and no more than `mrows` bits
passes the first loop unnoticed. -/
theorem normalizeScan_aligned (acc : Nat × Bool) (c : column)
    (hv : c.type ≠ .UNKNOWN_TYPE → c.values.length = acc.1) (hm : c.mask.length ≤ acc.1) :
    normalizeScan acc c = acc := by
  unfold normalizeScan
  simp only []
  split_ifs <;> (try simp_all) <;> (try omega)

/-- Once raised, the flag of the first loop stays raised. -/
theorem normalizeScan_flag (acc : Nat × Bool) (c : column) (h : acc.2 = true) :
    (normalizeScan acc c).2 = true := by
  unfold normalizeScan
  simp only []
  split_ifs <;> simp_all

theorem foldl_normalizeScan_flag (l : List column) (acc : Nat × Bool) (h : acc.2 = true) :
    (l.foldl normalizeScan acc).2 = true := by
  induction l generalizing acc with
  | nil => simpa using h
  | cons c l ih => exact ih _ (normalizeScan_flag acc c h)

/-- The row count the first loop ends with covers the starting row count and
every column. -/
theorem foldl_normalizeScan_bounds (l : List column) (acc : Nat × Bool) :
    acc.1 ≤ (l.foldl normalizeScan acc).1 ∧
      ∀ c ∈ l, (c.type ≠ .UNKNOWN_TYPE → c.values.length ≤ (l.foldl normalizeScan acc).1) ∧
        c.mask.length ≤ (l.foldl normalizeScan acc).1 := by
  induction l generalizing acc with
  | nil => simp
  | cons c l ih =>
    have hc := normalizeScan_bounds acc c
    have hl := ih (normalizeScan acc c)
    refine ⟨le_trans hc.1 hl.1, ?_⟩
    intro d hd
    rcases List.mem_cons.1 hd with rfl | hd
    · exact ⟨fun hk => le_trans (hc.2.1 hk) hl.1, le_trans hc.2.2 hl.1⟩
    · exact hl.2 d hd

/-- When the first loop ends with the flag clear, it changed nothing and
every column was aligned with `mrows`. -/
theorem foldl_normalizeScan_clear (l : List column) (acc : Nat × Bool)
    (h : (l.foldl normalizeScan acc).2 = false) :
    l.foldl normalizeScan acc = acc ∧
      ∀ c ∈ l, (c.type ≠ .UNKNOWN_TYPE → c.values.length = acc.1) ∧ c.mask.length ≤ acc.1 := by
  induction l generalizing acc with
  | nil => simp
  | cons c l ih =>
    have hl := ih (normalizeScan acc c) h
    have h2 : (normalizeScan acc c).2 = false := by
      rw [List.foldl_cons, hl.1] at h
      exact h
    have hc := normalizeScan_clear acc c h2
    refine ⟨by rw [List.foldl_cons, hl.1, hc.1], ?_⟩
    intro d hd
    rcases List.mem_cons.1 hd with rfl | hd
    · exact hc.2
    · have := hl.2 d hd
      rwa [hc.1] at this

/-- Aligned columns leave the first loop where it started. -/
theorem foldl_normalizeScan_aligned (l : List column) (acc : Nat × Bool)
    (h : ∀ c ∈ l, (c.type ≠ .UNKNOWN_TYPE → c.values.length = acc.1) ∧ c.mask.length ≤ acc.1) :
    l.foldl normalizeScan acc = acc := by
  induction l generalizing acc with
  | nil => rfl
  | cons c l ih =>
    have hc := normalizeScan_aligned acc c (h c (List.mem_cons_self _ _)).1
      (h c (List.mem_cons_self _ _)).2
    rw [List.foldl_cons, hc]
    exact ih acc (fun d hd => h d (List.mem_cons_of_mem _ hd))

theorem mem_cols (t : tafel) (c : column) : c ∈ t.cols ↔ c ∈ t.colorder := by
  unfold cols
  exact List.mem_insertionSort nameLe

/-- The second loop leaves a column that has a buffer with `mrows` values and
`mrows` bits, provided it had no more than `mrows` values. -/
theorem normalizeAdjust_lengths (m : Nat) (c : column) (hk : c.type ≠ .UNKNOWN_TYPE) :
    (normalizeAdjust m c).values.length = m ∧ (normalizeAdjust m c).mask.length = m := by
  unfold normalizeAdjust
  rw [if_neg hk]
  split_ifs <;> simp [bitvector.adjustSize_length] <;> omega

theorem normalizeAdjust_type (m : Nat) (c : column) : (normalizeAdjust m c).type = c.type := by
  unfold normalizeAdjust
  split_ifs <;> rfl

theorem normalizeAdjust_unknown (m : Nat) (c : column) (hk : c.type = .UNKNOWN_TYPE) :
    normalizeAdjust m c = c := by
  unfold normalizeAdjust
  simp [hk]

/-- When the second loop of `normalize` runs, it leaves every column that has
a buffer with exactly `mrows` values and `mrows` bits. -/
theorem normalize_aligned_of_flag (t : tafel)
    (hflag : (t.cols.foldl normalizeScan (t.mrows, false)).2 = true) :
    ∀ c ∈ (normalize t).colorder, c.type ≠ .UNKNOWN_TYPE →
      c.values.length = (normalize t).mrows ∧ c.mask.length = (normalize t).mrows := by
  intro c hc hk
  unfold normalize at hc ⊢
  by_cases he : t.cols.isEmpty = true
  · rw [List.isEmpty_iff] at he
    rw [he] at hflag
    simp at hflag
  · simp only [he, hflag] at hc ⊢
    simp only [Bool.false_eq_true, if_false, Bool.not_true, List.mem_map] at hc ⊢
    obtain ⟨d, _, rfl⟩ := hc
    rw [normalizeAdjust_type] at hk
    exact normalizeAdjust_lengths _ d hk

/-- After `normalize` every column that has a buffer holds exactly `mrows`
values and at most `mrows` bits. -/
theorem normalize_values_aligned (t : tafel) :
    ∀ c ∈ (normalize t).colorder, c.type ≠ .UNKNOWN_TYPE →
      c.values.length = (normalize t).mrows ∧ c.mask.length ≤ (normalize t).mrows := by
  intro c hc hk
  cases hflag : (t.cols.foldl normalizeScan (t.mrows, false)).2 with
  | true =>
    have := normalize_aligned_of_flag t hflag c hc hk
    exact ⟨this.1, le_of_eq this.2⟩
  | false =>
    have hclear := foldl_normalizeScan_clear _ _ hflag
    have h1 : normalize t = t := by
      unfold normalize
      simp [hflag, hclear.1]
    rw [h1] at hc ⊢
    have := hclear.2 c ((mem_cols t c).2 hc)
    exact ⟨this.1 hk, this.2⟩

/-- C3. Calling `normalize` twice leaves exactly the state a single call
leaves: all value buffers, all presence bitmaps and `mrows`. -/
theorem normalize_idempotent (t : tafel) : normalize (normalize t) = normalize t := by
  by_cases he : t.cols.isEmpty = true
  · have h1 : normalize t = t := by
      unfold normalize
      simp [he]
    rw [h1, h1]
  · cases hflag : (t.cols.foldl normalizeScan (t.mrows, false)).2 with
    | false =>
      have hfix := (foldl_normalizeScan_clear _ _ hflag).1
      have h1 : normalize t = t := by
        unfold normalize
        simp [he, hflag, hfix]
      rw [h1, h1]
    | true =>
      have hb := foldl_normalizeScan_bounds t.cols (t.mrows, false)
      have h1 : normalize t =
          { colorder := t.colorder.map
              (normalizeAdjust (t.cols.foldl normalizeScan (t.mrows, false)).1),
            mrows := (t.cols.foldl normalizeScan (t.mrows, false)).1 } := by
        unfold normalize
        simp [he, hflag]
      have hal : ∀ c ∈ (normalize t).cols,
          (c.type ≠ .UNKNOWN_TYPE → c.values.length = ((normalize t).mrows, false).1) ∧
            c.mask.length ≤ ((normalize t).mrows, false).1 := by
        intro c hc
        rw [mem_cols] at hc
        by_cases hk : c.type = .UNKNOWN_TYPE
        · refine ⟨fun h => absurd hk h, ?_⟩
          rw [h1] at hc ⊢
          simp only [List.mem_map] at hc
          obtain ⟨d, hd, rfl⟩ := hc
          rw [normalizeAdjust_type] at hk
          rw [normalizeAdjust_unknown _ d hk]
          exact (hb.2 d ((mem_cols t d).2 hd)).2
        · have := normalize_aligned_of_flag t hflag c hc hk
          exact ⟨fun _ => this.1, le_of_eq this.2⟩
      have hfix := foldl_normalizeScan_aligned _ _ hal
      generalize normalize t = u at hfix ⊢
      unfold normalize
      rw [hfix]
      simp

/-! ## Chunk append -/

theorem union_replicate_false (n : Nat) (m : bitvector) (h : n ≤ m.length) :
    bitvector.union (List.replicate n false) m = m := by
  induction n generalizing m with
  | zero => cases m <;> rfl
  | succ n ih =>
    cases m with
    | nil => simp at h
    | cons b m =>
      simp only [List.replicate_succ, bitvector.union, Bool.false_or]
      rw [ih m (by simpa using h)]

theorem resize_replicate (b e : Nat) (fill zero : Value) (hbe : b < e) :
    resize (List.replicate b fill) e zero = List.replicate b fill ++ List.replicate (e - b) zero := by
  unfold resize
  rw [List.take_of_length_le (by simp; omega)]
  simp

theorem copyInto_tail (v : List Value) (n : Nat) (pre suf : List Value)
    (hv : v.length = n) (hs : suf.length = n) :
    copyInto v n (pre ++ suf) pre.length = pre ++ v := by
  unfold copyInto
  rw [List.take_left, List.take_of_length_le (by omega), List.drop_of_length_le (by simp; omega)]
  simp

theorem appendValues_fresh (v : List Value) (b e : Nat) (fill zero : Value)
    (hbe : b < e) (hv : v.length = e - b) :
    appendValues v b e [] fill zero [] =
      (List.replicate b fill ++ v, List.replicate b false ++ List.replicate (e - b) true) := by
  unfold appendValues
  have h1 : ¬ ([] : List Value).length > e := by simp
  have hlen : (if ([] : List Value).length < b then
      ([] : List Value) ++ List.replicate (b - ([] : List Value).length) fill else []) =
      List.replicate b fill := by
    by_cases hb : 0 < b
    · simp [hb]
    · have : b = 0 := by omega
      subst this
      simp
  simp only [h1, if_false, hlen, List.length_replicate, hbe, decide_True, if_true]
  rw [resize_replicate b e fill zero hbe]
  have hc := copyInto_tail v (e - b) (List.replicate b fill) (List.replicate (e - b) zero) hv
    (by simp)
  rw [List.length_replicate] at hc
  rw [hc]
  rw [bitvector.adjustSize_zero]
  unfold bitvector.appendFill
  have h2 : 0 < e := by omega
  simp only [List.length_nil, h2, if_true, List.nil_append, Nat.sub_zero]
  rw [union_replicate_false e _ (by simp; omega)]

theorem appendString_fresh (v : List Value) (b e : Nat) (hbe : b < e) (hv : v.length = e - b) :
    appendString v b e [] [] =
      (List.replicate b (.str "") ++ v,
        List.replicate b false ++ List.replicate (e - b) true) := by
  unfold appendString
  have hlen : (if ([] : List Value).length < b then
      ([] : List Value) ++ List.replicate (b - ([] : List Value).length) (Value.str "") else []) =
      List.replicate b (Value.str "") := by
    by_cases hb : 0 < b
    · simp [hb]
    · have : b = 0 := by omega
      subst this
      simp
  have h1 : ¬ b > e := by omega
  simp only [hlen, List.length_replicate, h1, if_false, hbe, decide_True, if_true]
  rw [resize_replicate b e _ _ hbe]
  have hc := copyInto_tail v (e - b) (List.replicate b (Value.str ""))
    (List.replicate (e - b) (Value.str "")) hv (by simp)
  rw [List.length_replicate] at hc
  rw [hc]
  rw [bitvector.adjustSize_zero]
  unfold bitvector.appendFill
  have h2 : 0 < e := by omega
  simp only [List.length_nil, h2, if_true, List.nil_append, Nat.sub_zero]
  rw [union_replicate_false e _ (by simp; omega)]

theorem appendColumn_name (v : List Value) (b e : Nat) (c : column) :
    (appendColumn v b e c).name = c.name := by
  unfold appendColumn
  split_ifs <;> rfl

/-- The switch of `append` on a column without values and bits: the buffer
is the filler up to `b` followed by the chunk, the bitmap is `b` zeros
followed by `e - b` ones. -/
theorem appendColumn_fresh (v : List Value) (b e : Nat) (c : column)
    (hk : c.type ≠ .UNKNOWN_TYPE) (hvals : c.values = []) (hmask : c.mask = [])
    (hbe : b < e) (hv : v.length = e - b) :
    (appendColumn v b e c).values = List.replicate b (fillValue c.type) ++ v ∧
      (appendColumn v b e c).mask = List.replicate b false ++ List.replicate (e - b) true := by
  unfold appendColumn
  rw [hvals, hmask, if_neg hk]
  split_ifs with h
  · simp only [appendString_fresh v b e hbe hv]
    rcases h with h | h <;> simp [h, fillValue]
  · simp only [appendValues_fresh v b e _ _ hbe hv]
    simp

theorem find_modifyColumn (l : List column) (m : Nat) (cn : String) (f : column → column)
    (c : column) (hf : ∀ d, (f d).name = d.name)
    (h : find { colorder := l, mrows := m } cn = some c) (m2 : Nat) :
    find { colorder := modifyColumn cn f l, mrows := m2 } cn = some (f c) := by
  unfold find at h ⊢
  simp only at h ⊢
  induction l with
  | nil => simp at h
  | cons d l ih =>
    unfold modifyColumn
    by_cases hd : (nameKey d.name == nameKey cn) = true
    · have hd2 : (nameKey (f d).name == nameKey cn) = true := by rw [hf]; exact hd
      simp only [hd, if_true, List.find?_cons, hd2, Option.some.injEq] at h ⊢
      rw [h]
    · simp only [hd, List.find?_cons] at h ⊢
      simp only [Bool.false_eq_true, if_false, List.find?_cons, hd]
      exact ih h

/-- The bits of `b` zeros followed by `e - b` ones: bit `i` is set exactly
when `b ≤ i < e`. -/
theorem chunk_mask_bit (b e i : Nat) (hbe : b < e) :
    (List.replicate b false ++ List.replicate (e - b) true)[i]? = some true ↔ b ≤ i ∧ i < e := by
  by_cases hi : i < b
  · rw [List.getElem?_append_left (by simpa using hi)]
    simp only [List.getElem?_replicate, hi, if_true, Option.some.injEq, Bool.false_eq_true,
      false_iff]
    omega
  · rw [List.getElem?_append_right (by simpa using hi)]
    simp only [List.length_replicate, List.getElem?_replicate]
    by_cases h2 : i < e
    · have h3 : i - b < e - b := by omega
      simp only [h3, if_true, true_iff]
      omega
    · have h3 : ¬ i - b < e - b := by omega
      simp only [h3, if_false]
      constructor
      · intro h
        cases h
      · intro h
        omega

/-- C2. A chunk `append(name, b, e, v)` with `b < e < 2^32` on a freshly
declared table (the column exists, every buffer and bitmap is empty, `mrows`
is 0) returns 0, sets `mrows` to `e`, and leaves the column with exactly `e`
values, of which those from `b` on are `v`, and with `e` bits, of which bit `i`
is set exactly when `b ≤ i < e`. -/
theorem append_fresh (t : tafel) (name : String) (b e : Nat) (v : List Value) (c : column)
    (hrows : t.mrows = 0) (hempty : ∀ d ∈ t.colorder, d.values = [] ∧ d.mask = [])
    (hfind : t.find name = some c) (hname : name ≠ "") (hk : c.type ≠ .UNKNOWN_TYPE)
    (hbe : b < e) (he : e < 2 ^ 32) (hv : v.length = e - b) :
    (append t (some name) b e (some v)).2 = 0 ∧
      (append t (some name) b e (some v)).1.mrows = e ∧
      ∃ c2, (append t (some name) b e (some v)).1.find name = some c2 ∧
        c2.values.length = e ∧ c2.values.drop b = v ∧ c2.mask.length = e ∧
        ∀ i, c2.mask[i]? = some true ↔ b ≤ i ∧ i < e := by
  have hb32 : b % 2 ^ 32 = b := Nat.mod_eq_of_lt (by omega)
  have he32 : e % 2 ^ 32 = e := Nat.mod_eq_of_lt he
  have hguard : ¬ (b ≠ b ∨ e ≠ e ∨ b ≥ e ∨ name = "") := by
    intro h
    rcases h with h | h | h | h
    · exact h rfl
    · exact h rfl
    · omega
    · exact hname h
  have hcmem : c ∈ t.colorder := by
    unfold find at hfind
    exact List.mem_of_find?_eq_some hfind
  have hfresh := appendColumn_fresh v b e c hk (hempty c hcmem).1 (hempty c hcmem).2 hbe hv
  have hres : append t (some name) b e (some v) =
      ({ colorder := modifyColumn name (appendColumn v b e) t.colorder,
         mrows := if e > t.mrows then e else t.mrows }, 0) := by
    unfold append
    simp only [hb32, he32, hguard, if_false, hfind]
  rw [hres]
  refine ⟨rfl, ?_, appendColumn v b e c, ?_, ?_, ?_, ?_, ?_⟩
  · simp only [hrows]
    have : e > 0 := by omega
    simp [this]
  · exact find_modifyColumn t.colorder t.mrows name _ c (appendColumn_name v b e) hfind _
  · rw [hfresh.1]
    simp
    omega
  · rw [hfresh.1]
    simp
  · rw [hfresh.2]
    simp
    omega
  · intro i
    rw [hfresh.2]
    exact chunk_mask_bit b e i hbe

/-- Witness for C2: the chunk `[5, 6]` at rows `[1, 3)` of the
fresh column `a:byte`. -/
theorem append_fresh_witness :
    (append example_data.freshTable (some "a") 1 3 (some [.int 5, .int 6])).2 = 0 ∧
      (append example_data.freshTable (some "a") 1 3 (some [.int 5, .int 6])).1.mrows = 3 ∧
      ∃ c2, (append example_data.freshTable (some "a") 1 3 (some [.int 5, .int 6])).1.find "a"
          = some c2 ∧
        c2.values.length = 3 ∧ c2.values.drop 1 = [.int 5, .int 6] ∧ c2.mask.length = 3 ∧
        ∀ i, c2.mask[i]? = some true ↔ 1 ≤ i ∧ i < 3 :=
  append_fresh example_data.freshTable "a" 1 3 [.int 5, .int 6]
    { name := "a", type := .BYTE, desc := "a", indexSpec := "", values := [], mask := [] }
    rfl (by decide) (by decide) (by decide) (by decide) (by decide) (by decide) (by decide)

/-- C1 (failing input). On the column `a:byte` with three values, an empty
bitmap and `mrows = 3`, the first loop of `normalize` raises no flag, the
call returns early and the bitmap keeps 0 bits while `mrows` is 3. -/
theorem normalize_short_mask :
    normalize example_data.shortMaskTable = example_data.shortMaskTable ∧
      (normalize example_data.shortMaskTable).mrows = 3 ∧
      (normalize example_data.shortMaskTable).colorder.map (fun c => c.values.length) = [3] ∧
      (normalize example_data.shortMaskTable).colorder.map (fun c => c.mask.length) = [0] := by
  decide

/-! ## Chunk append: return codes -/

theorem appendColumn_schema (v : List Value) (b e : Nat) (c : column) :
    (appendColumn v b e c).name = c.name ∧ (appendColumn v b e c).type = c.type ∧
      (appendColumn v b e c).desc = c.desc ∧ (appendColumn v b e c).indexSpec = c.indexSpec := by
  unfold appendColumn
  split_ifs <;> exact ⟨rfl, rfl, rfl, rfl⟩

theorem modifyColumn_length (cn : String) (f : column → column) (l : List column) :
    (modifyColumn cn f l).length = l.length := by
  induction l with
  | nil => rfl
  | cons c cs ih =>
    unfold modifyColumn
    split_ifs <;> simp [ih]

/-- A function that keeps a field of every column keeps the list of that
field over the columns. -/
theorem modifyColumn_map {β : Type} (g : column → β) (cn : String) (f : column → column)
    (hf : ∀ c, g (f c) = g c) (l : List column) :
    (modifyColumn cn f l).map g = l.map g := by
  induction l with
  | nil => rfl
  | cons c cs ih =>
    unfold modifyColumn
    split_ifs <;> simp [ih, hf]

/-- The column at a position not filed under `cn` is left as it is. -/
theorem modifyColumn_other (cn : String) (f : column → column) (l : List column) (i : Nat)
    (c : column) (hc : l[i]? = some c) (hne : nameKey c.name ≠ nameKey cn) :
    (modifyColumn cn f l)[i]? = some c := by
  induction l generalizing i with
  | nil => simp at hc
  | cons d ds ih =>
    unfold modifyColumn
    cases i with
    | zero =>
      simp only [List.getElem?_cons_zero, Option.some.injEq] at hc
      subst hc
      have : (nameKey d.name == nameKey cn) = false := by simpa using hne
      simp [this]
    | succ i =>
      simp only [List.getElem?_cons_succ] at hc
      split_ifs
      · simpa using hc
      · simpa using ih i hc

/-- The shape of a chunk `append` that gets past its two guards. -/
theorem append_ok (t : tafel) (name : String) (b e : Nat) (v : List Value)
    (hb : b < e) (he : e < 2 ^ 32) (hname : name ≠ "") (c : column)
    (hfind : t.find name = some c) :
    append t (some name) b e (some v) =
      ({ colorder := modifyColumn name (appendColumn v b e) t.colorder,
         mrows := if e > t.mrows then e else t.mrows }, 0) := by
  have hb32 : b % 2 ^ 32 = b := Nat.mod_eq_of_lt (by omega)
  have he32 : e % 2 ^ 32 = e := Nat.mod_eq_of_lt he
  have hguard : ¬ (b ≠ b ∨ e ≠ e ∨ b ≥ e ∨ name = "") := by
    intro h
    rcases h with h | h | h | h
    · exact h rfl
    · exact h rfl
    · omega
    · exact hname h
  unfold append
  simp only [hb32, he32, hguard, if_false, hfind]

/-- The guard of `append` on its arguments, in terms of `begin` and `end`. -/
theorem append_guard (b e : Nat) (name : String) :
    (b % 2 ^ 32 ≠ b ∨ e % 2 ^ 32 ≠ e ∨ b % 2 ^ 32 ≥ e % 2 ^ 32 ∨ name = "") ↔
      (b ≥ e ∨ 2 ^ 32 ≤ b ∨ 2 ^ 32 ≤ e ∨ name = "") := by
  by_cases hb : b < 2 ^ 32
  · by_cases he : e < 2 ^ 32
    · rw [Nat.mod_eq_of_lt hb, Nat.mod_eq_of_lt he]
      constructor
      · rintro (h | h | h | h)
        · exact absurd rfl h
        · exact absurd rfl h
        · exact Or.inl h
        · exact Or.inr (Or.inr (Or.inr h))
      · rintro (h | h | h | h)
        · exact Or.inr (Or.inr (Or.inl h))
        · omega
        · omega
        · exact Or.inr (Or.inr (Or.inr h))
    · have h1 : e % 2 ^ 32 ≠ e := by
        have := Nat.mod_lt e (by norm_num : 2 ^ 32 > 0)
        omega
      constructor
      · intro _
        exact Or.inr (Or.inr (Or.inl (by omega)))
      · intro _
        exact Or.inr (Or.inl h1)
  · have h1 : b % 2 ^ 32 ≠ b := by
      have := Nat.mod_lt b (by norm_num : 2 ^ 32 > 0)
      omega
    constructor
    · intro _
      exact Or.inr (Or.inl (by omega))
    · intro _
      exact Or.inl h1

/-- The return codes of a chunk `append`: -1 for invalid arguments, -2 for a
name no column is filed under, and the table unchanged in both cases. -/
theorem append_codes (t : tafel) (cn : Option String) (b e : Nat) (v : Option (List Value)) :
    ((append t cn b e v).2 = -1 ↔
      (b ≥ e ∨ 2 ^ 32 ≤ b ∨ 2 ^ 32 ≤ e ∨ cn = none ∨ cn = some "" ∨ v = none)) ∧
    ((append t cn b e v).2 ≠ -1 →
      ((append t cn b e v).2 = -2 ↔ ∃ name, cn = some name ∧ t.find name = none)) ∧
    (((append t cn b e v).2 = -1 ∨ (append t cn b e v).2 = -2) → (append t cn b e v).1 = t) := by
  cases cn with
  | none =>
    refine ⟨?_, ?_, ?_⟩
    · simp [append]
    · intro h
      exact absurd (by simp [append]) h
    · intro _
      simp [append]
  | some name =>
    cases v with
    | none =>
      refine ⟨?_, ?_, ?_⟩
      · simp [append]
      · intro h
        exact absurd (by simp [append]) h
      · intro _
        simp [append]
    | some v =>
      have hg := append_guard b e name
      by_cases hguard : (b % 2 ^ 32 ≠ b ∨ e % 2 ^ 32 ≠ e ∨ b % 2 ^ 32 ≥ e % 2 ^ 32 ∨ name = "")
      · have hres : append t (some name) b e (some v) = (t, -1) := by
          unfold append
          simp only [hguard, if_true]
        rw [hres]
        refine ⟨?_, ?_, ?_⟩
        · simp only [true_iff]
          rcases hg.1 hguard with h | h | h | h
          · exact Or.inl h
          · exact Or.inr (Or.inl h)
          · exact Or.inr (Or.inr (Or.inl h))
          · exact Or.inr (Or.inr (Or.inr (Or.inr (Or.inl (by rw [h])))))
        · intro h
          exact absurd rfl h
        · intro _
          rfl
      · have hclaim : ¬ (b ≥ e ∨ 2 ^ 32 ≤ b ∨ 2 ^ 32 ≤ e ∨ (some name : Option String) = none ∨
            some name = some "" ∨ (some v : Option (List Value)) = none) := by
          intro h
          apply hguard
          apply hg.2
          rcases h with h | h | h | h | h | h
          · exact Or.inl h
          · exact Or.inr (Or.inl h)
          · exact Or.inr (Or.inr (Or.inl h))
          · cases h
          · exact Or.inr (Or.inr (Or.inr (by simpa using h)))
          · cases h
        cases hfind : t.find name with
        | none =>
          have hres : append t (some name) b e (some v) = (t, -2) := by
            unfold append
            simp only [hguard, if_false, hfind]
          rw [hres]
          refine ⟨?_, ?_, ?_⟩
          · constructor
            · intro h
              exact absurd h (by simp)
            · intro h
              exact absurd h hclaim
          · intro _
            simp only [true_iff]
            exact ⟨name, rfl, hfind⟩
          · intro _
            rfl
        | some c =>
          have hres : append t (some name) b e (some v) =
              ({ colorder := modifyColumn name (appendColumn v (b % 2 ^ 32) (e % 2 ^ 32))
                   t.colorder,
                 mrows := if e % 2 ^ 32 > t.mrows then e % 2 ^ 32 else t.mrows }, 0) := by
            unfold append
            simp only [hguard, if_false, hfind]
          rw [hres]
          refine ⟨?_, ?_, ?_⟩
          · constructor
            · intro h
              exact absurd h (by simp)
            · intro h
              exact absurd h hclaim
          · intro _
            constructor
            · intro h
              exact absurd h (by simp)
            · rintro ⟨n, hn, hf⟩
              simp only [Option.some.injEq] at hn
              subst hn
              rw [hfind] at hf
              cases hf
          · rintro (h | h)
            · exact absurd h (by simp)
            · exact absurd h (by simp)

/-- C19. A chunk `append(name, begin, end, values)` returns -1 exactly when
`begin >= end`, or `begin` or `end` does not fit in 32 bits, or the name is
null or empty, or `values` is null; when it does not return -1, it returns -2
exactly when no column is filed under the name; and whenever it returns -1 or
-2 the table is unchanged. -/
theorem append_errors (t : tafel) (cn : Option String) (b e : Nat) (v : Option (List Value)) :
    ((append t cn b e v).2 = -1 ↔
      (b ≥ e ∨ 2 ^ 32 ≤ b ∨ 2 ^ 32 ≤ e ∨ cn = none ∨ cn = some "" ∨ v = none)) ∧
    ((append t cn b e v).2 ≠ -1 →
      ((append t cn b e v).2 = -2 ↔ ∃ name, cn = some name ∧ t.find name = none)) ∧
    (((append t cn b e v).2 = -1 ∨ (append t cn b e v).2 = -2) → (append t cn b e v).1 = t) :=
  append_codes t cn b e v

/-- Witness for C19: a chunk for the column `zz`, which the table lacks, is
not refused with -1, is refused with -2, and leaves the table alone. -/
theorem append_errors_witness :
    ((append example_data.chunkTable (some "zz") 0 1 (some [.int 1])).2 = -2 ↔
        ∃ name, some "zz" = some name ∧ example_data.chunkTable.find name = none) ∧
      (append example_data.chunkTable (some "zz") 0 1 (some [.int 1])).1 =
        example_data.chunkTable :=
  ⟨(append_errors example_data.chunkTable (some "zz") 0 1 (some [.int 1])).2.1 (by decide),
    (append_errors example_data.chunkTable (some "zz") 0 1 (some [.int 1])).2.2
      (Or.inr (by decide))⟩

/-- C20. A successful chunk `append(name, begin, end, v)` sets `mrows` to the
larger of the old `mrows` and `end`, keeps the number and order of the
columns and the name, type, description and index hint of each, and leaves
every column not filed under `name` as it was, value buffer and presence
bitmap included. -/
theorem append_frame (t : tafel) (name : String) (b e : Nat) (v : List Value)
    (h : (append t (some name) b e (some v)).2 = 0) :
    (append t (some name) b e (some v)).1.mrows = max t.mrows e ∧
      (append t (some name) b e (some v)).1.colorder.length = t.colorder.length ∧
      ((append t (some name) b e (some v)).1.colorder.map fun c => (c.name, c.type)) =
        (t.colorder.map fun c => (c.name, c.type)) ∧
      ((append t (some name) b e (some v)).1.colorder.map fun c => (c.desc, c.indexSpec)) =
        (t.colorder.map fun c => (c.desc, c.indexSpec)) ∧
      ∀ (i : Nat) (c : column), t.colorder[i]? = some c → nameKey c.name ≠ nameKey name →
        (append t (some name) b e (some v)).1.colorder[i]? = some c := by
  have herr := append_codes t (some name) b e (some v)
  have h1 : ¬ (b ≥ e ∨ 2 ^ 32 ≤ b ∨ 2 ^ 32 ≤ e ∨ (some name : Option String) = none ∨
      some name = some "" ∨ (some v : Option (List Value)) = none) := by
    intro hc
    have := herr.1.2 hc
    rw [h] at this
    exact absurd this (by decide)
  have hb : b < e := by omega
  have he : e < 2 ^ 32 := by omega
  have hname : name ≠ "" := by
    intro hn
    exact h1 (Or.inr (Or.inr (Or.inr (Or.inr (Or.inl (by rw [hn]))))))
  cases hfind : t.find name with
  | none =>
    have := (herr.2.1 (by rw [h]; decide)).2 ⟨name, rfl, hfind⟩
    rw [h] at this
    exact absurd this (by decide)
  | some c =>
    rw [append_ok t name b e v hb he hname c hfind]
    refine ⟨?_, ?_, ?_, ?_, ?_⟩
    · simp only
      split_ifs <;> omega
    · exact modifyColumn_length _ _ _
    · exact modifyColumn_map _ _ _
        (fun d => by rw [(appendColumn_schema v b e d).1, (appendColumn_schema v b e d).2.1]) _
    · exact modifyColumn_map _ _ _
        (fun d => by rw [(appendColumn_schema v b e d).2.2.1, (appendColumn_schema v b e d).2.2.2]) _
    · intro i d hd hne
      exact modifyColumn_other _ _ _ i d hd hne

/-- Witness for C20: the chunk `[7]` at row 3 of `a` in a table that also has
the column `b`. -/
theorem append_frame_witness :
    (append example_data.twoColumnTable (some "a") 3 4 (some [.int 7])).1.mrows = max 3 4 ∧
      (append example_data.twoColumnTable (some "a") 3 4 (some [.int 7])).1.colorder.length =
        example_data.twoColumnTable.colorder.length ∧
      ((append example_data.twoColumnTable (some "a") 3 4 (some [.int 7])).1.colorder.map
          fun c => (c.name, c.type)) =
        (example_data.twoColumnTable.colorder.map fun c => (c.name, c.type)) ∧
      ((append example_data.twoColumnTable (some "a") 3 4 (some [.int 7])).1.colorder.map
          fun c => (c.desc, c.indexSpec)) =
        (example_data.twoColumnTable.colorder.map fun c => (c.desc, c.indexSpec)) ∧
      ∀ (i : Nat) (c : column), example_data.twoColumnTable.colorder[i]? = some c →
        nameKey c.name ≠ nameKey "a" →
        (append example_data.twoColumnTable (some "a") 3 4 (some [.int 7])).1.colorder[i]? =
          some c :=
  append_frame example_data.twoColumnTable "a" 3 4 [.int 7] (by decide)

/-! ## Chunk append: values and bits -/

/-- Placing a chunk of `e - b` values at `b` in a buffer already padded to at
least `b` values and then grown to at least `e`. -/
theorem copyInto_grown (v : List Value) (b e : Nat) (out1 : List Value) (zero : Value)
    (hbe : b < e) (hv : v.length = e - b) (h1 : b ≤ out1.length) :
    copyInto v (e - b)
        (if decide (out1.length < e) = true then resize out1 e zero else out1) b =
      out1.take b ++ v ++ out1.drop e := by
  unfold copyInto resize
  have hv2 : v.take (e - b) = v := List.take_of_length_le (by omega)
  have hbe2 : b + (e - b) = e := by omega
  rw [hv2, hbe2]
  by_cases h3 : out1.length < e
  · simp only [h3, decide_True, if_true]
    have ht : out1.take e = out1 := List.take_of_length_le (by omega)
    rw [ht, List.take_append_of_le_length h1]
    have hd : (out1 ++ List.replicate (e - out1.length) zero).drop e = [] :=
      List.drop_of_length_le (by simp; omega)
    have hd2 : out1.drop e = [] := List.drop_of_length_le (by omega)
    rw [hd, hd2]
  · simp only [h3, decide_False, Bool.false_eq_true, if_false]

/-- The buffer a chunk append leaves, in closed form: the old values up to
`b`, filled up where they end before `b`, then the chunk, then the old values
from `e` on. -/
theorem appendValues_values (v : List Value) (b e : Nat) (out : List Value) (fill zero : Value)
    (mask : bitvector) (hbe : b < e) (hv : v.length = e - b) :
    (appendValues v b e out fill zero mask).1 =
      (out ++ List.replicate (b - out.length) fill).take b ++ v ++ out.drop e := by
  unfold appendValues
  simp only
  by_cases h1 : out.length < b
  · simp only [h1, if_true]
    rw [copyInto_grown v b e _ zero hbe hv (by simp; omega)]
    have hd : (out ++ List.replicate (b - out.length) fill).drop e = [] :=
      List.drop_of_length_le (by simp; omega)
    have hd2 : out.drop e = [] := List.drop_of_length_le (by omega)
    rw [hd, hd2]
  · simp only [h1, if_false]
    rw [copyInto_grown v b e out zero hbe hv (by omega)]
    have h0 : b - out.length = 0 := by omega
    rw [h0]
    simp

theorem appendString_values (v : List Value) (b e : Nat) (out : List Value)
    (mask : bitvector) (hbe : b < e) (hv : v.length = e - b) :
    (appendString v b e out mask).1 =
      (out ++ List.replicate (b - out.length) (Value.str "")).take b ++ v ++ out.drop e := by
  unfold appendString
  simp only
  by_cases h1 : out.length < b
  · simp only [h1, if_true]
    rw [copyInto_grown v b e _ _ hbe hv (by simp; omega)]
    have hd : (out ++ List.replicate (b - out.length) (Value.str "")).drop e = [] :=
      List.drop_of_length_le (by simp; omega)
    have hd2 : out.drop e = [] := List.drop_of_length_le (by omega)
    rw [hd, hd2]
  · simp only [h1, if_false]
    rw [copyInto_grown v b e out _ hbe hv (by omega)]
    have h0 : b - out.length = 0 := by omega
    rw [h0]
    simp

/-- The values of a column after a chunk is placed, whatever its type. -/
theorem appendColumn_values (v : List Value) (b e : Nat) (c : column)
    (hk : c.type ≠ .UNKNOWN_TYPE) (hbe : b < e) (hv : v.length = e - b) :
    (appendColumn v b e c).values =
      (c.values ++ List.replicate (b - c.values.length) (fillValue c.type)).take b ++ v ++
        c.values.drop e := by
  unfold appendColumn
  rw [if_neg hk]
  split_ifs with h
  · simp only [appendString_values v b e _ _ hbe hv]
    rcases h with h | h <;> simp [h, fillValue]
  · simp only [appendValues_values v b e _ _ _ _ hbe hv]

/-- The entries of the closed form of the buffer, position by position. -/
theorem chunk_values_get (old v : List Value) (fill : Value) (b e i : Nat)
    (hbe : b < e) (hv : v.length = e - b) :
    ((old ++ List.replicate (b - old.length) fill).take b ++ v ++ old.drop e).length =
        max old.length e ∧
      (i < min old.length b →
        ((old ++ List.replicate (b - old.length) fill).take b ++ v ++ old.drop e)[i]? = old[i]?) ∧
      (old.length ≤ i ∧ i < b →
        ((old ++ List.replicate (b - old.length) fill).take b ++ v ++ old.drop e)[i]? =
          some fill) ∧
      (b ≤ i ∧ i < e →
        ((old ++ List.replicate (b - old.length) fill).take b ++ v ++ old.drop e)[i]? =
          v[i - b]?) ∧
      (e ≤ i ∧ i < old.length →
        ((old ++ List.replicate (b - old.length) fill).take b ++ v ++ old.drop e)[i]? =
          old[i]?) := by
  have hlen1 : ((old ++ List.replicate (b - old.length) fill).take b).length = b := by
    simp; omega
  refine ⟨?_, ?_, ?_, ?_, ?_⟩
  · simp only [List.length_append, hlen1, hv, List.length_drop]
    omega
  · intro hi
    rw [List.append_assoc, List.getElem?_append_left (by omega)]
    rw [List.getElem?_take_of_lt (by omega), List.getElem?_append_left (by omega)]
  · intro hi
    rw [List.append_assoc, List.getElem?_append_left (by omega)]
    rw [List.getElem?_take_of_lt (by omega), List.getElem?_append_right (by omega)]
    rw [List.getElem?_replicate]
    have : i - old.length < b - old.length := by omega
    simp [this]
  · intro hi
    rw [List.append_assoc, List.getElem?_append_right (by omega), hlen1]
    rw [List.getElem?_append_left (by omega)]
  · intro hi
    rw [List.getElem?_append_right (by simp only [List.length_append, hlen1, hv]; omega)]
    simp only [List.length_append, hlen1, hv, List.getElem?_drop]
    congr 1
    omega

theorem union_length (l r : bitvector) :
    (bitvector.union l r).length = max l.length r.length := by
  induction l generalizing r with
  | nil => cases r <;> simp [bitvector.union]
  | cons a l ih =>
    cases r with
    | nil => simp [bitvector.union]
    | cons b r =>
      simp only [bitvector.union, List.length_cons, ih]
      omega

/-- Bit `i` of a union is the disjunction of the bits `i`, a bit beyond the
end of an operand counting as 0. -/
theorem union_getD (l r : bitvector) (i : Nat) :
    (bitvector.union l r).getD i false = (l.getD i false || r.getD i false) := by
  induction l generalizing r i with
  | nil => cases r <;> simp [bitvector.union]
  | cons a l ih =>
    cases r with
    | nil => simp [bitvector.union]
    | cons b r =>
      cases i with
      | zero => simp [bitvector.union]
      | succ i => simpa [bitvector.union] using ih r i

theorem getD_append_false (m : bitvector) (n i : Nat) :
    (m ++ List.replicate n false).getD i false = m.getD i false := by
  simp only [List.getD_eq_getElem?_getD]
  by_cases h : i < m.length
  · rw [List.getElem?_append_left h]
  · rw [List.getElem?_append_right (by omega), List.getElem?_replicate]
    have : m[i]? = none := List.getElem?_eq_none (by omega)
    rw [this]
    split_ifs <;> rfl

/-- The bits of the bitmap `inmsk` that a chunk append builds. -/
theorem inmsk_getD (b e n i : Nat) (hbe : b < e) :
    (List.replicate b false ++ List.replicate (e - b) true ++ List.replicate n false).getD i
        false = decide (b ≤ i ∧ i < e) := by
  rw [getD_append_false]
  simp only [List.getD_eq_getElem?_getD]
  by_cases h : i < b
  · rw [List.getElem?_append_left (by simpa using h), List.getElem?_replicate]
    have h2 : ¬ (b ≤ i ∧ i < e) := by omega
    simp [h, h2]
  · rw [List.getElem?_append_right (by simpa using h), List.getElem?_replicate]
    simp only [List.length_replicate]
    by_cases h3 : i < e
    · have h4 : i - b < e - b := by omega
      have h5 : b ≤ i ∧ i < e := by omega
      simp [h4, h5]
    · have h4 : ¬ i - b < e - b := by omega
      have h5 : ¬ (b ≤ i ∧ i < e) := by omega
      simp [h4, h5]

/-- The bitmap a chunk append leaves when buffer and bitmap had the same
length. -/
theorem chunk_mask (mask : bitvector) (b e : Nat) (hbe : b < e) (i : Nat) :
    (bitvector.union
        (if mask.length < e then bitvector.adjustSize mask 0 e else mask)
        (if mask.length > e then
          List.replicate b false ++ List.replicate (e - b) true ++
            List.replicate (mask.length - e) false
        else List.replicate b false ++ List.replicate (e - b) true)).length =
        max mask.length e ∧
      (bitvector.union
        (if mask.length < e then bitvector.adjustSize mask 0 e else mask)
        (if mask.length > e then
          List.replicate b false ++ List.replicate (e - b) true ++
            List.replicate (mask.length - e) false
        else List.replicate b false ++ List.replicate (e - b) true)).getD i false =
        (mask.getD i false || decide (b ≤ i ∧ i < e)) := by
  have hin : ∀ n, (if mask.length > e then
          List.replicate b false ++ List.replicate (e - b) true ++
            List.replicate (mask.length - e) false
        else List.replicate b false ++ List.replicate (e - b) true).getD n false =
        decide (b ≤ n ∧ n < e) := by
    intro n
    split_ifs
    · exact inmsk_getD b e _ n hbe
    · have := inmsk_getD b e 0 n hbe
      simpa using this
  have hm : ∀ n, (if mask.length < e then bitvector.adjustSize mask 0 e else mask).getD n false =
      mask.getD n false := by
    intro n
    split_ifs with h
    · rw [bitvector.adjustSize_zero, if_pos h, getD_append_false]
    · rfl
  refine ⟨?_, ?_⟩
  · rw [union_length]
    split_ifs <;> simp only [bitvector.adjustSize_length, List.length_append,
      List.length_replicate] <;> omega
  · rw [union_getD, hin, hm]

theorem appendValues_mask (v : List Value) (b e : Nat) (out : List Value) (fill zero : Value)
    (mask : bitvector) (hbe : b < e) (hL : mask.length = out.length) :
    (appendValues v b e out fill zero mask).2 =
      bitvector.union
        (if mask.length < e then bitvector.adjustSize mask 0 e else mask)
        (if mask.length > e then
          List.replicate b false ++ List.replicate (e - b) true ++
            List.replicate (mask.length - e) false
        else List.replicate b false ++ List.replicate (e - b) true) := by
  unfold appendValues bitvector.appendFill
  simp only [List.nil_append, hL]
  have h1 : (if out.length < b then out ++ List.replicate (b - out.length) fill else out).length < e
      ↔ out.length < e := by
    split_ifs
    · simp only [List.length_append, List.length_replicate]
      omega
    · rfl
  simp only [h1]
  by_cases h2 : out.length < e
  · simp [h2]
  · simp [h2]

theorem appendString_mask (v : List Value) (b e : Nat) (out : List Value)
    (mask : bitvector) (hbe : b < e) (hL : mask.length = out.length) :
    (appendString v b e out mask).2 =
      bitvector.union
        (if mask.length < e then bitvector.adjustSize mask 0 e else mask)
        (if mask.length > e then
          List.replicate b false ++ List.replicate (e - b) true ++
            List.replicate (mask.length - e) false
        else List.replicate b false ++ List.replicate (e - b) true) := by
  unfold appendString bitvector.appendFill
  simp only [List.nil_append, hL]
  by_cases h0 : out.length < b
  · have hlen : (out ++ List.replicate (b - out.length) (Value.str "")).length = b := by
      simp; omega
    have h1 : ¬ b > e := by omega
    have h2 : ¬ out.length > e := by omega
    have h3 : out.length < e := by omega
    simp only [h0, if_true, hlen, h1, h2, if_false, hbe, h3, decide_True]
  · simp only [h0, if_false]
    by_cases h2 : out.length < e
    · simp [h2]
    · simp [h2]

theorem appendColumn_mask (v : List Value) (b e : Nat) (c : column)
    (hk : c.type ≠ .UNKNOWN_TYPE) (hbe : b < e) (hL : c.mask.length = c.values.length) (i : Nat) :
    (appendColumn v b e c).mask.length = max c.mask.length e ∧
      (appendColumn v b e c).mask.getD i false =
        (c.mask.getD i false || decide (b ≤ i ∧ i < e)) := by
  unfold appendColumn
  rw [if_neg hk]
  split_ifs with h
  · simp only [appendString_mask v b e _ _ hbe hL]
    exact chunk_mask c.mask b e hbe i
  · simp only [appendValues_mask v b e _ _ _ _ hbe hL]
    exact chunk_mask c.mask b e hbe i

/-- C17. After a successful chunk `append(name, begin, end, v)` on a column
whose value buffer had `L` values, the buffer has `max(L, end)` values:
positions below `min(L, begin)` keep their value, positions from `L` up to
`begin` hold the null sentinel of the type, positions from `begin` up to `end`
hold the chunk, and positions from `end` up to `L` keep their value. -/
theorem append_values (t : tafel) (name : String) (b e : Nat) (v : List Value) (c : column)
    (hfind : t.find name = some c) (hname : name ≠ "") (hk : c.type ≠ .UNKNOWN_TYPE)
    (hbe : b < e) (he : e < 2 ^ 32) (hv : v.length = e - b) :
    (append t (some name) b e (some v)).2 = 0 ∧
      ∃ c2, (append t (some name) b e (some v)).1.find name = some c2 ∧
        c2.values.length = max c.values.length e ∧
        ∀ i : Nat,
          (i < min c.values.length b → c2.values[i]? = c.values[i]?) ∧
          (c.values.length ≤ i ∧ i < b → c2.values[i]? = some (fillValue c.type)) ∧
          (b ≤ i ∧ i < e → c2.values[i]? = v[i - b]?) ∧
          (e ≤ i ∧ i < c.values.length → c2.values[i]? = c.values[i]?) := by
  rw [append_ok t name b e v hbe he hname c hfind]
  refine ⟨rfl, appendColumn v b e c, ?_, ?_, ?_⟩
  · exact find_modifyColumn t.colorder t.mrows name _ c (appendColumn_name v b e) hfind _
  · rw [appendColumn_values v b e c hk hbe hv]
    exact (chunk_values_get c.values v (fillValue c.type) b e 0 hbe hv).1
  · intro i
    rw [appendColumn_values v b e c hk hbe hv]
    exact (chunk_values_get c.values v (fillValue c.type) b e i hbe hv).2

/-- Witness for C17: `append(a, 5, 7, [9, 9])` after `append(a, 0, 3, [1, 2, 3])`
on a BYTE column gives `[1, 2, 3, 0x7F, 0x7F, 9, 9]`. -/
theorem append_values_witness :
    ((append example_data.chunkTable (some "a") 5 7 (some [.int 9, .int 9])).2 = 0 ∧
      ∃ c2, (append example_data.chunkTable (some "a") 5 7 (some [.int 9, .int 9])).1.find "a" =
          some c2 ∧
        c2.values.length = max 3 7 ∧
        ∀ i : Nat,
          (i < min 3 5 → c2.values[i]? = [Value.int 1, .int 2, .int 3][i]?) ∧
          (3 ≤ i ∧ i < 5 → c2.values[i]? = some (fillValue .BYTE)) ∧
          (5 ≤ i ∧ i < 7 → c2.values[i]? = [Value.int 9, .int 9][i - 5]?) ∧
          (7 ≤ i ∧ i < 3 → c2.values[i]? = [Value.int 1, .int 2, .int 3][i]?)) ∧
      (append example_data.freshTable (some "a") 0 3 (some [.int 1, .int 2, .int 3])).1 =
        example_data.chunkTable ∧
      ((append example_data.chunkTable (some "a") 5 7 (some [.int 9, .int 9])).1.colorder.map
          fun c => c.values) =
        [[.int 1, .int 2, .int 3, .int 0x7F, .int 0x7F, .int 9, .int 9]] :=
  ⟨append_values example_data.chunkTable "a" 5 7 [.int 9, .int 9]
      { name := "a", type := .BYTE, desc := "a", indexSpec := "",
        values := [.int 1, .int 2, .int 3], mask := [true, true, true] }
      (by decide) (by decide) (by decide) (by decide) (by decide) (by decide),
    by decide, by decide⟩

/-- C18. After a successful chunk `append(name, begin, end, v)` on a column
whose presence bitmap and value buffer both had `L` entries, the bitmap has
`max(L, end)` bits, and bit `i` is the old bit `i`, taken as 0 from `L` on,
or-ed with `begin <= i < end`; no bit is cleared. -/
theorem append_mask (t : tafel) (name : String) (b e : Nat) (v : List Value) (c : column)
    (hfind : t.find name = some c) (hname : name ≠ "") (hk : c.type ≠ .UNKNOWN_TYPE)
    (hbe : b < e) (he : e < 2 ^ 32) (hL : c.mask.length = c.values.length) :
    (append t (some name) b e (some v)).2 = 0 ∧
      ∃ c2, (append t (some name) b e (some v)).1.find name = some c2 ∧
        c2.mask.length = max c.mask.length e ∧
        (∀ i : Nat, c2.mask.getD i false = (c.mask.getD i false || decide (b ≤ i ∧ i < e))) ∧
        (∀ i : Nat, c.mask.getD i false = true → c2.mask.getD i false = true) := by
  rw [append_ok t name b e v hbe he hname c hfind]
  refine ⟨rfl, appendColumn v b e c, ?_, ?_, ?_, ?_⟩
  · exact find_modifyColumn t.colorder t.mrows name _ c (appendColumn_name v b e) hfind _
  · exact (appendColumn_mask v b e c hk hbe hL 0).1
  · intro i
    exact (appendColumn_mask v b e c hk hbe hL i).2
  · intro i hi
    rw [(appendColumn_mask v b e c hk hbe hL i).2, hi]
    rfl

/-- Witness for C18: the chunk at rows `[2, 5)` of the column `a` that holds
three rows. -/
theorem append_mask_witness :
    (append example_data.chunkTable (some "a") 2 5 (some [.int 7, .int 8, .int 9])).2 = 0 ∧
      ∃ c2, (append example_data.chunkTable (some "a") 2 5
          (some [.int 7, .int 8, .int 9])).1.find "a" = some c2 ∧
        c2.mask.length = max 3 5 ∧
        (∀ i : Nat, c2.mask.getD i false =
          ([true, true, true].getD i false || decide (2 ≤ i ∧ i < 5))) ∧
        (∀ i : Nat, [true, true, true].getD i false = true → c2.mask.getD i false = true) :=
  append_mask example_data.chunkTable "a" 2 5 [.int 7, .int 8, .int 9]
    { name := "a", type := .BYTE, desc := "a", indexSpec := "",
      values := [.int 1, .int 2, .int 3], mask := [true, true, true] }
    (by decide) (by decide) (by decide) (by decide) (by decide) (by decide)

/-! ## write: type conflicts -/

theorem conflict_iff (s e : TYPE_T) :
    conflict s e = false ↔
      (s = e ∨ (s = .BYTE ∧ e = .UBYTE) ∨ (s = .UBYTE ∧ e = .BYTE) ∨
        (s = .SHORT ∧ e = .USHORT) ∨ (s = .USHORT ∧ e = .SHORT) ∨
        (s = .INT ∧ e = .UINT) ∨ (s = .UINT ∧ e = .INT) ∨
        (s = .LONG ∧ e = .ULONG) ∨ (s = .ULONG ∧ e = .LONG)) := by
  cases s <;> cases e <;> decide

theorem conflict_symm (s e : TYPE_T) : conflict s e = conflict e s := by
  cases s <;> cases e <;> rfl

/-- A staged column that conflicts with the existing partition makes the
count of conflicts positive. -/
theorem nconflicts_pos (t : tafel) (tmp : part) (c : column) (old : TYPE_T)
    (hc : c ∈ t.colorder) (hold : tmp.getColumn c.name = some old)
    (hconf : conflict c.type old = true) : 0 < nconflicts t tmp := by
  unfold nconflicts
  have hmem : c ∈ t.cols.filter (conflicts tmp) := by
    rw [List.mem_filter]
    refine ⟨(mem_cols t c).2 hc, ?_⟩
    unfold conflicts
    rw [hold]
    exact hconf
  exact List.length_pos_of_mem hmem

/-- C4 (as amended). The conflict check of `write`: two types do not conflict
exactly when they are equal or are the signed and unsigned type of one width;
the relation is symmetric; and when rows are staged, the directory name is not
empty, the existing partition has rows and columns and a staged column
conflicts with the existing column of its name, `write` returns -2 having
performed no file operation. -/
theorem write_type_conflict :
    (∀ s e : TYPE_T, conflict s e = false ↔
      (s = e ∨ (s = .BYTE ∧ e = .UBYTE) ∨ (s = .UBYTE ∧ e = .BYTE) ∨
        (s = .SHORT ∧ e = .USHORT) ∨ (s = .USHORT ∧ e = .SHORT) ∨
        (s = .INT ∧ e = .UINT) ∨ (s = .UINT ∧ e = .INT) ∨
        (s = .LONG ∧ e = .ULONG) ∨ (s = .ULONG ∧ e = .LONG))) ∧
    (∀ s e : TYPE_T, conflict s e = conflict e s) ∧
    (∀ (op : Type) (t : tafel) (dir : String) (tname tdesc idx : Option String)
      (reader : String → part) (rest : tafel → String → Option String → reconciled → Int × List op)
      (c : column) (old : TYPE_T),
      t.mrows ≠ 0 → dir ≠ "" →
      0 < (reader dir).nRows → (reader dir).nRows < 2 ^ 32 → 0 < (reader dir).nColumns →
      c ∈ t.colorder → (reader dir).getColumn c.name = some old → conflict c.type old = true →
      write t (some dir) tname tdesc idx reader rest = (-2, [])) := by
  refine ⟨conflict_iff, conflict_symm, ?_⟩
  intro op t dir tname tdesc idx reader rest c old hrows hdir hn hn32 hcol hc hold hconf
  have hne : t.cols.isEmpty = false := by
    cases h : t.cols with
    | nil =>
      have := (mem_cols t c).2 hc
      rw [h] at this
      cases this
    | cons _ _ => rfl
  have hpos := nconflicts_pos t (reader dir) c old hc hold hconf
  have hmod : (reader dir).nRows % 4294967296 = (reader dir).nRows :=
    Nat.mod_eq_of_lt (by simpa using hn32)
  have hn2 : (reader dir).nRows ≠ 0 := by omega
  unfold write
  simp [hne, hrows, hdir, hmod, hn2, hcol, hpos]

/-- Witness for C4: one staged row of `x:float` against an
existing partition of five rows with `x:int`. -/
theorem write_type_conflict_witness :
    write example_data.floatTable (some "dir") none none none (fun _ => example_data.intPart)
      (fun _ _ _ _ => ((0 : Int), [()])) = (-2, []) :=
  write_type_conflict.2.2 Unit example_data.floatTable "dir" none none none
    (fun _ => example_data.intPart) (fun _ _ _ _ => (0, [()]))
    { name := "x", type := .FLOAT, desc := "x", indexSpec := "", values := [.flt 0],
      mask := [true] } .INT
    (by decide) (by decide) (by decide) (by decide) (by decide) (by decide) (by decide)
    (by decide)

/-- C4 (counterexample). With the column `x:float` declared but no row staged,
against an existing partition of five rows with `x:int`, the staged column
conflicts with the existing one and yet `write` returns 0, not -2. -/
theorem write_conflict_without_rows :
    example_data.intPart.getColumn "x" = some .INT ∧ conflict .FLOAT .INT = true ∧
      0 < example_data.intPart.nRows ∧ 0 < example_data.intPart.nColumns ∧
      write example_data.floatTableNoRows (some "dir") none none none
        (fun _ => example_data.intPart) (fun _ _ _ _ => ((7 : Int), [()])) = (0, []) := by
  decide

/-! ## parseLine: integer columns -/

theorem toSigned8_eq (v : Int) : toSigned 8 v = v ↔ -128 ≤ v ∧ v ≤ 127 := by
  unfold toSigned
  norm_num
  omega

theorem toSigned16_eq (v : Int) : toSigned 16 v = v ↔ -32768 ≤ v ∧ v ≤ 32767 := by
  unfold toSigned
  norm_num
  omega

theorem toSigned32_eq (v : Int) : toSigned 32 v = v ↔ -2147483648 ≤ v ∧ v ≤ 2147483647 := by
  unfold toSigned
  norm_num
  omega

theorem toUnsigned8_eq (v : Int) : toUnsigned 8 v = v ↔ 0 ≤ v ∧ v ≤ 255 := by
  unfold toUnsigned
  norm_num
  omega

theorem toUnsigned16_eq (v : Int) : toUnsigned 16 v = v ↔ 0 ≤ v ∧ v ≤ 65535 := by
  unfold toUnsigned
  norm_num
  omega

theorem toUnsigned32_eq (v : Int) : toUnsigned 32 v = v ↔ 0 ≤ v ∧ v ≤ 4294967295 := by
  unfold toUnsigned
  norm_num
  omega

theorem toUnsigned64_eq (v : Int) : toUnsigned 64 v = v ↔ 0 ≤ v ∧ v ≤ 18446744073709551615 := by
  unfold toUnsigned
  norm_num
  omega

/-- C5 (as amended). In `parseLine`, for an integer column and a 64-bit
intermediate `v` read without error: for the six types narrower than 64 bits
`v` is pushed, unchanged, exactly when it lies in the range of the type, and
otherwise the column is left as it was; for LONG `v` is always pushed; for
ULONG `v` is always pushed, converted to `v mod 2^64`, which is `v` itself
when `v ≥ 0`. -/
theorem parseField_integer (R : readers) (col : column) (str del rest : List Char) (v : Int)
    (hread : R.readInt str del = (0, v, rest))
    (hlo : -9223372036854775808 ≤ v) (hhi : v ≤ 9223372036854775807) :
    (col.type = .BYTE → parseField R col str del =
      if -128 ≤ v ∧ v ≤ 127 then pushed col (.int v) rest else skipped col rest) ∧
    (col.type = .UBYTE → parseField R col str del =
      if 0 ≤ v ∧ v ≤ 255 then pushed col (.int v) rest else skipped col rest) ∧
    (col.type = .SHORT → parseField R col str del =
      if -32768 ≤ v ∧ v ≤ 32767 then pushed col (.int v) rest else skipped col rest) ∧
    (col.type = .USHORT → parseField R col str del =
      if 0 ≤ v ∧ v ≤ 65535 then pushed col (.int v) rest else skipped col rest) ∧
    (col.type = .INT → parseField R col str del =
      if -2147483648 ≤ v ∧ v ≤ 2147483647 then pushed col (.int v) rest
      else skipped col rest) ∧
    (col.type = .UINT → parseField R col str del =
      if 0 ≤ v ∧ v ≤ 4294967295 then pushed col (.int v) rest else skipped col rest) ∧
    (col.type = .LONG → parseField R col str del = pushed col (.int v) rest) ∧
    (col.type = .ULONG → parseField R col str del =
      pushed col (.int (v % 18446744073709551616)) rest ∧
      (0 ≤ v → v % 18446744073709551616 = v)) := by
  refine ⟨?_, ?_, ?_, ?_, ?_, ?_, ?_, ?_⟩ <;> intro hT <;> unfold parseField <;>
    simp only [hT, hread, if_true]
  · by_cases h : -128 ≤ v ∧ v ≤ 127
    · have := (toSigned8_eq v).2 h
      simp [h, this]
    · have : toSigned 8 v ≠ v := fun e => h ((toSigned8_eq v).1 e)
      simp [h, this]
  · by_cases h : 0 ≤ v ∧ v ≤ 255
    · have := (toUnsigned8_eq v).2 h
      simp [h, this]
    · have : toUnsigned 8 v ≠ v := fun e => h ((toUnsigned8_eq v).1 e)
      simp [h, this]
  · by_cases h : -32768 ≤ v ∧ v ≤ 32767
    · have := (toSigned16_eq v).2 h
      simp [h, this]
    · have : toSigned 16 v ≠ v := fun e => h ((toSigned16_eq v).1 e)
      simp [h, this]
  · by_cases h : 0 ≤ v ∧ v ≤ 65535
    · have := (toUnsigned16_eq v).2 h
      simp [h, this]
    · have : toUnsigned 16 v ≠ v := fun e => h ((toUnsigned16_eq v).1 e)
      simp [h, this]
  · by_cases h : -2147483648 ≤ v ∧ v ≤ 2147483647
    · have := (toSigned32_eq v).2 h
      simp [h, this]
    · have : toSigned 32 v ≠ v := fun e => h ((toSigned32_eq v).1 e)
      simp [h, this]
  · by_cases h : 0 ≤ v ∧ v ≤ 4294967295
    · have := (toUnsigned32_eq v).2 h
      simp [h, this]
    · have : toUnsigned 32 v ≠ v := fun e => h ((toUnsigned32_eq v).1 e)
      simp [h, this]
  · refine ⟨?_, ?_⟩
    · unfold toUnsigned
      norm_num
    · intro h0
      omega

/-- Witness for C5: 300 read for a BYTE column is passed
over. -/
theorem parseField_integer_witness :
    parseField (example_data.intReaders 300) (example_data.emptyColumn .BYTE) ['3', '0', '0']
      [','] = skipped (example_data.emptyColumn .BYTE) [] := by
  have h := (parseField_integer (example_data.intReaders 300) (example_data.emptyColumn .BYTE)
    ['3', '0', '0'] [','] [] 300 rfl (by decide) (by decide)).1 rfl
  simpa using h

/-- C5 (counterexample). For a ULONG column the intermediate -1, which the
type cannot represent, is pushed all the same, as 2^64 - 1. -/
theorem parseField_ulong_negative :
    parseField (example_data.intReaders (-1)) (example_data.emptyColumn .ULONG) ['-', '1'] [','] =
      pushed (example_data.emptyColumn .ULONG) (.int 18446744073709551615) [] ∧
    (parseField (example_data.intReaders (-1)) (example_data.emptyColumn .ULONG) ['-', '1']
      [',']).col.values = [.int 18446744073709551615] ∧
    ¬ (0 : Int) ≤ -1 := by
  decide

/-! ## appendRow for a typed row -/

theorem totalValues_modifyAt_mask (f : column → column) (hf : ∀ c, (f c).values = c.values)
    (k : Nat) (cols : List column) :
    ((modifyAt f k cols).map fun c => c.values.length).sum =
      (cols.map fun c => c.values.length).sum := by
  induction cols generalizing k with
  | nil => cases k <;> rfl
  | cons c cs ih =>
    cases k with
    | zero => simp [modifyAt, hf]
    | succ k => simp [modifyAt, ih]

theorem totalValues_pushValue (cols : List column) (k : Nat) (va : Value) :
    ((pushValue cols k va).map fun c => c.values.length).sum ≤
      (cols.map fun c => c.values.length).sum + 1 := by
  unfold pushValue
  induction cols generalizing k with
  | nil => cases k <;> simp [modifyAt]
  | cons c cs ih =>
    cases k with
    | zero => simp [modifyAt]; omega
    | succ k =>
      have := ih k
      simp only [modifyAt, List.map_cons, List.sum_cons]
      omega

theorem totalValues_pushBit (cols : List column) (k : Nat) :
    ((pushBit cols k).map fun c => c.values.length).sum =
      (cols.map fun c => c.values.length).sum :=
  totalValues_modifyAt_mask (fun c => { c with mask := bitvector.increment c.mask })
    (fun _ => rfl) k cols

/-- A positional push adds at most one value. -/
theorem positional_push_le (s : rowState) (i : Nat) (va : Value) :
    (((match s.msk.get? i with
        | some (some k) => pushBit (match s.buf.get? i with
            | some (some k) => pushValue s.cols k va
            | _ => s.cols) k
        | _ => (match s.buf.get? i with
            | some (some k) => pushValue s.cols k va
            | _ => s.cols)) : List column).map fun c => c.values.length).sum ≤
      (s.cols.map fun c => c.values.length).sum + 1 := by
  have h1 : (((match s.buf.get? i with
            | some (some k) => pushValue s.cols k va
            | _ => s.cols) : List column).map fun c => c.values.length).sum ≤
      (s.cols.map fun c => c.values.length).sum + 1 := by
    split
    · exact totalValues_pushValue _ _ _
    · omega
  split
  · rw [totalValues_pushBit]; exact h1
  · exact h1

theorem guarded_some {α : Type} (A B : Prop) [Decidable A] [Decidable B] (x y : α)
    (h : (if A then none else if B then none else some x) = some y) : x = y := by
  by_cases hA : A
  · simp [hA] at h
  · by_cases hB : B
    · simp [hA, hB] at h
    · simpa [hA, hB] using h

theorem rowStep_growth (isString : Bool) (ty : TYPE_T) (i : Nat) (nm : String) (va : Value)
    (s s1 : rowState) (h : rowStep isString ty i nm va s = some s1) :
    (s1.cols.map fun c => c.values.length).sum ≤ (s.cols.map fun c => c.values.length).sum + 1 := by
  unfold rowStep at h
  by_cases hnm : nm = ""
  · rw [if_pos hnm] at h
    simp only [Option.some.injEq] at h
    subst h
    exact positional_push_le s i va
  · rw [if_neg hnm] at h
    split at h
    · have := guarded_some _ _ _ _ h
      subst this
      simp only
      rw [totalValues_pushBit]
      exact totalValues_pushValue _ _ _
    · simp only [Option.some.injEq] at h
      subst h
      omega

theorem rowNamed_growth (isString : Bool) (ty : TYPE_T) (nm : List String) (va : List Value)
    (i : Nat) (s s1 : rowState) (h : rowNamed isString ty nm va i s = some s1) :
    (s1.cols.map fun c => c.values.length).sum ≤
      (s.cols.map fun c => c.values.length).sum + min nm.length va.length := by
  induction nm generalizing va i s with
  | nil =>
    unfold rowNamed at h
    simp only [Option.some.injEq] at h
    subst h
    omega
  | cons n nms ih =>
    cases va with
    | nil =>
      unfold rowNamed at h
      simp only [Option.some.injEq] at h
      subst h
      omega
    | cons v vas =>
      unfold rowNamed at h
      split at h
      · cases h
      · rename_i s2 hs2
        have h1 := rowStep_growth _ _ _ _ _ _ _ hs2
        have h2 := ih vas (i + 1) s2 h
        simp only [List.length_cons]
        omega

theorem rowRest_growth (va : List Value) (i : Nat) (s : rowState) :
    ((rowRest va i s).cols.map fun c => c.values.length).sum ≤
      (s.cols.map fun c => c.values.length).sum + va.length := by
  induction va generalizing i s with
  | nil =>
    unfold rowRest
    omega
  | cons v vas ih =>
    unfold rowRest
    split_ifs
    · have h1 := positional_push_le s i v
      have h2 := ih (i + 1) { s with cols := (match s.msk.get? i with
        | some (some k) => pushBit (match s.buf.get? i with
            | some (some k) => pushValue s.cols k v
            | _ => s.cols) k
        | _ => (match s.buf.get? i with
            | some (some k) => pushValue s.cols k v
            | _ => s.cols)) }
      simp only [List.length_cons]
      simp only at h2
      omega
    · omega

theorem appendToRow_growth (isString : Bool) (ty : TYPE_T) (nm : List String) (va : List Value)
    (s s1 : rowState) (h : appendToRow isString ty nm va s = some s1) :
    (s1.cols.map fun c => c.values.length).sum ≤
      (s.cols.map fun c => c.values.length).sum + va.length := by
  unfold appendToRow at h
  split at h
  · cases h
  · rename_i s2 hs2
    simp only [Option.some.injEq] at h
    subst h
    have h1 := rowNamed_growth _ _ _ _ _ _ _ hs2
    have h2 := rowRest_growth (va.drop (min nm.length va.length)) (min nm.length va.length) s2
    simp only [List.length_drop] at h2
    omega

/-- One block of `appendRow(row)` adds the number of values of its type to
`cnt`, and at most that many values to the buffers. -/
theorem appendOfType_some (isString : Bool) (ty : TYPE_T) (nm : List String) (va : List Value)
    (acc : Option (List column × Int)) (cols1 : List column) (cnt1 : Int)
    (h : appendOfType isString ty nm va acc = some (cols1, cnt1)) :
    ∃ cols cnt, acc = some (cols, cnt) ∧ cnt1 = cnt + va.length ∧
      (cols1.map fun c => c.values.length).sum ≤
        (cols.map fun c => c.values.length).sum + va.length := by
  unfold appendOfType at h
  split at h
  · cases h
  · rename_i cols cnt
    refine ⟨cols, cnt, rfl, ?_⟩
    split_ifs at h with hpos
    · split at h
      · cases h
      · rename_i s hs
        simp only [Option.some.injEq, Prod.mk.injEq] at h
        have := appendToRow_growth _ _ _ _ _ _ hs
        simp only at this
        rw [← h.1, ← h.2]
        exact ⟨rfl, this⟩
    · simp only [Option.some.injEq, Prod.mk.injEq] at h
      have h0 : va.length = 0 := by omega
      rw [← h.1, ← h.2, h0]
      simp

/-- Whenever `appendRow(row)` has defined behaviour, it returns the number of
values the row carries, and the value buffers grow by at most that number over
what the opening `normalize` leaves. -/
theorem appendRow_count_of_some (t : tafel) (r : row) (t1 : tafel) (n : Int)
    (h : appendRow t r = some (t1, n)) :
    n = (r.nColumns : Int) ∧
      totalValues t1 ≤
        totalValues (if r.nColumns ≥ t.cols.length then normalize t else t) + r.nColumns := by
  unfold appendRow at h
  simp only at h
  generalize (if r.nColumns ≥ t.cols.length then normalize t else t) = t0 at h ⊢
  split at h
  · cases h
  · rename_i cols cnt h12
    simp only [Option.some.injEq, Prod.mk.injEq] at h
    obtain ⟨c11, n11, h11, e12, g12⟩ := appendOfType_some _ _ _ _ _ _ _ h12
    obtain ⟨c10, n10, h10, e11, g11⟩ := appendOfType_some _ _ _ _ _ _ _ h11
    obtain ⟨c9, n9, h9, e10, g10⟩ := appendOfType_some _ _ _ _ _ _ _ h10
    obtain ⟨c8, n8, h8, e9, g9⟩ := appendOfType_some _ _ _ _ _ _ _ h9
    obtain ⟨c7, n7, h7, e8, g8⟩ := appendOfType_some _ _ _ _ _ _ _ h8
    obtain ⟨c6, n6, h6, e7, g7⟩ := appendOfType_some _ _ _ _ _ _ _ h7
    obtain ⟨c5, n5, h5, e6, g6⟩ := appendOfType_some _ _ _ _ _ _ _ h6
    obtain ⟨c4, n4, h4, e5, g5⟩ := appendOfType_some _ _ _ _ _ _ _ h5
    obtain ⟨c3, n3, h3, e4, g4⟩ := appendOfType_some _ _ _ _ _ _ _ h4
    obtain ⟨c2, n2, h2, e3, g3⟩ := appendOfType_some _ _ _ _ _ _ _ h3
    obtain ⟨c1, n1, h1, e2, g2⟩ := appendOfType_some _ _ _ _ _ _ _ h2
    obtain ⟨c0, n0, h0, e1, g1⟩ := appendOfType_some _ _ _ _ _ _ _ h1
    simp only [Option.some.injEq, Prod.mk.injEq] at h0
    obtain ⟨hc0, hn0⟩ := h0
    obtain ⟨ht1, hn⟩ := h
    subst hc0 hn0
    refine ⟨?_, ?_⟩
    · rw [← hn]
      unfold row.nColumns
      push_cast
      omega
    · rw [← ht1]
      unfold totalValues row.nColumns
      simp only
      omega

theorem rowNamed_positional (isString : Bool) (ty : TYPE_T) (nm : List String)
    (va : List Value) (i : Nat) (s : rowState) (h : ∀ n ∈ nm, n = "") :
    ∃ s1, rowNamed isString ty nm va i s = some s1 := by
  induction nm generalizing va i s with
  | nil => exact ⟨s, by unfold rowNamed; rfl⟩
  | cons n nms ih =>
    cases va with
    | nil => exact ⟨s, by unfold rowNamed; rfl⟩
    | cons v vas =>
      have hn : n = "" := h n (List.mem_cons_self _ _)
      unfold rowNamed
      unfold rowStep
      rw [if_pos hn]
      exact ih vas (i + 1) _ (fun m hm => h m (List.mem_cons_of_mem _ hm))

theorem appendOfType_positional (isString : Bool) (ty : TYPE_T) (nm : List String)
    (va : List Value) (cols : List column) (cnt : Int) (h : ∀ n ∈ nm, n = "") :
    ∃ cols1 cnt1, appendOfType isString ty nm va (some (cols, cnt)) = some (cols1, cnt1) := by
  unfold appendOfType
  simp only
  split_ifs
  · obtain ⟨s1, hs1⟩ := rowNamed_positional isString ty nm va 0
      { cols := cols, buf := locate ty cols, msk := locate ty cols } h
    unfold appendToRow
    rw [hs1]
    exact ⟨_, _, rfl⟩
  · exact ⟨_, _, rfl⟩

/-- A row that gives no name has defined behaviour in `appendRow(row)`. -/
theorem appendRow_positional (t : tafel) (r : row) (h : ∀ n ∈ r.names, n = "") :
    ∃ t1 n, appendRow t r = some (t1, n) := by
  unfold row.names at h
  simp only [List.mem_append] at h
  unfold appendRow
  simp only
  generalize (if r.nColumns ≥ t.cols.length then normalize t else t) = t0
  obtain ⟨c1, n1, h1⟩ := appendOfType_positional false .BYTE r.bytesnames r.bytesvalues
    t0.colorder 0 (fun n hn => h n (by tauto))
  rw [h1]
  obtain ⟨c2, n2, h2⟩ := appendOfType_positional false .UBYTE r.ubytesnames r.ubytesvalues
    c1 n1 (fun n hn => h n (by tauto))
  rw [h2]
  obtain ⟨c3, n3, h3⟩ := appendOfType_positional false .SHORT r.shortsnames r.shortsvalues
    c2 n2 (fun n hn => h n (by tauto))
  rw [h3]
  obtain ⟨c4, n4, h4⟩ := appendOfType_positional false .USHORT r.ushortsnames r.ushortsvalues
    c3 n3 (fun n hn => h n (by tauto))
  rw [h4]
  obtain ⟨c5, n5, h5⟩ := appendOfType_positional false .INT r.intsnames r.intsvalues
    c4 n4 (fun n hn => h n (by tauto))
  rw [h5]
  obtain ⟨c6, n6, h6⟩ := appendOfType_positional false .UINT r.uintsnames r.uintsvalues
    c5 n5 (fun n hn => h n (by tauto))
  rw [h6]
  obtain ⟨c7, n7, h7⟩ := appendOfType_positional false .LONG r.longsnames r.longsvalues
    c6 n6 (fun n hn => h n (by tauto))
  rw [h7]
  obtain ⟨c8, n8, h8⟩ := appendOfType_positional false .ULONG r.ulongsnames r.ulongsvalues
    c7 n7 (fun n hn => h n (by tauto))
  rw [h8]
  obtain ⟨c9, n9, h9⟩ := appendOfType_positional false .FLOAT r.floatsnames r.floatsvalues
    c8 n8 (fun n hn => h n (by tauto))
  rw [h9]
  obtain ⟨c10, n10, h10⟩ := appendOfType_positional false .DOUBLE r.doublesnames r.doublesvalues
    c9 n9 (fun n hn => h n (by tauto))
  rw [h10]
  obtain ⟨c11, n11, h11⟩ := appendOfType_positional true .CATEGORY r.catsnames r.catsvalues
    c10 n10 (fun n hn => h n (by tauto))
  rw [h11]
  obtain ⟨c12, n12, h12⟩ := appendOfType_positional true .TEXT r.textsnames r.textsvalues
    c11 n11 (fun n hn => h n (by tauto))
  rw [h12]
  exact ⟨_, _, rfl⟩

/-- C6 (as amended). `appendRow(row)` returns the number of values the row
carries, the sum of the lengths of its twelve value sequences, whether or not
each value was pushed: whenever the call has defined behaviour that is its
return value, and the value buffers grow by at most that number over what the
opening `normalize` leaves; the call has defined behaviour at least for every
row that gives no name. -/
theorem appendRow_returns_count (t : tafel) (r : row) :
    (∀ t1 n, appendRow t r = some (t1, n) →
      n = (r.nColumns : Int) ∧
        totalValues t1 ≤
          totalValues (if r.nColumns ≥ t.cols.length then normalize t else t) + r.nColumns) ∧
    ((∀ nm ∈ r.names, nm = "") → ∃ t1 n, appendRow t r = some (t1, n)) :=
  ⟨fun t1 n h => appendRow_count_of_some t r t1 n h, appendRow_positional t r⟩

/-- Witness for C6: a row of three unnamed values for the
columns `a:int`, `s:text`, `b:int`. -/
theorem appendRow_returns_count_witness :
    (3 : Int) = (example_data.mixedRow.nColumns : Int) ∧
      totalValues
          { colorder := [{ name := "a", type := .INT, desc := "a", indexSpec := "",
                           values := [.int 1], mask := [true] },
                         { name := "s", type := .TEXT, desc := "s", indexSpec := "",
                           values := [.str "x"], mask := [true] },
                         { name := "b", type := .INT, desc := "b", indexSpec := "",
                           values := [.int 2], mask := [true] }],
            mrows := 1 } ≤
        totalValues (if example_data.mixedRow.nColumns ≥ example_data.mixedTable.cols.length
          then normalize example_data.mixedTable else example_data.mixedTable) +
          example_data.mixedRow.nColumns :=
  (appendRow_returns_count example_data.mixedTable example_data.mixedRow).1 _ 3 (by decide)

/-- C6 (counterexample). A row whose single value names a column the table
does not have: nothing is pushed, every value buffer keeps its length, and
`appendRow(row)` returns 1 (and counts the row in `mrows`). -/
theorem appendRow_counts_stray_value :
    appendRow example_data.intTable example_data.strayRow =
      some ({ colorder := example_data.intTable.colorder, mrows := 1 }, 1) ∧
    totalValues { colorder := example_data.intTable.colorder, mrows := 1 } =
      totalValues example_data.intTable := by
  decide

/-! ## appendRow for a text line -/

/-- C7 (as amended). `appendRow(line, delimiters)` leaves the table as it is
and returns -1 for a line that is empty or holds white space only, and returns
0 for a line whose first characters after leading white space are `#` or
`--`. -/
theorem appendRowLine_noop (R : readers) (t : tafel) (line : List Char)
    (del : Option (List Char)) :
    ((∀ c ∈ line, isspace c = true) → appendRowLine R t (some line) del = some (t, -1)) ∧
    ((∃ s, line.dropWhile isspace = '#' :: s ∨ line.dropWhile isspace = '-' :: '-' :: s) →
      appendRowLine R t (some line) del = some (t, 0)) := by
  constructor
  · intro h
    have hd : line.dropWhile isspace = [] := by
      rw [List.dropWhile_eq_nil_iff]
      exact h
    cases line with
    | nil => rfl
    | cons c l =>
      unfold appendRowLine
      simp only [hd]
  · rintro ⟨s, hs | hs⟩
    · cases line with
      | nil => simp at hs
      | cons c l =>
        unfold appendRowLine
        simp only [hs]
        simp
    · cases line with
      | nil => simp at hs
      | cons c l =>
        unfold appendRowLine
        simp only [hs]
        simp

/-- Witness for C7: a line of two blanks and the comment
line `  -- x`. -/
theorem appendRowLine_noop_witness :
    appendRowLine (example_data.intReaders 0) example_data.intTable (some [' ', ' ']) none =
        some (example_data.intTable, -1) ∧
      appendRowLine (example_data.intReaders 0) example_data.intTable
        (some [' ', ' ', '-', '-', ' ', 'x']) none = some (example_data.intTable, 0) :=
  ⟨(appendRowLine_noop (example_data.intReaders 0) example_data.intTable [' ', ' '] none).1
      (by decide),
    (appendRowLine_noop (example_data.intReaders 0) example_data.intTable
      [' ', ' ', '-', '-', ' ', 'x'] none).2 ⟨[' ', 'x'], Or.inr (by decide)⟩⟩

/-- C7 (counterexample). For the empty line and for a line of blanks
`appendRow(line, delimiters)` returns -1, not 0. -/
theorem appendRowLine_blank :
    appendRowLine (example_data.intReaders 0) example_data.intTable (some []) none =
        some (example_data.intTable, -1) ∧
      appendRowLine (example_data.intReaders 0) example_data.intTable (some [' ', ' ']) none =
        some (example_data.intTable, -1) := by
  decide

/-! ## Column files -/

theorem encode_length (elem : Nat) (v : Value) : (encode elem v).length = elem := by
  simp [encode]

theorem encodeAll_length (elem : Nat) (vs : List Value) :
    (encodeAll elem vs).length = vs.length * elem := by
  induction vs with
  | nil => simp [encodeAll]
  | cons v vs ih =>
    simp only [encodeAll, List.length_append, encode_length, ih, List.length_cons]
    rw [Nat.add_mul, Nat.one_mul, Nat.add_comm]

theorem encodeAll_append (elem : Nat) (l r : List Value) :
    encodeAll elem (l ++ r) = encodeAll elem l ++ encodeAll elem r := by
  induction l with
  | nil => rfl
  | cons v vs ih => simp [encodeAll, ih]

/-- A write at the end of the file appends the bytes, with or without
`O_APPEND`. -/
theorem UnixWrite_at_end (f : descriptor) (data : List Nat) (h : f.offset = f.bytes.length) :
    (UnixWrite f data).1.bytes = f.bytes ++ data ∧
      (UnixWrite f data).1.offset = (UnixWrite f data).1.bytes.length ∧
      (UnixWrite f data).1.oappend = f.oappend ∧ (UnixWrite f data).2 = data.length := by
  have h1 : f.bytes.take f.bytes.length = f.bytes := List.take_length _
  have h2 : f.bytes.drop (f.bytes.length + data.length) = [] :=
    List.drop_of_length_le (by omega)
  have hb : (UnixWrite f data).1.bytes = f.bytes ++ data := by
    unfold UnixWrite
    simp [h, h1, h2]
  refine ⟨hb, ?_, ?_, ?_⟩
  · rw [hb]
    unfold UnixWrite
    simp [h]
  · rfl
  · rfl

theorem writeRepeated_at_end (f : descriptor) (data : List Nat) (n : Nat)
    (h : f.offset = f.bytes.length) :
    (writeRepeated f data n).1.bytes = f.bytes ++ (List.replicate n data).flatten ∧
      (writeRepeated f data n).1.offset = (writeRepeated f data n).1.bytes.length ∧
      (writeRepeated f data n).1.oappend = f.oappend ∧
      (writeRepeated f data n).2 = n * data.length := by
  induction n generalizing f with
  | zero => simp [writeRepeated, h]
  | succ n ih =>
    have hw := UnixWrite_at_end f data h
    have := ih (UnixWrite f data).1 hw.2.1
    simp only [writeRepeated]
    refine ⟨?_, this.2.1, ?_, ?_⟩
    · rw [this.1, hw.1]
      simp [List.replicate_succ]
    · rw [this.2.2.1, hw.2.2.1]
    · rw [this.2.2.2, hw.2.2.2, Nat.succ_mul, Nat.add_comm]

theorem flatten_replicate_length (n : Nat) (data : List Nat) :
    (List.replicate n data).flatten.length = n * data.length := by
  induction n with
  | zero => simp
  | succ n ih =>
    simp only [List.replicate_succ, List.flatten_cons, List.length_append, ih]
    rw [Nat.succ_mul, Nat.add_comm]

/-- The bytes of a column file after `writeColumn`, when the file it finds is
no longer than `nold` elements: the file, the filler for the rows it lacks, the
first `nnew` staged values, and the filler for the rows not staged. -/
theorem writeColumn_bytes (elem : Nat) (f : descriptor) (nold nnew : Nat) (vals : List Value)
    (fill : Value) (totmask newmask : bitvector) (helem : 0 < elem)
    (hshort : f.bytes.length ≤ nold * elem) :
    (writeColumn elem f nold nnew vals fill totmask newmask).1.bytes =
        f.bytes ++ (List.replicate (nold - f.bytes.length / elem) (encode elem fill)).flatten ++
          encodeAll elem (vals.take nnew) ++
          (List.replicate (nnew - vals.length) (encode elem fill)).flatten ∧
      (writeColumn elem f nold nnew vals fill totmask newmask).2.2 = 0 := by
  have hs : (UnixSeekEnd f).1.offset = (UnixSeekEnd f).1.bytes.length := rfl
  have hsb : (UnixSeekEnd f).1.bytes = f.bytes := rfl
  -- the descriptor after the padding
  obtain ⟨g, hg, hgb, hgo⟩ : ∃ g : descriptor,
      (if (UnixSeekEnd f).2 < nold * elem then
        ((writeRepeated (UnixSeekEnd f).1 (encode elem fill) (nold - (UnixSeekEnd f).2 / elem)).1,
          bitvector.adjustSize totmask ((UnixSeekEnd f).2 / elem) nold)
      else if (UnixSeekEnd f).2 > nold * elem then
        ((UnixSeekSet (UnixSeekEnd f).1 (nold * elem)).1, bitvector.adjustSize totmask nold nold)
      else ((UnixSeekEnd f).1, bitvector.adjustSize totmask nold nold)).1 = g ∧
      g.bytes = f.bytes ++
        (List.replicate (nold - f.bytes.length / elem) (encode elem fill)).flatten ∧
      g.offset = g.bytes.length := by
    have hpos : (UnixSeekEnd f).2 = f.bytes.length := rfl
    by_cases h1 : f.bytes.length < nold * elem
    · have hw := writeRepeated_at_end (UnixSeekEnd f).1 (encode elem fill)
        (nold - f.bytes.length / elem) hs
      refine ⟨_, rfl, ?_, ?_⟩
      · simp only [hpos, h1, if_true]
        rw [hw.1, hsb]
      · simp only [hpos, h1, if_true]
        exact hw.2.1
    · have h2 : ¬ f.bytes.length > nold * elem := by omega
      have h3 : f.bytes.length = nold * elem := by omega
      have h4 : nold - f.bytes.length / elem = 0 := by
        rw [h3, Nat.mul_div_cancel _ helem]
        omega
      refine ⟨_, rfl, ?_, ?_⟩
      · simp only [hpos, h1, h2, if_false, h4]
        simp [hsb]
      · simp only [hpos, h1, h2, if_false]
        exact hs
  unfold writeColumn
  simp only
  rw [hg]
  by_cases hv : vals.length ≥ nnew
  · have hw := UnixWrite_at_end g (encodeAll elem (vals.take nnew)) hgo
    have h0 : nnew - vals.length = 0 := by omega
    simp only [hv, if_true, hw.1, hgb, h0, List.replicate_zero, List.flatten_nil,
      List.append_nil, hw.2.2.2, encodeAll_length, List.length_take]
    refine ⟨trivial, ?_⟩
    have : min nnew vals.length = nnew := by omega
    simp [this]
  · have hw := UnixWrite_at_end g (encodeAll elem vals) hgo
    have hw2 := writeRepeated_at_end (UnixWrite g (encodeAll elem vals)).1 (encode elem fill)
      (nnew - vals.length) hw.2.1
    have ht : vals.take nnew = vals := List.take_of_length_le (by omega)
    simp only [hv, if_false, hw2.1, hw.1, hgb, ht, hw.2.2.2, hw2.2.2.2, encodeAll_length,
      encode_length]
    refine ⟨trivial, ?_⟩
    have : vals.length * elem + (nnew - vals.length) * elem = nnew * elem := by
      rw [← Nat.add_mul]
      congr 1
      omega
    simp [this]

theorem writeStrings_at_end (f : descriptor) (vals : List Value)
    (h : f.offset = f.bytes.length) :
    (writeStrings f vals).1.bytes = f.bytes ++ (vals.map c_str).flatten ∧
      (writeStrings f vals).1.offset = (writeStrings f vals).1.bytes.length ∧
      (writeStrings f vals).2 = vals.length := by
  induction vals generalizing f with
  | nil => simp [writeStrings, h]
  | cons v vs ih =>
    have hw := UnixWrite_at_end f (c_str v) h
    have := ih (UnixWrite f (c_str v)).1 hw.2.1
    have hpos : 0 < (c_str v).length := by
      cases v <;> simp [c_str]
    simp only [writeStrings]
    refine ⟨?_, this.2.1, ?_⟩
    · rw [this.1, hw.1]
      simp
    · rw [this.2.2, hw.2.2.2]
      simp only [hpos, if_true, List.length_cons]
      omega

/-- The bytes of a string file after `writeString`: the file it finds, the
first `nnew` staged strings each with its NUL, and one NUL for every row not
staged; the return code is 0. -/
theorem writeString_bytes (f : descriptor) (nold nnew : Nat) (vals : List Value)
    (totmask newmask : bitvector) :
    (writeString f nold nnew vals totmask newmask).1.bytes =
        f.bytes ++ ((vals.take nnew).map c_str).flatten ++
          List.replicate (nnew - vals.length) 0 ∧
      (writeString f nold nnew vals totmask newmask).2.2 = 0 := by
  have hs : (UnixSeekEnd f).1.offset = (UnixSeekEnd f).1.bytes.length := rfl
  have hsb : (UnixSeekEnd f).1.bytes = f.bytes := rfl
  unfold writeString
  simp only
  by_cases hv : vals.length ≥ nnew
  · have hw := writeStrings_at_end (UnixSeekEnd f).1 (vals.take nnew) hs
    have h0 : nnew - vals.length = 0 := by omega
    simp only [hv, if_true, hw.1, hsb, h0, List.replicate_zero, List.append_nil, hw.2.2,
      List.length_take]
    refine ⟨trivial, ?_⟩
    have : min nnew vals.length = nnew := by omega
    simp [this]
  · have hw := writeStrings_at_end (UnixSeekEnd f).1 vals hs
    have hw2 := UnixWrite_at_end (writeStrings (UnixSeekEnd f).1 vals).1
      (List.replicate (nnew - vals.length) 0) hw.2.1
    have ht : vals.take nnew = vals := List.take_of_length_le (by omega)
    simp only [hv, if_false, hw2.1, hw.1, hsb, ht, hw.2.2, hw2.2.2.2, List.length_replicate]
    refine ⟨trivial, ?_⟩
    have : vals.length + (nnew - vals.length) = nnew := by omega
    simp [this]

/-- The total mask after `writeColumn` on a file of exactly `nold` elements. -/
theorem writeColumn_mask (elem : Nat) (f : descriptor) (nold nnew : Nat) (vals : List Value)
    (fill : Value) (totmask newmask : bitvector) (hexact : f.bytes.length = nold * elem) :
    (writeColumn elem f nold nnew vals fill totmask newmask).2.1 =
      bitvector.adjustSize (bitvector.adjustSize totmask nold nold ++ newmask)
        (bitvector.adjustSize totmask nold nold ++ newmask).length ((nnew + nold) % 2 ^ 32) := by
  unfold writeColumn bitvector.append
  have hpos : (UnixSeekEnd f).2 = nold * elem := hexact
  simp only [hpos, Nat.lt_irrefl, if_false, gt_iff_lt]

theorem writeString_mask (f : descriptor) (nold nnew : Nat) (vals : List Value)
    (totmask newmask : bitvector) :
    (writeString f nold nnew vals totmask newmask).2.1 =
      bitvector.adjustSize (bitvector.adjustSize totmask nold nold ++ newmask)
        (bitvector.adjustSize totmask nold nold ++ newmask).length ((nnew + nold) % 2 ^ 32) := by
  unfold writeString bitvector.append
  rfl

/-- A bitmap of the length asked for is left as it is. -/
theorem adjustSize_exact (m : bitvector) (nv nt : Nat) (h : m.length = nt) :
    bitvector.adjustSize m nv nt = m := by
  subst h
  unfold bitvector.adjustSize
  have h1 : ¬ m.length < min nv m.length := by
    have := Nat.min_le_right nv m.length
    omega
  simp only [h1, if_false, Nat.lt_irrefl]
  exact List.take_length _

/-- The empty bitmap of an absent mask file comes back as `n` set bits. -/
theorem adjustSize_nil (n : Nat) : bitvector.adjustSize [] n n = List.replicate n true := by
  unfold bitvector.adjustSize
  by_cases h : 0 < n
  · simp [h]
  · have : n = 0 := by omega
    subst this
    simp

theorem cnt_eq_length (m : bitvector) (h : bitvector.cnt m = m.length) :
    m = List.replicate m.length true := by
  unfold bitvector.cnt at h
  rw [List.count_eq_length] at h
  exact List.eq_replicate_of_mem (fun b hb => (h b hb).symm)

/-- The mask read back after `write` stored or removed it stands, once sized
to the rows it covers, for the same bits. -/
theorem readMask_storeMask (m : bitvector) :
    bitvector.adjustSize (readMask (storeMask m)) m.length m.length = m := by
  unfold storeMask readMask
  split_ifs with h
  · exact adjustSize_exact m _ _ rfl
  · have h2 : bitvector.cnt m = m.length := by
      by_contra hne
      exact h hne
    simp only [Option.getD_none]
    rw [adjustSize_nil]
    exact (cnt_eq_length m h2).symm

/-! ## writeColumn: the length of the column file -/

/-- C12 (amended): for a fixed-width column of element size `elem` and a
column file whose length is a whole number of elements, at most `nold` of them
(equal to `nold` elements, or shorter), `writeColumn` returns 0 and leaves the
file exactly `(nold + nnew) * elem` bytes long, whatever the staged values,
the fill value, the masks, the position of the descriptor and its append
flag. -/
theorem writeColumn_file_length (elem : Nat) (f : descriptor) (nold nnew : Nat)
    (vals : List Value) (fill : Value) (totmask newmask : bitvector) (helem : 0 < elem)
    (hshort : f.bytes.length ≤ nold * elem) (hwhole : f.bytes.length % elem = 0) :
    (writeColumn elem f nold nnew vals fill totmask newmask).2.2 = 0 ∧
      (writeColumn elem f nold nnew vals fill totmask newmask).1.bytes.length =
        (nold + nnew) * elem := by
  have hb := writeColumn_bytes elem f nold nnew vals fill totmask newmask helem hshort
  refine ⟨hb.2, ?_⟩
  rw [hb.1]
  simp only [List.length_append, flatten_replicate_length, encode_length, encodeAll_length,
    List.length_take]
  obtain ⟨k, hk⟩ := Nat.dvd_of_mod_eq_zero hwhole
  have hdiv : f.bytes.length / elem = k := by
    rw [hk]
    exact Nat.mul_div_cancel_left k helem
  have hkle : k ≤ nold := by
    rw [hk, Nat.mul_comm] at hshort
    exact Nat.le_of_mul_le_mul_right hshort helem
  rw [hdiv, hk, Nat.mul_comm elem k, ← Nat.add_mul, ← Nat.add_mul, ← Nat.add_mul]
  congr 1
  omega

/-- Witness for C12: a two-byte column whose file holds one element of the two
older rows, with one staged value for two new rows. -/
theorem writeColumn_file_length_witness :
    (0 < 2 ∧ (descriptor.mk [1, 0] 0 true).bytes.length ≤ 2 * 2 ∧
        (descriptor.mk [1, 0] 0 true).bytes.length % 2 = 0) ∧
      (writeColumn 2 ⟨[1, 0], 0, true⟩ 2 2 [.int 258] (.int 0x7FFF) [] [true]).2.2 = 0 ∧
      (writeColumn 2 ⟨[1, 0], 0, true⟩ 2 2 [.int 258] (.int 0x7FFF) [] [true]).1.bytes.length =
        (2 + 2) * 2 :=
  ⟨by decide,
    writeColumn_file_length 2 ⟨[1, 0], 0, true⟩ 2 2 [.int 258] (.int 0x7FFF) [] [true]
      (by decide) (by decide) (by decide)⟩

/-- C12 (counterexample): `writeColumn` returns 0 and leaves a file of another
length than `(nold + nnew) * elem` bytes when the file it finds is not a whole
number of elements (a one-byte file of a two-byte column, `nold = nnew = 1`:
five bytes, not four), and when the file is longer than `nold` elements (a
five-byte file of a one-byte column, `nold = 1`, `nnew = 2`: seven bytes on a
descriptor that appends, five on one that does not, never three). -/
theorem writeColumn_other_length :
    ((writeColumn 2 ⟨[9], 0, true⟩ 1 1 [.int 258] (.int 0x7FFF) [] [true]).2.2 = 0 ∧
        (writeColumn 2 ⟨[9], 0, true⟩ 1 1 [.int 258] (.int 0x7FFF) [] [true]).1.bytes =
          [9, 255, 127, 2, 1] ∧
        (writeColumn 2 ⟨[9], 0, false⟩ 1 1 [.int 258] (.int 0x7FFF) [] [true]).1.bytes =
          [9, 255, 127, 2, 1]) ∧
      ((writeColumn 1 ⟨[1, 2, 3, 4, 5], 0, true⟩ 1 2 [.int 8, .int 9] (.int 0x7F) []
            [true, true]).2.2 = 0 ∧
        (writeColumn 1 ⟨[1, 2, 3, 4, 5], 0, true⟩ 1 2 [.int 8, .int 9] (.int 0x7F) []
            [true, true]).1.bytes = [1, 2, 3, 4, 5, 8, 9] ∧
        (writeColumn 1 ⟨[1, 2, 3, 4, 5], 0, false⟩ 1 2 [.int 8, .int 9] (.int 0x7F) []
            [true, true]).2.2 = 0 ∧
        (writeColumn 1 ⟨[1, 2, 3, 4, 5], 0, false⟩ 1 2 [.int 8, .int 9] (.int 0x7F) []
            [true, true]).1.bytes = [1, 8, 9, 4, 5]) := by
  decide

/-! ## Append associativity of the column files -/

/-- C13: append associativity at the column level. Writing `n1` staged rows
(values `vals1`, bits `mask1`) into an empty column file with `nold = 0` and no
mask file, storing or removing the mask file as `write` does, then reopening
the file and writing `n2` further rows (`vals2`, `mask2`) with `nold = n1` and
the mask read back, gives the same column-file bytes and the same total mask
as a single write of the `n1 + n2` concatenated rows with `nold = 0`; both
writes return 0. This holds for `writeColumn`, with any element size and fill
value, and for `writeString`, and for either setting of the append flag. The
number of rows of the single write, `n1 + n2`, is of a 32-bit type, as every
row count of the two functions is. -/
theorem write_append_associative (elem : Nat) (ap : Bool) (fill : Value)
    (vals1 vals2 : List Value) (mask1 mask2 : bitvector) (helem : 0 < elem)
    (h1 : vals1.length = mask1.length) (h2 : vals2.length = mask2.length)
    (hfit : vals1.length + vals2.length < 2 ^ 32) :
    (let first := writeColumn elem ⟨[], 0, ap⟩ 0 vals1.length vals1 fill (readMask none) mask1
      let second := writeColumn elem ⟨first.1.bytes, 0, ap⟩ vals1.length vals2.length vals2 fill
        (readMask (storeMask first.2.1)) mask2
      let once := writeColumn elem ⟨[], 0, ap⟩ 0 (vals1.length + vals2.length) (vals1 ++ vals2)
        fill (readMask none) (mask1 ++ mask2)
      first.2.2 = 0 ∧ second.2.2 = 0 ∧ once.2.2 = 0 ∧
        second.1.bytes = once.1.bytes ∧ second.2.1 = once.2.1 ∧
        second.2.1 = mask1 ++ mask2) ∧
    (let first := writeString ⟨[], 0, ap⟩ 0 vals1.length vals1 (readMask none) mask1
      let second := writeString ⟨first.1.bytes, 0, ap⟩ vals1.length vals2.length vals2
        (readMask (storeMask first.2.1)) mask2
      let once := writeString ⟨[], 0, ap⟩ 0 (vals1.length + vals2.length) (vals1 ++ vals2)
        (readMask none) (mask1 ++ mask2)
      first.2.2 = 0 ∧ second.2.2 = 0 ∧ once.2.2 = 0 ∧
        second.1.bytes = once.1.bytes ∧ second.2.1 = once.2.1 ∧
        second.2.1 = mask1 ++ mask2) := by
  have hw1 : (vals1.length + 0) % 2 ^ 32 = vals1.length := Nat.mod_eq_of_lt (by omega)
  have hw12 : (vals2.length + vals1.length) % 2 ^ 32 = vals2.length + vals1.length :=
    Nat.mod_eq_of_lt (by omega)
  have hwo : (vals1.length + vals2.length + 0) % 2 ^ 32 = vals1.length + vals2.length :=
    Nat.mod_eq_of_lt (by omega)
  have hm1 : ∀ (tot : bitvector), bitvector.adjustSize (bitvector.adjustSize tot 0 0 ++ mask1)
      (bitvector.adjustSize tot 0 0 ++ mask1).length ((vals1.length + 0) % 2 ^ 32) = mask1 := by
    intro tot
    have h0 : bitvector.adjustSize tot 0 0 = [] := by
      simp [bitvector.adjustSize]
    rw [h0, hw1]
    exact adjustSize_exact _ _ _ (by simp [h1])
  have hm12 : bitvector.adjustSize (bitvector.adjustSize (readMask (storeMask mask1))
      vals1.length vals1.length ++ mask2)
      (bitvector.adjustSize (readMask (storeMask mask1)) vals1.length vals1.length ++
        mask2).length ((vals2.length + vals1.length) % 2 ^ 32) = mask1 ++ mask2 := by
    rw [hw12, h1, readMask_storeMask]
    exact adjustSize_exact _ _ _ (by simp [h2]; omega)
  have hmo : ∀ (tot : bitvector), bitvector.adjustSize
      (bitvector.adjustSize tot 0 0 ++ (mask1 ++ mask2))
      (bitvector.adjustSize tot 0 0 ++ (mask1 ++ mask2)).length
      ((vals1.length + vals2.length + 0) % 2 ^ 32) = mask1 ++ mask2 := by
    intro tot
    have h0 : bitvector.adjustSize tot 0 0 = [] := by
      simp [bitvector.adjustSize]
    rw [h0, hwo]
    exact adjustSize_exact _ _ _ (by simp [h1, h2])
  have htake : (vals1 ++ vals2).take (vals1.length + vals2.length) = vals1 ++ vals2 :=
    List.take_of_length_le (by simp)
  constructor
  · have b1 := writeColumn_bytes elem ⟨[], 0, ap⟩ 0 vals1.length vals1 fill (readMask none)
      mask1 helem (by simp)
    have k1 := writeColumn_mask elem ⟨[], 0, ap⟩ 0 vals1.length vals1 fill (readMask none)
      mask1 (by simp)
    rw [hm1] at k1
    have e1 : (writeColumn elem ⟨[], 0, ap⟩ 0 vals1.length vals1 fill (readMask none)
        mask1).1.bytes = encodeAll elem vals1 := by
      rw [b1.1]
      simp
    have bo := writeColumn_bytes elem ⟨[], 0, ap⟩ 0 (vals1.length + vals2.length)
      (vals1 ++ vals2) fill (readMask none) (mask1 ++ mask2) helem (by simp)
    have ko := writeColumn_mask elem ⟨[], 0, ap⟩ 0 (vals1.length + vals2.length)
      (vals1 ++ vals2) fill (readMask none) (mask1 ++ mask2) (by simp)
    rw [hmo] at ko
    have b2 := writeColumn_bytes elem ⟨encodeAll elem vals1, 0, ap⟩ vals1.length vals2.length
      vals2 fill (readMask (storeMask mask1)) mask2 helem (by simp [encodeAll_length])
    have k2 := writeColumn_mask elem ⟨encodeAll elem vals1, 0, ap⟩ vals1.length vals2.length
      vals2 fill (readMask (storeMask mask1)) mask2 (by simp [encodeAll_length])
    rw [hm12] at k2
    simp only [e1, k1]
    refine ⟨b1.2, b2.2, bo.2, ?_, ?_, k2⟩
    · rw [b2.1, bo.1, htake]
      simp [encodeAll_length, encodeAll_append, Nat.mul_div_cancel _ helem]
    · rw [k2, ko]
  · have b1 := writeString_bytes ⟨[], 0, ap⟩ 0 vals1.length vals1 (readMask none) mask1
    have k1 := writeString_mask ⟨[], 0, ap⟩ 0 vals1.length vals1 (readMask none) mask1
    rw [hm1] at k1
    have e1 : (writeString ⟨[], 0, ap⟩ 0 vals1.length vals1 (readMask none) mask1).1.bytes =
        ((vals1.map c_str).flatten) := by
      rw [b1.1]
      simp
    have bo := writeString_bytes ⟨[], 0, ap⟩ 0 (vals1.length + vals2.length)
      (vals1 ++ vals2) (readMask none) (mask1 ++ mask2)
    have ko := writeString_mask ⟨[], 0, ap⟩ 0 (vals1.length + vals2.length)
      (vals1 ++ vals2) (readMask none) (mask1 ++ mask2)
    rw [hmo] at ko
    have b2 := writeString_bytes ⟨(vals1.map c_str).flatten, 0, ap⟩ vals1.length vals2.length
      vals2 (readMask (storeMask mask1)) mask2
    have k2 := writeString_mask ⟨(vals1.map c_str).flatten, 0, ap⟩ vals1.length vals2.length
      vals2 (readMask (storeMask mask1)) mask2
    rw [hm12] at k2
    simp only [e1, k1]
    refine ⟨b1.2, b2.2, bo.2, ?_, ?_, k2⟩
    · rw [b2.1, bo.1, htake]
      simp
    · rw [k2, ko]

/-- Witness for C13: a two-byte column given the rows 1, 2 (the second one
null) and then the row 3. -/
theorem write_append_associative_witness :
    (let first := writeColumn 2 ⟨[], 0, true⟩ 0 2 [.int 1, .int 0x7FFF] (.int 0x7FFF)
        (readMask none) [true, false]
      let second := writeColumn 2 ⟨first.1.bytes, 0, true⟩ 2 1 [.int 3] (.int 0x7FFF)
        (readMask (storeMask first.2.1)) [true]
      second.1.bytes = [1, 0, 255, 127, 3, 0] ∧ second.2.1 = [true, false, true]) :=
  have h := (write_append_associative 2 true (.int 0x7FFF) [.int 1, .int 0x7FFF] [.int 3]
    [true, false] [true] (by decide) rfl rfl (by decide)).1
  ⟨h.2.2.2.1.trans (by decide), h.2.2.2.2.2⟩

set_option maxRecDepth 100000

/-! ## write: the order of the columns -/

theorem codesLt_irrefl (a : List Nat) : codesLt a a = false := by
  induction a with
  | nil => rfl
  | cons x xs ih => simp [codesLt, ih]

theorem codesLt_asymm (a b : List Nat) (h : codesLt a b = true) : codesLt b a = false := by
  induction a generalizing b with
  | nil => cases b <;> simp_all [codesLt]
  | cons x xs ih =>
    cases b with
    | nil => simp_all [codesLt]
    | cons y ys =>
      simp only [codesLt, Bool.or_eq_true, decide_eq_true_eq, Bool.and_eq_true, beq_iff_eq] at h
      simp only [codesLt, Bool.or_eq_false_iff, decide_eq_false_iff_not, Bool.and_eq_false_imp,
        beq_iff_eq]
      rcases h with h | ⟨h1, h2⟩
      · exact ⟨by omega, fun e => by omega⟩
      · exact ⟨by omega, fun _ => ih ys h2⟩

theorem codesLt_trans (a b c : List Nat) (h1 : codesLt a b = true) (h2 : codesLt b c = true) :
    codesLt a c = true := by
  induction a generalizing b c with
  | nil =>
    cases b with
    | nil => simp [codesLt] at h1
    | cons y ys =>
      cases c with
      | nil => simp [codesLt] at h2
      | cons z zs => simp [codesLt]
  | cons x xs ih =>
    cases b with
    | nil => simp [codesLt] at h1
    | cons y ys =>
      cases c with
      | nil => simp [codesLt] at h2
      | cons z zs =>
        simp only [codesLt, Bool.or_eq_true, decide_eq_true_eq, Bool.and_eq_true,
          beq_iff_eq] at h1 h2 ⊢
        rcases h1 with h1 | ⟨e1, h1⟩
        · rcases h2 with h2 | ⟨e2, _⟩
          · exact Or.inl (by omega)
          · exact Or.inl (by omega)
        · rcases h2 with h2 | ⟨e2, h2⟩
          · exact Or.inl (by omega)
          · exact Or.inr ⟨by omega, ih ys zs h1 h2⟩

/-- Two sequences of codes of which neither is before the other are equal. -/
theorem codesLt_total (a b : List Nat) (h1 : codesLt a b = false) (h2 : codesLt b a = false) :
    a = b := by
  induction a generalizing b with
  | nil =>
    cases b with
    | nil => rfl
    | cons y ys => simp [codesLt] at h1
  | cons x xs ih =>
    cases b with
    | nil => simp [codesLt] at h2
    | cons y ys =>
      simp only [codesLt, Bool.or_eq_false_iff, decide_eq_false_iff_not, Bool.and_eq_false_imp,
        beq_iff_eq] at h1 h2
      have e : x = y := by omega
      subst e
      rw [ih ys (h1.2 rfl) (h2.2 rfl)]

theorem nameLe_total (a b : column) : nameLe a b ∨ nameLe b a := by
  unfold nameLe
  cases h : codesLt (nameKey b.name) (nameKey a.name) with
  | false => exact Or.inl rfl
  | true => exact Or.inr (codesLt_asymm _ _ h)

theorem nameLe_trans (a b c : column) (hab : nameLe a b) (hbc : nameLe b c) : nameLe a c := by
  unfold nameLe at *
  cases h : codesLt (nameKey c.name) (nameKey a.name) with
  | false => rfl
  | true =>
    cases hab2 : codesLt (nameKey a.name) (nameKey b.name) with
    | true =>
      have := codesLt_trans _ _ _ h hab2
      rw [hbc] at this
      cases this
    | false =>
      have e := codesLt_total _ _ hab2 hab
      rw [e, hbc] at h
      cases h

/-- The map `cols` holds the declared columns, in the order of their names. -/
theorem cols_sorted (t : tafel) : t.cols.Sorted nameLe ∧ t.cols.Perm t.colorder :=
  haveI : IsTotal column nameLe := ⟨nameLe_total⟩
  haveI : IsTrans column nameLe := ⟨nameLe_trans⟩
  ⟨List.sorted_insertionSort nameLe t.colorder, List.perm_insertionSort nameLe t.colorder⟩

theorem columnFiles_append (a b : List fileOp) :
    columnFiles (a ++ b) = columnFiles a ++ columnFiles b := by
  induction a with
  | nil => rfl
  | cons x xs ih => cases x <;> simp [columnFiles, ih]

theorem columnBlocks_append (a b : List fileOp) :
    columnBlocks (a ++ b) = columnBlocks a ++ columnBlocks b := by
  induction a with
  | nil => rfl
  | cons x xs ih => cases x <;> simp [columnBlocks, ih]

/-- The column loop visits the columns it is given from the first on: the
column files and the blocks it leaves list a prefix of them, and all of them
when the loop runs to its end; it does not close the metadata file. -/
theorem writeColumns_order (w : world) (dir tname : String) (nold mrows : Nat)
    (cs : List column) (files : String → Option (List Nat)) (ierr : Int) :
    columnFiles (writeColumns w dir tname nold mrows files ierr cs).2 <+:
        cs.map (fun c => dir ++ String.singleton w.dirsep ++ c.name) ∧
      columnBlocks (writeColumns w dir tname nold mrows files ierr cs).2 <+:
        cs.map column.name ∧
      ((writeColumns w dir tname nold mrows files ierr cs).1 = none →
        columnFiles (writeColumns w dir tname nold mrows files ierr cs).2 =
            cs.map (fun c => dir ++ String.singleton w.dirsep ++ c.name) ∧
          columnBlocks (writeColumns w dir tname nold mrows files ierr cs).2 =
            cs.map column.name) ∧
      fileOp.closeMetadata ∉ (writeColumns w dir tname nold mrows files ierr cs).2 := by
  induction cs generalizing files ierr with
  | nil => simp [writeColumns, columnFiles, columnBlocks]
  | cons c cs ih =>
    simp only [writeColumns]
    split_ifs with hopen hneg hcnt
    · simp [columnFiles, columnBlocks]
    · simp [columnFiles, columnBlocks]
    · simp only [List.cons_append, List.nil_append, columnFiles, columnBlocks, List.map_cons,
        List.prefix_cons_inj, List.cons.injEq, true_and, List.mem_cons, not_or]
      exact ⟨(ih _ _).1, (ih _ _).2.1, (ih _ _).2.2.1,
        fun h => fileOp.noConfusion h, fun h => fileOp.noConfusion h,
        fun h => fileOp.noConfusion h, (ih _ _).2.2.2⟩
    · simp only [List.cons_append, List.nil_append, columnFiles, columnBlocks, List.map_cons,
        List.prefix_cons_inj, List.cons.injEq, true_and, List.mem_cons, not_or]
      exact ⟨(ih _ _).1, (ih _ _).2.1, (ih _ _).2.2.1,
        fun h => fileOp.noConfusion h, fun h => fileOp.noConfusion h,
        fun h => fileOp.noConfusion h, (ih _ _).2.2.2⟩

theorem columnFiles_frame (p h : String) (ops : List fileOp) :
    columnFiles (.openMetadata p :: .header h :: ops) = columnFiles ops ∧
      columnFiles (ops ++ [.closeMetadata]) = columnFiles ops ∧
      columnBlocks (.openMetadata p :: .header h :: ops) = columnBlocks ops ∧
      columnBlocks (ops ++ [.closeMetadata]) = columnBlocks ops := by
  refine ⟨rfl, ?_, rfl, ?_⟩
  · rw [columnFiles_append]
    simp [columnFiles]
  · rw [columnBlocks_append]
    simp [columnBlocks]

/-- The column files and the blocks `write` leaves after its reconciliation
list the columns in the order of `cols`. -/
theorem writeRest_order (w : world) (t : tafel) (dir : String) (idx : Option String)
    (r : reconciled) :
    columnFiles (writeRest w t dir idx r).2 <+:
        t.cols.map (fun c => dir ++ String.singleton w.dirsep ++ c.name) ∧
      columnBlocks (writeRest w t dir idx r).2 <+: t.cols.map column.name ∧
      (fileOp.closeMetadata ∈ (writeRest w t dir idx r).2 →
        (writeRest w t dir idx r).1 = 0 ∧
          columnFiles (writeRest w t dir idx r).2 =
            t.cols.map (fun c => dir ++ String.singleton w.dirsep ++ c.name) ∧
          columnBlocks (writeRest w t dir idx r).2 = t.cols.map column.name) := by
  unfold writeRest
  simp only
  generalize (if nil r.tname = true then derivedName w.dirsep dir else r.tname) = tn
  generalize (if nil r.tdesc = true then
    generatedDescription w.stamp t.cols.length ((r.nold + t.mrows) % 2 ^ 32)
    else r.tdesc.getD "") = td
  cases hmd : w.mdOpens (dir ++ String.singleton w.dirsep ++ "-part.txt") with
  | false => simp [columnFiles, columnBlocks]
  | true =>
    simp only [Bool.not_true, Bool.false_eq_true, if_false]
    cases tn with
    | none => simp [columnFiles, columnBlocks]
    | some tn =>
      have h := writeColumns_order w dir tn r.nold t.mrows t.cols w.files 0
      simp only
      cases hl : (writeColumns w dir tn r.nold t.mrows w.files 0 t.cols).1 with
      | some ierr =>
        simp only [List.cons_append, List.nil_append, (columnFiles_frame _ _ _).1,
          (columnFiles_frame _ _ _).2.2.1, List.mem_cons]
        refine ⟨h.1, h.2.1, fun hm => ?_⟩
        rcases hm with hm | hm | hm
        · exact fileOp.noConfusion hm
        · exact fileOp.noConfusion hm
        · exact absurd hm h.2.2.2
      | none =>
        simp only [List.cons_append, List.nil_append, (columnFiles_frame _ _ _).1,
          (columnFiles_frame _ _ _).2.2.1, (columnFiles_frame "" "" _).2.1,
          (columnFiles_frame "" "" _).2.2.2]
        have h3 := h.2.2.1 hl
        exact ⟨h.1, h.2.1, fun _ => ⟨trivial, h3⟩⟩

/-- The function `write` either returns before it opens a file, or does what
follows its reconciliation. -/
theorem write_cases {op : Type} (t : tafel) (dir : String) (tname tdesc idx : Option String)
    (reader : String → part) (rest : tafel → String → Option String → reconciled → Int × List op) :
    (∃ c, write t (some dir) tname tdesc idx reader rest = (c, [])) ∨
      ∃ r, write t (some dir) tname tdesc idx reader rest = rest t dir idx r := by
  unfold write
  simp only
  split_ifs
  all_goals first
    | exact Or.inl ⟨_, rfl⟩
    | exact Or.inr ⟨_, rfl⟩

/-- C11 (amended): `write` goes through the staged columns in the order of the
map `cols`, which holds the declared columns sorted by name, not in the order
of their declaration. The column files it closes and the `Begin Column` blocks
it streams to the metadata file list, in this order, the first columns of
`cols`; when `write` gets as far as closing the metadata file it has returned
0 and they list all the columns of `cols`. -/
theorem write_column_order (w : world) (t : tafel) (dir : String) (tname tdesc idx : Option String)
    (reader : String → part) :
    columnFiles (write t (some dir) tname tdesc idx reader (writeRest w)).2 <+:
        t.cols.map (fun c => dir ++ String.singleton w.dirsep ++ c.name) ∧
      columnBlocks (write t (some dir) tname tdesc idx reader (writeRest w)).2 <+:
        t.cols.map column.name ∧
      (fileOp.closeMetadata ∈ (write t (some dir) tname tdesc idx reader (writeRest w)).2 →
        (write t (some dir) tname tdesc idx reader (writeRest w)).1 = 0 ∧
          columnFiles (write t (some dir) tname tdesc idx reader (writeRest w)).2 =
            t.cols.map (fun c => dir ++ String.singleton w.dirsep ++ c.name) ∧
          columnBlocks (write t (some dir) tname tdesc idx reader (writeRest w)).2 =
            t.cols.map column.name) ∧
      t.cols.Sorted nameLe ∧ t.cols.Perm t.colorder := by
  have hs := cols_sorted t
  rcases write_cases t dir tname tdesc idx reader (writeRest w) with ⟨c, h⟩ | ⟨r, h⟩
  · rw [h]
    simp [columnFiles, columnBlocks, hs.1, hs.2]
  · rw [h]
    have ho := writeRest_order w t dir idx r
    exact ⟨ho.1, ho.2.1, ho.2.2, hs.1, hs.2⟩

/-- Witness for C11: the columns declared as `b`, `a` are written to the
directory `d` as `d/a`, `d/b`, and the blocks are those of `a`, `b`. -/
theorem write_column_order_witness :
    (write example_data.reversedTable (some "d") (some "t") (some "x") none
        example_data.noPartition (writeRest example_data.plainWorld)).1 = 0 ∧
      columnFiles (write example_data.reversedTable (some "d") (some "t") (some "x") none
        example_data.noPartition (writeRest example_data.plainWorld)).2 = ["d/a", "d/b"] ∧
      columnBlocks (write example_data.reversedTable (some "d") (some "t") (some "x") none
        example_data.noPartition (writeRest example_data.plainWorld)).2 = ["a", "b"] :=
  have h := (write_column_order example_data.plainWorld example_data.reversedTable "d"
    (some "t") (some "x") none example_data.noPartition).2.2.1 (by decide)
  ⟨h.1, h.2.1.trans (by decide), h.2.2.trans (by decide)⟩

/-- C11 (counterexample): with the columns declared as `b`, then `a`, `write`
returns 0, writes the column file of `a` before the one of `b` and emits the
block of `a` before the one of `b`. -/
theorem write_not_declaration_order :
    example_data.reversedTable.colorder.map column.name = ["b", "a"] ∧
      write example_data.reversedTable (some "d") (some "t") (some "x") none
          example_data.noPartition (writeRest example_data.plainWorld) =
        (0, [.openMetadata "d/-part.txt",
          .header ("# meta data for data partition t written by ibis::tafel::write on now\n\n" ++
            "BEGIN HEADER\nName = t\nDescription = x\nNumber_of_rows = 1\n" ++
            "Number_of_columns = 2\nTimestamp = 0\nEND HEADER\n"),
          .columnFile "d/a" [1], .removeMask "d/a.msk",
          .columnBlock "a" "\nBegin Column\nname = a\ndata_type = BYTE\nEnd Column\n",
          .columnFile "d/b" [2], .removeMask "d/b.msk",
          .columnBlock "b" "\nBegin Column\nname = b\ndata_type = BYTE\nEnd Column\n",
          .closeMetadata]) := by
  decide

/-! ## reserveSpace -/

theorem cnt_le_length (m : bitvector) : bitvector.cnt m ≤ m.length :=
  List.count_le_length _ _

/-- Without a failing allocation the loop of `doReserve` goes through all the
columns and leaves each of them with an empty bitmap. -/
theorem doReserveLoop_cleared (h : heap) (k maxr mrows : Nat)
    (hthrow : ∀ k n, h.throws k n = false) (cs : List column) (ret : Int) :
    ∃ ret1 done, doReserveLoop h k maxr mrows cs ret [] = .returned ret1 done [] ∧
      done.map column.name = cs.map column.name ∧ ∀ d ∈ done, d.mask = [] := by
  induction cs generalizing ret with
  | nil => exact ⟨ret, [], rfl, rfl, by simp⟩
  | cons c cs ih =>
    have key : ∀ (x : Int) (col : column), col.name = c.name → col.mask = [] →
        ∃ ret1 done, (doReserveLoop h k maxr mrows cs x []).push col = .returned ret1 done [] ∧
          done.map column.name = (c :: cs).map column.name ∧ ∀ d ∈ done, d.mask = [] := by
      intro x col hn hm
      obtain ⟨r1, done, h1, h2, h3⟩ := ih x
      rw [h1]
      refine ⟨r1, col :: done, rfl, by simp [h2, hn], ?_⟩
      intro d hd
      rcases List.mem_cons.1 hd with rfl | hd
      · exact hm
      · exact h3 d hd
    simp only [doReserveLoop, hthrow, List.contains_nil, Bool.false_eq_true, if_false]
    split_ifs <;> exact key _ _ rfl rfl

/-- Every column is as the loop left it when the loop went through all the
columns. -/
theorem afterLoop_cleared (done colorder : List column)
    (hn : ∀ c ∈ colorder, c.name ∈ done.map column.name) (hd : ∀ d ∈ done, d.mask = []) :
    ∀ c ∈ afterLoop done colorder, c.mask = [] := by
  intro c hc
  unfold afterLoop at hc
  obtain ⟨c0, hc0, rfl⟩ := List.mem_map.1 hc
  obtain ⟨d, hdm, hdn⟩ := List.mem_map.1 (hn c0 hc0)
  cases hf : done.find? (fun d => nameKey d.name == nameKey c0.name) with
  | none =>
    have := List.find?_eq_none.1 hf d hdm
    simp [hdn] at this
  | some d1 =>
    simp only [Option.getD_some]
    exact hd d1 (List.mem_of_find?_eq_some hf)

/-- Without a failing allocation `reserveSpace` returns; it leaves `mrows` as
it is, and either the whole table, or every bitmap empty. -/
theorem reserveSpace_returns (h : heap) (t : tafel) (maxr : Nat)
    (hthrow : ∀ k n, h.throws k n = false) :
    ∃ r, reserveSpace h t maxr = some r ∧ r.table.mrows = t.mrows ∧
      (r.table = t ∨ ∀ c ∈ r.table.colorder, c.mask = []) ∧
      (t.colorder ≠ [] → t.mrows < maxr % 2 ^ 32 → t.mrows < 0x40000000 →
        ∀ c ∈ r.table.colorder, c.mask = []) := by
  unfold reserveSpace
  simp only
  by_cases hc : t.cols.isEmpty = true
  · refine ⟨_, by rw [if_pos hc], rfl, Or.inl rfl, ?_⟩
    intro hne
    have he : t.cols = [] := List.isEmpty_iff.1 hc
    cases hl : t.colorder with
    | nil => exact absurd hl hne
    | cons c cs =>
      have : c ∈ t.cols := (mem_cols t c).2 (by rw [hl]; exact List.mem_cons_self _ _)
      rw [he] at this
      cases this
  · rw [if_neg hc]
    by_cases hr : t.mrows ≥ maxr % 2 ^ 32
    · refine ⟨_, by rw [if_pos hr], rfl, Or.inl rfl, ?_⟩
      intro _ h2
      omega
    · rw [if_neg hr]
      have hm : ∀ (m : Nat), (t.mrows < 0x40000000 → t.mrows < m) →
          ∃ r, (match doReserve h 0 t [] m with
            | .returned ret cols deleted =>
              some ({ ret := ret, table := { t with colorder := cols }, deleted := deleted } :
                reservation)
            | .undefined => none
            | .thrown cols deleted =>
              if t.mrows > 0 then
                some { ret := -2, table := { colorder := cols, mrows := 0 }, deleted := deleted }
              else reserveRetry h 1 [1, 2, 2, 2] { t with colorder := cols } deleted m) = some r ∧
            r.table.mrows = t.mrows ∧
            (r.table = t ∨ ∀ c ∈ r.table.colorder, c.mask = []) ∧
            (t.colorder ≠ [] → t.mrows < maxr % 2 ^ 32 → t.mrows < 0x40000000 →
              ∀ c ∈ r.table.colorder, c.mask = []) := by
        intro m hlt
        unfold doReserve
        by_cases h1 : t.mrows ≥ m
        · rw [if_pos h1]
          exact ⟨_, rfl, rfl, Or.inl rfl, fun _ _ h4 => by have := hlt h4; omega⟩
        · rw [if_neg h1]
          obtain ⟨r1, done, e1, e2, e3⟩ := doReserveLoop_cleared h 0 m t.mrows hthrow
            t.cols 0x7FFFFFFF
          rw [e1]
          have hcl := afterLoop_cleared done t.colorder (fun c hc => by
            rw [e2]
            exact List.mem_map.2 ⟨c, (mem_cols t c).2 hc, rfl⟩) e3
          exact ⟨_, rfl, rfl, Or.inr hcl, fun _ _ _ => hcl⟩
      refine hm _ ?_
      intro h4
      split_ifs <;> omega

/-- C15 (what the code does instead): a call `reserveSpace(maxr)` in which no
allocation fails, on a table that has columns and fewer than `maxr` and fewer
than 2^30 rows, returns, leaves `mrows` as it is and leaves every presence
bitmap empty, whatever the bitmap held. -/
theorem reserveSpace_clears_masks (h : heap) (t : tafel) (maxr : Nat)
    (hthrow : ∀ k n, h.throws k n = false) (hcols : t.colorder ≠ [])
    (hrows : t.mrows < maxr % 2 ^ 32) (hclip : t.mrows < 0x40000000) :
    ∃ r, reserveSpace h t maxr = some r ∧ r.table.mrows = t.mrows ∧
      ∀ c ∈ r.table.colorder, c.mask = [] := by
  obtain ⟨r, h1, h2, _, h4⟩ := reserveSpace_returns h t maxr hthrow
  exact ⟨r, h1, h2, h4 hcols hrows hclip⟩

/-- Witness for C15: `reserveSpace(10)` on the column `a:byte` with the three
valid rows 1, 2, 3 returns 10 and leaves the values with an empty bitmap. -/
theorem reserveSpace_clears_masks_witness :
    reserveSpace example_data.plainHeap example_data.chunkTable 10 =
        some { ret := 10, table := example_data.shortMaskTable, deleted := [] } ∧
      ∃ r, reserveSpace example_data.plainHeap example_data.chunkTable 10 = some r ∧
        r.table.mrows = example_data.chunkTable.mrows ∧ ∀ c ∈ r.table.colorder, c.mask = [] :=
  ⟨by decide,
    reserveSpace_clears_masks example_data.plainHeap example_data.chunkTable 10 (fun _ _ => rfl)
      (by decide) (by decide) (by decide)⟩

/-! ## The bound on the bitmaps -/

theorem mem_modifyColumn (cn : String) (f : column → column) (l : List column) (c1 : column)
    (h : c1 ∈ modifyColumn cn f l) : c1 ∈ l ∨ ∃ c ∈ l, c1 = f c := by
  induction l with
  | nil => simp [modifyColumn] at h
  | cons c cs ih =>
    simp only [modifyColumn] at h
    split_ifs at h
    · rcases List.mem_cons.1 h with rfl | h
      · exact Or.inr ⟨c, List.mem_cons_self _ _, rfl⟩
      · exact Or.inl (List.mem_cons_of_mem _ h)
    · rcases List.mem_cons.1 h with rfl | h
      · exact Or.inl (List.mem_cons_self _ _)
      · rcases ih h with h | ⟨c0, h0, e⟩
        · exact Or.inl (List.mem_cons_of_mem _ h)
        · exact Or.inr ⟨c0, List.mem_cons_of_mem _ h0, e⟩

/-- A chunk placed at rows `[b, e)` leaves a bitmap no longer than the longest
of the bitmap, the value buffer and `e`. -/
theorem appendColumn_mask_length (v : List Value) (b e : Nat) (c : column) (hbe : b < e) :
    (appendColumn v b e c).mask.length ≤ max (max c.mask.length c.values.length) e := by
  unfold appendColumn
  split_ifs with hk hs
  · omega
  · simp only [appendString, bitvector.appendFill, List.nil_append]
    rw [union_length]
    split_ifs <;>
      simp only [bitvector.adjustSize_length, List.length_append, List.length_replicate] at * <;>
      omega
  · simp only [appendValues, bitvector.appendFill, List.nil_append]
    rw [union_length]
    split_ifs <;>
      simp only [bitvector.adjustSize_length, List.length_append, List.length_replicate] at * <;>
      omega

theorem addColumn_maskBounded (t : tafel) (cn : Option String) (ct : TYPE_T)
    (cd idx : Option String) (hJ : maskBounded t) : maskBounded (t.addColumn cn ct cd idx).1 := by
  unfold addColumn
  cases cn with
  | none => exact hJ
  | some cn =>
    simp only
    by_cases hg : cn = "" ∨ ct = .UNKNOWN_TYPE
    · rw [if_pos hg]
      exact hJ
    · rw [if_neg hg]
      cases hf : t.find cn with
      | some c0 =>
        intro c hc
        rcases mem_modifyColumn _ _ _ _ hc with h | ⟨c1, h1, rfl⟩
        · exact hJ c h
        · exact hJ c1 h1
      | none =>
        intro c hc
        rcases List.mem_append.1 hc with h | h
        · exact hJ c h
        · rw [List.mem_singleton] at h
          subst h
          exact ⟨cnt_le_length _, Nat.zero_le _⟩

theorem append_maskBounded (t : tafel) (cn : Option String) (b e : Nat) (v : Option (List Value))
    (hJ : maskBounded t) (hV : ∀ c ∈ t.colorder, c.values.length ≤ t.mrows) :
    maskBounded (t.append cn b e v).1 := by
  unfold append
  cases cn with
  | none => exact hJ
  | some cn =>
    cases v with
    | none => exact hJ
    | some v =>
      simp only
      by_cases hg : b % 2 ^ 32 ≠ b ∨ e % 2 ^ 32 ≠ e ∨ b % 2 ^ 32 ≥ e % 2 ^ 32 ∨ cn = ""
      · rw [if_pos hg]
        exact hJ
      · rw [if_neg hg]
        cases hf : t.find cn with
        | none => exact hJ
        | some c0 =>
          have hbe : b % 2 ^ 32 < e % 2 ^ 32 := by
            simp only [not_or, not_le, ge_iff_le] at hg
            omega
          have hm : t.mrows ≤ (if e % 2 ^ 32 > t.mrows then e % 2 ^ 32 else t.mrows) ∧
              e % 2 ^ 32 ≤ (if e % 2 ^ 32 > t.mrows then e % 2 ^ 32 else t.mrows) := by
            split_ifs <;> omega
          intro c hc
          refine ⟨cnt_le_length _, ?_⟩
          show c.mask.length ≤ (if e % 2 ^ 32 > t.mrows then e % 2 ^ 32 else t.mrows)
          rcases mem_modifyColumn _ _ _ _ hc with h | ⟨c1, h1, rfl⟩
          · have := (hJ c h).2
            omega
          · have h2 := appendColumn_mask_length v (b % 2 ^ 32) (e % 2 ^ 32) c1 hbe
            have h3 := (hJ c1 h1).2
            have h4 := hV c1 h1
            omega

theorem normalize_maskBounded (t : tafel) : maskBounded t.normalize := by
  unfold normalize
  by_cases hc : t.cols.isEmpty = true
  · rw [if_pos hc]
    intro c hcm
    have : c ∈ t.cols := (mem_cols t c).2 hcm
    rw [List.isEmpty_iff.1 hc] at this
    cases this
  · rw [if_neg hc]
    have hb := foldl_normalizeScan_bounds t.cols (t.mrows, false)
    simp only
    split_ifs with hflag
    · intro c hcm
      exact ⟨cnt_le_length _, (hb.2 c ((mem_cols t c).2 hcm)).2⟩
    · intro c hcm
      refine ⟨cnt_le_length _, ?_⟩
      obtain ⟨c0, h0, rfl⟩ := List.mem_map.1 hcm
      by_cases hk : c0.type = .UNKNOWN_TYPE
      · rw [normalizeAdjust_unknown _ _ hk]
        exact (hb.2 c0 ((mem_cols t c0).2 h0)).2
      · rw [(normalizeAdjust_lengths _ c0 hk).2]

theorem clearData_maskBounded (t : tafel) : maskBounded t.clearData := by
  intro c hc
  unfold clearData at hc
  obtain ⟨c0, _, rfl⟩ := List.mem_map.1 hc
  simp [bitvector.cnt]

theorem reserveSpace_maskBounded (h : heap) (t : tafel) (maxr : Nat)
    (hthrow : ∀ k n, h.throws k n = false) (hJ : maskBounded t) :
    ∃ r, reserveSpace h t maxr = some r ∧ maskBounded r.table := by
  obtain ⟨r, h1, h2, h3, _⟩ := reserveSpace_returns h t maxr hthrow
  refine ⟨r, h1, ?_⟩
  rcases h3 with h3 | h3
  · rw [h3]
    exact hJ
  · intro c hc
    rw [h3 c hc]
    simp [bitvector.cnt]

/-- C16 (amended): the bound `mask.cardinality <= mask.size <= mrows` on every
column is kept by `addColumn`, by the chunk `append` when in addition no value
buffer is longer than `mrows`, and by a `reserveSpace` in which no allocation
fails, whatever their arguments and return codes; `normalize` and `clearData`
establish it from any state. -/
theorem maskBounded_kept (t : tafel) (cn : Option String) (ct : TYPE_T) (cd idx : Option String)
    (an : Option String) (b e : Nat) (v : Option (List Value)) (h : heap) (maxr : Nat) :
    (maskBounded t → maskBounded (t.addColumn cn ct cd idx).1) ∧
      (maskBounded t → (∀ c ∈ t.colorder, c.values.length ≤ t.mrows) →
        maskBounded (t.append an b e v).1) ∧
      maskBounded t.normalize ∧
      maskBounded t.clearData ∧
      (maskBounded t → (∀ k n, h.throws k n = false) →
        ∃ r, reserveSpace h t maxr = some r ∧ maskBounded r.table) :=
  ⟨addColumn_maskBounded t cn ct cd idx, append_maskBounded t an b e v, normalize_maskBounded t,
    clearData_maskBounded t, fun hJ ht => reserveSpace_maskBounded h t maxr ht hJ⟩

/-- Witness for C16: the table with `a:byte` of three rows and `b:int` of none,
given a column `c`, a chunk for `b` at rows 3 and 4, and room for 10 rows. -/
theorem maskBounded_kept_witness :
    maskBounded example_data.twoColumnTable ∧
      maskBounded (example_data.twoColumnTable.addColumn (some "c") .INT none none).1 ∧
      maskBounded (example_data.twoColumnTable.append (some "b") 3 5
        (some [.int 7, .int 8])).1 ∧
      (example_data.twoColumnTable.append (some "b") 3 5 (some [.int 7, .int 8])).1.mrows = 5 ∧
      ∃ r, reserveSpace example_data.plainHeap example_data.twoColumnTable 10 = some r ∧
        maskBounded r.table :=
  have h := maskBounded_kept example_data.twoColumnTable (some "c") .INT none none (some "b") 3 5
    (some [.int 7, .int 8]) example_data.plainHeap 10
  ⟨by decide, h.1 (by decide), h.2.1 (by decide) (by decide), by decide,
    h.2.2.2.2 (by decide) (fun _ _ => rfl)⟩

/-- C16 (counterexample): four calls on tables that satisfy the bound leave a
bitmap longer than `mrows`. On the columns `a:int`, `s:text`, `b:int` without
rows, a typed row with one value and the text line `000000005` each leave column `a`
with one bit while `mrows` stays 0. On a column with two values and no bit,
the chunk `append("a", 0, 1, ..)` leaves two bits and `mrows = 1`. On two
columns of three rows, a `reserveSpace(10)` whose allocation for `a` fails
returns -2 with `mrows = 0` and the three bits of `b` in place. -/
theorem appendRow_mask_exceeds_mrows :
    (maskBounded example_data.mixedTable ∧
      (example_data.mixedTable.appendRow example_data.shortRow).map
          (fun r => (r.2, r.1.mrows, r.1.colorder.map fun c => c.mask)) =
        some (1, 0, [[true], [], []])) ∧
      ((example_data.mixedTable.appendRowLine (example_data.intReaders 5)
          (some "000000005".toList) none).map (fun r => (r.2, decide (maskBounded r.1))) =
        some (1, false)) ∧
      (maskBounded example_data.longValuesTable ∧
        (example_data.longValuesTable.append (some "a") 0 1 (some [.int 9])).2 = 0 ∧
        ¬ maskBounded (example_data.longValuesTable.append (some "a") 0 1 (some [.int 9])).1) ∧
      (maskBounded example_data.twoFullTable ∧
        (reserveSpace example_data.failingHeap example_data.twoFullTable 10).map
            (fun r => (r.ret, r.table.mrows, r.table.colorder.map fun c => c.mask)) =
          some (-2, 0, [[], [true, true, true]])) := by
  decide

/-- With no row declared, `reserveSpace(10)` puts ten empty strings in the
place of a string buffer that has room for twenty. -/
theorem reserveSpace_fresh_strings :
    (reserveSpace example_data.roomyHeap example_data.textTable 10).map
        (fun r => (r.ret, r.table.mrows, r.table.colorder.map fun c => c.values.length)) =
      some (10, 0, [10]) := by
  decide

/-! ## Sentinel safety -/

/-- C14 (failing input): on the empty table, `addColumn("a", BYTE)`,
`append("a", 0, 3, [1, 2, 3])`, `reserveSpace(10)` without a failing
allocation and `write` into an empty directory return 0, 0, 10 and 0; the
column file holds the bytes 1, 2, 3 and the mask file the bits 0, 0, 0, while
the filler of the type is the byte 0x7F. -/
theorem write_after_reserveSpace :
    (tafel.addColumn { colorder := [], mrows := 0 } (some "a") .BYTE none none).2 = 0 ∧
      ((tafel.addColumn { colorder := [], mrows := 0 } (some "a") .BYTE none none).1.append
        (some "a") 0 3 (some [.int 1, .int 2, .int 3])) = (example_data.chunkTable, 0) ∧
      (reserveSpace example_data.plainHeap example_data.chunkTable 10).map
          (fun r => (r.ret, write r.table (some "d") (some "t") (some "x") none
            example_data.noPartition (writeRest example_data.plainWorld))) =
        some (10, 0, [.openMetadata "d/-part.txt",
          .header ("# meta data for data partition t written by ibis::tafel::write on now\n\n" ++
            "BEGIN HEADER\nName = t\nDescription = x\nNumber_of_rows = 3\n" ++
            "Number_of_columns = 1\nTimestamp = 0\nEND HEADER\n"),
          .columnFile "d/a" [1, 2, 3], .maskFile "d/a.msk" [false, false, false],
          .columnBlock "a" "\nBegin Column\nname = a\ndata_type = BYTE\nEnd Column\n",
          .closeMetadata]) ∧
      encode (elemSize .BYTE) (fillValue .BYTE) = [0x7F] := by
  decide

/-! ## addColumn -/

/-- C21. `addColumn(name, type, desc, idx)` returns -2 exactly when the name is
null or empty or the type is `UNKNOWN_TYPE`; otherwise it returns 1 when a
column is filed under the name with the same type, -1 when one is filed under
the name with another type, and 0 when none is filed under the name. -/
theorem addColumn_codes (t : tafel) (cn : Option String) (ct : TYPE_T) (cd idx : Option String) :
    ((t.addColumn cn ct cd idx).2 = -2 ↔ (cn = none ∨ cn = some "" ∨ ct = .UNKNOWN_TYPE)) ∧
      ∀ name, cn = some name → name ≠ "" → ct ≠ .UNKNOWN_TYPE →
        (∀ c, t.find name = some c → c.type = ct → (t.addColumn cn ct cd idx).2 = 1) ∧
        (∀ c, t.find name = some c → c.type ≠ ct → (t.addColumn cn ct cd idx).2 = -1) ∧
        (t.find name = none → (t.addColumn cn ct cd idx).2 = 0) := by
  unfold addColumn
  cases cn with
  | none => simp
  | some name =>
    simp only
    by_cases hg : name = "" ∨ ct = .UNKNOWN_TYPE
    · rw [if_pos hg]
      refine ⟨by simp [hg], ?_⟩
      intro n hn hne hct
      simp only [Option.some.injEq] at hn
      subst hn
      rcases hg with h | h
      · exact absurd h hne
      · exact absurd h hct
    · rw [if_neg hg]
      cases hf : t.find name with
      | some c =>
        simp only
        refine ⟨?_, ?_⟩
        · constructor
          · intro h
            split_ifs at h
            simp at h
          · intro h
            rcases h with h | h | h
            · cases h
            · exact absurd (Or.inl (Option.some.inj h)) hg
            · exact absurd (Or.inr h) hg
        · intro n hn _ _
          simp only [Option.some.injEq] at hn
          subst hn
          rw [hf]
          refine ⟨?_, ?_, ?_⟩
          · intro c0 h0 hty
            simp only [Option.some.injEq] at h0
            subst h0
            simp [hty]
          · intro c0 h0 hty
            simp only [Option.some.injEq] at h0
            subst h0
            have : ¬ ct = c.type := fun e => hty e.symm
            simp [this]
          · intro h
            cases h
      | none =>
        simp only
        refine ⟨?_, ?_⟩
        · constructor
          · intro h
            simp at h
          · intro h
            rcases h with h | h | h
            · cases h
            · exact absurd (Or.inl (Option.some.inj h)) hg
            · exact absurd (Or.inr h) hg
        · intro n hn _ _
          simp only [Option.some.injEq] at hn
          subst hn
          rw [hf]
          exact ⟨fun c0 h0 => Option.noConfusion h0, fun c0 h0 => Option.noConfusion h0,
            fun _ => trivial⟩

/-- Witness for C21: on the column `a:byte`, `addColumn` of `a` as INT returns
-1, and `addColumn` with a null name returns -2. -/
theorem addColumn_codes_witness :
    (example_data.freshTable.addColumn (some "a") .INT none none).2 = -1 ∧
      (example_data.freshTable.addColumn none .INT none none).2 = -2 :=
  ⟨((addColumn_codes example_data.freshTable (some "a") .INT none none).2 "a" rfl (by decide)
      (by decide)).2.1 (column.mk "a" .BYTE "a" "" [] []) (by decide) (by decide),
    (addColumn_codes example_data.freshTable none .INT none none).1.2 (Or.inl rfl)⟩

/-- The shape of an `addColumn` that finds a column under the name. -/
theorem addColumn_found (t : tafel) (name : String) (ct : TYPE_T) (cd idx : Option String)
    (c : column) (hname : name ≠ "") (hct : ct ≠ .UNKNOWN_TYPE) (hf : t.find name = some c) :
    t.addColumn (some name) ct cd idx =
      ({ t with colorder := modifyColumn name (fun c =>
            { c with
              desc := if nil cd then c.desc else cd.getD ""
              indexSpec := if nil idx then c.indexSpec else idx.getD "" }) t.colorder },
        if ct = c.type then 1 else -1) := by
  unfold addColumn
  have hg : ¬ (name = "" ∨ ct = .UNKNOWN_TYPE) := fun h => h.elim hname hct
  simp only [if_neg hg, hf]

/-- The shape of an `addColumn` that finds no column under the name. -/
theorem addColumn_new (t : tafel) (name : String) (ct : TYPE_T) (cd idx : Option String)
    (hname : name ≠ "") (hct : ct ≠ .UNKNOWN_TYPE) (hf : t.find name = none) :
    t.addColumn (some name) ct cd idx =
      ({ t with colorder := t.colorder ++
            [{ name := name, type := ct
               desc := if nil cd then name else cd.getD ""
               indexSpec := if nil idx then "" else idx.getD ""
               values := [], mask := [] }] }, 0) := by
  unfold addColumn
  have hg : ¬ (name = "" ∨ ct = .UNKNOWN_TYPE) := fun h => h.elim hname hct
  simp only [if_neg hg, hf]

/-- A column that no column of `l` shares its name with is found at the end of
`l`. -/
theorem find_append_new (l : List column) (m : Nat) (c : column)
    (h : find { colorder := l, mrows := m } c.name = none) (m2 : Nat) :
    find { colorder := l ++ [c], mrows := m2 } c.name = some c := by
  unfold find at h ⊢
  simp only at h ⊢
  rw [List.find?_append, h]
  simp

/-- C22. The effect of `addColumn(name, type, desc, idx)` on the table. When it
returns 0, one column is added after the declared ones, found under the name,
with the requested type, no value and no bit, and the declared columns and
`mrows` are as before. When it returns 1 or -1, `mrows` and the number and
order of the columns and the name, type, value buffer and bitmap of each are
as before, every column filed under another name is as before, and the column
found under the name has its description and its index hint replaced, each
only by a string that is not null or empty. When it returns -2 the table is as
before. -/
theorem addColumn_effect (t : tafel) (cn : Option String) (ct : TYPE_T) (cd idx : Option String) :
    ((t.addColumn cn ct cd idx).2 = 0 →
      ∃ c, cn = some c.name ∧ (t.addColumn cn ct cd idx).1.colorder = t.colorder ++ [c] ∧
        (t.addColumn cn ct cd idx).1.find c.name = some c ∧ c.type = ct ∧ c.values = [] ∧
        c.mask = [] ∧ (t.addColumn cn ct cd idx).1.mrows = t.mrows) ∧
    (((t.addColumn cn ct cd idx).2 = 1 ∨ (t.addColumn cn ct cd idx).2 = -1) →
      (t.addColumn cn ct cd idx).1.mrows = t.mrows ∧
        (t.addColumn cn ct cd idx).1.colorder.length = t.colorder.length ∧
        ((t.addColumn cn ct cd idx).1.colorder.map fun c => (c.name, c.type, c.values, c.mask)) =
          (t.colorder.map fun c => (c.name, c.type, c.values, c.mask)) ∧
        ∃ name c, cn = some name ∧ t.find name = some c ∧
          (t.addColumn cn ct cd idx).1.find name =
            some { c with
              desc := if nil cd then c.desc else cd.getD ""
              indexSpec := if nil idx then c.indexSpec else idx.getD "" } ∧
          ∀ (i : Nat) (d : column), t.colorder[i]? = some d → nameKey d.name ≠ nameKey name →
            (t.addColumn cn ct cd idx).1.colorder[i]? = some d) ∧
    ((t.addColumn cn ct cd idx).2 = -2 → (t.addColumn cn ct cd idx).1 = t) := by
  have hcodes := addColumn_codes t cn ct cd idx
  by_cases hg : cn = none ∨ cn = some "" ∨ ct = .UNKNOWN_TYPE
  · have h2 := hcodes.1.2 hg
    have ht : (t.addColumn cn ct cd idx).1 = t := by
      unfold addColumn
      rcases hg with h | h | h
      · subst h
        rfl
      · subst h
        simp
      · cases cn with
        | none => rfl
        | some n => simp [h]
    rw [h2]
    exact ⟨fun h => absurd h (by decide), fun h => h.elim (fun h => absurd h (by decide))
      (fun h => absurd h (by decide)), fun _ => ht⟩
  · cases cn with
    | none => exact absurd (Or.inl rfl) hg
    | some name =>
      have hname : name ≠ "" := fun h => hg (Or.inr (Or.inl (by rw [h])))
      have hct : ct ≠ .UNKNOWN_TYPE := fun h => hg (Or.inr (Or.inr h))
      cases hf : t.find name with
      | some c =>
        rw [addColumn_found t name ct cd idx c hname hct hf]
        refine ⟨?_, ?_, ?_⟩
        · intro h
          simp only at h
          split_ifs at h
          exact absurd h (by decide)
        · intro _
          dsimp only
          refine ⟨rfl, modifyColumn_length _ _ _, ?_, name, c, rfl, hf, ?_, ?_⟩
          · apply modifyColumn_map
            intro _
            rfl
          · apply find_modifyColumn t.colorder t.mrows name _ c _ hf
            intro _
            rfl
          · intro i d hd hne
            exact modifyColumn_other _ _ _ i d hd hne
        · intro h
          simp only at h
          split_ifs at h
          exact absurd h (by decide)
      | none =>
        rw [addColumn_new t name ct cd idx hname hct hf]
        refine ⟨?_, ?_, ?_⟩
        · intro _
          refine ⟨_, rfl, rfl, ?_, rfl, rfl, rfl, rfl⟩
          exact find_append_new t.colorder t.mrows _ hf _
        · intro h
          dsimp only at h
          rcases h with h | h <;> exact absurd h (by decide)
        · intro h
          dsimp only at h
          exact absurd h (by decide)

/-- Witness for C22: a second column declared on the column `a:byte`, and the
column `a` declared again with a description and a null index hint. -/
theorem addColumn_effect_witness :
    (example_data.freshTable.addColumn (some "b") .INT none none).1.colorder =
        example_data.freshTable.colorder ++
          [{ name := "b", type := .INT, desc := "b", indexSpec := "", values := [],
             mask := [] }] ∧
      (example_data.freshTable.addColumn (some "A") .INT (some "first") none).1.colorder =
        [{ name := "a", type := .BYTE, desc := "first", indexSpec := "", values := [],
           mask := [] }] ∧
      (example_data.freshTable.addColumn none .INT none none).1 = example_data.freshTable :=
  ⟨by decide, by decide,
    (addColumn_effect example_data.freshTable none .INT none none).2.2 (by decide)⟩

/-! ## normalize: the row count, the values and the bits -/

/-- The row count the first loop ends with is the one it started with or the
length of a buffer or of a bitmap. -/
theorem foldl_normalizeScan_attained (l : List column) (acc : Nat × Bool) :
    (l.foldl normalizeScan acc).1 = acc.1 ∨
      ∃ c ∈ l, (c.type ≠ .UNKNOWN_TYPE ∧ (l.foldl normalizeScan acc).1 = c.values.length) ∨
        (l.foldl normalizeScan acc).1 = c.mask.length := by
  induction l generalizing acc with
  | nil => exact Or.inl rfl
  | cons c l ih =>
    rw [List.foldl_cons]
    rcases ih (normalizeScan acc c) with h | ⟨d, hd, h⟩
    · rw [h]
      unfold normalizeScan
      simp only
      split_ifs with h1 h2 h3 h4 h5 h6
      all_goals first
        | exact Or.inl rfl
        | exact Or.inr ⟨c, List.mem_cons_self _ _, Or.inr rfl⟩
        | exact Or.inr ⟨c, List.mem_cons_self _ _, Or.inl ⟨h2, rfl⟩⟩
        | exact Or.inr ⟨c, List.mem_cons_self _ _, Or.inl ⟨h1, rfl⟩⟩
    · exact Or.inr ⟨d, List.mem_cons_of_mem _ hd, h⟩

/-- The row count after `normalize` is the row count the first loop ends
with. -/
theorem normalize_mrows_eq (t : tafel) :
    (normalize t).mrows = (t.cols.foldl normalizeScan (t.mrows, false)).1 := by
  unfold normalize
  by_cases hc : t.cols.isEmpty = true
  · rw [if_pos hc, List.isEmpty_iff.1 hc]
    rfl
  · rw [if_neg hc]
    simp only
    split_ifs <;> rfl

theorem mem_of_getElem (l : List column) (i : Nat) (c : column) (h : l[i]? = some c) : c ∈ l := by
  obtain ⟨hi, rfl⟩ := List.getElem?_eq_some.1 h
  exact List.getElem_mem _

/-- The row count after `normalize` covers the prior row count, every buffer
and every bitmap, and is one of them. -/
theorem normalize_mrows_bounds (t : tafel) :
    t.mrows ≤ (normalize t).mrows ∧
      (∀ c ∈ t.colorder, (c.type ≠ .UNKNOWN_TYPE → c.values.length ≤ (normalize t).mrows) ∧
        c.mask.length ≤ (normalize t).mrows) ∧
      ((normalize t).mrows = t.mrows ∨
        ∃ c ∈ t.colorder, (c.type ≠ .UNKNOWN_TYPE ∧ (normalize t).mrows = c.values.length) ∨
          (normalize t).mrows = c.mask.length) := by
  rw [normalize_mrows_eq]
  have hb := foldl_normalizeScan_bounds t.cols (t.mrows, false)
  refine ⟨hb.1, fun c hc => hb.2 c ((mem_cols t c).2 hc), ?_⟩
  rcases foldl_normalizeScan_attained t.cols (t.mrows, false) with h | ⟨c, hc, h⟩
  · exact Or.inl h
  · exact Or.inr ⟨c, (mem_cols t c).1 hc, h⟩

/-- C23. After `normalize()`, `mrows` is the maximum of the prior `mrows`, the
length of the value buffer of every column that has one and the length of
every presence bitmap: it is at least each of them and equal to one of them;
in particular `normalize` never decreases `mrows`. -/
theorem normalize_mrows (t : tafel) :
    t.mrows ≤ (normalize t).mrows ∧
      (∀ c ∈ t.colorder, (c.type ≠ .UNKNOWN_TYPE → c.values.length ≤ (normalize t).mrows) ∧
        c.mask.length ≤ (normalize t).mrows) ∧
      ((normalize t).mrows = t.mrows ∨
        ∃ c ∈ t.colorder, (c.type ≠ .UNKNOWN_TYPE ∧ (normalize t).mrows = c.values.length) ∨
          (normalize t).mrows = c.mask.length) :=
  normalize_mrows_bounds t

/-- Witness for C23: the column `a:byte` of three rows next to the column
`b:int` without values, with `mrows = 3` and with `mrows = 5`. -/
theorem normalize_mrows_witness :
    (normalize example_data.twoColumnTable).mrows = 3 ∧
      (normalize { example_data.twoColumnTable with mrows := 5 }).mrows = 5 ∧
      (3 : Nat) ≤ (normalize example_data.twoColumnTable).mrows :=
  ⟨by decide, by decide, (normalize_mrows example_data.twoColumnTable).1⟩

/-- The columns after `normalize`: as they were, or each through the second
loop. -/
theorem normalize_colorder (t : tafel) :
    (normalize t).colorder = t.colorder ∧
        (∀ c ∈ t.colorder, c.type ≠ .UNKNOWN_TYPE → c.values.length = (normalize t).mrows) ∨
      (normalize t).colorder = t.colorder.map (normalizeAdjust (normalize t).mrows) := by
  rw [normalize_mrows_eq]
  unfold normalize
  by_cases hc : t.cols.isEmpty = true
  · rw [if_pos hc]
    refine Or.inl ⟨rfl, ?_⟩
    intro c hcm
    have : c ∈ t.cols := (mem_cols t c).2 hcm
    rw [List.isEmpty_iff.1 hc] at this
    cases this
  · rw [if_neg hc]
    simp only
    cases hflag : (t.cols.foldl normalizeScan (t.mrows, false)).2 with
    | false =>
      have hclear := foldl_normalizeScan_clear _ _ hflag
      refine Or.inl ⟨by simp, ?_⟩
      intro c hcm hk
      rw [hclear.1]
      exact (hclear.2 c ((mem_cols t c).2 hcm)).1 hk
    | true => exact Or.inr (by simp)

/-- C24. `normalize()` removes and alters no staged value: a column that has a
buffer holds no more values than the new `mrows`, so the truncation branch of
the second loop is not taken, and its buffer after the call is its buffer
before the call followed by `mrows - length` copies of the filler of its type;
its name and type are as before. -/
theorem normalize_values (t : tafel) (i : Nat) (c : column) (hc : t.colorder[i]? = some c)
    (hk : c.type ≠ .UNKNOWN_TYPE) :
    c.values.length ≤ (normalize t).mrows ∧
      ∃ c1, (normalize t).colorder[i]? = some c1 ∧ c1.name = c.name ∧ c1.type = c.type ∧
        c1.values = c.values ++
          List.replicate ((normalize t).mrows - c.values.length) (fillValue c.type) := by
  have hmem : c ∈ t.colorder := mem_of_getElem _ _ _ hc
  have hle := ((normalize_mrows_bounds t).2.1 c hmem).1 hk
  refine ⟨hle, ?_⟩
  rcases normalize_colorder t with ⟨h1, h2⟩ | h1
  · rw [h1]
    refine ⟨c, hc, rfl, rfl, ?_⟩
    rw [h2 c hmem hk]
    simp
  · rw [h1]
    refine ⟨normalizeAdjust (normalize t).mrows c, by simp [hc], ?_, ?_, ?_⟩
    · unfold normalizeAdjust
      split_ifs <;> rfl
    · exact normalizeAdjust_type _ _
    · unfold normalizeAdjust
      rw [if_neg hk]
      split_ifs with h3 h4
      · rfl
      · omega
      · have : (normalize t).mrows - c.values.length = 0 := by omega
        simp [this]

/-- Witness for C24: the column `a:byte` with three values in a table of five
rows. -/
theorem normalize_values_witness :
    (3 : Nat) ≤ (normalize { example_data.chunkTable with mrows := 5 }).mrows ∧
      ((normalize { example_data.chunkTable with mrows := 5 }).colorder.map fun c => c.values) =
        [[.int 1, .int 2, .int 3, .int 0x7F, .int 0x7F]] :=
  ⟨(normalize_values { example_data.chunkTable with mrows := 5 } 0
      (column.mk "a" .BYTE "a" "" [.int 1, .int 2, .int 3] [true, true, true]) (by decide)
      (by decide)).1,
    by decide⟩

/-- A bitmap of at most `nt` bits, with a populated prefix of at most `nt`
rows, is brought up to the prefix with set bits and then up to `nt` with
zeros. -/
theorem adjustSize_extend (m : bitvector) (nv nt : Nat) (hm : m.length ≤ nt) (hv : nv ≤ nt) :
    bitvector.adjustSize m nv nt =
      m ++ List.replicate (nv - m.length) true ++
        List.replicate (nt - max m.length nv) false := by
  unfold bitvector.adjustSize
  have hmin : min nv nt = nv := Nat.min_eq_left hv
  simp only [hmin]
  by_cases h1 : m.length < nv
  · rw [if_pos h1]
    have hl : (m ++ List.replicate (nv - m.length) true).length = nv := by
      simp
      omega
    rw [hl]
    have hmax : max m.length nv = nv := by omega
    rw [hmax]
    by_cases h2 : nv < nt
    · rw [if_pos h2]
    · rw [if_neg h2, List.take_of_length_le (by rw [hl]; omega)]
      have z : nt - nv = 0 := by omega
      rw [z]
      simp
  · rw [if_neg h1]
    have h0 : nv - m.length = 0 := by omega
    have hmax : max m.length nv = m.length := by omega
    rw [h0, hmax]
    by_cases h2 : m.length < nt
    · rw [if_pos h2]
      simp
    · rw [if_neg h2, List.take_of_length_le (by omega)]
      have z : nt - m.length = 0 := by omega
      rw [z]
      simp

/-- C25 (amended): `normalize()` clears and removes no bit. The bitmap of a
column after the call is the bitmap before the call, or the bitmap before the
call followed by set bits up to the length of the value buffer, if it was
shorter than that, and by zeros up to the new `mrows`. For a column whose
bitmap is at least as long as its value buffer the bitmap is only extended
with zeros and the number of set bits is as before. -/
theorem normalize_mask (t : tafel) (i : Nat) (c : column) (hc : t.colorder[i]? = some c) :
    ∃ c1, (normalize t).colorder[i]? = some c1 ∧
      (c1.mask = c.mask ∨
        c1.mask = c.mask ++ List.replicate (c.values.length - c.mask.length) true ++
          List.replicate ((normalize t).mrows - max c.mask.length c.values.length) false) ∧
      c.mask <+: c1.mask ∧
      (c.values.length ≤ c.mask.length →
        (∃ k, c1.mask = c.mask ++ List.replicate k false) ∧
          bitvector.cnt c1.mask = bitvector.cnt c.mask) := by
  have hmem : c ∈ t.colorder := mem_of_getElem _ _ _ hc
  have hb := (normalize_mrows_bounds t).2.1 c hmem
  have key : ∀ m : bitvector, (m = c.mask ∨
        m = c.mask ++ List.replicate (c.values.length - c.mask.length) true ++
          List.replicate ((normalize t).mrows - max c.mask.length c.values.length) false) →
      c.mask <+: m ∧ (c.values.length ≤ c.mask.length →
        (∃ k, m = c.mask ++ List.replicate k false) ∧
          bitvector.cnt m = bitvector.cnt c.mask) := by
    intro m hm
    rcases hm with hm | hm
    · subst hm
      exact ⟨List.prefix_refl _, fun _ => ⟨⟨0, by simp⟩, rfl⟩⟩
    · subst hm
      refine ⟨⟨_, (List.append_assoc _ _ _).symm⟩, fun hle => ?_⟩
      have h0 : c.values.length - c.mask.length = 0 := by omega
      rw [h0]
      refine ⟨⟨(normalize t).mrows - max c.mask.length c.values.length, by simp⟩, ?_⟩
      simp [bitvector.cnt, List.count_replicate]
  rcases normalize_colorder t with ⟨h1, _⟩ | h1
  · rw [h1]
    exact ⟨c, hc, Or.inl rfl, (key c.mask (Or.inl rfl)).1, (key c.mask (Or.inl rfl)).2⟩
  · rw [h1]
    have hshape : (normalizeAdjust (normalize t).mrows c).mask = c.mask ∨
        (normalizeAdjust (normalize t).mrows c).mask =
          c.mask ++ List.replicate (c.values.length - c.mask.length) true ++
            List.replicate ((normalize t).mrows - max c.mask.length c.values.length) false := by
      unfold normalizeAdjust
      by_cases hk : c.type = .UNKNOWN_TYPE
      · rw [if_pos hk]
        exact Or.inl rfl
      · rw [if_neg hk]
        have hv := hb.1 hk
        split_ifs with h3 h4
        · exact Or.inr (adjustSize_extend _ _ _ hb.2 hv)
        · omega
        · have e : c.values.length = (normalize t).mrows := by omega
          refine Or.inr ?_
          simp only
          rw [e]
          exact adjustSize_extend _ _ _ hb.2 (le_refl _)
    exact ⟨normalizeAdjust (normalize t).mrows c, by simp [hc], hshape, (key _ hshape).1,
      (key _ hshape).2⟩

/-- Witness for C25: the column `a:byte` with three valid values in a table of
five rows gets two zeros, and keeps three set bits. -/
theorem normalize_mask_witness :
    ((normalize { example_data.chunkTable with mrows := 5 }).colorder.map fun c => c.mask) =
        [[true, true, true, false, false]] ∧
      ∃ c1, (normalize { example_data.chunkTable with mrows := 5 }).colorder[0]? = some c1 ∧
        bitvector.cnt c1.mask = 3 :=
  have h := normalize_mask { example_data.chunkTable with mrows := 5 } 0
    (column.mk "a" .BYTE "a" "" [.int 1, .int 2, .int 3] [true, true, true]) (by decide)
  ⟨by decide, h.choose, h.choose_spec.1, (h.choose_spec.2.2.2 (by decide)).2⟩

/-- C25 (counterexample): after `addColumn("a", BYTE)`,
`append("a", 0, 3, [1, 2, 3])` and a `reserveSpace(10)` without a failing
allocation, the column `a` has three values and no bit; after
`addColumn("b", INT)`, `normalize()` gives it three set bits. -/
theorem normalize_sets_bits :
    ((tafel.addColumn { colorder := [], mrows := 0 } (some "a") .BYTE none none).1.append
        (some "a") 0 3 (some [.int 1, .int 2, .int 3])).1 = example_data.chunkTable ∧
      (reserveSpace example_data.plainHeap example_data.chunkTable 10).map
          (fun r => r.table) = some example_data.shortMaskTable ∧
      ((normalize (example_data.shortMaskTable.addColumn (some "b") .INT none none).1).colorder.map
          fun c => (c.name, c.values.length, c.mask)) =
        [("a", 3, [true, true, true]), ("b", 3, [false, false, false])] := by
  decide

/-! ## parseLine: the values pushed -/

/-- One pass through the switch of `parseLine` leaves the column as it is and
adds nothing to `cnt`, or pushes one value with one set bit and adds 1. -/
theorem parseField_cases (R : readers) (col : column) (str del : List Char) :
    ((parseField R col str del).col = col ∧ (parseField R col str del).cnt = 0) ∨
      ∃ x, (parseField R col str del).col =
          { col with values := col.values ++ [x], mask := col.mask ++ [true] } ∧
        (parseField R col str del).cnt = 1 := by
  obtain ⟨name, ty, desc, idx, values, mask⟩ := col
  cases ty <;> simp only [parseField, pushed, skipped, bitvector.increment] <;>
    (try split_ifs) <;>
    first
    | exact Or.inl ⟨rfl, rfl⟩
    | exact Or.inl ⟨trivial, trivial⟩
    | exact Or.inr ⟨_, rfl, rfl⟩

theorem grown_self (l : List column) : grown l l = 0 := by
  induction l with
  | nil => rfl
  | cons c l ih => simp [grown, ih]

theorem grown_le (old new : List column) : grown old new ≤ old.length := by
  induction old generalizing new with
  | nil => simp [grown]
  | cons c old ih =>
    cases new with
    | nil => simp [grown]
    | cons c1 new =>
      have := ih new
      simp only [grown, List.length_cons]
      split_ifs <;> omega

/-- The loop of `parseLine`: the count grows by the number of columns that
grew, and every column is as before or has one value and one set bit more. -/
theorem parseFields_pushes (R : readers) (del : List Char) (cs : List column) (str : List Char)
    (cnt : Nat) :
    (parseFields R del cs str cnt).1.length = cs.length ∧
      (parseFields R del cs str cnt).2 = cnt + grown cs (parseFields R del cs str cnt).1 ∧
      ∀ (i : Nat) (c : column), cs[i]? = some c →
        (parseFields R del cs str cnt).1[i]? = some c ∨
          ∃ x, (parseFields R del cs str cnt).1[i]? =
            some { c with values := c.values ++ [x], mask := c.mask ++ [true] } := by
  induction cs generalizing str cnt with
  | nil => simp [parseFields, grown]
  | cons col cs ih =>
    have hf := parseField_cases R col str del
    have hg : (if (parseField R col str del).col.values.length = col.values.length + 1
        then 1 else 0) = (parseField R col str del).cnt := by
      rcases hf with ⟨h1, h2⟩ | ⟨x, h1, h2⟩
      · rw [h1, h2]
        simp
      · rw [h1, h2]
        simp
    have hhead : ∀ (rest : List column) (i : Nat) (c : column), (col :: cs)[i]? = some c →
        (∀ (j : Nat) (d : column), cs[j]? = some d → rest[j]? = some d ∨
          ∃ x, rest[j]? = some { d with values := d.values ++ [x], mask := d.mask ++ [true] }) →
        ((parseField R col str del).col :: rest)[i]? = some c ∨
          ∃ x, ((parseField R col str del).col :: rest)[i]? =
            some { c with values := c.values ++ [x], mask := c.mask ++ [true] } := by
      intro rest i c hc hrest
      cases i with
      | zero =>
        simp only [List.getElem?_cons_zero, Option.some.injEq] at hc ⊢
        subst hc
        rcases hf with ⟨h1, _⟩ | ⟨x, h1, _⟩
        · exact Or.inl h1
        · exact Or.inr ⟨x, h1⟩
      | succ j =>
        simp only [List.getElem?_cons_succ] at hc ⊢
        exact hrest j c hc
    unfold parseFields
    simp only
    split_ifs with hskip hstr
    · have h := ih (parseField R col str del).str (cnt + (parseField R col str del).cnt)
      refine ⟨by simp [h.1], ?_, fun i c hc => hhead _ i c hc h.2.2⟩
      simp only [grown, hg]
      rw [h.2.1]
      omega
    · have h := ih (skipDelimiter (parseField R col str del).str del)
        (cnt + (parseField R col str del).cnt)
      refine ⟨by simp [h.1], ?_, fun i c hc => hhead _ i c hc h.2.2⟩
      simp only [grown, hg]
      rw [h.2.1]
      omega
    · refine ⟨by simp, ?_, fun i c hc => hhead _ i c hc (fun j d hd => Or.inl hd)⟩
      simp only [grown, hg, grown_self]
      omega

/-- The return value of `parseLine` is the number of columns that grew, and
every column is as before or has one value and one set bit more. -/
theorem parseLine_pushes_all (R : readers) (t : tafel) (str del : List Char) :
    0 ≤ (parseLine R t str del).2 ∧
      (parseLine R t str del).2 ≤ (t.colorder.length : Int) ∧
      (parseLine R t str del).2 = (grown t.colorder (parseLine R t str del).1.colorder : Int) ∧
      (parseLine R t str del).1.colorder.length = t.colorder.length ∧
      (parseLine R t str del).1.mrows = t.mrows ∧
      ∀ (i : Nat) (c : column), t.colorder[i]? = some c →
        (parseLine R t str del).1.colorder[i]? = some c ∨
          ∃ x, (parseLine R t str del).1.colorder[i]? =
            some { c with values := c.values ++ [x], mask := c.mask ++ [true] } := by
  have h := parseFields_pushes R del t.colorder str 0
  have hle := grown_le t.colorder (parseFields R del t.colorder str 0).1
  unfold parseLine
  simp only
  rw [h.2.1]
  refine ⟨by omega, by omega, by simp, h.1, trivial, h.2.2⟩

/-- C27. For every line and every set of delimiters, whatever the scalar
readers do, `parseLine` returns the number of values it pushed: the return
value is between 0 and the number of columns and is the number of columns
whose value buffer grew by one element; every column is left as it was, or
with one value more and one set bit more, and no column is added or
removed. -/
theorem parseLine_pushes (R : readers) (t : tafel) (str del : List Char) :
    0 ≤ (parseLine R t str del).2 ∧
      (parseLine R t str del).2 ≤ (t.colorder.length : Int) ∧
      (parseLine R t str del).2 = (grown t.colorder (parseLine R t str del).1.colorder : Int) ∧
      (parseLine R t str del).1.colorder.length = t.colorder.length ∧
      (parseLine R t str del).1.mrows = t.mrows ∧
      ∀ (i : Nat) (c : column), t.colorder[i]? = some c →
        (parseLine R t str del).1.colorder[i]? = some c ∨
          ∃ x, (parseLine R t str del).1.colorder[i]? =
            some { c with values := c.values ++ [x], mask := c.mask ++ [true] } :=
  parseLine_pushes_all R t str del

/-- Witness for C27: the line `42,alice` on the columns `id:int`, `name:text`
pushes two values, and the line `x,alice` pushes one. -/
theorem parseLine_pushes_witness :
    (parseLine example_data.tokenReaders example_data.idNameTable "42,alice".toList [',']).2 = 2 ∧
      ((parseLine example_data.tokenReaders example_data.idNameTable "x,alice".toList [',']).2,
        (parseLine example_data.tokenReaders example_data.idNameTable "x,alice".toList
          [',']).1.colorder.map fun c => (c.values, c.mask)) =
        (1, [([], []), ([.str "x"], [true])]) ∧
      (parseLine example_data.tokenReaders example_data.idNameTable "42,alice".toList [',']).2 ≤
        (example_data.idNameTable.colorder.length : Int) :=
  ⟨by decide, by decide,
    (parseLine_pushes example_data.tokenReaders example_data.idNameTable "42,alice".toList
      [',']).2.1⟩

/-! ## appendRow(row): a full row of unnamed values -/

theorem cols_length (t : tafel) : t.cols.length = t.colorder.length := by
  unfold cols
  exact List.length_insertionSort _ _

/-- The second loop of the row-append templates pushes the values through the
pointers from position `i` on. -/
theorem rowRest_pushAll (B : List (Option Nat)) (vas : List Value) (i : Nat)
    (cols : List column) :
    rowRest vas i { cols := cols, buf := B, msk := B } =
      { cols := pushAll cols ((B.drop i).zip vas), buf := B, msk := B } := by
  induction vas generalizing i cols with
  | nil => simp [rowRest, pushAll]
  | cons v vs ih =>
    rw [rowRest]
    by_cases hi : i < B.length
    · have hg : B.get? i = some B[i] := by
        rw [List.get?_eq_getElem?, List.getElem?_eq_getElem hi]
      simp only [hi, if_true, hg]
      rw [ih, List.drop_eq_getElem_cons hi, List.zip_cons_cons]
      simp only [pushAll, List.foldl_cons, pushAt]
      generalize B[i] = b
      cases b <;> rfl
    · simp only [hi, if_false]
      rw [List.drop_eq_nil_of_le (by omega)]
      simp [pushAll]

/-- Both loops of the row-append templates, for names that are all empty, push
the values through the pointers from position `i` on. -/
theorem rowNamed_pushAll (isString : Bool) (ty : TYPE_T) (B : List (Option Nat))
    (nm : List String) (va : List Value) (i : Nat) (cols : List column)
    (h : ∀ n ∈ nm, n = "") :
    (rowNamed isString ty nm va i { cols := cols, buf := B, msk := B }).map
        (fun s1 => rowRest (va.drop (min nm.length va.length)) (i + min nm.length va.length) s1) =
      some { cols := pushAll cols ((B.drop i).zip va), buf := B, msk := B } := by
  induction nm generalizing va i cols with
  | nil =>
    unfold rowNamed
    simp only [Option.map_some', List.length_nil, Nat.zero_min, List.drop_zero, Nat.add_zero]
    rw [rowRest_pushAll]
  | cons n ns ih =>
    cases va with
    | nil =>
      unfold rowNamed
      simp [rowRest, pushAll]
    | cons v vs =>
      have hn : n = "" := h n (List.mem_cons_self _ _)
      have hih := fun c => ih vs (i + 1) c (fun m hmem => h m (List.mem_cons_of_mem _ hmem))
      have hm : min (ns.length + 1) (vs.length + 1) = min ns.length vs.length + 1 := by omega
      rw [rowNamed]
      simp only [rowStep, hn, if_true, List.length_cons, hm, List.drop_succ_cons]
      rw [show i + (min ns.length vs.length + 1) = i + 1 + min ns.length vs.length by omega]
      rcases hg : B.get? i with _ | b
      · have hi : B.length ≤ i := List.get?_eq_none.1 hg
        simp only []
        rw [hih cols, List.drop_eq_nil_of_le (by omega), List.drop_eq_nil_of_le hi]
        simp [pushAll]
      · obtain ⟨hi, hb⟩ := List.get?_eq_some.1 hg
        have hb1 : B[i] = b := by
          rw [← hb]
          rfl
        rw [List.drop_eq_getElem_cons hi, List.zip_cons_cons, hb1]
        simp only [pushAll, List.foldl_cons]
        cases b with
        | none =>
          simp only []
          exact hih cols
        | some k =>
          simp only []
          exact hih _

theorem modifyAt_append (f : column → column) (pre : List column) (c : column)
    (cs : List column) : modifyAt f pre.length (pre ++ c :: cs) = pre ++ f c :: cs := by
  induction pre with
  | nil => rfl
  | cons p pre ih => simp [modifyAt, ih]

theorem placeByPosition_nil (ty : TYPE_T) (cs : List column) : placeByPosition ty [] cs = cs := by
  cases cs <;> rfl

/-- The pushes through the pointers `locate` returns place the values by
position. -/
theorem pushAll_locateFrom (ty : TYPE_T) (cs pre : List column) (va : List Value) :
    pushAll (pre ++ cs) ((locateFrom ty cs pre.length).zip va) =
      pre ++ placeByPosition ty va cs := by
  induction cs generalizing pre va with
  | nil =>
    cases va <;> simp [locateFrom, pushAll, placeByPosition]
  | cons c cs ih =>
    cases va with
    | nil => simp [pushAll, placeByPosition]
    | cons v vs =>
      rw [locateFrom, placeByPosition]
      by_cases hty : c.type = ty
      · rw [if_pos hty, if_pos hty, List.zip_cons_cons]
        simp only [pushAll, List.foldl_cons, pushAt, pushValue, pushBit, modifyAt_append,
          bitvector.increment]
        have := ih (pre ++ [{ c with values := c.values ++ [v], mask := c.mask ++ [true] }]) vs
        simp only [List.length_append, List.length_singleton, List.append_assoc,
          List.singleton_append, pushAll] at this
        exact this
      · rw [if_neg hty, if_neg hty]
        have := ih (pre ++ [c]) (v :: vs)
        simp only [List.length_append, List.length_singleton, List.append_assoc,
          List.singleton_append] at this
        exact this

/-- One block of `appendRow(row)`, for names that are all empty, places the
values of its type by position and adds their number to `cnt`. -/
theorem appendOfType_places (isString : Bool) (ty : TYPE_T) (nm : List String)
    (va : List Value) (cols : List column) (cnt : Int) (h : ∀ n ∈ nm, n = "") :
    appendOfType isString ty nm va (some (cols, cnt)) =
      some (placeByPosition ty va cols, cnt + va.length) := by
  unfold appendOfType
  simp only
  split_ifs with hpos
  · have h1 := rowNamed_pushAll isString ty (locate ty cols) nm va 0 cols h
    have h2 := pushAll_locateFrom ty cols [] va
    simp only [List.length_nil, List.nil_append] at h2
    simp only [List.drop_zero, Nat.zero_add] at h1
    unfold appendToRow
    cases hr : rowNamed isString ty nm va 0
        { cols := cols, buf := locate ty cols, msk := locate ty cols } with
    | none =>
      rw [hr] at h1
      simp at h1
    | some s1 =>
      rw [hr] at h1
      simp only [Option.map_some', Option.some.injEq] at h1
      simp only [h1]
      unfold locate
      rw [h2]
  · have h0 : va = [] := List.length_eq_zero.1 (by omega)
    subst h0
    rw [placeByPosition_nil]
    simp

/-- The blocks of `appendRow(row)` one after the other, for names that are all
empty. -/
theorem foldl_appendOfType_places (fs : List (Bool × TYPE_T × List String × List Value))
    (cols : List column) (cnt : Int) (h : ∀ f ∈ fs, ∀ n ∈ f.2.2.1, n = "") :
    fs.foldl (fun acc f => appendOfType f.1 f.2.1 f.2.2.1 f.2.2.2 acc) (some (cols, cnt)) =
      some (fs.foldl (fun cs f => placeByPosition f.2.1 f.2.2.2 cs) cols,
        cnt + ((fs.map fun f => f.2.2.2.length).sum : Nat)) := by
  induction fs generalizing cols cnt with
  | nil => simp
  | cons f fs ih =>
    rw [List.foldl_cons, appendOfType_places _ _ _ _ _ _ (h f (List.mem_cons_self _ _)),
      ih _ _ (fun g hg => h g (List.mem_cons_of_mem _ hg))]
    simp only [List.foldl_cons, List.map_cons, List.sum_cons, Nat.cast_add, Option.some.injEq,
      Prod.mk.injEq, true_and]
    omega

/-- The function `appendRow(row)` written as one pass over the twelve
blocks. -/
theorem appendRow_fields (t : tafel) (r : row) :
    appendRow t r =
      match r.fields.foldl (fun acc f => appendOfType f.1 f.2.1 f.2.2.1 f.2.2.2 acc)
          (some ((if r.nColumns ≥ t.cols.length then normalize t else t).colorder, 0)) with
      | none => none
      | some (cols, cnt) =>
        some ({ colorder := cols,
                mrows := (if r.nColumns ≥ t.cols.length then normalize t else t).mrows +
                  (if cnt ≥ ((if r.nColumns ≥ t.cols.length then normalize t else t).cols.length : Int)
                    then 1 else 0) }, cnt) := rfl

theorem placeByPosition_types (ty : TYPE_T) (va : List Value) (cs : List column) :
    (placeByPosition ty va cs).map column.type = cs.map column.type := by
  induction cs generalizing va with
  | nil => cases va <;> rfl
  | cons c cs ih =>
    cases va with
    | nil => rfl
    | cons v vs =>
      rw [placeByPosition]
      split_ifs
      · simp [ih]
      · simp [ih]

/-- The column at position `j` after the values are placed by position: a
column of another type is as before, and a column of type `ty` has the value
whose position is the number of columns of type `ty` before it. -/
theorem placeByPosition_get (ty : TYPE_T) (cs : List column) (va : List Value) (j : Nat)
    (c : column) (h : cs[j]? = some c) :
    (c.type ≠ ty → (placeByPosition ty va cs)[j]? = some c) ∧
      (c.type = ty → ∀ v,
        va[(cs.take j).countP (fun d => decide (d.type = ty))]? = some v →
        (placeByPosition ty va cs)[j]? =
          some { c with values := c.values ++ [v], mask := c.mask ++ [true] }) := by
  induction cs generalizing va j with
  | nil => simp at h
  | cons c0 cs ih =>
    cases va with
    | nil =>
      rw [placeByPosition_nil]
      exact ⟨fun _ => h, fun _ v hv => by simp at hv⟩
    | cons v0 vs =>
      rw [placeByPosition]
      cases j with
      | zero =>
        simp only [List.getElem?_cons_zero, Option.some.injEq] at h
        subst h
        refine ⟨fun hne => by rw [if_neg hne, List.getElem?_cons_zero], fun he v hv => ?_⟩
        rw [if_pos he]
        simp only [List.take_zero, List.countP_nil, List.getElem?_cons_zero,
          Option.some.injEq] at hv
        subst hv
        rw [List.getElem?_cons_zero]
      | succ j =>
        simp only [List.getElem?_cons_succ] at h
        by_cases h0 : c0.type = ty
        · rw [if_pos h0]
          simp only [List.getElem?_cons_succ, List.take_succ_cons]
          rw [List.countP_cons_of_pos _ _ (by simpa using h0)]
          simp only [List.getElem?_cons_succ]
          exact ih vs j h
        · rw [if_neg h0]
          simp only [List.getElem?_cons_succ, List.take_succ_cons]
          rw [List.countP_cons_of_neg _ _ (by simpa using h0)]
          exact ih (v0 :: vs) j h

theorem foldl_placeByPosition_types (fs : List (Bool × TYPE_T × List String × List Value))
    (cs : List column) :
    (fs.foldl (fun cs f => placeByPosition f.2.1 f.2.2.2 cs) cs).map column.type =
      cs.map column.type := by
  induction fs generalizing cs with
  | nil => rfl
  | cons f fs ih => rw [List.foldl_cons, ih, placeByPosition_types]

/-- Blocks of other types leave a column as it is. -/
theorem foldl_placeByPosition_other (fs : List (Bool × TYPE_T × List String × List Value))
    (cs : List column) (j : Nat) (c : column) (h : cs[j]? = some c)
    (hfs : ∀ f ∈ fs, f.2.1 ≠ c.type) :
    (fs.foldl (fun cs f => placeByPosition f.2.1 f.2.2.2 cs) cs)[j]? = some c := by
  induction fs generalizing cs with
  | nil => exact h
  | cons f fs ih =>
    rw [List.foldl_cons]
    apply ih _ _ (fun g hg => hfs g (List.mem_cons_of_mem _ hg))
    exact (placeByPosition_get f.2.1 cs f.2.2.2 j c h).1
      (fun he => hfs f (List.mem_cons_self _ _) he.symm)

/-- The number of columns of a type before a position depends on the types of
the columns only. -/
theorem countP_take_types (ty : TYPE_T) (cs cs1 : List column) (j : Nat)
    (h : cs.map column.type = cs1.map column.type) :
    (cs.take j).countP (fun d => decide (d.type = ty)) =
      (cs1.take j).countP (fun d => decide (d.type = ty)) := by
  have key : ∀ l : List column, l.countP (fun d => decide (d.type = ty)) =
      (l.map column.type).countP (fun x => decide (x = ty)) := by
    intro l
    rw [List.countP_map]
    rfl
  rw [key, key, List.map_take, List.map_take, h]

/-- Among blocks of which exactly one has the type of a column, that block
places its value in the column. -/
theorem foldl_placeByPosition_get (pre post : List (Bool × TYPE_T × List String × List Value))
    (f : Bool × TYPE_T × List String × List Value) (cs : List column) (j : Nat) (c : column)
    (v : Value) (h : cs[j]? = some c) (hpre : ∀ g ∈ pre, g.2.1 ≠ c.type) (hf : f.2.1 = c.type)
    (hpost : ∀ g ∈ post, g.2.1 ≠ c.type)
    (hv : f.2.2.2[(cs.take j).countP (fun d => decide (d.type = c.type))]? = some v) :
    ((pre ++ f :: post).foldl (fun cs f => placeByPosition f.2.1 f.2.2.2 cs) cs)[j]? =
      some { c with values := c.values ++ [v], mask := c.mask ++ [true] } := by
  rw [List.foldl_append, List.foldl_cons]
  have h1 := foldl_placeByPosition_other pre cs j c h hpre
  have ht := foldl_placeByPosition_types pre cs
  have h2 := (placeByPosition_get f.2.1 _ f.2.2.2 j c h1).2 hf.symm v
    (by rw [hf, countP_take_types c.type _ cs j ht]; exact hv)
  exact foldl_placeByPosition_other post _ j _ h2 hpost

/-- Each type other than `UNKNOWN_TYPE` has exactly one of the twelve blocks,
which holds the values of that type. -/
theorem fields_split (r : row) (ty : TYPE_T) (hty : ty ≠ .UNKNOWN_TYPE) :
    ∃ pre b nm post, r.fields = pre ++ (b, ty, nm, r.values ty) :: post ∧
      (∀ g ∈ pre, g.2.1 ≠ ty) ∧ ∀ g ∈ post, g.2.1 ≠ ty := by
  cases ty with
  | UNKNOWN_TYPE => exact absurd rfl hty
  | BYTE =>
    exact ⟨r.fields.take 0, false, r.bytesnames, r.fields.drop 1, rfl, by simp [row.fields],
      by simp [row.fields]⟩
  | UBYTE =>
    exact ⟨r.fields.take 1, false, r.ubytesnames, r.fields.drop 2, rfl, by simp [row.fields],
      by simp [row.fields]⟩
  | SHORT =>
    exact ⟨r.fields.take 2, false, r.shortsnames, r.fields.drop 3, rfl, by simp [row.fields],
      by simp [row.fields]⟩
  | USHORT =>
    exact ⟨r.fields.take 3, false, r.ushortsnames, r.fields.drop 4, rfl, by simp [row.fields],
      by simp [row.fields]⟩
  | INT =>
    exact ⟨r.fields.take 4, false, r.intsnames, r.fields.drop 5, rfl, by simp [row.fields],
      by simp [row.fields]⟩
  | UINT =>
    exact ⟨r.fields.take 5, false, r.uintsnames, r.fields.drop 6, rfl, by simp [row.fields],
      by simp [row.fields]⟩
  | LONG =>
    exact ⟨r.fields.take 6, false, r.longsnames, r.fields.drop 7, rfl, by simp [row.fields],
      by simp [row.fields]⟩
  | ULONG =>
    exact ⟨r.fields.take 7, false, r.ulongsnames, r.fields.drop 8, rfl, by simp [row.fields],
      by simp [row.fields]⟩
  | FLOAT =>
    exact ⟨r.fields.take 8, false, r.floatsnames, r.fields.drop 9, rfl, by simp [row.fields],
      by simp [row.fields]⟩
  | DOUBLE =>
    exact ⟨r.fields.take 9, false, r.doublesnames, r.fields.drop 10, rfl, by simp [row.fields],
      by simp [row.fields]⟩
  | CATEGORY =>
    exact ⟨r.fields.take 10, true, r.catsnames, r.fields.drop 11, rfl, by simp [row.fields],
      by simp [row.fields]⟩
  | TEXT =>
    exact ⟨r.fields.take 11, true, r.textsnames, r.fields.drop 12, rfl, by simp [row.fields],
      by simp [row.fields]⟩

theorem fields_names (r : row) (h : ∀ n ∈ r.names, n = "") :
    ∀ f ∈ r.fields, ∀ n ∈ f.2.2.1, n = "" := by
  unfold row.names at h
  simp only [List.mem_append] at h
  intro f hf n hn
  simp only [row.fields, List.mem_cons, List.mem_singleton, List.not_mem_nil, or_false] at hf
  rcases hf with rfl | rfl | rfl | rfl | rfl | rfl | rfl | rfl | rfl | rfl | rfl | rfl <;>
    exact h n (by tauto)

theorem fields_sum (r : row) : (r.fields.map fun f => f.2.2.2.length).sum = r.nColumns := by
  simp only [row.fields, row.nColumns, List.map_cons, List.map_nil, List.sum_cons, List.sum_nil]
  omega

/-- A column of known type is counted under exactly one of the twelve
types. -/
theorem countP_types (cs : List column) (h : ∀ c ∈ cs, c.type ≠ .UNKNOWN_TYPE) :
    cs.countP (fun c => decide (c.type = .BYTE)) + cs.countP (fun c => decide (c.type = .UBYTE)) +
      cs.countP (fun c => decide (c.type = .SHORT)) +
      cs.countP (fun c => decide (c.type = .USHORT)) +
      cs.countP (fun c => decide (c.type = .INT)) + cs.countP (fun c => decide (c.type = .UINT)) +
      cs.countP (fun c => decide (c.type = .LONG)) + cs.countP (fun c => decide (c.type = .ULONG)) +
      cs.countP (fun c => decide (c.type = .FLOAT)) +
      cs.countP (fun c => decide (c.type = .DOUBLE)) +
      cs.countP (fun c => decide (c.type = .CATEGORY)) +
      cs.countP (fun c => decide (c.type = .TEXT)) = cs.length := by
  induction cs with
  | nil => rfl
  | cons c cs ih =>
    have hc := h c (List.mem_cons_self _ _)
    have := ih (fun d hd => h d (List.mem_cons_of_mem _ hd))
    simp only [List.countP_cons, List.length_cons]
    cases hty : c.type <;> simp only [decide_True, decide_False, if_true, if_false,
      Bool.false_eq_true, reduceCtorEq] <;> first
      | exact absurd hty hc
      | omega

/-- On a table whose buffers hold `mrows` values and whose bitmaps hold at
most `mrows` bits, `normalize` changes nothing. -/
theorem normalize_of_aligned (t : tafel)
    (h : ∀ c ∈ t.colorder, (c.type ≠ .UNKNOWN_TYPE → c.values.length = t.mrows) ∧
      c.mask.length ≤ t.mrows) : normalize t = t := by
  have hf := foldl_normalizeScan_aligned t.cols (t.mrows, false)
    (fun c hc => h c ((mem_cols t c).1 hc))
  unfold normalize
  simp [hf]

theorem countP_take_lt (p : column → Bool) (cs : List column) (j : Nat) (c : column)
    (h : cs[j]? = some c) (hp : p c = true) : (cs.take j).countP p < cs.countP p := by
  obtain ⟨hj, rfl⟩ := List.getElem?_eq_some.1 h
  have hsplit : cs.countP p = (cs.take j ++ cs[j] :: cs.drop (j + 1)).countP p := by
    rw [← List.drop_eq_getElem_cons hj, List.take_append_drop]
  rw [hsplit, List.countP_append, List.countP_cons_of_pos _ _ hp]
  omega

/-- A full row of unnamed values on an aligned table: what `appendRow(row)`
returns, and the columns it leaves. -/
theorem appendRow_full_row_all (t : tafel) (r : row) (hnames : ∀ n ∈ r.names, n = "")
    (hnorm : ∀ c ∈ t.colorder, c.values.length = t.mrows ∧ c.mask.length = t.mrows)
    (hcount : ∀ ty, (r.values ty).length = t.colorder.countP (fun c => decide (c.type = ty))) :
    appendRow t r =
        some ({ colorder := r.fields.foldl (fun cs f => placeByPosition f.2.1 f.2.2.2 cs) t.colorder,
                mrows := t.mrows + 1 }, (t.colorder.length : Int)) ∧
      (r.fields.foldl (fun cs f => placeByPosition f.2.1 f.2.2.2 cs) t.colorder).length =
        t.colorder.length ∧
      (∀ (j : Nat) (c : column), t.colorder[j]? = some c →
        ∃ v, (r.values c.type)[(t.colorder.take j).countP
            (fun d => decide (d.type = c.type))]? = some v ∧
          (r.fields.foldl (fun cs f => placeByPosition f.2.1 f.2.2.2 cs) t.colorder)[j]? =
            some { c with values := c.values ++ [v], mask := c.mask ++ [true] }) ∧
      ∀ c ∈ r.fields.foldl (fun cs f => placeByPosition f.2.1 f.2.2.2 cs) t.colorder,
        c.values.length = t.mrows + 1 ∧ c.mask.length = t.mrows + 1 := by
  have hU : ∀ c ∈ t.colorder, c.type ≠ .UNKNOWN_TYPE := by
    have h0 := hcount .UNKNOWN_TYPE
    simp only [row.values, List.length_nil] at h0
    intro c hc hty
    have := List.countP_eq_zero.1 h0.symm c hc
    simp [hty] at this
  have hfix : normalize t = t :=
    normalize_of_aligned t (fun c hc => ⟨fun _ => (hnorm c hc).1, le_of_eq (hnorm c hc).2⟩)
  have hn : r.nColumns = t.colorder.length := by
    have hsum := countP_types t.colorder hU
    have h1 := hcount .BYTE
    have h2 := hcount .UBYTE
    have h3 := hcount .SHORT
    have h4 := hcount .USHORT
    have h5 := hcount .INT
    have h6 := hcount .UINT
    have h7 := hcount .LONG
    have h8 := hcount .ULONG
    have h9 := hcount .FLOAT
    have h10 := hcount .DOUBLE
    have h11 := hcount .CATEGORY
    have h12 := hcount .TEXT
    simp only [row.values] at h1 h2 h3 h4 h5 h6 h7 h8 h9 h10 h11 h12
    unfold row.nColumns
    omega
  have hplace : ∀ (j : Nat) (c : column), t.colorder[j]? = some c →
      ∃ v, (r.values c.type)[(t.colorder.take j).countP
          (fun d => decide (d.type = c.type))]? = some v ∧
        (r.fields.foldl (fun cs f => placeByPosition f.2.1 f.2.2.2 cs) t.colorder)[j]? =
          some { c with values := c.values ++ [v], mask := c.mask ++ [true] } := by
    intro j c hc
    have hlt := countP_take_lt (fun d => decide (d.type = c.type)) t.colorder j c hc (by simp)
    rw [← hcount c.type] at hlt
    refine ⟨(r.values c.type)[(t.colorder.take j).countP (fun d => decide (d.type = c.type))],
      List.getElem?_eq_getElem hlt, ?_⟩
    obtain ⟨pre, b, nm, post, hsplit, hpre, hpost⟩ :=
      fields_split r c.type (hU c (mem_of_getElem _ _ _ hc))
    rw [hsplit]
    exact foldl_placeByPosition_get pre post _ t.colorder j c _ hc hpre rfl hpost
      (List.getElem?_eq_getElem hlt)
  have hlen : (r.fields.foldl (fun cs f => placeByPosition f.2.1 f.2.2.2 cs) t.colorder).length =
      t.colorder.length := by
    have := congrArg List.length (foldl_placeByPosition_types r.fields t.colorder)
    simpa using this
  refine ⟨?_, hlen, hplace, ?_⟩
  · rw [appendRow_fields, hfix]
    simp only [ite_self]
    rw [foldl_appendOfType_places r.fields t.colorder 0 (fields_names r hnames), fields_sum, hn]
    simp [cols_length]
  · intro c1 hc1
    obtain ⟨j, hj⟩ := List.mem_iff_getElem?.1 hc1
    have hlt : j < t.colorder.length := by
      rw [← hlen]
      exact (List.getElem?_eq_some.1 hj).1
    obtain ⟨v, _, hv⟩ := hplace j _ (List.getElem?_eq_getElem hlt)
    rw [hj] at hv
    cases hv
    have := hnorm t.colorder[j] (List.getElem_mem _)
    simp only [List.length_append, List.length_singleton]
    omega

/-- C26. On a table in which every value buffer and every bitmap holds
`mrows = m` elements, a typed row that gives no name and holds, for each type,
as many values as the table has columns of that type has defined behaviour in
`appendRow(row)`: the call returns the number of columns and sets `mrows` to
`m + 1`; the column at position `j` of the declaration order receives, with one
set bit, the value of its type whose position is the number of columns of
that type declared before it, and nothing else changes in it; every buffer
and every bitmap then holds `m + 1` elements. -/
theorem appendRow_full_row (t : tafel) (r : row) (hnames : ∀ n ∈ r.names, n = "")
    (hnorm : ∀ c ∈ t.colorder, c.values.length = t.mrows ∧ c.mask.length = t.mrows)
    (hcount : ∀ ty, (r.values ty).length = t.colorder.countP (fun c => decide (c.type = ty))) :
    ∃ t1, appendRow t r = some (t1, (t.colorder.length : Int)) ∧
      t1.mrows = t.mrows + 1 ∧
      t1.colorder.length = t.colorder.length ∧
      (∀ (j : Nat) (c : column), t.colorder[j]? = some c →
        ∃ v, (r.values c.type)[(t.colorder.take j).countP
            (fun d => decide (d.type = c.type))]? = some v ∧
          t1.colorder[j]? =
            some { c with values := c.values ++ [v], mask := c.mask ++ [true] }) ∧
      ∀ c ∈ t1.colorder, c.values.length = t1.mrows ∧ c.mask.length = t1.mrows :=
  ⟨_, (appendRow_full_row_all t r hnames hnorm hcount).1, rfl,
    (appendRow_full_row_all t r hnames hnorm hcount).2.1,
    (appendRow_full_row_all t r hnames hnorm hcount).2.2.1,
    (appendRow_full_row_all t r hnames hnorm hcount).2.2.2⟩

/-- Witness for C26: on the columns `a:int`, `s:text`, `b:int` with one row,
the row with the unnamed values 7 and 8 of type `int` and `y` of type `text`
returns 3 and leaves `a` with 7, `b` with 8, `s` with `y` and `mrows = 2`. -/
theorem appendRow_full_row_witness :
    appendRow example_data.oneRowTable example_data.fullRow =
      some ({ colorder := [column.mk "a" .INT "a" "" [.int 1, .int 7] [true, true],
                           column.mk "s" .TEXT "s" "" [.str "x", .str "y"] [true, true],
                           column.mk "b" .INT "b" "" [.int 2, .int 8] [false, true]],
              mrows := 2 }, 3) ∧
      ∃ t1, appendRow example_data.oneRowTable example_data.fullRow =
          some (t1, (example_data.oneRowTable.colorder.length : Int)) ∧
        t1.mrows = example_data.oneRowTable.mrows + 1 :=
  ⟨by decide,
    (appendRow_full_row example_data.oneRowTable example_data.fullRow (by decide) (by decide)
      (by intro ty; cases ty <;> decide)).imp fun _ h => ⟨h.1, h.2.1⟩⟩

/-! ## Text lines: appendRow and readCSV -/

/-- The switch of `parseLine` looks at the type of the column only: the count,
the rest of the line and the way the loop goes on do not depend on what the
column holds. -/
theorem parseField_of_type (R : readers) (col col1 : column) (str del : List Char)
    (h : col.type = col1.type) :
    (parseField R col str del).cnt = (parseField R col1 str del).cnt ∧
      (parseField R col str del).str = (parseField R col1 str del).str ∧
      (parseField R col str del).skip = (parseField R col1 str del).skip := by
  obtain ⟨name, ty, desc, idx, values, mask⟩ := col
  obtain ⟨name1, ty1, desc1, idx1, values1, mask1⟩ := col1
  simp only at h
  subst h
  cases ty <;> simp only [parseField, pushed, skipped] <;> (try split_ifs) <;>
    first
    | exact ⟨rfl, rfl, rfl⟩
    | exact ⟨trivial, trivial, trivial⟩

theorem parseField_type (R : readers) (col : column) (str del : List Char) :
    (parseField R col str del).col.type = col.type := by
  rcases parseField_cases R col str del with ⟨h, _⟩ | ⟨x, h, _⟩ <;> rw [h]

/-- The count of the loop of `parseLine` depends on the types of the columns
only. -/
theorem parseFields_count (R : readers) (del : List Char) (cs cs1 : List column)
    (str : List Char) (cnt : Nat) (h : cs.map column.type = cs1.map column.type) :
    (parseFields R del cs str cnt).2 = (parseFields R del cs1 str cnt).2 := by
  induction cs generalizing cs1 str cnt with
  | nil =>
    cases cs1 with
    | nil => rfl
    | cons c1 cs1 => simp at h
  | cons c cs ih =>
    cases cs1 with
    | nil => simp at h
    | cons c1 cs1 =>
      simp only [List.map_cons, List.cons.injEq] at h
      have hf := parseField_of_type R c c1 str del h.1
      unfold parseFields
      simp only
      rw [hf.1, hf.2.1, hf.2.2]
      split_ifs
      · exact ih cs1 _ _ h.2
      · exact ih cs1 _ _ h.2
      · rfl

/-- The loop of `parseLine` keeps the type of every column. -/
theorem parseFields_types (R : readers) (del : List Char) (cs : List column) (str : List Char)
    (cnt : Nat) : (parseFields R del cs str cnt).1.map column.type = cs.map column.type := by
  induction cs generalizing str cnt with
  | nil => rfl
  | cons c cs ih =>
    unfold parseFields
    simp only
    split_ifs
    · simp [parseField_type, ih]
    · simp [parseField_type, ih]
    · simp [parseField_type]

/-- The function `normalize` keeps the type of every column. -/
theorem normalize_types (t : tafel) :
    (normalize t).colorder.map column.type = t.colorder.map column.type := by
  rcases normalize_colorder t with ⟨h, _⟩ | h
  · rw [h]
  · rw [h, List.map_map]
    apply List.map_congr_left
    intro c _
    exact normalizeAdjust_type _ c

/-- On a table without a buffer or a bitmap longer than `mrows`, `normalize`
keeps `mrows`, and it leaves such a table. -/
theorem normalize_withinRows (t : tafel) (h : withinRows t) :
    (normalize t).mrows = t.mrows ∧ withinRows (normalize t) := by
  constructor
  · have hb := normalize_mrows_bounds t
    rcases hb.2.2 with h1 | ⟨c, hc, ⟨hk, h1⟩ | h1⟩
    · exact h1
    · have := (h c hc).1 hk
      omega
    · have := (h c hc).2
      omega
  · intro c hc
    refine ⟨fun hk => le_of_eq (normalize_values_aligned t c hc hk).1, ?_⟩
    exact (normalize_maskBounded t c hc).2

/-- A column that grew is counted. -/
theorem grown_pos (old new : List column) (i : Nat) (c c1 : column) (h : old[i]? = some c)
    (h1 : new[i]? = some c1) (hl : c1.values.length = c.values.length + 1) :
    0 < grown old new := by
  induction old generalizing new i with
  | nil => simp at h
  | cons d old ih =>
    cases new with
    | nil => simp at h1
    | cons d1 new =>
      cases i with
      | zero =>
        simp only [List.getElem?_cons_zero, Option.some.injEq] at h h1
        subst h
        subst h1
        simp [grown, hl]
      | succ j =>
        simp only [List.getElem?_cons_succ] at h h1
        have := ih new j h h1
        simp only [grown]
        omega

/-- One line of `readCSV` on columns without a buffer or a bitmap longer than
`mrows` leaves such columns, with `mrows` one higher when a value was
pushed. -/
theorem parseFields_withinRows (R : readers) (del : List Char) (cs : List column)
    (str : List Char) (m : Nat) (h : withinRows { colorder := cs, mrows := m }) :
    withinRows { colorder := (parseFields R del cs str 0).1,
                 mrows := m + (if (parseFields R del cs str 0).2 > 0 then 1 else 0) } := by
  have hp := parseFields_pushes R del cs str 0
  intro c1 hc1
  obtain ⟨i, hi⟩ := List.mem_iff_getElem?.1 hc1
  simp only at hi
  have hlt : i < cs.length := by
    rw [← hp.1]
    exact (List.getElem?_eq_some.1 hi).1
  have hc : cs[i]? = some cs[i] := List.getElem?_eq_getElem hlt
  have hold := h cs[i] (List.getElem_mem _)
  simp only at hold ⊢
  rcases hp.2.2 i _ hc with h1 | ⟨x, h1⟩
  · rw [hi] at h1
    cases h1
    exact ⟨fun hk => le_trans (hold.1 hk) (Nat.le_add_right _ _),
      le_trans hold.2 (Nat.le_add_right _ _)⟩
  · rw [hi] at h1
    cases h1
    have hg := grown_pos cs (parseFields R del cs str 0).1 i cs[i] _ hc hi (by simp)
    have h2 := hp.2.1
    rw [if_pos (by omega)]
    simp only [List.length_append, List.length_singleton]
    exact ⟨fun hk => Nat.add_le_add_right (hold.1 hk) 1, Nat.add_le_add_right hold.2 1⟩

theorem readLines_skip (R : readers) (del : List Char) (l : List Char)
    (lines : List (List Char)) (t : tafel) (cnt : Nat) (hl : rowText l = none) :
    readLines R del (l :: lines) t cnt = readLines R del lines t cnt := by
  rw [readLines]
  simp only [hl]

theorem readLines_row (R : readers) (del : List Char) (l s : List Char)
    (lines : List (List Char)) (t : tafel) (cnt : Nat) (hl : rowText l = some s) :
    readLines R del (l :: lines) t cnt =
      readLines R del lines
        { colorder :=
            (parseFields R del (if cnt ≠ t.colorder.length then normalize t else t).colorder s 0).1,
          mrows := (if cnt ≠ t.colorder.length then normalize t else t).mrows +
            (if (parseFields R del
              (if cnt ≠ t.colorder.length then normalize t else t).colorder s 0).2 > 0
              then 1 else 0) }
        (parseFields R del (if cnt ≠ t.colorder.length then normalize t else t).colorder s 0).2 := by
  rw [readLines]
  simp only [hl]

/-- The line loop of `readCSV` passes over the lines that are blank or
comments. -/
theorem readLines_filter (R : readers) (del : List Char) (lines : List (List Char)) (t : tafel)
    (cnt : Nat) :
    readLines R del lines t cnt =
      readLines R del (lines.filter fun l => (rowText l).isSome) t cnt := by
  induction lines generalizing t cnt with
  | nil => rfl
  | cons l lines ih =>
    cases hl : rowText l with
    | none =>
      rw [List.filter_cons_of_neg (by simp [hl]), readLines_skip R del l lines t cnt hl]
      exact ih t cnt
    | some s =>
      rw [List.filter_cons_of_pos (by simp [hl]), readLines_row R del l s lines t cnt hl,
        readLines_row R del l s _ t cnt hl]
      exact ih _ _

/-- The line loop of `readCSV`, started on a table without a buffer or a
bitmap longer than `mrows`, adds to `mrows` the number of lines from which a
value was pushed. -/
theorem readLines_mrows (R : readers) (del : List Char) (lines : List (List Char))
    (t t0 : tafel) (cnt : Nat) (h : withinRows t)
    (ht : t.colorder.map column.type = t0.colorder.map column.type) :
    (readLines R del lines t cnt).mrows =
      t.mrows + lines.countP fun l => decide (0 < linePushes R del t0 l) := by
  induction lines generalizing t cnt with
  | nil => rfl
  | cons l lines ih =>
    cases hl : rowText l with
    | none =>
      have h0 : linePushes R del t0 l = 0 := by simp [linePushes, hl]
      rw [List.countP_cons_of_neg _ _ (by simp [h0]), readLines_skip R del l lines t cnt hl]
      exact ih t cnt h ht
    | some s =>
      have hn := normalize_withinRows t h
      have key : ∀ t1 : tafel, withinRows t1 → t1.mrows = t.mrows →
          t1.colorder.map column.type = t0.colorder.map column.type →
          (readLines R del lines
            { colorder := (parseFields R del t1.colorder s 0).1,
              mrows := t1.mrows + (if (parseFields R del t1.colorder s 0).2 > 0 then 1 else 0) }
            (parseFields R del t1.colorder s 0).2).mrows =
          t.mrows + (l :: lines).countP fun l => decide (0 < linePushes R del t0 l) := by
        intro t1 hw hm hty
        have hcount : linePushes R del t0 l = (parseFields R del t1.colorder s 0).2 := by
          simp only [linePushes, hl]
          exact (parseFields_count R del _ _ s 0 hty).symm
        rw [ih _ _ (parseFields_withinRows R del t1.colorder s t1.mrows hw)
          (by rw [parseFields_types]; exact hty)]
        simp only [List.countP_cons, hcount, hm]
        by_cases hpos : 0 < (parseFields R del t1.colorder s 0).2
        · simp only [gt_iff_lt, hpos, if_true, decide_True]
          omega
        · simp only [gt_iff_lt, hpos, if_false, decide_False, Bool.false_eq_true]
          omega
      rw [readLines_row R del l s lines t cnt hl]
      by_cases hcnt : cnt ≠ t.colorder.length
      · rw [if_pos hcnt]
        exact key _ hn.2 hn.1 (by rw [normalize_types]; exact ht)
      · rw [if_neg hcnt]
        exact key _ h rfl ht

/-- C28. The claim that the delimiter after a token that does not fit is still
passed over does not hold of the loop of `parseLine`, which the line loop of
`readCSV` repeats: when the reader of integers returns 0 with a number that
does not fit the type of the column, the loop leaves the column as it is and
goes on with the next column at the very place where the reader stopped,
without the step that passes over space and one delimiter. -/
theorem parseLine_out_of_range (R : readers) (del : List Char) (col : column) (cs : List column)
    (str : List Char) (cnt : Nat) (v : Int) (rest : List Char)
    (hr : R.readInt str del = (0, v, rest))
    (hty : col.type = .BYTE ∧ toSigned 8 v ≠ v ∨ col.type = .UBYTE ∧ toUnsigned 8 v ≠ v ∨
      col.type = .SHORT ∧ toSigned 16 v ≠ v ∨ col.type = .USHORT ∧ toUnsigned 16 v ≠ v ∨
      col.type = .INT ∧ toSigned 32 v ≠ v ∨ col.type = .UINT ∧ toUnsigned 32 v ≠ v) :
    parseFields R del (col :: cs) str cnt =
      (col :: (parseFields R del cs rest cnt).1, (parseFields R del cs rest cnt).2) := by
  have hf : parseField R col str del = skipped col rest := by
    obtain ⟨name, ty, desc, idx, values, mask⟩ := col
    simp only at hty
    rcases hty with ⟨h, hv⟩ | ⟨h, hv⟩ | ⟨h, hv⟩ | ⟨h, hv⟩ | ⟨h, hv⟩ | ⟨h, hv⟩ <;> subst h <;>
      simp only [parseField, hr, if_true] <;> rw [if_pos hv]
  rw [parseFields]
  simp only [hf, skipped, if_true, Nat.add_zero]

/-- Witness for C28, with readers that stop at the end of the token: on the
columns `b:byte`, `s:text` the line `300,bar` pushes nothing, neither to `b`
nor to `s`, and the line loop of `readCSV` leaves the table without a row,
whereas the line `30,bar` pushes 30 and `bar`. -/
theorem parseLine_out_of_range_witness :
    parseFields example_data.tokenReaders [','] example_data.byteTextTable.colorder
        "300,bar".toList 0 =
      (column.mk "b" .BYTE "b" "" [] [] ::
        (parseFields example_data.tokenReaders [','] [column.mk "s" .TEXT "s" "" [] []]
          ",bar".toList 0).1,
        (parseFields example_data.tokenReaders [','] [column.mk "s" .TEXT "s" "" [] []]
          ",bar".toList 0).2) ∧
      parseLine example_data.tokenReaders example_data.byteTextTable "300,bar".toList [','] =
        (example_data.byteTextTable, 0) ∧
      ((parseLine example_data.tokenReaders example_data.byteTextTable "30,bar".toList [',']).2,
        (parseLine example_data.tokenReaders example_data.byteTextTable "30,bar".toList
          [',']).1.colorder.map fun c => (c.values, c.mask)) =
        (2, [([.int 30], [true]), ([.str "bar"], [true])]) ∧
      (readCSV example_data.tokenReaders example_data.plainHeap example_data.byteTextTable
          (some "f") 0 none (some ["300,bar".toList])).map (fun r => normalize r.1) =
        some example_data.byteTextTable ∧
      example_data.byteTextTable.colorder.map (fun c => (c.values, c.mask)) =
        [([], []), ([], [])] :=
  ⟨parseLine_out_of_range example_data.tokenReaders [','] (column.mk "b" .BYTE "b" "" [] [])
      [column.mk "s" .TEXT "s" "" [] []] "300,bar".toList 0 300 ",bar".toList (by decide)
      (Or.inl ⟨rfl, by decide⟩),
    by decide, by decide, by decide, by decide⟩

/-- The call of `appendRow(line, del)` on a line that is not blank and not a
comment and holds `c :: s` from its first non-blank character on. -/
theorem appendRowLine_row (R : readers) (t : tafel) (line d : List Char)
    (del : Option (List Char)) (c : Char) (s : List Char)
    (hline : line.dropWhile isspace = c :: s)
    (hrow : ¬ (c = '#' ∨ (c = '-' ∧ s.head? = some '-')))
    (hd : d = match del with
      | none => [',']
      | some [] => [',']
      | some d => d) :
    appendRowLine R t (some line) del =
      if (c :: s).length < 9 then none
      else
        some ({ colorder := (parseLine R (normalize t) (c :: s) d).1.colorder,
                mrows := (normalize t).mrows +
                  (if (parseLine R (normalize t) (c :: s) d).2 ≥ (t.colorder.length : Int)
                    then 1 else 0) },
          (parseLine R (normalize t) (c :: s) d).2) := by
  have hp := fun d => parseLine_pushes_all R (normalize t) (c :: s) d
  have hlen : (normalize t).colorder.length = t.colorder.length := by
    have := congrArg List.length (normalize_types t)
    simpa using this
  have hne : line ≠ [] := by
    intro h
    rw [h] at hline
    simp at hline
  subst hd
  obtain ⟨x, xs, rfl⟩ := List.exists_cons_of_ne_nil hne
  by_cases hshort : (c :: s).length < 9
  · have h10 : (c :: s).length + 1 < 10 := by omega
    rw [if_pos hshort]
    rcases del with _ | _ | ⟨y, ys⟩
    all_goals simp only [appendRowLine, hline, hrow, if_false, h10, if_true]
  · have h10 : ¬ (c :: s).length + 1 < 10 := by omega
    rw [if_neg hshort]
    rcases del with _ | _ | ⟨y, ys⟩
    all_goals
      simp only [appendRowLine, hline, hrow, if_false, h10, cols_length]
      rw [(hp _).2.2.2.1, hlen]
      rfl

/-- C29. For a line that is not blank and not a comment, `appendRow(line, del)`
reads ten characters from the first non-blank character of the line on, for
the label of its log messages: when the line holds fewer than nine characters
there, the read goes beyond the end of the line and the call has no defined
behaviour. When it holds nine or more, the call calls `normalize`, hands the
line without its leading space to `parseLine` and returns the count `k` of that
call, which lies between 0 and the number of columns; the columns are those
`parseLine` leaves, and `mrows` is the row count after `normalize` plus 1 when
`k` is at least the number of columns, plus 0 otherwise. -/
theorem appendRow_line (R : readers) (t : tafel) (line d : List Char) (del : Option (List Char))
    (c : Char) (s : List Char) (hline : line.dropWhile isspace = c :: s)
    (hrow : ¬ (c = '#' ∨ (c = '-' ∧ s.head? = some '-')))
    (hd : d = match del with
      | none => [',']
      | some [] => [',']
      | some d => d) :
    ((c :: s).length < 9 → appendRowLine R t (some line) del = none) ∧
      (9 ≤ (c :: s).length →
        appendRowLine R t (some line) del =
          some ({ colorder := (parseLine R (normalize t) (c :: s) d).1.colorder,
                  mrows := (normalize t).mrows +
                    (if (parseLine R (normalize t) (c :: s) d).2 ≥ (t.colorder.length : Int)
                      then 1 else 0) },
            (parseLine R (normalize t) (c :: s) d).2)) ∧
      0 ≤ (parseLine R (normalize t) (c :: s) d).2 ∧
      (parseLine R (normalize t) (c :: s) d).2 ≤ (t.colorder.length : Int) := by
  have hp := parseLine_pushes_all R (normalize t) (c :: s) d
  have hlen : (normalize t).colorder.length = t.colorder.length := by
    have := congrArg List.length (normalize_types t)
    simpa using this
  have hcall := appendRowLine_row R t line d del c s hline hrow hd
  refine ⟨fun hshort => ?_, fun hlong => ?_, hp.1, ?_⟩
  · rw [hcall, if_pos hshort]
  · rw [hcall, if_neg (by omega)]
  · rw [← hlen]
    exact hp.2.1

/-- Witness for C29: on the columns `id:int`, `name:text` the call on the line
`42,alice`, of eight characters, has no defined behaviour; the line
`42,alicia` returns 2 and leaves `mrows = 1`, the values 42 and `alicia` and
one set bit in each column; the line `000000042` returns 1 and leaves
`mrows = 0`. -/
theorem appendRow_line_witness :
    appendRowLine example_data.tokenReaders example_data.idNameTable (some "42,alice".toList)
        none = none ∧
      appendRowLine example_data.tokenReaders example_data.idNameTable
          (some "42,alicia".toList) none =
        some ({ colorder := [column.mk "id" .INT "id" "" [.int 42] [true],
                             column.mk "name" .TEXT "name" "" [.str "alicia"] [true]],
                mrows := 1 }, 2) ∧
      (appendRowLine example_data.tokenReaders example_data.idNameTable
          (some "000000042".toList) none).map (fun r => (r.2, r.1.mrows)) = some (1, 0) :=
  ⟨(appendRow_line example_data.tokenReaders example_data.idNameTable "42,alice".toList [',']
      none '4' "2,alice".toList (by decide) (by decide) rfl).1 (by decide),
    by decide, by decide⟩

/-- C30 (amended). When `readCSV` finds a name, columns and a file, and its
reservation (none for `maxrows <= 1`) returns, leaves no buffer deleted,
keeps `mrows` and the types of the columns and leaves no buffer and no bitmap
longer than `mrows`, the call returns 0, the table is the one the line loop
leaves on the lines that are neither blank nor comments, and `mrows` has grown
by the number of lines from which at least one value was pushed. -/
theorem readCSV_mrows (R : readers) (h : heap) (t : tafel) (filename : Option String)
    (maxrows : Int) (del : Option (List Char)) (d : List Char) (lines : List (List Char))
    (r : reservation) (hname : nil filename = false) (hcols : t.colorder ≠ [])
    (hd : d = match del with
      | none => [',']
      | some [] => [',']
      | some d => d)
    (hres : reserveFor h t maxrows = some r) (hdel : r.deleted = [])
    (hrows : r.table.mrows = t.mrows)
    (htypes : r.table.colorder.map column.type = t.colorder.map column.type)
    (hwithin : withinRows r.table) :
    ∃ t1, readCSV R h t filename maxrows del (some lines) = some (t1, 0) ∧
      t1 = readLines R d (lines.filter fun l => (rowText l).isSome) r.table 0 ∧
      t1.mrows = t.mrows + lines.countP fun l => decide (0 < linePushes R d t l) := by
  subst hd
  refine ⟨readLines R _ lines r.table 0, ?_, readLines_filter R _ lines r.table 0, ?_⟩
  · have he : t.colorder.isEmpty = false := by
      cases hc : t.colorder with
      | nil => exact absurd hc hcols
      | cons _ _ => rfl
    simp only [readCSV, hname, he, hres, hdel, Bool.false_eq_true, if_false, ne_eq,
      not_true_eq_false, false_and]
  · rw [readLines_mrows R _ lines r.table t 0 hwithin htypes, hrows]

/-- Witness for C30: the lines `# comment`, an empty line and `1,foo` on the
columns `n:uint`, `s:text`, without a reservation, give `mrows = 1` with the
single row (1, `foo`). -/
theorem readCSV_mrows_witness :
    readCSV example_data.tokenReaders example_data.plainHeap example_data.uintTextTable
        (some "f") 0 none (some ["# comment".toList, [], "1,foo".toList]) =
      some ({ colorder := [column.mk "n" .UINT "n" "" [.int 1] [true],
                           column.mk "s" .TEXT "s" "" [.str "foo"] [true]],
              mrows := 1 }, 0) ∧
      ["# comment".toList, [], "1,foo".toList].countP
        (fun l => decide (0 < linePushes example_data.tokenReaders [',']
          example_data.uintTextTable l)) = 1 ∧
      ∃ t1, readCSV example_data.tokenReaders example_data.plainHeap example_data.uintTextTable
          (some "f") 0 none (some ["# comment".toList, [], "1,foo".toList]) = some (t1, 0) ∧
        t1 = readLines example_data.tokenReaders [',']
          (["# comment".toList, [], "1,foo".toList].filter fun l => (rowText l).isSome)
          example_data.uintTextTable 0 ∧
        t1.mrows = example_data.uintTextTable.mrows +
          ["# comment".toList, [], "1,foo".toList].countP
            fun l => decide (0 < linePushes example_data.tokenReaders [',']
              example_data.uintTextTable l) :=
  ⟨by decide, by decide,
    readCSV_mrows example_data.tokenReaders example_data.plainHeap example_data.uintTextTable
      (some "f") 0 none [','] ["# comment".toList, [], "1,foo".toList]
      { ret := 0, table := example_data.uintTextTable, deleted := [] } (by decide) (by decide)
      rfl (by decide) rfl rfl rfl (by decide)⟩

/-- Counterexample for C30: the columns `a:byte`, `b:byte` hold three aligned
rows; `readCSV` with `maxrows = 10`, on a heap where the allocation for `a`
fails, reads a file that holds one comment, returns 0 and leaves `mrows = 0`,
where the claim has `mrows = 3`. -/
theorem readCSV_after_failed_reservation :
    example_data.twoFullTable.mrows = 3 ∧
      (∀ c ∈ example_data.twoFullTable.colorder, c.values.length = 3 ∧ c.mask.length = 3) ∧
      (readCSV example_data.tokenReaders example_data.failingHeap example_data.twoFullTable
          (some "f") 10 none (some ["# only a comment".toList])).map
        (fun r => (r.1.mrows, r.2)) = some (0, 0) ∧
      ["# only a comment".toList].countP
        (fun l => decide (0 < linePushes example_data.tokenReaders [',']
          example_data.twoFullTable l)) = 0 := by
  decide

/-- On the fresh column `s:text` whose buffer has room for twenty strings,
`readCSV` with `maxrows = 10` and the single line `foo` leaves `mrows = 11`:
the reservation replaces the buffer by one that holds ten empty strings. -/
theorem readCSV_fresh_strings :
    (readCSV example_data.tokenReaders example_data.roomyHeap example_data.textTable (some "f")
        10 none (some ["foo".toList])).map (fun r => (r.1.mrows, r.2)) = some (11, 0) := by
  decide

/-! ## The table name derived from the directory -/

theorem strrchr_none (l : List Char) (c : Char) (h : c ∉ l) : strrchr l c = none := by
  induction l with
  | nil => rfl
  | cons x xs ih =>
    simp only [List.mem_cons, not_or] at h
    simp only [strrchr, ih h.2]
    rw [if_neg (fun e => h.1 e.symm)]

theorem strrchr_last (p s : List Char) (c : Char) (h : c ∉ s) :
    strrchr (p ++ c :: s) c = some p.length := by
  induction p with
  | nil => simp [strrchr, strrchr_none s c h]
  | cons x p ih => simp [strrchr, ih]

/-- The name derived from a directory that ends with a component `c` after a
separator. -/
theorem derivedName_after (sep : Char) (p c : List Char) (hc : c ≠ []) (hsep : sep ∉ c) :
    derivedName sep (String.mk (p ++ sep :: c)) = some (String.mk c) := by
  have hlen : p.length + 1 < (p ++ sep :: c).length := by
    have := List.length_pos.2 hc
    simp only [List.length_append, List.length_cons]
    omega
  simp only [derivedName, String.toList, strrchr_last p c sep hsep, hlen, if_true]
  simp

/-- The name derived from a directory that ends with one separator after a
component `c`. -/
theorem derivedName_trailing (sep : Char) (p c : List Char) (hc : c ≠ []) (hsep : sep ∉ c) :
    derivedName sep (String.mk (p ++ sep :: c ++ [sep])) = some (String.mk c) ∧
      derivedName sep (String.mk (c ++ [sep])) = some (String.mk c) := by
  have hpos := List.length_pos.2 hc
  constructor
  · have h1 : strrchr (p ++ sep :: c ++ [sep]) sep = some (p ++ sep :: c).length :=
      strrchr_last (p ++ sep :: c) [] sep (by simp)
    have h2 : (p ++ sep :: c ++ [sep]).dropLast = p ++ sep :: c := List.dropLast_concat
    have h3 : ¬ ((p ++ sep :: c).length + 1 < (p ++ sep :: c ++ [sep]).length) := by
      simp only [List.length_append, List.length_cons, List.length_nil]
      omega
    have h4 : ¬ (p.length + 1 > (p ++ sep :: c).length) := by
      simp only [List.length_append, List.length_cons]
      omega
    have h5 : p.length + 1 < (p ++ sep :: c).length := by
      simp only [List.length_append, List.length_cons]
      omega
    simp only [derivedName, String.toList, h1, h3, if_false, h2, strrchr_last p c sep hsep, h4,
      h5, if_true]
    simp [hc]
  · have h1 : strrchr (c ++ [sep]) sep = some c.length := strrchr_last c [] sep (by simp)
    have h2 : (c ++ [sep]).dropLast = c := List.dropLast_concat
    have h3 : ¬ (c.length + 1 < (c ++ [sep]).length) := by
      simp only [List.length_append, List.length_cons, List.length_nil]
      omega
    simp only [derivedName, String.toList, h1, h3, if_false, h2, strrchr_none c sep hsep,
      gt_iff_lt, Nat.not_lt_zero, hpos, if_true, List.drop_zero]
    simp [hc]

/-- The name derived from a directory without a separator. -/
theorem derivedName_plain (sep : Char) (c : List Char) (hsep : sep ∉ c) (hslash : '/' ∉ c)
    (hdot : c.head? ≠ some '.') : derivedName sep (String.mk c) = some (String.mk c) := by
  simp only [derivedName, String.toList, strrchr_none c sep hsep, strrchr_none c '/' hslash]
  simp [hdot]

/-- The first two steps of what `write` does after its reconciliation when no
name is given and one is derived: the metadata file is opened and the header
is streamed with the derived name. -/
theorem writeRest_header (w : world) (t : tafel) (dir nm : String) (idx : Option String)
    (r : reconciled) (hname : nil r.tname = true) (hnm : derivedName w.dirsep dir = some nm)
    (hopen : w.mdOpens (dir ++ String.singleton w.dirsep ++ "-part.txt") = true) :
    (writeRest w t dir idx r).2.take 2 =
      [.openMetadata (dir ++ String.singleton w.dirsep ++ "-part.txt"),
        .header (headerText w nm
          (if nil r.tdesc then
            generatedDescription w.stamp t.cols.length ((r.nold + t.mrows) % 2 ^ 32)
            else r.tdesc.getD "")
          ((r.nold + t.mrows) % 2 ^ 32) t.cols.length idx r.oldidx)] := by
  simp only [writeRest, hname, if_true, hnm, hopen, Bool.not_true, Bool.false_eq_true, if_false]
  split <;> rfl

/-- The first two steps of `writeMetaData` when no name is given and one is
derived. -/
theorem writeMetaData_header (w : world) (t : tafel) (dir nm : String)
    (tdesc idx : Option String) (hcols : t.cols.isEmpty = false) (hdir : dir ≠ "")
    (hnew : ((w.files (dir ++ String.singleton w.dirsep ++ "-part.txt")).map
      List.length).getD 0 = 0)
    (hnm : derivedName w.dirsep dir = some nm)
    (hopen : w.mdOpens (dir ++ String.singleton w.dirsep ++ "-part.txt") = true) :
    (writeMetaData w t (some dir) none tdesc idx).2.take 2 =
      [.openMetadata (dir ++ String.singleton w.dirsep ++ "-part.txt"),
        .header (metaHeaderText w nm
          (if nil tdesc then metaDescription w.stamp t.cols.length else tdesc.getD "")
          t.cols.length idx)] := by
  simp [writeMetaData, hcols, hdir, hnew, nil, hnm, hopen]

/-- C33 (amended). With `sep` the directory separator `FASTBIT_DIRSEP` and `c`
a component that is not empty and holds no separator, the table name derived
from `p sep c`, from `p sep c sep` and from `c sep` is `c`, and so is the one
derived from `c` alone when `c` holds no `/` and does not start with a dot;
whenever the name derived from `dir` is `c` and none is given, `write` and
`writeMetaData` stream the header with the name `c` to the metadata file they
open. -/
theorem derivedName_component (w : world) (t : tafel) (tdesc idx : Option String)
    (r : reconciled) (p c : List Char) (hc : c ≠ []) (hsep : w.dirsep ∉ c) :
    derivedName w.dirsep (String.mk (p ++ w.dirsep :: c)) = some (String.mk c) ∧
      derivedName w.dirsep (String.mk (p ++ w.dirsep :: c ++ [w.dirsep])) = some (String.mk c) ∧
      derivedName w.dirsep (String.mk (c ++ [w.dirsep])) = some (String.mk c) ∧
      ('/' ∉ c → c.head? ≠ some '.' → derivedName w.dirsep (String.mk c) = some (String.mk c)) ∧
      ∀ dir : String, derivedName w.dirsep dir = some (String.mk c) →
        w.mdOpens (dir ++ String.singleton w.dirsep ++ "-part.txt") = true →
        (nil r.tname = true →
          (writeRest w t dir idx r).2.take 2 =
            [.openMetadata (dir ++ String.singleton w.dirsep ++ "-part.txt"),
              .header (headerText w (String.mk c)
                (if nil r.tdesc then
                  generatedDescription w.stamp t.cols.length ((r.nold + t.mrows) % 2 ^ 32)
                  else r.tdesc.getD "")
                ((r.nold + t.mrows) % 2 ^ 32) t.cols.length idx r.oldidx)]) ∧
        (t.cols.isEmpty = false → dir ≠ "" →
          ((w.files (dir ++ String.singleton w.dirsep ++ "-part.txt")).map
            List.length).getD 0 = 0 →
          (writeMetaData w t (some dir) none tdesc idx).2.take 2 =
            [.openMetadata (dir ++ String.singleton w.dirsep ++ "-part.txt"),
              .header (metaHeaderText w (String.mk c)
                (if nil tdesc then metaDescription w.stamp t.cols.length else tdesc.getD "")
                t.cols.length idx)]) :=
  ⟨derivedName_after w.dirsep p c hc hsep, (derivedName_trailing w.dirsep p c hc hsep).1,
    (derivedName_trailing w.dirsep p c hc hsep).2,
    fun hslash hdot => derivedName_plain w.dirsep c hsep hslash hdot,
    fun dir hnm hopen =>
      ⟨fun hname => writeRest_header w t dir _ idx r hname hnm hopen,
        fun hcols hdir hnew => writeMetaData_header w t dir _ tdesc idx hcols hdir hnew hnm hopen⟩⟩

/-- Witness for C33: the directories `c`, `p/c`, `p/c/` and `q/p/c` on a Unix
file system. -/
theorem derivedName_component_witness :
    derivedName '/' "c" = some "c" ∧ derivedName '/' "p/c" = some "c" ∧
      derivedName '/' "p/c/" = some "c" ∧ derivedName '/' "q/p/c" = some "c" ∧
      derivedName example_data.plainWorld.dirsep
        (String.mk (['q', '/', 'p'] ++ example_data.plainWorld.dirsep :: ['c'])) =
        some (String.mk ['c']) :=
  ⟨by decide, by decide, by decide, by decide,
    (derivedName_component example_data.plainWorld example_data.chunkTable none none
      { nold := 0, tname := none, tdesc := none, oldidx := none } ['q', '/', 'p'] ['c']
      (by decide) (by decide)).1⟩

/-- C33 (counterexample). Of two separators at the end of the directory only
the last is removed, and a directory without a separator that starts with a
dot gives no name: `p/c//` gives the name `p/c/`, which holds separators, and
`.c` gives none. -/
theorem derivedName_two_separators :
    derivedName '/' "p/c//" = some "p/c/" ∧ derivedName '/' ".c" = none ∧
      derivedName '/' "c//" = some "c/" := by
  decide

/-- With a separator other than `/`, a directory written with `/` that ends
with `/` keeps its path: the search for `/` that is to stand in for a failed
search for the separator is guarded by `j > oldnm.size()`, which the wrapped
sum `1 + npos = 0` never meets. -/
theorem derivedName_slash_fallback :
    derivedName '\\' "p/c/" = some "p/c" ∧ derivedName '\\' "p/c" = some "c" ∧
      derivedName '\\' "p\\c\\" = some "c" := by
  decide

/-- C34. When no name is given and none is derived from the directory, what
`write` does after its reconciliation and what `writeMetaData` does is to open
the metadata file and then to stream the null pointer `tname` to it, which is
undefined: no header with a name made up from the checksum of the description
is written. -/
theorem write_without_name (w : world) (t : tafel) (dir : String) (tdesc idx : Option String)
    (r : reconciled) (hnm : derivedName w.dirsep dir = none)
    (hopen : w.mdOpens (dir ++ String.singleton w.dirsep ++ "-part.txt") = true) :
    (nil r.tname = true →
        writeRest w t dir idx r =
          (0, [.openMetadata (dir ++ String.singleton w.dirsep ++ "-part.txt"), .undefined])) ∧
      (t.cols.isEmpty = false → dir ≠ "" →
        ((w.files (dir ++ String.singleton w.dirsep ++ "-part.txt")).map
          List.length).getD 0 = 0 →
        writeMetaData w t (some dir) none tdesc idx =
          (0, [.openMetadata (dir ++ String.singleton w.dirsep ++ "-part.txt"), .undefined])) := by
  constructor
  · intro hname
    simp [writeRest, hname, hnm, hopen]
  · intro hcols hdir hnew
    simp [writeMetaData, hcols, hdir, hnew, nil, hnm, hopen]

/-- Witness for C34: the directories `.`, `/` and `..` give no name, and
`write` and `writeMetaData` into the directory `.` of an empty Unix file
system, for the column `a:byte` with three rows, open the metadata file and go
on to the undefined step. -/
theorem write_without_name_witness :
    derivedName '/' "." = none ∧ derivedName '/' "/" = none ∧ derivedName '/' ".." = none ∧
      write example_data.chunkTable (some ".") none none none example_data.noPartition
          (writeRest example_data.plainWorld) =
        (0, [.openMetadata "./-part.txt", .undefined]) ∧
      writeMetaData example_data.plainWorld example_data.chunkTable (some ".") none none none =
        (0, [.openMetadata "./-part.txt", .undefined]) ∧
      writeRest example_data.plainWorld example_data.chunkTable "." none
          { nold := 0, tname := none, tdesc := none, oldidx := none } =
        (0, [.openMetadata ("." ++ String.singleton example_data.plainWorld.dirsep ++
          "-part.txt"), .undefined]) :=
  ⟨by decide, by decide, by decide, by decide, by decide,
    (write_without_name example_data.plainWorld example_data.chunkTable "." none none
      { nold := 0, tname := none, tdesc := none, oldidx := none } (by decide) (by decide)).1
      (by decide)⟩

/-! ## reserveSpace: the retries -/

theorem attempts_length (h : heap) (k : Nat) (ms : List Nat) (t : tafel) (deleted : List String) :
    (attempts h k ms t deleted).length ≤ ms.length ∧
      (∀ o ∈ (attempts h k ms t deleted).dropLast, ∃ cols del, o = .thrown cols del) ∧
      (∀ cols del, (attempts h k ms t deleted).getLast? = some (.thrown cols del) →
        (attempts h k ms t deleted).length = ms.length) := by
  induction ms generalizing k t deleted with
  | nil => simp [attempts]
  | cons m ms ih =>
    rw [attempts]
    cases hd : doReserve h k t deleted m with
    | returned ret cols del => simp
    | undefined => simp
    | thrown cols del =>
      have := ih (k + 1) { t with colorder := cols } del
      simp only [List.length_cons]
      refine ⟨by omega, ?_, ?_⟩
      · intro o ho
        cases hrest : attempts h (k + 1) ms { t with colorder := cols } del with
        | nil =>
          rw [hrest] at ho
          simp at ho
        | cons a rest =>
          rw [hrest, List.dropLast_cons₂] at ho
          rcases List.mem_cons.1 ho with rfl | ho
          · exact ⟨_, _, rfl⟩
          · exact this.2.1 o (by rw [hrest]; exact ho)
      · intro cols1 del1 hlast
        cases hrest : attempts h (k + 1) ms { t with colorder := cols } del with
        | nil =>
          cases ms with
          | nil => rfl
          | cons m2 ms2 =>
            rw [attempts] at hrest
            split at hrest <;> cases hrest
        | cons a rest =>
          rw [hrest, List.getLast?_cons_cons] at hlast
          rw [← this.2.2 cols1 del1 (by rw [hrest]; exact hlast), hrest]

/-- The nested handlers of `reserveSpace` make the attempts of the list, each
with the request shifted as the list has it. -/
theorem reserveRetry_attempts (h : heap) (t : tafel) (deleted : List String) (r : Nat) :
    reserveRetry h 1 [1, 2, 2, 2] t deleted r =
      match (attempts h 1 [r >>> 1, r >>> 3, r >>> 5, r >>> 7] t deleted).getLast? with
      | some (.returned ret cols del) =>
        some { ret := ret, table := { t with colorder := cols }, deleted := del }
      | some (.thrown cols del) =>
        some { ret := -1, table := { t with colorder := cols }, deleted := del }
      | _ => none := by
  have s3 : (r >>> 1) >>> 2 = r >>> 3 := by rw [← Nat.shiftRight_add]
  have s5 : (r >>> 3) >>> 2 = r >>> 5 := by rw [← Nat.shiftRight_add]
  have s7 : (r >>> 5) >>> 2 = r >>> 7 := by rw [← Nat.shiftRight_add]
  simp only [reserveRetry, attempts, s3, s5, s7]
  cases doReserve h 1 t deleted (r >>> 1) with
  | returned ret cols del => rfl
  | undefined => rfl
  | thrown c1 d1 =>
    simp only
    cases doReserve h 2 { t with colorder := c1 } d1 (r >>> 3) with
    | returned ret cols del => rfl
    | undefined => rfl
    | thrown c2 d2 =>
      simp only
      cases doReserve h 3 { colorder := c2, mrows := t.mrows } d2 (r >>> 5) with
      | returned ret cols del => rfl
      | undefined => rfl
      | thrown c3 d3 =>
        simp only
        cases doReserve h 4 { colorder := c3, mrows := t.mrows } d3 (r >>> 7) with
        | returned ret cols del => rfl
        | undefined => rfl
        | thrown c4 d4 => rfl

theorem attempts_ne_nil (h : heap) (k m : Nat) (ms : List Nat) (t : tafel)
    (deleted : List String) : attempts h k (m :: ms) t deleted ≠ [] := by
  rw [attempts]
  split <;> simp

/-- The function `reserveSpace` on a table with columns and fewer rows than
the request does what the specification makes of the attempts with the
requests `r`, `r >> 1`, `r >> 3`, `r >> 5`, `r >> 7`. -/
theorem reserveSpace_scheduled (h : heap) (t : tafel) (maxr : Nat)
    (hcols : t.cols.isEmpty = false) (hrows : t.mrows < maxr % 2 ^ 32) :
    reserveSpace h t maxr =
      scheduled t (attempts h 0 (retryRequests (min (maxr % 2 ^ 32) 0x40000000)) t []) := by
  have hclip : (if maxr % 2 ^ 32 > 0x40000000 then 0x40000000 else maxr % 2 ^ 32) =
      min (maxr % 2 ^ 32) 0x40000000 := by
    split_ifs <;> omega
  have hge : ¬ (t.mrows ≥ maxr % 2 ^ 32) := by omega
  simp only [reserveSpace, hcols, Bool.false_eq_true, if_false, hge, hclip]
  generalize min (maxr % 2 ^ 32) 0x40000000 = r
  simp only [retryRequests]
  rw [attempts]
  cases hd : doReserve h 0 t [] r with
  | returned ret cols del =>
    simp only [scheduled, List.head?_cons, List.getLast?_singleton]
    split_ifs <;> rfl
  | undefined =>
    simp only [scheduled, List.head?_cons, List.getLast?_singleton]
    split_ifs <;> rfl
  | thrown cols del =>
    simp only [scheduled, List.head?_cons]
    by_cases hm : t.mrows > 0
    · simp only [if_pos hm]
    · simp only [if_neg hm]
      rw [reserveRetry_attempts]
      have hne := attempts_ne_nil h 1 (r >>> 1) [r >>> 3, r >>> 5, r >>> 7]
        { t with colorder := cols } del
      obtain ⟨a, rest, hrest⟩ := List.exists_cons_of_ne_nil hne
      simp only [Nat.zero_add]
      rw [hrest, List.getLast?_cons_cons]

/-- C35. On a table with columns and `mrows` below the request, `reserveSpace`
clips the request to 2^30 and makes at most five attempts, with the requests
`r`, `r >> 1`, `r >> 3`, `r >> 5`, `r >> 7`, each but the first only after the
one before ended in an exception: with rows in the table a failed first
attempt gives -2 and `mrows = 0`; without rows the result is that of the last
attempt made, and -1 when the fifth fails. An attempt that reads a buffer a
failed attempt has deleted has undefined behaviour, and `reserveSpace` then
returns nothing defined. -/
theorem reserveSpace_schedule (h : heap) (t : tafel) (maxr : Nat)
    (hcols : t.cols.isEmpty = false) (hrows : t.mrows < maxr % 2 ^ 32) :
    reserveSpace h t maxr =
        scheduled t (attempts h 0 (retryRequests (min (maxr % 2 ^ 32) 0x40000000)) t []) ∧
      (attempts h 0 (retryRequests (min (maxr % 2 ^ 32) 0x40000000)) t []).length ≤ 5 ∧
      (∀ o ∈ (attempts h 0 (retryRequests (min (maxr % 2 ^ 32) 0x40000000)) t []).dropLast,
        ∃ cols del, o = .thrown cols del) ∧
      (∀ cols del,
        (attempts h 0 (retryRequests (min (maxr % 2 ^ 32) 0x40000000)) t []).getLast? =
          some (.thrown cols del) →
        (attempts h 0 (retryRequests (min (maxr % 2 ^ 32) 0x40000000)) t []).length = 5) ∧
      ((.undefined ∈ attempts h 0 (retryRequests (min (maxr % 2 ^ 32) 0x40000000)) t []) →
        t.mrows = 0 → reserveSpace h t maxr = none) := by
  have hs := reserveSpace_scheduled h t maxr hcols hrows
  have hl := attempts_length h 0 (retryRequests (min (maxr % 2 ^ 32) 0x40000000)) t []
  refine ⟨hs, hl.1, hl.2.1, hl.2.2, ?_⟩
  intro hu hm
  rw [hs]
  generalize attempts h 0 (retryRequests (min (maxr % 2 ^ 32) 0x40000000)) t [] = outs at hl hu
  have hlast : outs.getLast? = some .undefined := by
    rcases List.eq_nil_or_concat outs with rfl | ⟨l, a, rfl⟩
    · cases hu
    · rw [List.concat_eq_append] at hl hu ⊢
      rw [List.dropLast_concat] at hl
      rcases List.mem_append.1 hu with hmem | hmem
      · obtain ⟨c, d, hc⟩ := hl.2.1 _ hmem
        cases hc
      · simp only [List.mem_singleton] at hmem
        rw [← hmem]
        simp
  simp [scheduled, hm, hlast]

/-- Witness for C35. On the fresh column `a:byte`, whose buffer has room for
three elements: with two failing attempts a request of 1000 returns 125; with
every allocation failing a request of 1000 returns -1, and a request of 100
returns 3, the fourth request, which needs no allocation; on the column with
three rows a failing first attempt returns -2 and leaves `mrows = 0`. On the
fresh column whose buffer has room for twenty elements, a request of 10 has
the buffer deleted; the allocation of its replacement fails, the second
attempt reads the capacity of the deleted buffer, and nothing defined is
returned. -/
theorem reserveSpace_schedule_witness :
    (reserveSpace example_data.twiceFailingHeap example_data.freshTable 1000).map
        (fun r => r.ret) = some 125 ∧
      (reserveSpace example_data.exhaustedHeap example_data.freshTable 1000).map
        (fun r => r.ret) = some (-1) ∧
      (reserveSpace example_data.exhaustedHeap example_data.freshTable 100).map
        (fun r => r.ret) = some 3 ∧
      (reserveSpace example_data.exhaustedHeap example_data.chunkTable 1000).map
        (fun r => (r.ret, r.table.mrows)) = some (-2, 0) ∧
      attempts example_data.roomyFailingHeap 0 (retryRequests 10) example_data.freshTable [] =
        [.thrown [column.mk "a" .BYTE "a" "" [] []] ["a"], .undefined] ∧
      reserveSpace example_data.roomyFailingHeap example_data.freshTable 10 = none ∧
      reserveSpace example_data.twiceFailingHeap example_data.freshTable 1000 =
        scheduled example_data.freshTable
          (attempts example_data.twiceFailingHeap 0
            (retryRequests (min (1000 % 2 ^ 32) 0x40000000)) example_data.freshTable []) :=
  ⟨by decide, by decide, by decide, by decide, by decide, by decide,
    (reserveSpace_schedule example_data.twiceFailingHeap example_data.freshTable 1000
      (by decide) (by decide)).1⟩

/-! ## clearData and clear -/

/-- C36. After `clearData()`, `mrows` is 0 and every column has an empty
bitmap and, if it has a buffer, an empty buffer, while the columns, their
order, names, types, descriptions and index hints are as before, and a column
is found under a name exactly when it was; after `clear()` the table has no
column and `mrows` is 0. -/
theorem clearData_frame (t : tafel) :
    (clearData t).mrows = 0 ∧
      (∀ c ∈ (clearData t).colorder, c.mask = [] ∧ (c.type ≠ .UNKNOWN_TYPE → c.values = [])) ∧
      ((clearData t).colorder.map fun c => (c.name, c.type, c.desc, c.indexSpec)) =
        (t.colorder.map fun c => (c.name, c.type, c.desc, c.indexSpec)) ∧
      (∀ cn, ((clearData t).find cn).map (fun c => (c.name, c.type, c.desc, c.indexSpec)) =
        (t.find cn).map (fun c => (c.name, c.type, c.desc, c.indexSpec))) ∧
      (clear t).colorder = [] ∧ (clear t).cols = [] ∧ (clear t).mrows = 0 := by
  refine ⟨rfl, ?_, ?_, ?_, rfl, rfl, rfl⟩
  · intro c hc
    simp only [clearData, List.mem_map] at hc
    obtain ⟨d, _, rfl⟩ := hc
    refine ⟨rfl, fun hk => ?_⟩
    simp only at hk ⊢
    rw [if_neg hk]
  · simp only [clearData, List.map_map]
    rfl
  · intro cn
    simp only [find, clearData, List.find?_map, Function.comp_def]
    cases t.colorder.find? (fun c => nameKey c.name == nameKey cn) <;> rfl

/-- Witness for C36: `clearData` and `clear` on the columns `a:byte` and
`b:byte` with three rows each. -/
theorem clearData_frame_witness :
    clearData example_data.twoFullTable =
        { colorder := [column.mk "a" .BYTE "a" "" [] [], column.mk "b" .BYTE "b" "" [] []],
          mrows := 0 } ∧
      clear example_data.twoFullTable = { colorder := [], mrows := 0 } ∧
      (clearData example_data.twoFullTable).mrows = 0 :=
  ⟨by decide, by decide, (clearData_frame example_data.twoFullTable).1⟩

/-! ## The total mask and the string records -/

/-- The total mask `writeColumn` and `writeString` leave holds as many bits as
the 32-bit sum `nnew+nold` says. -/
theorem total_mask_length (elem : Nat) (f : descriptor) (nold nnew : Nat) (vals : List Value)
    (fill : Value) (totmask newmask : bitvector) :
    (writeColumn elem f nold nnew vals fill totmask newmask).2.1.length =
        (nnew + nold) % 2 ^ 32 ∧
      (writeString f nold nnew vals totmask newmask).2.1.length = (nnew + nold) % 2 ^ 32 := by
  constructor
  · unfold writeColumn
    simp only [bitvector.adjustSize_length]
  · unfold writeString
    simp only [bitvector.adjustSize_length]

/-- C38 (amended). When the seek to the end of the file succeeds, the total
mask `writeColumn` and `writeString` leave holds as many bits as the 32-bit sum
of `nnew` and `nold` says, whatever the code they return: exactly
`nold + nnew` bits when `nold + nnew` is below 2^32; and when moreover the
prior mask holds `nold` bits, the file holds at least `nold` elements (a
condition `writeString` does not need) and the staged mask holds `nnew` bits,
the total mask is the prior mask followed by the staged mask. When the seek
fails, both return -3 and leave the mask as it was. -/
theorem total_mask (seeks : Bool) (elem : Nat) (f : descriptor) (nold nnew : Nat)
    (vals : List Value) (fill : Value) (totmask newmask : bitvector) :
    (seeks = true →
      (writeColumnCall seeks elem f nold nnew vals fill totmask newmask).2.1.length =
          (nnew + nold) % 2 ^ 32 ∧
        (writeStringCall seeks f nold nnew vals totmask newmask).2.1.length =
          (nnew + nold) % 2 ^ 32 ∧
        (nold + nnew < 2 ^ 32 →
          (writeColumnCall seeks elem f nold nnew vals fill totmask newmask).2.1.length =
              nold + nnew ∧
            (writeStringCall seeks f nold nnew vals totmask newmask).2.1.length =
              nold + nnew ∧
            (totmask.length = nold → newmask.length = nnew →
              (nold * elem ≤ f.bytes.length →
                (writeColumnCall seeks elem f nold nnew vals fill totmask newmask).2.1 =
                  totmask ++ newmask) ∧
              (writeStringCall seeks f nold nnew vals totmask newmask).2.1 =
                totmask ++ newmask))) ∧
      (seeks = false →
        writeColumnCall seeks elem f nold nnew vals fill totmask newmask = (f, totmask, -3) ∧
          writeStringCall seeks f nold nnew vals totmask newmask = (f, totmask, -3)) := by
  constructor
  · intro hs
    subst hs
    have hl := total_mask_length elem f nold nnew vals fill totmask newmask
    simp only [writeColumnCall, writeStringCall, Bool.not_true, Bool.false_eq_true, if_false]
    refine ⟨hl.1, hl.2, fun hfit => ?_⟩
    have hw : (nnew + nold) % 2 ^ 32 = nnew + nold := Nat.mod_eq_of_lt (by omega)
    refine ⟨by rw [hl.1, hw]; omega, by rw [hl.2, hw]; omega, fun ht hn => ⟨fun hfile => ?_, ?_⟩⟩
    · unfold writeColumn bitvector.append
      have hpos : (UnixSeekEnd f).2 = f.bytes.length := rfl
      have h1 : ¬ f.bytes.length < nold * elem := by omega
      simp only [hpos, h1, if_false, hw]
      split_ifs
      · simp only
        rw [adjustSize_exact totmask nold nold ht]
        exact adjustSize_exact _ _ _ (by simp [ht, hn]; omega)
      · simp only
        rw [adjustSize_exact totmask nold nold ht]
        exact adjustSize_exact _ _ _ (by simp [ht, hn]; omega)
    · rw [writeString_mask, hw, adjustSize_exact totmask nold nold ht]
      exact adjustSize_exact _ _ _ (by simp [ht, hn]; omega)
  · intro hs
    subst hs
    exact ⟨rfl, rfl⟩

/-- Witness for C38: a column of one byte whose file holds two elements, with
a prior mask of two bits and one staged row. -/
theorem total_mask_witness :
    (writeColumnCall true 1 { bytes := [1, 2], offset := 0, oappend := true } 2 1 [.int 3]
        (.int 0x7F) [true, false] [true]).2.1 = [true, false, true] ∧
      (writeStringCall true { bytes := [0, 0], offset := 0, oappend := true } 2 1 [.str "x"]
        [true, false] [true]).2.1 = [true, false, true] ∧
      (writeColumnCall true 1 { bytes := [1, 2], offset := 0, oappend := true } 2 1 [.int 3]
        (.int 0x7F) [true, false] [true]).2.1.length = 2 + 1 :=
  ⟨by decide, by decide,
    (((total_mask true 1 { bytes := [1, 2], offset := 0, oappend := true } 2 1 [.int 3]
      (.int 0x7F) [true, false] [true]).1 rfl).2.2 (by decide)).1⟩

/-- C38 (counterexample). When the seek to the end of the file fails,
`writeColumn` and `writeString` return -3 with the total mask as they found
it: for an empty prior mask, `nold = 0` and one staged row, it holds no bit,
not one. When the seek succeeds and `nold + nnew` is 2^32, as for
`nold = 4294967295` and one staged row, the 32-bit sum is 0 and the total mask
holds no bit. -/
theorem total_mask_after_failed_seek :
    writeColumnCall false 1 { bytes := [], offset := 0, oappend := true } 0 1 [.int 3]
        (.int 0x7F) [] [true] = ({ bytes := [], offset := 0, oappend := true }, [], -3) ∧
      writeStringCall false { bytes := [], offset := 0, oappend := true } 0 1 [.str "x"]
        [] [true] = ({ bytes := [], offset := 0, oappend := true }, [], -3) ∧
      (writeColumnCall true 1 { bytes := [], offset := 0, oappend := true } 4294967295 1
        [.int 3] (.int 0x7F) [] [true]).2.1.length = 0 ∧
      (writeStringCall true { bytes := [], offset := 0, oappend := true } 4294967295 1
        [.str "x"] [] [true]).2.1.length = 0 := by
  refine ⟨by decide, by decide, ?_, ?_⟩
  · simp only [writeColumnCall, Bool.not_true, Bool.false_eq_true, if_false]
    rw [(total_mask_length 1 { bytes := [], offset := 0, oappend := true } 4294967295 1
      [.int 3] (.int 0x7F) [] [true]).1]
    rfl
  · simp only [writeStringCall, Bool.not_true, Bool.false_eq_true, if_false]
    rw [(total_mask_length 1 { bytes := [], offset := 0, oappend := true } 4294967295 1
      [.str "x"] (.int 0) [] [true]).2]
    rfl

theorem c_str_record (s : String) (h : Char.ofNat 0 ∉ s.toList) :
    ∃ body : List Nat, c_str (.str s) = body ++ [0] ∧ 0 ∉ body ∧ body.length = s.length := by
  refine ⟨s.toList.map Char.toNat, rfl, ?_, by simp⟩
  intro h0
  obtain ⟨c, hc, hc0⟩ := List.mem_map.1 h0
  have : c = Char.ofNat 0 := by
    have h1 := congrArg Char.ofNat hc0
    simpa using h1
  exact h (this ▸ hc)

/-- C39. For staged strings without a NUL character and every `nnew`, a call
of `writeString` whose seek and writes succeed appends `nnew` records to the
file and returns 0: the first `min(|vals|, nnew)` are the staged strings in
row order, each followed by one NUL byte, which is the only NUL byte of its
record, and the others are single NUL bytes. -/
theorem writeString_records (f : descriptor) (nold nnew : Nat) (vals : List Value)
    (totmask newmask : bitvector)
    (hvals : ∀ v ∈ vals, ∃ s : String, v = .str s ∧ Char.ofNat 0 ∉ s.toList) :
    (writeStringCall true f nold nnew vals totmask newmask).1.bytes =
        f.bytes ++ ((vals.take nnew).map c_str ++
          List.replicate (nnew - vals.length) [0]).flatten ∧
      (writeStringCall true f nold nnew vals totmask newmask).2.2 = 0 ∧
      ((vals.take nnew).map c_str ++ List.replicate (nnew - vals.length) [0]).length = nnew ∧
      ((vals.take nnew).map c_str).length = min vals.length nnew ∧
      ∀ rec ∈ (vals.take nnew).map c_str ++ List.replicate (nnew - vals.length) [0],
        ∃ body : List Nat, rec = body ++ [0] ∧ 0 ∉ body := by
  have hb := writeString_bytes f nold nnew vals totmask newmask
  simp only [writeStringCall, Bool.not_true, Bool.false_eq_true, if_false]
  refine ⟨?_, hb.2, ?_, ?_, ?_⟩
  · rw [hb.1, List.flatten_append, List.append_assoc]
    congr 2
    induction (nnew - vals.length) with
    | zero => rfl
    | succ n ih => simp [List.replicate_succ, ← ih]
  · simp only [List.length_append, List.length_map, List.length_take, List.length_replicate]
    omega
  · simp only [List.length_map, List.length_take]
    omega
  · intro rec hrec
    rcases List.mem_append.1 hrec with h | h
    · obtain ⟨v, hv, rfl⟩ := List.mem_map.1 h
      obtain ⟨s, rfl, hs⟩ := hvals v (List.mem_of_mem_take hv)
      obtain ⟨body, h1, h2, _⟩ := c_str_record s hs
      exact ⟨body, h1, h2⟩
    · rw [List.eq_of_mem_replicate h]
      exact ⟨[], rfl, by simp⟩

/-- Witness for C39: the strings `ab` and the empty string staged for three
rows, after a file that holds the record `x`. -/
theorem writeString_records_witness :
    (writeStringCall true { bytes := [120, 0], offset := 0, oappend := true } 1 3
        [.str "ab", .str ""] [true] [true, false, false]).1.bytes =
        [120, 0, 97, 98, 0, 0, 0] ∧
      (writeStringCall true { bytes := [120, 0], offset := 0, oappend := true } 1 3
        [.str "ab", .str ""] [true] [true, false, false]).2.2 = 0 :=
  ⟨by decide,
    (writeString_records { bytes := [120, 0], offset := 0, oappend := true } 1 3
      [.str "ab", .str ""] [true] [true, false, false]
      (by
        intro v hv
        simp only [List.mem_cons, List.mem_singleton, List.not_mem_nil, or_false] at hv
        rcases hv with rfl | rfl
        · exact ⟨"ab", rfl, by decide⟩
        · exact ⟨"", rfl, by decide⟩)).2.1⟩

/-! ## A partial text row -/

/-- A call of `appendRow(line, del)` that returns a positive count went
through `normalize` and `parseLine`. -/
theorem appendRowLine_data (R : readers) (t t1 : tafel) (k : Int)
    (line del : Option (List Char)) (hcall : appendRowLine R t line del = some (t1, k))
    (h : 0 < k) :
    ∃ str d, k = (parseLine R (normalize t) str d).2 ∧
      t1.colorder = (parseLine R (normalize t) str d).1.colorder ∧
      t1.mrows =
        (normalize t).mrows +
          (if (parseLine R (normalize t) str d).2 ≥ (t.colorder.length : Int) then 1 else 0) := by
  rcases line with _ | _ | ⟨x, xs⟩
  · simp only [appendRowLine, Option.some.injEq, Prod.mk.injEq] at hcall
    omega
  · simp only [appendRowLine, Option.some.injEq, Prod.mk.injEq] at hcall
    omega
  · cases hl : (x :: xs).dropWhile isspace with
    | nil =>
      simp only [appendRowLine, hl, Option.some.injEq, Prod.mk.injEq] at hcall
      omega
    | cons c s =>
      by_cases hc : c = '#' ∨ (c = '-' ∧ s.head? = some '-')
      · simp only [appendRowLine, hl, hc, if_true, Option.some.injEq, Prod.mk.injEq] at hcall
        omega
      · have hrow := appendRowLine_row R t (x :: xs) _ del c s hl hc rfl
        rw [hrow] at hcall
        by_cases hshort : (c :: s).length < 9
        · rw [if_pos hshort] at hcall
          cases hcall
        · rw [if_neg hshort, Option.some.injEq, Prod.mk.injEq] at hcall
          exact ⟨c :: s, _, hcall.2.symm, by rw [← hcall.1], by rw [← hcall.1]⟩

/-- When some column grew, there is one that did. -/
theorem grown_exists (old new : List column) (h : 0 < grown old new) :
    ∃ (i : Nat) (c c1 : column), old[i]? = some c ∧ new[i]? = some c1 ∧
      c1.values.length = c.values.length + 1 := by
  induction old generalizing new with
  | nil => simp [grown] at h
  | cons c old ih =>
    cases new with
    | nil => simp [grown] at h
    | cons c1 new =>
      by_cases hc : c1.values.length = c.values.length + 1
      · exact ⟨0, c, c1, List.getElem?_cons_zero, List.getElem?_cons_zero, hc⟩
      · simp only [grown, hc, if_false, Nat.zero_add] at h
        obtain ⟨i, d, d1, h1, h2, h3⟩ := ih new h
        exact ⟨i + 1, d, d1, by rw [List.getElem?_cons_succ]; exact h1,
          by rw [List.getElem?_cons_succ]; exact h2, h3⟩

/-- When not every column grew, there is one that is as before. -/
theorem grown_lt_exists (old new : List column) (hlen : new.length = old.length)
    (h : grown old new < old.length) :
    ∃ (i : Nat) (c c1 : column), old[i]? = some c ∧ new[i]? = some c1 ∧
      c1.values.length ≠ c.values.length + 1 := by
  induction old generalizing new with
  | nil => simp at h
  | cons c old ih =>
    cases new with
    | nil => simp at hlen
    | cons c1 new =>
      by_cases hc : c1.values.length = c.values.length + 1
      · simp only [grown, hc, if_true, List.length_cons] at h
        obtain ⟨i, d, d1, h1, h2, h3⟩ := ih new (by simpa using hlen) (by omega)
        exact ⟨i + 1, d, d1, by rw [List.getElem?_cons_succ]; exact h1,
          by rw [List.getElem?_cons_succ]; exact h2, h3⟩
      · exact ⟨0, c, c1, List.getElem?_cons_zero, List.getElem?_cons_zero, hc⟩

/-- C40. On a table in which every column has a buffer and every value buffer
and every bitmap holds `mrows = m` elements, a call of `appendRow(line, del)`
that returns `k` with `0 < k` below the number of columns leaves `mrows = m`;
a `normalize()` that follows sets `mrows` to `m + 1`, leaves every column that
was pushed with its value and a set bit at row `m`, and gives every other
column the filler of its type and a zero bit at row `m`. The call returns
when the line holds nine characters or more from its first non-blank
character on; `t1` is the table it leaves. -/
theorem partial_line_row (R : readers) (t t1 : tafel) (k : Int)
    (line del : Option (List Char))
    (hnorm : ∀ c ∈ t.colorder,
      c.type ≠ .UNKNOWN_TYPE ∧ c.values.length = t.mrows ∧ c.mask.length = t.mrows)
    (hcall : appendRowLine R t line del = some (t1, k))
    (hpos : 0 < k) (hpart : k < (t.colorder.length : Int)) :
    t1.mrows = t.mrows ∧
      (normalize t1).mrows = t.mrows + 1 ∧
      k = (grown t.colorder t1.colorder : Int) ∧
      ∀ (i : Nat) (c : column), t.colorder[i]? = some c →
        (t1.colorder[i]? = some c ∧
          (normalize t1).colorder[i]? =
            some { c with values := c.values ++ [fillValue c.type],
                          mask := c.mask ++ [false] }) ∨
        ∃ x, t1.colorder[i]? =
            some { c with values := c.values ++ [x], mask := c.mask ++ [true] } ∧
          (normalize t1).colorder[i]? =
            some { c with values := c.values ++ [x], mask := c.mask ++ [true] } := by
  obtain ⟨str, d, hk, hcols, hrows⟩ := appendRowLine_data R t t1 k line del hcall hpos
  have hfix : normalize t = t :=
    normalize_of_aligned t (fun c hc => ⟨fun _ => (hnorm c hc).2.1, le_of_eq (hnorm c hc).2.2⟩)
  rw [hfix] at hk hcols hrows
  have hp := parseLine_pushes_all R t str d
  rw [← hk, ← hcols] at hp
  have hm : t1.mrows = t.mrows := by
    rw [hrows, if_neg (by omega)]
    rfl
  -- the shape of every column of the table the call leaves
  have hshape : ∀ c1 ∈ t1.colorder, c1.type ≠ .UNKNOWN_TYPE ∧
      (c1.values.length = t.mrows ∨ c1.values.length = t.mrows + 1) ∧
      c1.mask.length = c1.values.length := by
    intro c1 hc1
    obtain ⟨i, hi⟩ := List.mem_iff_getElem?.1 hc1
    have hlt : i < t.colorder.length := by
      rw [← hp.2.2.2.1]
      exact (List.getElem?_eq_some.1 hi).1
    have hold := hnorm t.colorder[i] (List.getElem_mem _)
    rcases hp.2.2.2.2.2 i _ (List.getElem?_eq_getElem hlt) with h1 | ⟨x, h1⟩
    · rw [hi] at h1
      cases h1
      exact ⟨hold.1, Or.inl hold.2.1, by rw [hold.2.1, hold.2.2]⟩
    · rw [hi] at h1
      cases h1
      refine ⟨hold.1, Or.inr ?_, ?_⟩
      · simp [hold.2.1]
      · simp [hold.2.1, hold.2.2]
  have hgpos : 0 < grown t.colorder t1.colorder := by
    have := hp.2.2.1
    omega
  have hglt : grown t.colorder t1.colorder < t.colorder.length := by
    have := hp.2.2.1
    omega
  obtain ⟨i1, a, a1, ha, ha1, hag⟩ := grown_exists _ _ hgpos
  obtain ⟨i2, b, b1, hb0, hb1, hbg⟩ := grown_lt_exists _ _ hp.2.2.2.1 hglt
  have hb := normalize_mrows_bounds t1
  have hrow : (normalize t1).mrows = t.mrows + 1 := by
    have hlow : t.mrows + 1 ≤ (normalize t1).mrows := by
      have h1 := (hb.2.1 a1 (mem_of_getElem _ _ _ ha1)).1
        (hshape a1 (mem_of_getElem _ _ _ ha1)).1
      have h2 := (hnorm a (mem_of_getElem _ _ _ ha)).2.1
      omega
    rcases hb.2.2 with h | ⟨c1, hc1, ⟨_, h⟩ | h⟩
    · omega
    · have := (hshape c1 hc1).2.1
      omega
    · have := (hshape c1 hc1).2
      omega
  have hmap : (normalize t1).colorder = t1.colorder.map (normalizeAdjust (t.mrows + 1)) := by
    rcases normalize_colorder t1 with ⟨_, hall⟩ | h
    · exfalso
      have h1 := hall b1 (mem_of_getElem _ _ _ hb1) (hshape b1 (mem_of_getElem _ _ _ hb1)).1
      have h2 := (hnorm b (mem_of_getElem _ _ _ hb0)).2.1
      omega
    · rw [h, hrow]
  refine ⟨hm, hrow, hp.2.2.1, ?_⟩
  intro i c hc
  have hold := hnorm c (mem_of_getElem _ _ _ hc)
  rw [hmap, List.getElem?_map]
  rcases hp.2.2.2.2.2 i c hc with h1 | ⟨x, h1⟩
  · refine Or.inl ⟨h1, ?_⟩
    rw [h1]
    simp only [Option.map_some', Option.some.injEq]
    unfold normalizeAdjust
    rw [if_neg hold.1, if_pos (by omega)]
    have hone : t.mrows + 1 - c.values.length = 1 := by omega
    rw [hone, adjustSize_extend c.mask c.values.length (t.mrows + 1) (by omega) (by omega)]
    have hz : c.values.length - c.mask.length = 0 := by omega
    have hmax : t.mrows + 1 - max c.mask.length c.values.length = 1 := by
      rw [hold.2.1, hold.2.2]
      simp
    rw [hz, hmax]
    simp
  · refine Or.inr ⟨x, h1, ?_⟩
    rw [h1]
    simp only [Option.map_some', Option.some.injEq]
    unfold normalizeAdjust
    have hl : (c.values ++ [x]).length = t.mrows + 1 := by simp [hold.2.1]
    simp only
    rw [if_neg hold.1, if_neg (by omega), if_neg (by omega)]
    rw [adjustSize_exact _ _ _ (by simp [hold.2.2])]

/-- Witness for C40: on the columns `id:int`, `name:text` without rows the
line `000000042` returns 1 and leaves `mrows = 0`; `normalize` then gives one
row, with 42 and a set bit in `id` and the empty string and a zero bit in
`name`. -/
theorem partial_line_row_witness :
    appendRowLine example_data.tokenReaders example_data.idNameTable
        (some "000000042".toList) none =
      some ({ colorder := [column.mk "id" .INT "id" "" [.int 42] [true],
                           column.mk "name" .TEXT "name" "" [] []],
              mrows := 0 }, 1) ∧
      normalize { colorder := [column.mk "id" .INT "id" "" [.int 42] [true],
                               column.mk "name" .TEXT "name" "" [] []],
                  mrows := 0 } =
        { colorder := [column.mk "id" .INT "id" "" [.int 42] [true],
                       column.mk "name" .TEXT "name" "" [.str ""] [false]],
          mrows := 1 } ∧
      (normalize { colorder := [column.mk "id" .INT "id" "" [.int 42] [true],
                                column.mk "name" .TEXT "name" "" [] []],
                   mrows := 0 }).mrows = example_data.idNameTable.mrows + 1 :=
  ⟨by decide, by decide,
    (partial_line_row example_data.tokenReaders example_data.idNameTable
      { colorder := [column.mk "id" .INT "id" "" [.int 42] [true],
                     column.mk "name" .TEXT "name" "" [] []],
        mrows := 0 } 1 (some "000000042".toList) none (by decide) (by decide) (by decide)
      (by decide)).2.1⟩

/-! ## appendRows and appendRow -/

theorem modifyAt_map_of {β : Type} (g : column → β) (f : column → column)
    (hf : ∀ c, g (f c) = g c) (k : Nat) (cols : List column) :
    (modifyAt f k cols).map g = cols.map g := by
  induction cols generalizing k with
  | nil => cases k <;> rfl
  | cons c cs ih =>
    cases k with
    | zero => simp [modifyAt, hf]
    | succ k => simp [modifyAt, ih]

theorem pushAt_decl (cols : List column) (p : Option (Option Nat)) (va : Value) :
    (pushAt cols p va).map decl = cols.map decl := by
  rcases p with _ | _ | k
  · rfl
  · rfl
  · simp only [pushAt, pushBit, pushValue]
    rw [modifyAt_map_of decl (fun c => { c with mask := bitvector.increment c.mask })
        (fun c => rfl),
      modifyAt_map_of decl (fun c => { c with values := c.values ++ [va] }) (fun c => rfl)]

theorem findAt_none_of_find (cols : List column) (n : String)
    (h : cols.find? (fun c => nameKey c.name == nameKey n) = none) : findAt cols n = none := by
  unfold findAt
  rw [List.findIdx?_eq_none_iff]
  intro c hc
  have := List.find?_eq_none.1 h c hc
  simpa using this

theorem sameBuffer_self (ty : TYPE_T) : sameBuffer ty ty = true := by
  simp [sameBuffer]

/-- One pass through the first loop of the row-append templates for a name
that is given, at a position the vectors of pointers hold. -/
theorem rowStep_named (isString : Bool) (ty : TYPE_T) (i : Nat) (nm : String) (va : Value)
    (s : rowState) (hne : nm ≠ "") (hb : i < s.buf.length) (hm : i < s.msk.length)
    (hty : ∀ p ∈ s.cols.map decl, nameKey p.1 = nameKey nm → p.2 = ty) :
    ∃ s1, rowStep isString ty i nm va s = some s1 ∧
      s1.cols = pushAt s.cols (some (findAt s.cols nm)) va ∧
      s1.buf.length = s.buf.length ∧ s1.msk.length = s.msk.length := by
  unfold rowStep
  rw [if_neg hne]
  cases hf : s.cols.find? (fun c => nameKey c.name == nameKey nm) with
  | none =>
    rw [findAt_none_of_find _ _ hf]
    exact ⟨s, rfl, rfl, rfl, rfl⟩
  | some c =>
    cases hk : findAt s.cols nm with
    | none => exact ⟨s, rfl, rfl, rfl, rfl⟩
    | some k =>
      have hc : c ∈ s.cols := List.mem_of_find?_eq_some hf
      have hkey : nameKey c.name = nameKey nm := by
        have := List.find?_some hf
        simpa using this
      have hct : c.type = ty := hty (decl c) (List.mem_map_of_mem decl hc) hkey
      have h1 : ¬ s.buf.length < i := by omega
      have h2 : ¬ s.msk.length < i := by omega
      have h3 : ¬ (s.buf.length ≤ i ∨ s.msk.length ≤ i) := by omega
      simp only [h1, h2, if_false, Bool.and_false, h3, hct, sameBuffer_self, Bool.not_true,
        Bool.false_eq_true, decide_False]
      exact ⟨_, rfl, rfl, by simp, by simp⟩

/-- The first loop of the row-append templates for names that are all given,
over positions the vectors of pointers hold: the values go to the columns
named, whatever the pointers were. -/
theorem rowNamed_named (isString : Bool) (ty : TYPE_T) (nms : List String) (vas : List Value)
    (i : Nat) (s : rowState) (hne : ∀ n ∈ nms, n ≠ "")
    (hb : i + nms.length ≤ s.buf.length) (hm : i + nms.length ≤ s.msk.length)
    (hty : ∀ n ∈ nms, ∀ p ∈ s.cols.map decl, nameKey p.1 = nameKey n → p.2 = ty) :
    ∃ s1, rowNamed isString ty nms vas i s = some s1 ∧
      s1.cols = pushNamed nms vas s.cols ∧
      s1.buf.length = s.buf.length ∧ s1.msk.length = s.msk.length := by
  induction nms generalizing vas i s with
  | nil => exact ⟨s, by unfold rowNamed; rfl, by unfold pushNamed; rfl, rfl, rfl⟩
  | cons n nms ih =>
    cases vas with
    | nil => exact ⟨s, by unfold rowNamed; rfl, by unfold pushNamed; rfl, rfl, rfl⟩
    | cons v vas =>
      simp only [List.length_cons] at hb hm
      obtain ⟨s1, h1, h2, h3, h4⟩ := rowStep_named isString ty i n v s
        (hne n (List.mem_cons_self _ _)) (by omega) (by omega) (hty n (List.mem_cons_self _ _))
      obtain ⟨s2, g1, g2, g3, g4⟩ := ih vas (i + 1) s1
        (fun m hm1 => hne m (List.mem_cons_of_mem _ hm1)) (by omega) (by omega)
        (by
          intro m hm1
          rw [h2, pushAt_decl]
          exact hty m (List.mem_cons_of_mem _ hm1))
      refine ⟨s2, ?_, ?_, by omega, by omega⟩
      · rw [rowNamed, h1]
        exact g1
      · rw [g2, h2, pushNamed]

/-- The row-append templates for names that are all given, one for each
value. -/
theorem appendToRow_named (isString : Bool) (ty : TYPE_T) (nms : List String)
    (vas : List Value) (s : rowState) (hne : ∀ n ∈ nms, n ≠ "") (hlen : nms.length = vas.length)
    (hb : nms.length ≤ s.buf.length) (hm : nms.length ≤ s.msk.length)
    (hty : ∀ n ∈ nms, ∀ p ∈ s.cols.map decl, nameKey p.1 = nameKey n → p.2 = ty) :
    ∃ s1, appendToRow isString ty nms vas s = some s1 ∧
      s1.cols = pushNamed nms vas s.cols ∧
      s1.buf.length = s.buf.length ∧ s1.msk.length = s.msk.length := by
  obtain ⟨s1, h1, h2, h3, h4⟩ := rowNamed_named isString ty nms vas 0 s hne (by omega) (by omega)
    hty
  refine ⟨s1, ?_, h2, h3, h4⟩
  unfold appendToRow
  rw [h1]
  simp only [hlen, Nat.min_self, List.drop_length, rowRest]

theorem locateFrom_types (ty : TYPE_T) (cs cs1 : List column) (k : Nat)
    (h : cs.map column.type = cs1.map column.type) :
    locateFrom ty cs k = locateFrom ty cs1 k := by
  induction cs generalizing cs1 k with
  | nil =>
    cases cs1 with
    | nil => rfl
    | cons c1 cs1 => simp at h
  | cons c cs ih =>
    cases cs1 with
    | nil => simp at h
    | cons c1 cs1 =>
      simp only [List.map_cons, List.cons.injEq] at h
      simp only [locateFrom, h.1, ih cs1 (k + 1) h.2]

theorem locate_types (ty : TYPE_T) (cs cs1 : List column)
    (h : cs.map column.type = cs1.map column.type) : locate ty cs = locate ty cs1 :=
  locateFrom_types ty cs cs1 0 h

theorem countP_of_types (ty : TYPE_T) (cs cs1 : List column)
    (h : cs.map column.type = cs1.map column.type) :
    cs.countP (fun d => decide (d.type = ty)) = cs1.countP (fun d => decide (d.type = ty)) := by
  have key : ∀ l : List column, l.countP (fun d => decide (d.type = ty)) =
      (l.map column.type).countP (fun x => decide (x = ty)) := by
    intro l
    rw [List.countP_map]
    rfl
  rw [key, key, h]

/-- The row-append template, for names that are all empty and the pointers
`locate` returns, places the values by position and leaves the pointers. -/
theorem appendToRow_places (isString : Bool) (ty : TYPE_T) (nm : List String)
    (va : List Value) (cols : List column) (h : ∀ n ∈ nm, n = "") :
    appendToRow isString ty nm va { cols := cols, buf := locate ty cols, msk := locate ty cols } =
      some { cols := placeByPosition ty va cols, buf := locate ty cols,
             msk := locate ty cols } := by
  have h1 := rowNamed_pushAll isString ty (locate ty cols) nm va 0 cols h
  have h2 := pushAll_locateFrom ty cols [] va
  simp only [List.length_nil, List.nil_append] at h2
  simp only [List.drop_zero, Nat.zero_add] at h1
  unfold appendToRow
  cases hr : rowNamed isString ty nm va 0
      { cols := cols, buf := locate ty cols, msk := locate ty cols } with
  | none =>
    rw [hr] at h1
    simp at h1
  | some s1 =>
    rw [hr] at h1
    simp only [Option.map_some', Option.some.injEq] at h1
    simp only [h1]
    unfold locate
    rw [h2]

/-- One pass through the loop of `appendRows`, for a row without names and the
pointers `locate` returned: the values are placed by position and the
pointers are left as they are. -/
theorem rowBlocks_places (fs : List (Bool × TYPE_T × List String × List Value))
    (cols0 cols : List column) (cnt : Nat)
    (htypes : cols.map column.type = cols0.map column.type)
    (hnames : ∀ f ∈ fs, ∀ n ∈ f.2.2.1, n = "") :
    rowBlocks (fs.zip (fs.map fun f => (locate f.2.1 cols0, locate f.2.1 cols0))) cols cnt =
      some (fs.foldl (fun cs f => placeByPosition f.2.1 f.2.2.2 cs) cols,
        cnt + (fs.map fun f => f.2.2.2.length).sum,
        fs.map fun f => (locate f.2.1 cols0, locate f.2.1 cols0)) := by
  induction fs generalizing cols cnt with
  | nil => simp [rowBlocks]
  | cons f fs ih =>
    have hn := hnames f (List.mem_cons_self _ _)
    have hrest := fun g hg => hnames g (List.mem_cons_of_mem _ hg)
    rw [List.map_cons, List.zip_cons_cons, rowBlocks, List.foldl_cons, List.map_cons,
      List.sum_cons]
    by_cases hpos : f.2.2.2.length > 0
    · rw [if_pos hpos, ← locate_types f.2.1 cols cols0 htypes,
        appendToRow_places f.1 f.2.1 f.2.2.1 f.2.2.2 cols hn]
      simp only
      rw [ih _ _ (by rw [placeByPosition_types]; exact htypes) hrest]
      simp only [Option.some.injEq, Prod.mk.injEq, true_and]
      exact ⟨by omega, trivial⟩
    · rw [if_neg hpos]
      have h0 : f.2.2.2 = [] := List.length_eq_zero.1 (by omega)
      rw [ih _ _ htypes hrest, h0, placeByPosition_nil]
      simp

theorem placeByPosition_names (ty : TYPE_T) (va : List Value) (cs : List column) :
    (placeByPosition ty va cs).map column.name = cs.map column.name := by
  induction cs generalizing va with
  | nil => cases va <;> rfl
  | cons c cs ih =>
    cases va with
    | nil => rfl
    | cons v vs =>
      rw [placeByPosition]
      split_ifs
      · simp [ih]
      · simp [ih]

theorem foldl_placeByPosition_names (fs : List (Bool × TYPE_T × List String × List Value))
    (cs : List column) :
    (fs.foldl (fun cs f => placeByPosition f.2.1 f.2.2.2 cs) cs).map column.name =
      cs.map column.name := by
  induction fs generalizing cs with
  | nil => rfl
  | cons f fs ih => rw [List.foldl_cons, ih, placeByPosition_names]

theorem locateAll_fields (r : row) (cols0 : List column) :
    locateAll cols0 = r.fields.map fun f => (locate f.2.1 cols0, locate f.2.1 cols0) := rfl

/-- The number of values of a row that holds one value for each column. -/
theorem nColumns_full (r : row) (cols : List column)
    (hcount : ∀ ty, (r.values ty).length = cols.countP (fun c => decide (c.type = ty))) :
    r.nColumns = cols.length := by
  have hU : ∀ c ∈ cols, c.type ≠ .UNKNOWN_TYPE := by
    have h0 := hcount .UNKNOWN_TYPE
    simp only [row.values, List.length_nil] at h0
    intro c hc hty
    have := List.countP_eq_zero.1 h0.symm c hc
    simp [hty] at this
  have hsum := countP_types cols hU
  have h1 := hcount .BYTE
  have h2 := hcount .UBYTE
  have h3 := hcount .SHORT
  have h4 := hcount .USHORT
  have h5 := hcount .INT
  have h6 := hcount .UINT
  have h7 := hcount .LONG
  have h8 := hcount .ULONG
  have h9 := hcount .FLOAT
  have h10 := hcount .DOUBLE
  have h11 := hcount .CATEGORY
  have h12 := hcount .TEXT
  simp only [row.values] at h1 h2 h3 h4 h5 h6 h7 h8 h9 h10 h11 h12
  unfold row.nColumns
  omega

theorem locateFrom_length (ty : TYPE_T) (cs : List column) (k : Nat) :
    (locateFrom ty cs k).length = cs.countP (fun c => decide (c.type = ty)) := by
  induction cs generalizing k with
  | nil => rfl
  | cons c cs ih =>
    rw [locateFrom]
    by_cases h : c.type = ty
    · rw [if_pos h, List.countP_cons_of_pos _ _ (by simpa using h), List.length_cons, ih]
    · rw [if_neg h, List.countP_cons_of_neg _ _ (by simpa using h), ih]

theorem locate_length (ty : TYPE_T) (cs : List column) :
    (locate ty cs).length = cs.countP (fun c => decide (c.type = ty)) :=
  locateFrom_length ty cs 0

theorem pushNamed_decl (nms : List String) (vas : List Value) (cols : List column) :
    (pushNamed nms vas cols).map decl = cols.map decl := by
  induction nms generalizing vas cols with
  | nil => unfold pushNamed; rfl
  | cons n nms ih =>
    cases vas with
    | nil => unfold pushNamed; rfl
    | cons v vas => rw [pushNamed, ih, pushAt_decl]

theorem types_of_decl (cs cs1 : List column) (h : cs.map decl = cs1.map decl) :
    cs.map column.type = cs1.map column.type := by
  have := congrArg (List.map Prod.snd) h
  simpa [decl, Function.comp_def] using this

theorem names_of_decl (cs cs1 : List column) (h : cs.map decl = cs1.map decl) :
    cs.map column.name = cs1.map column.name := by
  have := congrArg (List.map Prod.fst) h
  simpa [decl, Function.comp_def] using this

/-- One block of `appendRow(row)`, for names that are all given, one for each
column of the type. -/
theorem appendOfType_named (isString : Bool) (ty : TYPE_T) (nms : List String)
    (vas : List Value) (cols : List column) (cnt : Int) (hne : ∀ n ∈ nms, n ≠ "")
    (hlen : nms.length = vas.length)
    (hcnt : nms.length = cols.countP (fun c => decide (c.type = ty)))
    (hty : ∀ n ∈ nms, ∀ p ∈ cols.map decl, nameKey p.1 = nameKey n → p.2 = ty) :
    appendOfType isString ty nms vas (some (cols, cnt)) =
      some (pushNamed nms vas cols, cnt + vas.length) := by
  unfold appendOfType
  simp only
  split_ifs with hpos
  · obtain ⟨s1, h1, h2, _, _⟩ := appendToRow_named isString ty nms vas
      { cols := cols, buf := locate ty cols, msk := locate ty cols } hne hlen
      (by simp only [locate_length]; omega) (by simp only [locate_length]; omega) hty
    rw [h1]
    simp only [h2]
  · have h0 : vas = [] := List.length_eq_zero.1 (by omega)
    subst h0
    have h1 : nms = [] := List.length_eq_zero.1 (by simpa using hlen)
    subst h1
    simp [pushNamed]

/-- The blocks of `appendRow(row)` one after the other, for names that are all
given. -/
theorem foldl_appendOfType_named (fs : List (Bool × TYPE_T × List String × List Value))
    (cols0 cols : List column) (cnt : Int) (hdecl : cols.map decl = cols0.map decl)
    (h : ∀ f ∈ fs, (∀ n ∈ f.2.2.1, n ≠ "") ∧ f.2.2.1.length = f.2.2.2.length ∧
      f.2.2.1.length = cols0.countP (fun c => decide (c.type = f.2.1)) ∧
      ∀ n ∈ f.2.2.1, ∀ p ∈ cols0.map decl, nameKey p.1 = nameKey n → p.2 = f.2.1) :
    fs.foldl (fun acc f => appendOfType f.1 f.2.1 f.2.2.1 f.2.2.2 acc) (some (cols, cnt)) =
      some (fs.foldl (fun cs f => pushNamed f.2.2.1 f.2.2.2 cs) cols,
        cnt + ((fs.map fun f => f.2.2.2.length).sum : Nat)) := by
  induction fs generalizing cols cnt with
  | nil => simp
  | cons f fs ih =>
    obtain ⟨h1, h2, h3, h4⟩ := h f (List.mem_cons_self _ _)
    rw [List.foldl_cons, appendOfType_named f.1 f.2.1 f.2.2.1 f.2.2.2 cols cnt h1 h2
        (by rw [h3, countP_of_types _ _ _ (types_of_decl _ _ hdecl)])
        (by rw [hdecl]; exact h4),
      ih _ _ (by rw [pushNamed_decl]; exact hdecl) (fun g hg => h g (List.mem_cons_of_mem _ hg))]
    simp only [List.foldl_cons, List.map_cons, List.sum_cons, Nat.cast_add, Option.some.injEq,
      Prod.mk.injEq, true_and]
    omega

/-- One pass through the loop of `appendRows`, for a row whose names are all
given: the values go to the columns named, whatever the pointers were, and
the vectors of pointers keep their lengths. -/
theorem rowBlocks_named (fs : List (Bool × TYPE_T × List String × List Value))
    (ptrs : List (List (Option Nat) × List (Option Nat)))
    (cols0 cols : List column) (cnt : Nat) (hdecl : cols.map decl = cols0.map decl)
    (hptrs : ptrs.map (fun p => (p.1.length, p.2.length)) =
      fs.map fun f => (f.2.2.1.length, f.2.2.1.length))
    (h : ∀ f ∈ fs, (∀ n ∈ f.2.2.1, n ≠ "") ∧ f.2.2.1.length = f.2.2.2.length ∧
      f.2.2.1.length = cols0.countP (fun c => decide (c.type = f.2.1)) ∧
      ∀ n ∈ f.2.2.1, ∀ p ∈ cols0.map decl, nameKey p.1 = nameKey n → p.2 = f.2.1) :
    ∃ ptrs1, rowBlocks (fs.zip ptrs) cols cnt =
        some (fs.foldl (fun cs f => pushNamed f.2.2.1 f.2.2.2 cs) cols,
          cnt + (fs.map fun f => f.2.2.2.length).sum, ptrs1) ∧
      ptrs1.map (fun p => (p.1.length, p.2.length)) =
        ptrs.map fun p => (p.1.length, p.2.length) := by
  induction fs generalizing ptrs cols cnt with
  | nil =>
    cases ptrs with
    | nil => exact ⟨[], by simp [rowBlocks], rfl⟩
    | cons p ps => simp at hptrs
  | cons f fs ih =>
    cases ptrs with
    | nil => simp at hptrs
    | cons p ps =>
      obtain ⟨h1, h2, h3, h4⟩ := h f (List.mem_cons_self _ _)
      simp only [List.map_cons, List.cons.injEq, Prod.mk.injEq] at hptrs
      obtain ⟨⟨hp1, hp2⟩, hps⟩ := hptrs
      rw [List.zip_cons_cons, rowBlocks, List.foldl_cons, List.map_cons, List.sum_cons]
      by_cases hpos : f.2.2.2.length > 0
      · obtain ⟨s1, g1, g2, g3, g4⟩ := appendToRow_named f.1 f.2.1 f.2.2.1 f.2.2.2
          { cols := cols, buf := p.1, msk := p.2 } h1 h2 (by simp only [hp1]; omega)
          (by simp only [hp2]; omega) (by rw [hdecl]; exact h4)
        obtain ⟨ps1, e1, e2⟩ := ih ps (pushNamed f.2.2.1 f.2.2.2 cols) (cnt + f.2.2.2.length)
          (by rw [pushNamed_decl]; exact hdecl) hps
          (fun g hg => h g (List.mem_cons_of_mem _ hg))
        refine ⟨(s1.buf, s1.msk) :: ps1, ?_, ?_⟩
        · rw [if_pos hpos, g1]
          simp only [g2, e1, Option.some.injEq, Prod.mk.injEq, true_and, and_true]
          omega
        · simp only [List.map_cons, g3, g4, e2]
      · have h0 : f.2.2.2 = [] := List.length_eq_zero.1 (by omega)
        have hn0 : f.2.2.1 = [] := List.length_eq_zero.1 (by rw [h2, h0]; rfl)
        obtain ⟨ps1, e1, e2⟩ := ih ps cols cnt hdecl hps
          (fun g hg => h g (List.mem_cons_of_mem _ hg))
        refine ⟨p :: ps1, ?_, ?_⟩
        · rw [if_neg hpos, e1, h0, hn0]
          simp [pushNamed]
        · simp only [List.map_cons, e2]

theorem findIdx_names (q : String → Bool) (cs cs1 : List column)
    (h : cs.map column.name = cs1.map column.name) (k : Nat) :
    cs.findIdx? (fun c => q c.name) k = cs1.findIdx? (fun c => q c.name) k := by
  induction cs generalizing cs1 k with
  | nil =>
    cases cs1 with
    | nil => rfl
    | cons c1 cs1 => simp at h
  | cons c cs ih =>
    cases cs1 with
    | nil => simp at h
    | cons c1 cs1 =>
      simp only [List.map_cons, List.cons.injEq] at h
      rw [List.findIdx?_cons, List.findIdx?_cons, h.1, ih cs1 h.2]

theorem findAt_names (cs cs1 : List column) (h : cs.map column.name = cs1.map column.name)
    (n : String) : findAt cs n = findAt cs1 n :=
  findIdx_names (fun x => nameKey x == nameKey n) cs cs1 h 0

theorem modifyAt_get (f : column → column) (k : Nat) (cols : List column) (j : Nat) :
    (modifyAt f k cols)[j]? = (cols[j]?).map fun c => if j = k then f c else c := by
  induction cols generalizing k j with
  | nil => cases k <;> simp [modifyAt]
  | cons c cs ih =>
    cases k with
    | zero =>
      cases j with
      | zero => simp [modifyAt]
      | succ j => simp [modifyAt]
    | succ k =>
      cases j with
      | zero => simp [modifyAt]
      | succ j => simp [modifyAt, ih]

theorem pushAt_get (cols : List column) (p : Option Nat) (va : Value) (j : Nat) (c : column)
    (hc : cols[j]? = some c) :
    ∃ c1, (pushAt cols (some p) va)[j]? = some c1 ∧
      c1.values.length = c.values.length + (if p = some j then 1 else 0) ∧
      c1.mask.length = c.mask.length + (if p = some j then 1 else 0) := by
  cases p with
  | none => exact ⟨c, hc, by simp, by simp⟩
  | some k =>
    simp only [pushAt, pushBit, pushValue, modifyAt_get, hc, Option.map_some']
    by_cases hjk : j = k
    · subst hjk
      simp [bitvector.increment]
    · have : ¬ k = j := fun h => hjk h.symm
      simp [hjk, this]

/-- The pushes of a block whose names are all given: a column gains one value
and one bit for each name that points to it. -/
theorem pushNamed_lengths (nms : List String) (vas : List Value) (cols : List column)
    (hlen : nms.length = vas.length) (j : Nat) (c : column) (hc : cols[j]? = some c) :
    ∃ c1, (pushNamed nms vas cols)[j]? = some c1 ∧
      c1.values.length =
        c.values.length + nms.countP (fun n => decide (findAt cols n = some j)) ∧
      c1.mask.length = c.mask.length + nms.countP (fun n => decide (findAt cols n = some j)) := by
  induction nms generalizing vas cols c with
  | nil => exact ⟨c, by unfold pushNamed; exact hc, by simp, by simp⟩
  | cons n nms ih =>
    cases vas with
    | nil => simp at hlen
    | cons v vas =>
      simp only [List.length_cons, Nat.add_right_cancel_iff] at hlen
      obtain ⟨c1, h1, h2, h3⟩ := pushAt_get cols (findAt cols n) v j c hc
      obtain ⟨c2, g1, g2, g3⟩ := ih vas _ hlen c1 h1
      have hn : (pushAt cols (some (findAt cols n)) v).map column.name = cols.map column.name :=
        names_of_decl _ _ (pushAt_decl _ _ _)
      have hP : (fun m => decide (findAt (pushAt cols (some (findAt cols n)) v) m = some j)) =
          fun m => decide (findAt cols m = some j) := by
        funext m
        rw [findAt_names _ _ hn]
      rw [hP] at g2 g3
      refine ⟨c2, by rw [pushNamed]; exact g1, ?_, ?_⟩
      · rw [g2, h2, List.countP_cons]
        simp only [decide_eq_true_eq]
        omega
      · rw [g3, h3, List.countP_cons]
        simp only [decide_eq_true_eq]
        omega

/-- The pushes of the blocks of a row whose names are all given. -/
theorem foldl_pushNamed_lengths (fs : List (Bool × TYPE_T × List String × List Value))
    (cols : List column) (hlen : ∀ f ∈ fs, f.2.2.1.length = f.2.2.2.length) (j : Nat)
    (c : column) (hc : cols[j]? = some c) :
    ∃ c1, (fs.foldl (fun cs f => pushNamed f.2.2.1 f.2.2.2 cs) cols)[j]? = some c1 ∧
      c1.values.length = c.values.length +
        (fs.map fun f => f.2.2.1.countP (fun n => decide (findAt cols n = some j))).sum ∧
      c1.mask.length = c.mask.length +
        (fs.map fun f => f.2.2.1.countP (fun n => decide (findAt cols n = some j))).sum := by
  induction fs generalizing cols c with
  | nil => exact ⟨c, hc, by simp, by simp⟩
  | cons f fs ih =>
    obtain ⟨c1, h1, h2, h3⟩ := pushNamed_lengths f.2.2.1 f.2.2.2 cols
      (hlen f (List.mem_cons_self _ _)) j c hc
    obtain ⟨c2, g1, g2, g3⟩ := ih _ (fun g hg => hlen g (List.mem_cons_of_mem _ hg)) c1 h1
    have hn : (pushNamed f.2.2.1 f.2.2.2 cols).map column.name = cols.map column.name :=
      names_of_decl _ _ (pushNamed_decl _ _ _)
    have hP : (fun m => decide (findAt (pushNamed f.2.2.1 f.2.2.2 cols) m = some j)) =
        fun m => decide (findAt cols m = some j) := by
      funext m
      rw [findAt_names _ _ hn]
    rw [hP] at g2 g3
    refine ⟨c2, by rw [List.foldl_cons]; exact g1, ?_, ?_⟩
    · rw [g2, h2, List.map_cons, List.sum_cons]
      omega
    · rw [g3, h3, List.map_cons, List.sum_cons]
      omega

theorem foldl_pushNamed_decl (fs : List (Bool × TYPE_T × List String × List Value))
    (cols : List column) :
    (fs.foldl (fun cs f => pushNamed f.2.2.1 f.2.2.2 cs) cols).map decl = cols.map decl := by
  induction fs generalizing cols with
  | nil => rfl
  | cons f fs ih => rw [List.foldl_cons, ih, pushNamed_decl]

/-- Where no two columns are filed under the same key, the lookup by the name
of a column points to that column. -/
theorem findIdx_get (cols : List column) (hk : (cols.map fun c => nameKey c.name).Nodup)
    (j k : Nat) (c : column) (hc : cols[j]? = some c) :
    cols.findIdx? (fun d => nameKey d.name == nameKey c.name) k = some (k + j) := by
  induction cols generalizing j k with
  | nil => simp at hc
  | cons d ds ih =>
    simp only [List.map_cons, List.nodup_cons] at hk
    rw [List.findIdx?_cons]
    cases j with
    | zero =>
      simp only [List.getElem?_cons_zero, Option.some.injEq] at hc
      subst hc
      simp
    | succ j =>
      simp only [List.getElem?_cons_succ] at hc
      have hmem : c ∈ ds := List.mem_iff_getElem?.2 ⟨j, hc⟩
      have hne : ¬ nameKey d.name = nameKey c.name := by
        intro h
        apply hk.1
        rw [h]
        exact List.mem_map_of_mem (fun c => nameKey c.name) hmem
      have hb : (nameKey d.name == nameKey c.name) = false := by simpa using hne
      rw [hb, ih hk.2 j (k + 1) hc]
      simp only [Bool.false_eq_true, if_false, Option.some.injEq]
      omega

theorem findAt_get (cols : List column) (hk : (cols.map fun c => nameKey c.name).Nodup)
    (j : Nat) (c : column) (hc : cols[j]? = some c) : findAt cols c.name = some j := by
  have := findIdx_get cols hk j 0 c hc
  simpa [findAt] using this

theorem countP_index {α : Type} (l : List α) (g : α → Option Nat) (k : Nat)
    (h : ∀ (i : Nat) (a : α), l[i]? = some a → g a = some (k + i)) (j : Nat)
    (hj : j < l.length) : l.countP (fun a => decide (g a = some (k + j))) = 1 := by
  induction l generalizing k j with
  | nil => simp at hj
  | cons a l ih =>
    have ha : g a = some k := by
      have := h 0 a (by simp)
      simpa using this
    have hrest : ∀ (i : Nat) (b : α), l[i]? = some b → g b = some (k + 1 + i) := by
      intro i b hb
      have := h (i + 1) b (by simpa using hb)
      rw [this]
      congr 1
      omega
    cases j with
    | zero =>
      rw [List.countP_cons_of_pos _ _ (by simpa using ha)]
      have h0 : l.countP (fun a => decide (g a = some (k + 0))) = 0 := by
        rw [List.countP_eq_zero]
        intro b hb
        obtain ⟨i, hi⟩ := List.mem_iff_getElem?.1 hb
        rw [hrest i b hi]
        simp
        omega
      rw [h0]
    | succ j =>
      rw [List.countP_cons_of_neg _ _ (by rw [ha]; simp)]
      have := ih (k + 1) hrest j (by simpa using hj)
      rw [show k + (j + 1) = k + 1 + j by omega]
      exact this

/-- Where no two columns are filed under the same key, exactly one of the
names of the columns points to the column at a position. -/
theorem countP_findAt (cols : List column) (hk : (cols.map fun c => nameKey c.name).Nodup)
    (j : Nat) (hj : j < cols.length) :
    (cols.map column.name).countP (fun n => decide (findAt cols n = some j)) = 1 := by
  rw [List.countP_map]
  have := countP_index cols (fun c => findAt cols c.name) 0
    (fun i a hi => by simp only [findAt_get cols hk i a hi, Nat.zero_add]) j hj
  simpa [Function.comp_def] using this

/-- The names of the columns, taken type by type, are the names of the
columns: each column of known type is counted under one type. -/
theorem countP_namesOfType (cs : List column) (h : ∀ c ∈ cs, c.type ≠ .UNKNOWN_TYPE)
    (P : String → Bool) :
    (blockTypes.map fun ty => (namesOfType ty cs).countP P).sum =
      (cs.map column.name).countP P := by
  induction cs with
  | nil => rfl
  | cons c cs ih =>
    have hc := h c (List.mem_cons_self _ _)
    have := ih (fun d hd => h d (List.mem_cons_of_mem _ hd))
    simp only [blockTypes, namesOfType, List.map_cons, List.map_nil, List.sum_cons, List.sum_nil,
      List.filter_cons, List.countP_cons] at this ⊢
    cases hty : c.type <;> simp only [decide_True, decide_False, if_true, if_false,
      Bool.false_eq_true, reduceCtorEq, List.map_cons, List.countP_cons] <;> first
      | exact absurd hty hc
      | omega

theorem placeByPosition_decl (ty : TYPE_T) (va : List Value) (cs : List column) :
    (placeByPosition ty va cs).map decl = cs.map decl := by
  induction cs generalizing va with
  | nil => cases va <;> rfl
  | cons c cs ih =>
    cases va with
    | nil => rfl
    | cons v vs =>
      rw [placeByPosition]
      split_ifs
      · simp [ih, decl]
      · simp [ih]

theorem foldl_placeByPosition_decl (fs : List (Bool × TYPE_T × List String × List Value))
    (cs : List column) :
    (fs.foldl (fun cs f => placeByPosition f.2.1 f.2.2.2 cs) cs).map decl = cs.map decl := by
  induction fs generalizing cs with
  | nil => rfl
  | cons f fs ih => rw [List.foldl_cons, ih, placeByPosition_decl]

theorem locateAll_lengths (r : row) (cols0 : List column) :
    (locateAll cols0).map (fun p => (p.1.length, p.2.length)) =
      r.fields.map fun f => (cols0.countP (fun c => decide (c.type = f.2.1)),
        cols0.countP (fun c => decide (c.type = f.2.1))) := by
  rw [locateAll_fields r cols0, List.map_map]
  apply List.map_congr_left
  intro f _
  simp only [Function.comp_def, locate_length]

/-- What a row whose names are, type by type, the names of the columns of that
type in some order gives for each of its blocks. -/
theorem named_fields (fs : List (Bool × TYPE_T × List String × List Value))
    (cols0 : List column) (hk : (cols0.map fun c => nameKey c.name).Nodup)
    (hr : ∀ f ∈ fs, (∀ n ∈ f.2.2.1, n ≠ "") ∧ f.2.2.1.length = f.2.2.2.length ∧
      f.2.2.1.Perm (namesOfType f.2.1 cols0)) :
    ∀ f ∈ fs, (∀ n ∈ f.2.2.1, n ≠ "") ∧ f.2.2.1.length = f.2.2.2.length ∧
      f.2.2.1.length = cols0.countP (fun c => decide (c.type = f.2.1)) ∧
      ∀ n ∈ f.2.2.1, ∀ p ∈ cols0.map decl, nameKey p.1 = nameKey n → p.2 = f.2.1 := by
  intro f hf
  obtain ⟨h1, h2, h3⟩ := hr f hf
  refine ⟨h1, h2, ?_, ?_⟩
  · rw [h3.length_eq, namesOfType, List.length_map, List.countP_eq_length_filter]
  · intro n hn p hp hkey
    have hn1 := h3.mem_iff.1 hn
    simp only [namesOfType, List.mem_map, List.mem_filter, decide_eq_true_eq] at hn1
    obtain ⟨c, ⟨hc, hct⟩, rfl⟩ := hn1
    obtain ⟨d, hd, rfl⟩ := List.mem_map.1 hp
    have hdc : d = c := List.inj_on_of_nodup_map hk hd hc hkey
    rw [hdc]
    exact hct

theorem counted_nColumns (r : row) (cols0 : List column)
    (hU : ∀ c ∈ cols0, c.type ≠ .UNKNOWN_TYPE)
    (h : ∀ f ∈ r.fields, f.2.2.2.length = cols0.countP (fun c => decide (c.type = f.2.1))) :
    r.nColumns = cols0.length := by
  have hsum := countP_types cols0 hU
  have h1 := h (false, .BYTE, r.bytesnames, r.bytesvalues) (by simp [row.fields])
  have h2 := h (false, .UBYTE, r.ubytesnames, r.ubytesvalues) (by simp [row.fields])
  have h3 := h (false, .SHORT, r.shortsnames, r.shortsvalues) (by simp [row.fields])
  have h4 := h (false, .USHORT, r.ushortsnames, r.ushortsvalues) (by simp [row.fields])
  have h5 := h (false, .INT, r.intsnames, r.intsvalues) (by simp [row.fields])
  have h6 := h (false, .UINT, r.uintsnames, r.uintsvalues) (by simp [row.fields])
  have h7 := h (false, .LONG, r.longsnames, r.longsvalues) (by simp [row.fields])
  have h8 := h (false, .ULONG, r.ulongsnames, r.ulongsvalues) (by simp [row.fields])
  have h9 := h (false, .FLOAT, r.floatsnames, r.floatsvalues) (by simp [row.fields])
  have h10 := h (false, .DOUBLE, r.doublesnames, r.doublesvalues) (by simp [row.fields])
  have h11 := h (true, .CATEGORY, r.catsnames, r.catsvalues) (by simp [row.fields])
  have h12 := h (true, .TEXT, r.textsnames, r.textsvalues) (by simp [row.fields])
  simp only at h1 h2 h3 h4 h5 h6 h7 h8 h9 h10 h11 h12
  unfold row.nColumns
  omega

/-- A row that names, type by type, every column of the type once, on an
aligned table: what `appendRow(row)` returns and what one pass through the
loop of `appendRows` leaves, whatever the pointers were. -/
theorem named_row (t : tafel) (r : row) (cols0 : List column)
    (ptrs : List (List (Option Nat) × List (Option Nat)))
    (hnorm : ∀ c ∈ t.colorder, c.values.length = t.mrows ∧ c.mask.length = t.mrows)
    (hdecl : t.colorder.map decl = cols0.map decl)
    (hk : (cols0.map fun c => nameKey c.name).Nodup)
    (hU : ∀ c ∈ cols0, c.type ≠ .UNKNOWN_TYPE)
    (hptrs : ptrs.map (fun p => (p.1.length, p.2.length)) =
      (locateAll cols0).map fun p => (p.1.length, p.2.length))
    (hr : ∀ f ∈ r.fields, (∀ n ∈ f.2.2.1, n ≠ "") ∧ f.2.2.1.length = f.2.2.2.length ∧
      f.2.2.1.Perm (namesOfType f.2.1 cols0)) :
    ∃ C ptrs1,
      appendRow t r = some ({ colorder := C, mrows := t.mrows + 1 }, (t.colorder.length : Int)) ∧
      rowBlocks (r.fields.zip ptrs) t.colorder 0 = some (C, t.colorder.length, ptrs1) ∧
      ptrs1.map (fun p => (p.1.length, p.2.length)) =
        (locateAll cols0).map (fun p => (p.1.length, p.2.length)) ∧
      C.map decl = cols0.map decl ∧
      ∀ c ∈ C, c.values.length = t.mrows + 1 ∧ c.mask.length = t.mrows + 1 := by
  have hf := named_fields r.fields cols0 hk hr
  have hfix : normalize t = t :=
    normalize_of_aligned t (fun c hc => ⟨fun _ => (hnorm c hc).1, le_of_eq (hnorm c hc).2⟩)
  have hlen0 : t.colorder.length = cols0.length := by
    have := congrArg List.length hdecl
    simpa using this
  have hn : r.nColumns = t.colorder.length := by
    rw [hlen0]
    exact counted_nColumns r cols0 hU (fun f hf1 => by rw [← (hf f hf1).2.1, (hf f hf1).2.2.1])
  have hnames : t.colorder.map column.name = cols0.map column.name := names_of_decl _ _ hdecl
  have hp : ptrs.map (fun p => (p.1.length, p.2.length)) =
      r.fields.map fun f => (f.2.2.1.length, f.2.2.1.length) := by
    rw [hptrs, locateAll_lengths r cols0]
    apply List.map_congr_left
    intro f hf1
    rw [(hf f hf1).2.2.1]
  obtain ⟨ptrs1, hb, hl⟩ := rowBlocks_named r.fields ptrs cols0 t.colorder 0 hdecl hp hf
  have hClen : (r.fields.foldl (fun cs f => pushNamed f.2.2.1 f.2.2.2 cs) t.colorder).length =
      t.colorder.length := by
    have := congrArg List.length (foldl_pushNamed_decl r.fields t.colorder)
    simpa using this
  refine ⟨r.fields.foldl (fun cs f => pushNamed f.2.2.1 f.2.2.2 cs) t.colorder, ptrs1, ?_, ?_,
    ?_, ?_, ?_⟩
  · rw [appendRow_fields, hfix]
    simp only [ite_self]
    rw [foldl_appendOfType_named r.fields cols0 t.colorder 0 hdecl hf, fields_sum, hn]
    simp [cols_length]
  · rw [hb, fields_sum, hn, Nat.zero_add]
  · rw [hl, hptrs]
  · rw [foldl_pushNamed_decl]
    exact hdecl
  · intro c1 hc1
    obtain ⟨j, hj⟩ := List.mem_iff_getElem?.1 hc1
    have hlt : j < t.colorder.length := by
      rw [← hClen]
      exact (List.getElem?_eq_some.1 hj).1
    obtain ⟨c2, g1, g2, g3⟩ := foldl_pushNamed_lengths r.fields t.colorder
      (fun f hf1 => (hf f hf1).2.1) j t.colorder[j] (List.getElem?_eq_getElem hlt)
    rw [hj] at g1
    cases g1
    have hP : (fun n => decide (findAt t.colorder n = some j)) =
        fun n => decide (findAt cols0 n = some j) := by
      funext n
      rw [findAt_names _ _ hnames]
    have hsum : (r.fields.map fun f =>
        f.2.2.1.countP (fun n => decide (findAt t.colorder n = some j))).sum = 1 := by
      rw [hP]
      have e1 : (r.fields.map fun f =>
          f.2.2.1.countP (fun n => decide (findAt cols0 n = some j))) =
          r.fields.map fun f =>
            (namesOfType f.2.1 cols0).countP (fun n => decide (findAt cols0 n = some j)) := by
        apply List.map_congr_left
        intro f hf1
        exact (hr f hf1).2.2.countP_eq _
      have e2 : (r.fields.map fun f =>
            (namesOfType f.2.1 cols0).countP (fun n => decide (findAt cols0 n = some j))) =
          blockTypes.map fun ty =>
            (namesOfType ty cols0).countP (fun n => decide (findAt cols0 n = some j)) := rfl
      rw [e1, e2, countP_namesOfType cols0 hU, countP_findAt cols0 hk j (by omega)]
    have := hnorm t.colorder[j] (List.getElem_mem _)
    rw [g2, g3, hsum]
    omega

/-- A row of unnamed values, one for each column, on an aligned table: what
`appendRow(row)` returns and what one pass through the loop of `appendRows`
leaves when the pointers are those `locate` returned. -/
theorem positional_row (t : tafel) (r : row) (cols0 : List column)
    (hnorm : ∀ c ∈ t.colorder, c.values.length = t.mrows ∧ c.mask.length = t.mrows)
    (hdecl : t.colorder.map decl = cols0.map decl)
    (hr : (∀ n ∈ r.names, n = "") ∧
      ∀ ty, (r.values ty).length = cols0.countP (fun c => decide (c.type = ty))) :
    ∃ C,
      appendRow t r = some ({ colorder := C, mrows := t.mrows + 1 }, (t.colorder.length : Int)) ∧
      rowBlocks (r.fields.zip (locateAll cols0)) t.colorder 0 =
        some (C, t.colorder.length, locateAll cols0) ∧
      C.map decl = cols0.map decl ∧
      ∀ c ∈ C, c.values.length = t.mrows + 1 ∧ c.mask.length = t.mrows + 1 := by
  have htypes := types_of_decl _ _ hdecl
  have hcount : ∀ ty, (r.values ty).length =
      t.colorder.countP (fun c => decide (c.type = ty)) := by
    intro ty
    rw [hr.2 ty, countP_of_types ty _ _ htypes]
  have hrow := appendRow_full_row_all t r hr.1 hnorm hcount
  refine ⟨_, hrow.1, ?_, ?_, hrow.2.2.2⟩
  · rw [locateAll_fields r cols0,
      rowBlocks_places r.fields cols0 t.colorder 0 htypes (fields_names r hr.1), fields_sum,
      nColumns_full r t.colorder hcount, Nat.zero_add]
  · rw [foldl_placeByPosition_decl]
    exact hdecl

theorem appendRowsLoop_cons (r : row) (rs : List row) (t : tafel) (cnt : Nat) (jnew : Int)
    (ptrs ptrs1 : List (List (Option Nat) × List (Option Nat))) (C : List column)
    (hfix : normalize t = t) (hpos : 0 < t.colorder.length)
    (hb : rowBlocks (r.fields.zip ptrs) t.colorder 0 = some (C, t.colorder.length, ptrs1)) :
    appendRowsLoop (r :: rs) t cnt jnew ptrs =
      appendRowsLoop rs { colorder := C, mrows := t.mrows + 1 } t.colorder.length (jnew + 1)
        ptrs1 := by
  rw [appendRowsLoop]
  simp only [hfix, ite_self, hb, gt_iff_lt, hpos, if_true]

theorem appendRowEach_cons (t t1 : tafel) (r : row) (rs : List row) (n : Int)
    (h : appendRow t r = some (t1, n)) : appendRowEach t (r :: rs) = appendRowEach t1 rs := by
  have e : appendRowEach t (r :: rs) =
      (appendRow t r).bind fun res => appendRowEach res.1 rs := rfl
  rw [e, h]
  rfl

/-- The loop of `appendRows` over rows that name every column, whatever the
pointers were: it leaves the table the calls of `appendRow(row)` leave, one
for each row, and counts every row. -/
theorem appendRowsLoop_named (ns : List row) (cols0 : List column) (t : tafel) (cnt : Nat)
    (jnew : Int) (ptrs : List (List (Option Nat) × List (Option Nat)))
    (hcols : cols0 ≠ [])
    (hnorm : ∀ c ∈ t.colorder, c.values.length = t.mrows ∧ c.mask.length = t.mrows)
    (hdecl : t.colorder.map decl = cols0.map decl)
    (hk : (cols0.map fun c => nameKey c.name).Nodup)
    (hU : ∀ c ∈ cols0, c.type ≠ .UNKNOWN_TYPE)
    (hptrs : ptrs.map (fun p => (p.1.length, p.2.length)) =
      (locateAll cols0).map fun p => (p.1.length, p.2.length))
    (hns : ∀ r ∈ ns, ∀ f ∈ r.fields, (∀ n ∈ f.2.2.1, n ≠ "") ∧
      f.2.2.1.length = f.2.2.2.length ∧ f.2.2.1.Perm (namesOfType f.2.1 cols0)) :
    ∃ t1, appendRowEach t ns = some t1 ∧ t1.mrows = t.mrows + ns.length ∧
      appendRowsLoop ns t cnt jnew ptrs = some (t1, jnew + ns.length) := by
  induction ns generalizing t cnt jnew ptrs with
  | nil => exact ⟨t, rfl, rfl, by simp [appendRowsLoop]⟩
  | cons r ns ih =>
    obtain ⟨C, ptrs1, h1, h2, h3, h4, h5⟩ := named_row t r cols0 ptrs hnorm hdecl hk hU hptrs
      (hns r (List.mem_cons_self _ _))
    have hfix : normalize t = t :=
      normalize_of_aligned t (fun c hc => ⟨fun _ => (hnorm c hc).1, le_of_eq (hnorm c hc).2⟩)
    have hpos : 0 < t.colorder.length := by
      have := congrArg List.length hdecl
      simp only [List.length_map] at this
      rw [this]
      exact List.length_pos.2 hcols
    obtain ⟨t1, g1, g2, g3⟩ := ih { colorder := C, mrows := t.mrows + 1 } t.colorder.length
      (jnew + 1) ptrs1 h5 h4 h3 (fun r1 hr1 => hns r1 (List.mem_cons_of_mem _ hr1))
    refine ⟨t1, ?_, ?_, ?_⟩
    · rw [appendRowEach_cons t _ r ns _ h1]
      exact g1
    · rw [g2, List.length_cons]
      simp only
      omega
    · rw [appendRowsLoop_cons r ns t cnt jnew ptrs ptrs1 C hfix hpos h2, g3]
      simp only [List.length_cons, Nat.cast_add, Nat.cast_one, Option.some.injEq, Prod.mk.injEq,
        true_and]
      omega

/-- The loop of `appendRows` over rows of unnamed values, with the pointers
`locate` returned, followed by rows that name every column: it leaves the
table the calls of `appendRow(row)` leave, one for each row, and counts every
row. -/
theorem appendRowsLoop_batch (ps ns : List row) (cols0 : List column) (t : tafel) (cnt : Nat)
    (jnew : Int) (hcols : cols0 ≠ [])
    (hnorm : ∀ c ∈ t.colorder, c.values.length = t.mrows ∧ c.mask.length = t.mrows)
    (hdecl : t.colorder.map decl = cols0.map decl)
    (hk : (cols0.map fun c => nameKey c.name).Nodup)
    (hU : ∀ c ∈ cols0, c.type ≠ .UNKNOWN_TYPE)
    (hps : ∀ r ∈ ps, (∀ n ∈ r.names, n = "") ∧
      ∀ ty, (r.values ty).length = cols0.countP (fun c => decide (c.type = ty)))
    (hns : ∀ r ∈ ns, ∀ f ∈ r.fields, (∀ n ∈ f.2.2.1, n ≠ "") ∧
      f.2.2.1.length = f.2.2.2.length ∧ f.2.2.1.Perm (namesOfType f.2.1 cols0)) :
    ∃ t1, appendRowEach t (ps ++ ns) = some t1 ∧ t1.mrows = t.mrows + (ps ++ ns).length ∧
      appendRowsLoop (ps ++ ns) t cnt jnew (locateAll cols0) =
        some (t1, jnew + (ps ++ ns).length) := by
  induction ps generalizing t cnt jnew with
  | nil => exact appendRowsLoop_named ns cols0 t cnt jnew _ hcols hnorm hdecl hk hU rfl hns
  | cons r ps ih =>
    obtain ⟨C, h1, h2, h4, h5⟩ := positional_row t r cols0 hnorm hdecl
      (hps r (List.mem_cons_self _ _))
    have hfix : normalize t = t :=
      normalize_of_aligned t (fun c hc => ⟨fun _ => (hnorm c hc).1, le_of_eq (hnorm c hc).2⟩)
    have hpos : 0 < t.colorder.length := by
      have := congrArg List.length hdecl
      simp only [List.length_map] at this
      rw [this]
      exact List.length_pos.2 hcols
    obtain ⟨t1, g1, g2, g3⟩ := ih { colorder := C, mrows := t.mrows + 1 } t.colorder.length
      (jnew + 1) h5 h4 (fun r1 hr1 => hps r1 (List.mem_cons_of_mem _ hr1))
    refine ⟨t1, ?_, ?_, ?_⟩
    · rw [List.cons_append, appendRowEach_cons t _ r _ _ h1]
      exact g1
    · rw [g2, List.cons_append, List.length_cons]
      simp only
      omega
    · rw [List.cons_append,
        appendRowsLoop_cons r (ps ++ ns) t cnt jnew _ _ C hfix hpos h2, g3]
      simp only [List.length_cons, Nat.cast_add, Nat.cast_one, Option.some.injEq, Prod.mk.injEq,
        true_and]
      omega

/-- Where `appendRows` and `appendRow(row)` agree. On a table with at least
one column, in which every value buffer and every bitmap holds `mrows`
elements, no column has an unknown type and no two columns are filed under
the same key, take a batch of rows of unnamed values,
each with as many values of each type as the table has columns of that type,
followed by rows that give, for each type, one value for each name and the
names of the columns of that type in some order. Then `appendRows(batch)` has
defined behaviour, leaves the table that calling `appendRow(row)` on each row in
order leaves, with `mrows` raised by the length of the batch, and returns the
length of the batch. -/
theorem appendRows_each (t : tafel) (ps ns : List row) (hcols : t.colorder ≠ [])
    (hnorm : ∀ c ∈ t.colorder, c.values.length = t.mrows ∧ c.mask.length = t.mrows)
    (hU : ∀ c ∈ t.colorder, c.type ≠ .UNKNOWN_TYPE)
    (hk : (t.colorder.map fun c => nameKey c.name).Nodup)
    (hps : ∀ r ∈ ps, (∀ n ∈ r.names, n = "") ∧
      ∀ ty, (r.values ty).length = t.colorder.countP (fun c => decide (c.type = ty)))
    (hns : ∀ r ∈ ns, ∀ f ∈ r.fields, (∀ n ∈ f.2.2.1, n ≠ "") ∧
      f.2.2.1.length = f.2.2.2.length ∧ f.2.2.1.Perm (namesOfType f.2.1 t.colorder)) :
    ∃ t1, appendRowEach t (ps ++ ns) = some t1 ∧ t1.mrows = t.mrows + (ps ++ ns).length ∧
      appendRows t (ps ++ ns) = some (t1, ((ps ++ ns).length : Int)) := by
  obtain ⟨t1, g1, g2, g3⟩ := appendRowsLoop_batch ps ns t.colorder t 0 0 hcols hnorm rfl hk hU
    hps hns
  refine ⟨t1, g1, g2, ?_⟩
  rw [appendRows]
  split_ifs with h
  · rw [h] at g3
    simp only [appendRowsLoop, List.length_nil, Nat.cast_zero, Int.add_zero, Option.some.injEq,
      Prod.mk.injEq, and_true] at g3
    rw [h, g3]
    rfl
  · rw [g3, Int.zero_add]

theorem appendRows_each_witness :
    ∃ t1, tafel.appendRowEach example_data.twoIntTable
        ([example_data.plainRow] ++ [example_data.swappedRow]) = some t1 ∧
      t1.mrows = example_data.twoIntTable.mrows +
        ([example_data.plainRow] ++ [example_data.swappedRow]).length ∧
      tafel.appendRows example_data.twoIntTable
          ([example_data.plainRow] ++ [example_data.swappedRow]) =
        some (t1, (([example_data.plainRow] ++ [example_data.swappedRow]).length : Int)) :=
  appendRows_each example_data.twoIntTable [example_data.plainRow] [example_data.swappedRow]
    (by decide) (by decide) (by decide) (by decide)
    (by
      intro r hr
      rw [List.mem_singleton] at hr
      subst hr
      exact ⟨by decide, fun ty => by cases ty <;> decide⟩)
    (by decide)

/-- On a table without columns `appendRows` counts no row: for a batch of two
rows without values it returns 0 and leaves `mrows` at 0, where two calls of
`appendRow(row)` raise `mrows` to 2. -/
theorem appendRows_without_columns :
    appendRows { colorder := [], mrows := 0 } [{}, {}] =
        some ({ colorder := [], mrows := 0 }, 0) ∧
      appendRowEach { colorder := [], mrows := 0 } [{}, {}] =
        some { colorder := [], mrows := 2 } := by
  decide

/-- C37 (failing input). The pointers a row with names leaves behind are used
for the next row of the batch. On the columns `a:int`, `b:int` without rows,
take the batch of the row that gives 1 for `b` and 2 for `a` and the row of the
unnamed values 3, 4: each row supplies one value for each column, the first
fully named, the second fully positional. `appendRows` returns 2, sets `mrows`
to 2 and leaves `a = [2, 4]`, `b = [1, 3]`: the unnamed values went to `b` and
`a`. Calling `appendRow(row)` on each row in order leaves `a = [2, 3]`,
`b = [1, 4]`. -/
theorem appendRows_inherits_pointers :
    (appendRows example_data.twoIntTable
        [example_data.swappedRow, example_data.plainRow]).map
        (fun p => (p.1.colorder.map fun c => (c.name, c.values), p.1.mrows, p.2)) =
      some ([("a", [.int 2, .int 4]), ("b", [.int 1, .int 3])], 2, 2) ∧
    (appendRowEach example_data.twoIntTable
        [example_data.swappedRow, example_data.plainRow]).map
        (fun t1 => (t1.colorder.map fun c => (c.name, c.values), t1.mrows)) =
      some ([("a", [.int 2, .int 3]), ("b", [.int 1, .int 4])], 2) := by
  decide

end tafel

/-! ## parseNamesAndTypes -/

namespace tablex

theorem char_eq_iff (c d : Char) : c = d ↔ c.toNat = d.toNat := by
  constructor
  · intro h; rw [h]
  · intro h
    have := congrArg Char.ofNat h
    simpa using this

theorem letterIs_iff (c lo up : Char) (hlo : 97 ≤ lo.toNat ∧ lo.toNat ≤ 122)
    (hup : up.toNat + 32 = lo.toNat) : (c = lo ∨ c = up) ↔ letterIs c lo = true := by
  rw [char_eq_iff c lo, char_eq_iff c up]
  unfold letterIs tolower
  simp only [beq_iff_eq]
  split_ifs with h
  · simp only [Bool.and_eq_true, decide_eq_true_eq] at h
    omega
  · simp only [Bool.and_eq_true, decide_eq_true_eq] at h
    omega

theorem unsignedType_eq (d : Char) :
    unsignedType d =
      if letterIs d 'b' then .UBYTE
      else if letterIs d 's' then .USHORT
      else if letterIs d 'i' then .UINT
      else if letterIs d 'l' then .ULONG
      else .UINT := by
  unfold unsignedType
  simp only [letterIs_iff d 'b' 'B' (by decide) (by decide),
    letterIs_iff d 's' 'S' (by decide) (by decide),
    letterIs_iff d 'i' 'I' (by decide) (by decide),
    letterIs_iff d 'l' 'L' (by decide) (by decide)]

theorem columnType_eq (w : List Char) (hne : w ≠ "unsigned".toList) :
    columnType w = typeByFirstLetter w := by
  unfold columnType typeByFirstLetter signedType
  rw [if_neg hne]
  have hs : ¬ (charAt w 1 = 't' ∧ charAt w 1 = 'T') := by
    rintro ⟨h1, h2⟩
    rw [h1] at h2
    exact absurd h2 (by decide)
  have hrf : (charAt w 0 = 'r' ∨ charAt w 0 = 'R' ∨ charAt w 0 = 'f' ∨ charAt w 0 = 'F') ↔
      ((letterIs (charAt w 0) 'r' || letterIs (charAt w 0) 'f') = true) := by
    rw [Bool.or_eq_true, ← letterIs_iff (charAt w 0) 'r' 'R' (by decide) (by decide),
      ← letterIs_iff (charAt w 0) 'f' 'F' (by decide) (by decide)]
    tauto
  have hck : (charAt w 0 = 'c' ∨ charAt w 0 = 'C' ∨ charAt w 0 = 'k' ∨ charAt w 0 = 'K') ↔
      ((letterIs (charAt w 0) 'c' || letterIs (charAt w 0) 'k') = true) := by
    rw [Bool.or_eq_true, ← letterIs_iff (charAt w 0) 'c' 'C' (by decide) (by decide),
      ← letterIs_iff (charAt w 0) 'k' 'K' (by decide) (by decide)]
    tauto
  simp only [unsignedType_eq, hs, if_false, hrf, hck,
    letterIs_iff (charAt w 0) 'u' 'U' (by decide) (by decide),
    letterIs_iff (charAt w 0) 'a' 'A' (by decide) (by decide),
    letterIs_iff (charAt w 0) 'b' 'B' (by decide) (by decide),
    letterIs_iff (charAt w 0) 'h' 'H' (by decide) (by decide),
    letterIs_iff (charAt w 0) 'g' 'G' (by decide) (by decide),
    letterIs_iff (charAt w 0) 'i' 'I' (by decide) (by decide),
    letterIs_iff (charAt w 0) 'l' 'L' (by decide) (by decide),
    letterIs_iff (charAt w 0) 'v' 'V' (by decide) (by decide),
    letterIs_iff (charAt w 0) 'd' 'D' (by decide) (by decide),
    letterIs_iff (charAt w 0) 't' 'T' (by decide) (by decide),
    letterIs_iff (charAt w 0) 's' 'S' (by decide) (by decide)]

theorem takeWhile_of_all (p : Char → Bool) (l : List Char) (h : ∀ d ∈ l, p d = true) :
    l.takeWhile p = l ∧ l.dropWhile p = [] := by
  induction l with
  | nil => exact ⟨rfl, rfl⟩
  | cons a l ih =>
    have ha := h a (List.mem_cons_self _ _)
    have := ih (fun d hd => h d (List.mem_cons_of_mem _ hd))
    simp [List.takeWhile, List.dropWhile, ha, this.1, this.2]

theorem takeWhile_append_stop (p : Char → Bool) (l : List Char) (c : Char) (r : List Char)
    (h : ∀ d ∈ l, p d = true) (hc : p c = false) :
    (l ++ c :: r).takeWhile p = l ∧ (l ++ c :: r).dropWhile p = c :: r := by
  induction l with
  | nil => simp [List.takeWhile, List.dropWhile, hc]
  | cons a l ih =>
    have ha := h a (List.mem_cons_self _ _)
    have := ih (fun d hd => h d (List.mem_cons_of_mem _ hd))
    simp [List.takeWhile, List.dropWhile, ha, this.1, this.2]

/-- A letter or an underscore starts neither a comment nor white space. -/
theorem nameStart_facts (c : Char) (h : isalpha c = true ∨ c = '_') :
    isspace c = false ∧ c ≠ '#' ∧ c ≠ '-' := by
  refine ⟨?_, ?_, ?_⟩
  · rcases h with h | h
    · unfold isalpha at h
      unfold isspace
      simp only [Bool.or_eq_true, Bool.and_eq_true, decide_eq_true_eq] at h
      simp only [Bool.or_eq_false_iff, beq_eq_false_iff_ne, ne_eq, Bool.and_eq_false_iff,
        decide_eq_false_iff_not]
      omega
    · rw [h]; decide
  · rintro rfl
    rcases h with h | h
    · exact absurd h (by decide)
    · exact absurd h (by decide)
  · rintro rfl
    rcases h with h | h
    · exact absurd h (by decide)
    · exact absurd h (by decide)

/-- The text `nm:w`, for a name `nm` and a single word `w` other than
`unsigned` and `signed`, yields one `addColumn` call, for `nm` with the type
the switches choose for `w`. -/
theorem declarations_pair (nm w : List Char) (c0 : Char) (rest : List Char)
    (hnm : nm = c0 :: rest) (hc0 : isalpha c0 = true ∨ c0 = '_')
    (hrest : ∀ d ∈ rest, isNameChar d = true)
    (hw : w ≠ []) (hwa : ∀ d ∈ w, isalpha d = true)
    (hu : w ≠ "unsigned".toList) (hs : w ≠ "signed".toList) :
    declarations (nm ++ ':' :: w) = (1, [(String.mk nm, columnType w)]) := by
  obtain ⟨hsp, hhash, hdash⟩ := nameStart_facts c0 hc0
  have hname : ∀ d ∈ nm, isNameChar d = true := by
    intro d hd
    rw [hnm] at hd
    rcases List.mem_cons.1 hd with rfl | hd
    · unfold isNameChar isalnum
      rcases hc0 with h | h
      · simp [h]
      · simp [h]
    · exact hrest d hd
  have htake := takeWhile_append_stop isNameChar nm ':' w hname (by decide)
  obtain ⟨d0, w', hw'⟩ : ∃ d0 w', w = d0 :: w' := by
    cases w with
    | nil => exact absurd rfl hw
    | cons d0 w' => exact ⟨d0, w', rfl⟩
  have hd0 : isalpha d0 = true := hwa d0 (by rw [hw']; exact List.mem_cons_self _ _)
  obtain ⟨_, hhash2, hdash2⟩ := nameStart_facts d0 (Or.inl hd0)
  have hskip : skipToType (':' :: w) = w := by
    rw [hw']
    simp [skipToType, atComment, hhash2, hdash2, hd0]
    decide
  have hword := takeWhile_of_all isalpha w hwa
  have htype : readType w = (w, []) := by
    unfold readType
    simp only [hword.1, hword.2, hu, hs, or_self, if_false, hw]
  unfold declarations
  have hlen : (nm ++ ':' :: w).length + 1 = ((nm ++ ':' :: w).length - 1) + 1 + 1 := by
    simp only [List.length_append, List.length_cons]
    omega
  rw [hlen]
  unfold parseLoop
  have hne : nm ++ ':' :: w ≠ [] := by simp
  have hdrop : (nm ++ ':' :: w).dropWhile isspace = nm ++ ':' :: w := by
    rw [hnm]
    simp [List.dropWhile, hsp]
  have hfind : findName (nm ++ ':' :: w) = some (nm ++ ':' :: w) := by
    rw [hnm]
    unfold findName
    rcases hc0 with h | h
    · simp [atComment, hhash, hdash, h]
    · simp [atComment, hhash, hdash, h]
  have hnm2 : nm ≠ [] := by rw [hnm]; simp
  simp only [hne, if_false, hdrop, hfind, htake.1, htake.2, hnm2, hskip, htype]
  unfold parseLoop
  simp

/-- C8 (failing input). The two-word types in `unsigned` all declare UINT:
the second word is appended to the first, the string is then no longer equal
to `unsigned`, and the branch for a word in `u` looks at its second letter,
`n`. -/
theorem declarations_unsigned_words :
    declarations "n:unsigned byte".toList = (1, [("n", .UINT)]) ∧
      declarations "n:unsigned short".toList = (1, [("n", .UINT)]) ∧
      declarations "n:unsigned int".toList = (1, [("n", .UINT)]) ∧
      declarations "n:unsigned long".toList = (1, [("n", .UINT)]) ∧
      ((parseNamesAndTypes { colorder := [], mrows := 0 }
          (some "n:unsigned byte".toList)).1.colorder.map fun c => (c.name, c.type)) =
        [("n", .UINT)] := by
  decide

/-- C9 (failing input). The type `string` declares a SHORT column: the test
for a second letter `t` asks that letter to be both `t` and `T`. -/
theorem declarations_string :
    declarations "n:string".toList = (1, [("n", .SHORT)]) ∧
      declarations "n:short".toList = (1, [("n", .SHORT)]) ∧
      ((parseNamesAndTypes { colorder := [], mrows := 0 }
          (some "n:string".toList)).1.colorder.map fun c => (c.name, c.type)) =
        [("n", .SHORT)] := by
  decide

/-- C10 (as amended). For a name `nm` and a single-word type `w` other than
`unsigned` and `signed`, and not a word in `st`, the text `nm:w` declares
exactly one column, `nm`, whose type is chosen from the first letter of `w`
without regard to case: a UBYTE, b BYTE, g USHORT, h SHORT, i INT, l LONG,
v ULONG, f or r FLOAT, d DOUBLE, c or k CATEGORY, t TEXT, s SHORT, any other
letter INT; and for a word in u from its second letter: b UBYTE, s USHORT,
i UINT, l ULONG, anything else UINT. -/
theorem declarations_single_word (nm w : List Char) (c0 : Char) (rest : List Char)
    (hnm : nm = c0 :: rest) (hc0 : isalpha c0 = true ∨ c0 = '_')
    (hrest : ∀ d ∈ rest, isNameChar d = true)
    (hw : w ≠ []) (hwa : ∀ d ∈ w, isalpha d = true)
    (hu : w ≠ "unsigned".toList) (hs : w ≠ "signed".toList)
    (_hst : ¬ (letterIs (charAt w 0) 's' = true ∧ letterIs (charAt w 1) 't' = true)) :
    declarations (nm ++ ':' :: w) = (1, [(String.mk nm, typeByFirstLetter w)]) := by
  rw [declarations_pair nm w c0 rest hnm hc0 hrest hw hwa hu hs, columnType_eq w hu]

/-- Witness for C10: the text `n1:Real`. -/
theorem declarations_single_word_witness :
    declarations (['n', '1'] ++ ':' :: ['R', 'e', 'a', 'l']) =
      (1, [(String.mk ['n', '1'], typeByFirstLetter ['R', 'e', 'a', 'l'])]) :=
  declarations_single_word ['n', '1'] ['R', 'e', 'a', 'l'] 'n' ['1'] rfl (by decide) (by decide)
    (by decide) (by decide) (by decide) (by decide) (by decide)

/-- C10 (counterexample). The single word `short` starts with none of the
letters a, b, g, h, i, l, v, f, r, d, c, k, t, u, and yet it declares a SHORT
column, not an INT column. -/
theorem declarations_short :
    declarations "n:short".toList = (1, [("n", .SHORT)]) ∧
      declarations "n:short".toList ≠ (1, [("n", .INT)]) ∧
      (∀ l ∈ ['a', 'b', 'g', 'h', 'i', 'l', 'v', 'f', 'r', 'd', 'c', 'k', 't', 'u'],
        letterIs (charAt "short".toList 0) l = false) := by
  decide

/-! ## parseNamesAndTypes: the pairs, their order and the comments -/

theorem not_comment_char (c : Char) (h : isspace c = true ∨ isNameChar c = true ∨ isalpha c = true) :
    c ≠ '#' ∧ c ≠ '-' := by
  constructor <;>
  · rintro rfl
    rcases h with h | h | h <;> exact absurd h (by decide)

theorem atComment_cons_of_ne (c : Char) (s : List Char) (h : c ≠ '#' ∧ c ≠ '-') :
    atComment (c :: s) = false := by
  simp [atComment, h.1, h.2]

theorem atComment_head (c : Char) (s : List Char) (h : atComment (c :: s) = true) :
    c = '#' ∨ c = '-' := by
  simp only [atComment, Bool.or_eq_true, beq_iff_eq, Bool.and_eq_true] at h
  rcases h with h | h
  · exact Or.inl h
  · exact Or.inr h.1

/-- A scan over characters that start no comment reads the same characters
from the text cut at the first comment, and stops at the same place. -/
theorem scan_stripComment (p : Char → Bool) (hp : ∀ c, p c = true → c ≠ '#' ∧ c ≠ '-')
    (s : List Char) :
    (stripComment s).takeWhile p = s.takeWhile p ∧
      (stripComment s).dropWhile p = stripComment (s.dropWhile p) := by
  induction s with
  | nil => exact ⟨rfl, rfl⟩
  | cons c s ih =>
    by_cases hc : p c = true
    · have hn := atComment_cons_of_ne c s (hp c hc)
      simp only [stripComment, hn, Bool.false_eq_true, if_false, List.takeWhile_cons, hc,
        if_true, List.dropWhile_cons, ih.1, ih.2]
      exact ⟨trivial, trivial⟩
    · by_cases ha : atComment (c :: s) = true
      · simp [stripComment, ha, List.takeWhile_cons, List.dropWhile_cons, hc]
      · simp [stripComment, ha, List.takeWhile_cons, List.dropWhile_cons, hc]

theorem isspace_not_comment (c : Char) (h : isspace c = true) : c ≠ '#' ∧ c ≠ '-' :=
  not_comment_char c (Or.inl h)

theorem isNameChar_not_comment (c : Char) (h : isNameChar c = true) : c ≠ '#' ∧ c ≠ '-' :=
  not_comment_char c (Or.inr (Or.inl h))

theorem isalpha_not_comment (c : Char) (h : isalpha c = true) : c ≠ '#' ∧ c ≠ '-' :=
  not_comment_char c (Or.inr (Or.inr h))

theorem findName_stripComment (s : List Char) :
    (findName s = none → findName (stripComment s) = some []) ∧
      ∀ s1, findName s = some s1 → findName (stripComment s) = some (stripComment s1) := by
  induction s with
  | nil =>
    refine ⟨fun h => by simp [findName] at h, fun s1 h => ?_⟩
    simp only [findName, Option.some.injEq] at h
    subst h
    rfl
  | cons c s ih =>
    by_cases ha : atComment (c :: s) = true
    · refine ⟨fun _ => by simp [stripComment, ha, findName], fun s1 h => ?_⟩
      simp [findName, ha] at h
    · have hs : stripComment (c :: s) = c :: stripComment s := by simp [stripComment, ha]
      have ha2 : atComment (c :: stripComment s) = false := by
        cases s with
        | nil => simpa [stripComment] using ha
        | cons d s =>
          by_cases hd : atComment (d :: s) = true
          · simp only [stripComment, hd, if_true]
            simp only [atComment, List.head?_cons, Bool.or_eq_true, beq_iff_eq, Bool.and_eq_true,
              Option.some.injEq, not_or, not_and] at ha
            simp [atComment, ha.1]
          · simp only [stripComment, hd, Bool.false_eq_true, if_false]
            simpa [atComment] using ha
      rw [hs]
      by_cases hc : c ≠ '_' ∧ isalpha c = false
      · simp only [findName, ha, ha2, Bool.false_eq_true, if_false, hc, ne_eq, not_false_eq_true,
          and_self, if_true]
        exact ih
      · simp only [findName, ha, ha2, Bool.false_eq_true, if_false, hc, if_false]
        refine ⟨fun h => by simp at h, fun s1 h => ?_⟩
        simp only [Option.some.injEq] at h
        subst h
        rw [hs]

theorem atComment_stripComment (c : Char) (s : List Char) (ha : atComment (c :: s) = false) :
    atComment (c :: stripComment s) = false := by
  cases s with
  | nil => simpa [stripComment] using ha
  | cons d s =>
    by_cases hd : atComment (d :: s) = true
    · simp only [stripComment, hd, if_true]
      simp only [atComment, List.head?_cons, Bool.or_eq_false_iff, beq_eq_false_iff_ne, ne_eq,
        Bool.and_eq_false_iff, Option.some.injEq] at ha
      simp [atComment, ha.1]
    · simp only [stripComment, hd, Bool.false_eq_true, if_false]
      simpa [atComment] using ha

theorem skipToType_stripComment (s : List Char) :
    skipToType (stripComment s) = stripComment (skipToType s) := by
  induction s with
  | nil => rfl
  | cons c s ih =>
    by_cases ha : atComment (c :: s) = true
    · simp [stripComment, ha, skipToType]
    · have ha1 : atComment (c :: s) = false := by simpa using ha
      have hs : stripComment (c :: s) = c :: stripComment s := by simp [stripComment, ha]
      have ha2 := atComment_stripComment c s ha1
      rw [hs]
      by_cases hc : isalpha c = false
      · simp only [skipToType, ha1, ha2, Bool.false_eq_true, if_false, hc, if_true]
        exact ih
      · simp only [skipToType, ha1, ha2, Bool.false_eq_true, if_false, hc, if_false]
        simp [hs]

theorem readType_stripComment (s : List Char) :
    readType (stripComment s) = ((readType s).1, stripComment (readType s).2) := by
  have h1 := scan_stripComment isalpha isalpha_not_comment s
  have h2 := scan_stripComment isspace isspace_not_comment (s.dropWhile isalpha)
  have h3 := scan_stripComment isalpha isalpha_not_comment
    ((s.dropWhile isalpha).dropWhile isspace)
  unfold readType
  simp only [h1.1, h1.2, h2.1, h2.2, h3.1, h3.2]
  split_ifs <;> rfl

/-- The loop of `parseNamesAndTypes` does on the text cut at the first comment
what it does on the text. -/
theorem parseLoop_stripComment (fuel : Nat) (str : List Char) (ret : Int)
    (calls : List (String × TYPE_T)) :
    parseLoop fuel (stripComment str) ret calls = parseLoop fuel str ret calls := by
  induction fuel generalizing str ret calls with
  | zero => rfl
  | succ fuel ih =>
    by_cases hstr : str = []
    · subst hstr
      rfl
    · have h1 := scan_stripComment isspace isspace_not_comment str
      have hf := findName_stripComment (str.dropWhile isspace)
      rw [parseLoop, parseLoop]
      rw [if_neg hstr]
      by_cases hcut : stripComment str = []
      · rw [if_pos hcut]
        have hd : stripComment (str.dropWhile isspace) = [] := by
          rw [← h1.2, hcut]
          rfl
        cases hfind : findName (str.dropWhile isspace) with
        | none => rfl
        | some s1 =>
          have := hf.2 s1 hfind
          rw [hd] at this
          simp only [findName, Option.some.injEq] at this
          have h2 := scan_stripComment isNameChar isNameChar_not_comment s1
          rw [← this] at h2
          simp only [List.takeWhile_nil] at h2
          simp only [← h2.1, if_true]
      · rw [if_neg hcut, h1.2]
        cases hfind : findName (str.dropWhile isspace) with
        | none =>
          rw [hf.1 hfind]
          simp
        | some s1 =>
          rw [hf.2 s1 hfind]
          have h2 := scan_stripComment isNameChar isNameChar_not_comment s1
          simp only [h2.1, h2.2, skipToType_stripComment, readType_stripComment]
          split_ifs
          · rfl
          · exact ih _ _ _

theorem findName_suffix (s s1 : List Char) (h : findName s = some s1) : s1 <:+ s := by
  induction s with
  | nil =>
    simp only [findName, Option.some.injEq] at h
    subst h
    exact List.suffix_refl _
  | cons c s ih =>
    unfold findName at h
    split_ifs at h with h1 h2
    · exact (ih h).trans (List.suffix_cons c s)
    · simp only [Option.some.injEq] at h
      subst h
      exact List.suffix_refl _

theorem skipToType_suffix (s : List Char) : skipToType s <:+ s := by
  induction s with
  | nil => exact List.suffix_refl _
  | cons c s ih =>
    unfold skipToType
    split_ifs
    · exact List.nil_suffix
    · exact ih.trans (List.suffix_cons c s)
    · exact List.suffix_refl _

theorem readType_suffix (s : List Char) : (readType s).2 <:+ s := by
  unfold readType
  have h1 : s.dropWhile isalpha <:+ s := List.dropWhile_suffix _
  have h2 : ((s.dropWhile isalpha).dropWhile isspace).dropWhile isalpha <:+ s :=
    ((List.dropWhile_suffix _).trans (List.dropWhile_suffix _)).trans h1
  dsimp only
  split_ifs <;> assumption

theorem ite_known (p : Prop) [Decidable p] (a b : TYPE_T) (ha : a ≠ .UNKNOWN_TYPE)
    (hb : b ≠ .UNKNOWN_TYPE) : (if p then a else b) ≠ .UNKNOWN_TYPE := by
  split_ifs <;> assumption

theorem unsignedType_known (c : Char) : unsignedType c ≠ .UNKNOWN_TYPE := by
  unfold unsignedType
  repeat' first
    | exact TYPE_T.noConfusion
    | apply ite_known

theorem signedType_known (type : List Char) : signedType type ≠ .UNKNOWN_TYPE := by
  unfold signedType
  dsimp only
  repeat' first
    | exact TYPE_T.noConfusion
    | apply ite_known

theorem columnType_known (type : List Char) : columnType type ≠ .UNKNOWN_TYPE := by
  unfold columnType
  split_ifs
  · exact unsignedType_known _
  · exact unsignedType_known _
  · exact signedType_known _

/-- One round of the loop of `parseNamesAndTypes` that goes on: the text it
leaves comes after the name it took. -/
theorem round_suffix (str s1 : List Char) (h : findName (str.dropWhile isspace) = some s1) :
    ∃ pre, str = pre ++ s1.takeWhile isNameChar ++ s1.dropWhile isNameChar ∧
      (readType (skipToType (s1.dropWhile isNameChar))).2 <:+ s1.dropWhile isNameChar := by
  obtain ⟨pre, hpre⟩ := (findName_suffix _ _ h).trans (List.dropWhile_suffix isspace)
  refine ⟨pre, ?_, (readType_suffix _).trans (skipToType_suffix _)⟩
  rw [List.append_assoc, List.takeWhile_append_dropWhile, hpre]

/-- The loop of `parseNamesAndTypes` adds to `ret` the number of calls it
makes; the names of the calls come out of the text in the order of the calls,
and every call has a name that is not empty and a type other than
`UNKNOWN_TYPE`. -/
theorem parseLoop_calls (fuel : Nat) (str : List Char) (ret : Int)
    (calls : List (String × TYPE_T)) :
    ∃ new : List (String × TYPE_T),
      parseLoop fuel str ret calls = (ret + new.length, calls ++ new) ∧
      List.Sublist (new.map fun d => d.1.toList).flatten str ∧
      ∀ d ∈ new, d.1 ≠ "" ∧ d.2 ≠ .UNKNOWN_TYPE := by
  induction fuel generalizing str ret calls with
  | zero => exact ⟨[], by simp [parseLoop], by simp, by simp⟩
  | succ fuel ih =>
    rw [parseLoop]
    by_cases hstr : str = []
    · exact ⟨[], by simp [hstr], by simp, by simp⟩
    · rw [if_neg hstr]
      cases hfind : findName (str.dropWhile isspace) with
      | none => exact ⟨[], by simp, by simp, by simp⟩
      | some s1 =>
        simp only
        by_cases hnm : s1.takeWhile isNameChar = []
        · rw [if_pos hnm]
          exact ⟨[], by simp, by simp, by simp⟩
        · rw [if_neg hnm]
          obtain ⟨pre, hpre, hsuf⟩ := round_suffix str s1 hfind
          obtain ⟨new, h1, h2, h3⟩ :=
            ih (readType (skipToType (s1.dropWhile isNameChar))).2 (ret + 1)
              (calls ++ [(String.mk (s1.takeWhile isNameChar),
                columnType (readType (skipToType (s1.dropWhile isNameChar))).1)])
          refine ⟨(String.mk (s1.takeWhile isNameChar),
              columnType (readType (skipToType (s1.dropWhile isNameChar))).1) :: new, ?_, ?_, ?_⟩
          · rw [h1]
            simp only [List.length_cons, Nat.cast_add, Nat.cast_one, List.append_assoc,
              List.singleton_append, Prod.mk.injEq, and_true]
            omega
          · simp only [List.map_cons, List.flatten_cons]
            rw [hpre, List.append_assoc]
            exact List.Sublist.trans
              (List.Sublist.append (List.Sublist.refl _) (h2.trans hsuf.sublist))
              (List.sublist_append_right _ _)
          · intro d hd
            rcases List.mem_cons.1 hd with rfl | hd
            · refine ⟨?_, columnType_known _⟩
              intro h
              exact hnm (congrArg String.data h)
            · exact h3 d hd

/-- Fuel above the length of the text is never used up: the loop of
`parseNamesAndTypes` ends the same way with any two such amounts. -/
theorem parseLoop_fuel (fuel1 fuel2 : Nat) (str : List Char) (ret : Int)
    (calls : List (String × TYPE_T)) (h1 : str.length < fuel1) (h2 : str.length < fuel2) :
    parseLoop fuel1 str ret calls = parseLoop fuel2 str ret calls := by
  induction fuel1 generalizing fuel2 str ret calls with
  | zero => omega
  | succ fuel1 ih =>
    cases fuel2 with
    | zero => omega
    | succ fuel2 =>
      rw [parseLoop, parseLoop]
      by_cases hstr : str = []
      · rw [if_pos hstr, if_pos hstr]
      · rw [if_neg hstr, if_neg hstr]
        cases hfind : findName (str.dropWhile isspace) with
        | none => rfl
        | some s1 =>
          simp only
          by_cases hnm : s1.takeWhile isNameChar = []
          · rw [if_pos hnm, if_pos hnm]
          · rw [if_neg hnm, if_neg hnm]
            obtain ⟨pre, hpre, hsuf⟩ := round_suffix str s1 hfind
            have hlen := hsuf.length_le
            have hpos : 0 < (s1.takeWhile isNameChar).length := List.length_pos.2 hnm
            have hl := congrArg List.length hpre
            simp only [List.length_append] at hl
            exact ih _ _ _ _ (by omega) (by omega)

theorem stripComment_length (s : List Char) : (stripComment s).length ≤ s.length := by
  induction s with
  | nil => exact le_refl _
  | cons c s ih =>
    unfold stripComment
    split_ifs
    · simp
    · simp only [List.length_cons]
      omega

/-- A call of `addColumn` with a name that is not empty and a type other than
`UNKNOWN_TYPE` is not refused. -/
theorem addColumn_accepts (t : tafel) (nm : String) (ty : TYPE_T) (hnm : nm ≠ "")
    (hty : ty ≠ .UNKNOWN_TYPE) : (t.addColumn (some nm) ty none none).2 ≠ -2 := by
  unfold tafel.addColumn
  simp only [hnm, hty, or_self, if_false]
  cases t.find nm with
  | none => simp
  | some c =>
    simp only
    split_ifs <;> decide

/-- The calls `parseNamesAndTypes` makes on a text that is not empty. -/
theorem declarations_all (t : tafel) (txt : List Char) (htxt : txt ≠ []) :
    (parseNamesAndTypes t (some txt)).2 = ((declarations txt).2.length : Int) ∧
      (parseNamesAndTypes t (some txt)).1 =
        (declarations txt).2.foldl (fun t d => (t.addColumn (some d.1) d.2 none none).1) t ∧
      List.Sublist ((declarations txt).2.map fun d => d.1.toList).flatten txt ∧
      (∀ d ∈ (declarations txt).2, ∀ t0 : tafel,
        (t0.addColumn (some d.1) d.2 none none).2 ≠ -2) ∧
      declarations (stripComment txt) = declarations txt ∧
      ∀ fuel, txt.length < fuel → parseLoop fuel txt 0 [] = declarations txt := by
  obtain ⟨new, h1, h2, h3⟩ := parseLoop_calls (txt.length + 1) txt 0 []
  have hd : declarations txt = ((new.length : Int), new) := by
    unfold declarations
    rw [h1]
    simp
  obtain ⟨c, s, rfl⟩ := List.exists_cons_of_ne_nil htxt
  refine ⟨?_, rfl, ?_, ?_, ?_, ?_⟩
  · simp only [parseNamesAndTypes, hd]
  · rw [hd]
    exact h2
  · rw [hd]
    intro d hd2 t0
    exact addColumn_accepts t0 d.1 d.2 (h3 d hd2).1 (h3 d hd2).2
  · unfold declarations
    rw [parseLoop_fuel _ ((c :: s).length + 1) _ _ _ (Nat.lt_succ_self _)
      (Nat.lt_succ_of_le (stripComment_length _)), parseLoop_stripComment]
  · intro fuel hfuel
    unfold declarations
    exact parseLoop_fuel _ _ _ _ _ hfuel (Nat.lt_succ_self _)

/-- C31 (amended). For every text that is not empty, `parseNamesAndTypes`
returns the number of `addColumn` calls it makes, one for each name it takes
off the text; the table is the one these calls leave, made in the order of the
list; the names of the calls come out of the text in that order, and no call
is refused; the text cut at the first comment marker gives the same calls; and
the loop ends by itself, with the same result for any fuel above the length of
the text. -/
theorem parseNamesAndTypes_pairs (t : tafel) (txt : List Char) (htxt : txt ≠ []) :
    (parseNamesAndTypes t (some txt)).2 = ((declarations txt).2.length : Int) ∧
      (parseNamesAndTypes t (some txt)).1 =
        (declarations txt).2.foldl (fun t d => (t.addColumn (some d.1) d.2 none none).1) t ∧
      List.Sublist ((declarations txt).2.map fun d => d.1.toList).flatten txt ∧
      (∀ d ∈ (declarations txt).2, ∀ t0 : tafel,
        (t0.addColumn (some d.1) d.2 none none).2 ≠ -2) ∧
      declarations (stripComment txt) = declarations txt ∧
      ∀ fuel, txt.length < fuel → parseLoop fuel txt 0 [] = declarations txt :=
  declarations_all t txt htxt

/-- Witness for C31: the text `a:int, b:float # c:double` returns 2 and
declares `a` as INT, then `b` as FLOAT; a text that goes on after the comment
on another line declares no more. -/
theorem parseNamesAndTypes_pairs_witness :
    ((parseNamesAndTypes { colorder := [], mrows := 0 }
          (some "a:int, b:float # c:double".toList)).2,
        (parseNamesAndTypes { colorder := [], mrows := 0 }
          (some "a:int, b:float # c:double".toList)).1.colorder.map fun c => (c.name, c.type)) =
        (2, [("a", .INT), ("b", .FLOAT)]) ∧
      declarations "a:int\nb:float # c\nd:double".toList = (2, [("a", .INT), ("b", .FLOAT)]) ∧
      (parseNamesAndTypes { colorder := [], mrows := 0 }
          (some "a:int, b:float # c:double".toList)).2 =
        ((declarations "a:int, b:float # c:double".toList).2.length : Int) :=
  ⟨by decide, by decide,
    (parseNamesAndTypes_pairs { colorder := [], mrows := 0 } "a:int, b:float # c:double".toList
      (by decide)).1⟩

/-- C31 (counterexample). For the empty text and for a null text
`parseNamesAndTypes` returns -1, and it makes no call; a text of one blank
returns 0. -/
theorem parseNamesAndTypes_empty :
    parseNamesAndTypes { colorder := [], mrows := 0 } (some []) =
        ({ colorder := [], mrows := 0 }, -1) ∧
      parseNamesAndTypes { colorder := [], mrows := 0 } none =
        ({ colorder := [], mrows := 0 }, -1) ∧
      parseNamesAndTypes { colorder := [], mrows := 0 } (some [' ']) =
        ({ colorder := [], mrows := 0 }, 0) := by
  decide

theorem skipToType_no_letter (sep tail : List Char) (hsep : ∀ d ∈ sep, isalpha d = false)
    (htail : tail = [] ∨ atComment tail = true) : skipToType (sep ++ tail) = [] := by
  induction sep with
  | nil =>
    rcases htail with rfl | h
    · rfl
    · cases tail with
      | nil => rfl
      | cons c s => simp [skipToType, h]
  | cons c sep ih =>
    have hc := hsep c (List.mem_cons_self _ _)
    simp only [List.cons_append, skipToType, hc, if_true]
    split_ifs
    · rfl
    · exact ih (fun d hd => hsep d (List.mem_cons_of_mem _ hd))

/-- C32 (amended). A name after which no letter comes before the end of the
text or before a comment marker is declared as an INT column: for a name `nm`,
characters `sep` without a letter, and a text `tail` that is empty or starts a
comment, the text `nm sep tail` makes one `addColumn` call, for `nm` with the
type INT. -/
theorem declarations_no_type (nm sep tail : List Char) (c0 : Char) (rest : List Char)
    (hnm : nm = c0 :: rest) (hc0 : isalpha c0 = true ∨ c0 = '_')
    (hrest : ∀ d ∈ rest, isNameChar d = true)
    (hsep : ∀ d ∈ sep, isalpha d = false)
    (hhead : ∀ d, sep.head? = some d → isNameChar d = false)
    (htail : tail = [] ∨ atComment tail = true) :
    declarations (nm ++ (sep ++ tail)) = (1, [(String.mk nm, .INT)]) := by
  obtain ⟨hsp, hhash, hdash⟩ := nameStart_facts c0 hc0
  have hname : ∀ d ∈ nm, isNameChar d = true := by
    intro d hd
    rw [hnm] at hd
    rcases List.mem_cons.1 hd with rfl | hd
    · unfold isNameChar isalnum
      rcases hc0 with h | h
      · simp [h]
      · simp [h]
    · exact hrest d hd
  have htake : (nm ++ (sep ++ tail)).takeWhile isNameChar = nm ∧
      (nm ++ (sep ++ tail)).dropWhile isNameChar = sep ++ tail := by
    cases hst : sep ++ tail with
    | nil =>
      rw [List.append_nil]
      exact takeWhile_of_all isNameChar nm hname
    | cons d r =>
      apply takeWhile_append_stop isNameChar nm d r hname
      cases sep with
      | nil =>
        simp only [List.nil_append] at hst
        rcases htail with h | h
        · rw [h] at hst
          cases hst
        · rw [hst] at h
          rcases atComment_head d r h with rfl | rfl <;> decide
      | cons e sep =>
        simp only [List.cons_append, List.cons.injEq] at hst
        rw [← hst.1]
        exact hhead e rfl
  have hskip := skipToType_no_letter sep tail hsep htail
  have hne : nm ++ (sep ++ tail) ≠ [] := by
    rw [hnm]
    simp
  have hdrop : (nm ++ (sep ++ tail)).dropWhile isspace = nm ++ (sep ++ tail) := by
    rw [hnm]
    simp [List.dropWhile, hsp]
  have hfind : findName (nm ++ (sep ++ tail)) = some (nm ++ (sep ++ tail)) := by
    rw [hnm]
    unfold findName
    rcases hc0 with h | h
    · simp [atComment, hhash, hdash, h]
    · simp [atComment, hhash, hdash, h]
  have hnm2 : nm ≠ [] := by
    rw [hnm]
    simp
  have htype : readType [] = (['i'], []) := by decide
  have hint : columnType ['i'] = .INT := by decide
  unfold declarations
  have hlen : (nm ++ (sep ++ tail)).length + 1 = ((nm ++ (sep ++ tail)).length - 1) + 1 + 1 := by
    rw [hnm]
    simp only [List.cons_append, List.length_cons]
    omega
  rw [hlen]
  unfold parseLoop
  simp only [hne, if_false, hdrop, hfind, htake.1, htake.2, hnm2, hskip, htype, hint]
  unfold parseLoop
  simp

/-- Witness for C32: the texts `a`, `a, ` and `a # int`. -/
theorem declarations_no_type_witness :
    declarations "a".toList = (1, [("a", .INT)]) ∧
      declarations "a # int".toList = (1, [("a", .INT)]) ∧
      declarations (['a'] ++ ([',', ' '] ++ [])) = (1, [(String.mk ['a'], .INT)]) :=
  ⟨by decide, by decide,
    declarations_no_type ['a'] [',', ' '] [] 'a' [] rfl (by decide) (by decide) (by decide)
      (by decide) (Or.inl rfl)⟩

/-- C32 (counterexample). In the text `a, b, c` the word `b` is read as the
type of `a`: the text declares `a` as a BYTE column and `c` as an INT column,
and no column `b`. -/
theorem declarations_name_list :
    declarations "a, b, c".toList = (2, [("a", .BYTE), ("c", .INT)]) ∧
      ((parseNamesAndTypes { colorder := [], mrows := 0 }
          (some "a, b, c".toList)).1.colorder.map fun c => (c.name, c.type)) =
        [("a", .BYTE), ("c", .INT)] ∧
      declarations "a b c d e".toList = (3, [("a", .BYTE), ("c", .DOUBLE), ("e", .INT)]) := by
  decide

end tablex

end ibis
